import Mathlib

/-!
The source instrumenter of godebug (`gen.go`): a shallow embedding and theorems about it.

Definitions come first, theorems follow.  Go names are kept (`blankLineStripper`,
`visitor`, `Visit`, ...).
-/

namespace Godebug

/-! ## Output filter: `blankLineStripper` (gen.go 34-51) -/

/-- A byte of output. -/
abbrev Byte := Fin 256

/-- The newline byte, Go's `'\n'`. -/
def newline : Byte := 10

/-- Go's `int` is 64 bits wide: sums wrap around. -/
def wrapInt (i : Int) : Int := (i + 2 ^ 63) % 2 ^ 64 - 2 ^ 63

/-- An `io.Writer`, as a state machine: `Write` takes the writer's state and the bytes
handed to it and yields the next state, the count it reports and the error it reports. -/
structure IOWriter (ω : Type) where
  Write : ω → List Byte → ω × Int × Option String

/-- The struct `blankLineStripper`: the embedded writer (its state), the flag and the
buffer. -/
structure blankLineStripper (ω : Type) where
  Writer : ω
  lastWasNewline : Bool
  buf : List Byte

/-- The literal `&blankLineStripper{Writer: out}` of `generate`. -/
def blankLineStripper.fresh {ω : Type} (out : ω) : blankLineStripper ω :=
  { Writer := out, lastWasNewline := false, buf := [] }

/-- One turn of the loop `for _, b := range p` of `Write`, on the pair
(`lastWasNewline`, `buf`). -/
def blankLineStripper.step (st : Bool × List Byte) (b : Byte) : Bool × List Byte :=
  let buf := if !(st.1 && b == newline) then st.2 ++ [b] else st.2
  (b == newline, buf)

/-- The method `(*blankLineStripper).Write`: reset the buffer, filter `p` into it, hand the
buffer to the embedded writer, report `n + nn` and the writer's error. -/
def blankLineStripper.Write {ω : Type} (io : IOWriter ω) (w : blankLineStripper ω)
    (p : List Byte) : blankLineStripper ω × Int × Option String :=
  let st := p.foldl blankLineStripper.step (w.lastWasNewline, [])
  let n : Int := wrapInt ((p.length : Int) - (st.2.length : Int))
  let r := io.Write w.Writer st.2
  ({ Writer := r.1, lastWasNewline := st.1, buf := st.2 }, wrapInt (n + r.2.1), r.2.2)

/-- The bytes a call of `Write` hands to the embedded writer: the buffer as the call
leaves it. -/
def blankLineStripper.forwarded {ω : Type} (io : IOWriter ω) (w : blankLineStripper ω)
    (p : List Byte) : List Byte :=
  (blankLineStripper.Write io w p).1.buf

/-- A sequence of `Write` calls; the result is the stripper after the last call and the
concatenation of everything handed to the embedded writer. -/
def blankLineStripper.WriteAll {ω : Type} (io : IOWriter ω) :
    blankLineStripper ω → List (List Byte) → blankLineStripper ω × List Byte
  | w, [] => (w, [])
  | w, p :: ps =>
    let r := blankLineStripper.Write io w p
    let rest := blankLineStripper.WriteAll io r.1 ps
    (rest.1, r.1.buf ++ rest.2)

/-- The filter in the words of the specification: reading the input from left to right, a
byte is dropped exactly when it is a newline and the byte emitted last was a newline. -/
def collapseNewlines (input : List Byte) : List Byte :=
  input.foldl
    (fun out b => if b = newline ∧ out.getLast? = some newline then out else out ++ [b]) []

/-- No two neighbours of the list are both newlines. -/
def noAdjacentNewlines : List Byte → Prop
  | a :: b :: rest => ¬ (a = newline ∧ b = newline) ∧ noAdjacentNewlines (b :: rest)
  | _ => True

/-! ## The syntax tree (`go/ast`)

The fragment of `go/ast` that `gen.go` inspects or builds.  A field of Go type `ast.Expr` or
`ast.Stmt` has type `Expr` or `Stmt`; a field whose Go type is a pointer to one node struct
(`*ast.CallExpr`, `*ast.BlockStmt`, `*ast.FuncType`, `*ast.FieldList`, `*ast.Ident`) has that
struct's type here, so the tree cannot hold what the Go field cannot hold.  A nil pointer or
nil interface is `none`, a nil slice is `[]`.  The Go fields `Type` and `List` are spelled
`Type_` and `List_`. -/

/-- A `token.Pos`, given by the line `fs.Position(pos).Line` it stands on; `token.NoPos` is
`0`, whose line is `0`. -/
abbrev Pos := Nat

/-- The constant `token.NoPos`. -/
def NoPos : Pos := 0

/-- The tokens `gen.go` names; every other token is `other`. -/
inductive Token where
  | DEFINE | ASSIGN | VAR | CONST | TYPE | IMPORT | ARROW | AND | NOT | INT | STRING
  | other (name : String)
  deriving DecidableEq, Repr

/-- An `*ast.Ident`, together with what the type checker's tables say about this occurrence:
`isDef` is `defs[ident] != nil` and `isBuiltin` is `_types[ident].IsBuiltin()`. -/
structure Ident where
  NamePos : Pos
  Name : String
  isDef : Bool
  isBuiltin : Bool
  deriving DecidableEq, Repr

/-- An `*ast.ImportSpec`: the local name, if any, and the path, a string literal given by
its position and its value. -/
structure ImportSpec where
  Name : Option Ident
  PathPos : Pos
  Path : String
  deriving DecidableEq, Repr

mutual
/-- The nodes of interface type `ast.Expr`. -/
inductive Expr where
  | ident (i : Ident)
  | basicLit (ValuePos : Pos) (Kind : Token) (Value : String)
  | callExpr (c : CallExpr)
  | selectorExpr (X : Expr) (Sel : Ident)
  | unaryExpr (OpPos : Pos) (Op : Token) (X : Expr)
  | binaryExpr (X : Expr) (Op : Token) (Y : Expr)
  | parenExpr (Lparen : Pos) (X : Expr)
  | starExpr (Star : Pos) (X : Expr)
  | indexExpr (X : Expr) (Index : Expr)
  | typeAssertExpr (X : Expr) (Type_ : Option Expr)
  | funcLit (Type_ : FuncType) (Body : BlockStmt)
  | ellipsis (Ellipsis : Pos) (Elt : Option Expr)
  | funcType (t : FuncType)
  | structType (Struct : Pos) (Fields : FieldList)
  | interfaceType (Interface : Pos) (Methods : FieldList)
  | chanType (Begin : Pos) (Value : Expr)
  deriving Repr
/-- The struct `ast.CallExpr`; `Ellipsis` says whether the field `Ellipsis` is a valid
position, that is whether the call is of the form `f(xs...)`. -/
inductive CallExpr where
  | mk (Fun : Expr) (Args : List Expr) (Ellipsis : Bool)
  deriving Repr
/-- The struct `ast.FuncType`. -/
inductive FuncType where
  | mk (Func : Pos) (Params : Option FieldList) (Results : Option FieldList)
  deriving Repr
/-- The struct `ast.FieldList`. -/
inductive FieldList where
  | mk (Opening : Pos) (List_ : List Field)
  deriving Repr
/-- The struct `ast.Field`. -/
inductive Field where
  | mk (Names : List Ident) (Type_ : Expr)
  deriving Repr
/-- The struct `ast.BlockStmt`. -/
inductive BlockStmt where
  | mk (Lbrace : Pos) (List_ : List Stmt)
  deriving Repr
/-- The nodes of interface type `ast.Stmt`. -/
inductive Stmt where
  | exprStmt (X : Expr)
  | assignStmt (Lhs : List Expr) (Tok : Token) (Rhs : List Expr)
  | declStmt (Decl : GenDecl)
  | blockStmt (b : BlockStmt)
  | ifStmt (If : Pos) (Init : Option Stmt) (Cond : Expr) (Body : BlockStmt) (Else : Option Stmt)
  | forStmt (For : Pos) (Init : Option Stmt) (Cond : Option Expr) (Post : Option Stmt)
      (Body : BlockStmt)
  | rangeStmt (For : Pos) (Key : Option Expr) (Value : Option Expr) (Tok : Token) (X : Expr)
      (Body : BlockStmt)
  | switchStmt (Switch : Pos) (Init : Option Stmt) (Tag : Option Expr) (Body : BlockStmt)
  | typeSwitchStmt (Switch : Pos) (Init : Option Stmt) (Assign : Stmt) (Body : BlockStmt)
  | caseClause (Case : Pos) (List_ : List Expr) (Body : List Stmt)
  | selectStmt (Select : Pos) (Body : BlockStmt)
  | commClause (Case : Pos) (Comm : Option Stmt) (Body : List Stmt)
  | labeledStmt (Label : Ident) (Stmt : Stmt)
  | deferStmt (Defer : Pos) (Call : CallExpr)
  | goStmt (Go : Pos) (Call : CallExpr)
  | returnStmt (Return : Pos) (Results : List Expr)
  | incDecStmt (X : Expr) (Tok : Token)
  | sendStmt (Chan : Expr) (Value : Expr)
  | branchStmt (TokPos : Pos) (Tok : Token) (Label : Option Ident)
  | emptyStmt (Semicolon : Pos)
  deriving Repr
/-- The struct `ast.GenDecl`.  The parser pairs the keyword with the kind of its specs: a
`var` or `const` declaration holds `*ast.ValueSpec`s, a `type` declaration `*ast.TypeSpec`s,
an `import` declaration `*ast.ImportSpec`s. -/
inductive GenDecl where
  | values (TokPos : Pos) (Tok : Token) (Specs : List ValueSpec)
  | types (TokPos : Pos) (Specs : List TypeSpec)
  | imports (TokPos : Pos) (Specs : List ImportSpec)
  deriving Repr
/-- The struct `ast.ValueSpec`. -/
inductive ValueSpec where
  | mk (Names : List Ident) (Type_ : Option Expr) (Values : List Expr)
  deriving Repr
/-- The struct `ast.TypeSpec`. -/
inductive TypeSpec where
  | mk (Name : Ident) (Type_ : Expr)
  deriving Repr
end

/-- The struct `ast.FuncDecl`. -/
structure FuncDecl where
  Recv : Option FieldList
  Name : Ident
  Type_ : FuncType
  Body : Option BlockStmt
  deriving Repr

/-- The nodes of interface type `ast.Decl`. -/
inductive Decl where
  | genDecl (d : GenDecl)
  | funcDecl (d : FuncDecl)
  deriving Repr

/-- The struct `ast.File`: the package clause's name and the top-level declarations. -/
structure File where
  Name : Ident
  Decls : List Decl
  deriving Repr

/-! ### Field access and positions -/

/-- Field `Fun`. -/
def CallExpr.Fun : CallExpr → Expr
  | .mk f _ _ => f

/-- Field `Args`. -/
def CallExpr.Args : CallExpr → List Expr
  | .mk _ a _ => a

/-- Field `Lbrace`. -/
def BlockStmt.Lbrace : BlockStmt → Pos
  | .mk p _ => p

/-- Field `List`. -/
def BlockStmt.List_ : BlockStmt → List Stmt
  | .mk _ l => l

/-- Field `Params`. -/
def FuncType.Params : FuncType → Option FieldList
  | .mk _ p _ => p

/-- Field `Results`. -/
def FuncType.Results : FuncType → Option FieldList
  | .mk _ _ r => r

/-- Field `List`. -/
def FieldList.List_ : FieldList → List Field
  | .mk _ l => l

/-- Field `Names`. -/
def Field.Names : Field → List Ident
  | .mk n _ => n

/-- Field `Type`. -/
def Field.Type_ : Field → Expr
  | .mk _ t => t

/-- Field `Names`. -/
def ValueSpec.Names : ValueSpec → List Ident
  | .mk n _ _ => n

/-- Field `Tok`. -/
def GenDecl.Tok : GenDecl → Token
  | .values _ tok _ => tok
  | .types _ _ => .TYPE
  | .imports _ _ => .IMPORT

/-- Method `Pos` of `*ast.GenDecl`. -/
def GenDecl.Pos : GenDecl → Pos
  | .values p _ _ => p
  | .types p _ => p
  | .imports p _ => p

/-- Method `Pos` of `*ast.FuncType`: the position of the keyword `func`. -/
def FuncType.Pos : FuncType → Pos
  | .mk p _ _ => p

/-- Method `Pos` of the expression nodes. -/
def Expr.Pos : Expr → Pos
  | .ident i => i.NamePos
  | .basicLit p _ _ => p
  | .callExpr (.mk f _ _) => f.Pos
  | .selectorExpr x _ => x.Pos
  | .unaryExpr p _ _ => p
  | .binaryExpr x _ _ => x.Pos
  | .parenExpr p _ => p
  | .starExpr p _ => p
  | .indexExpr x _ => x.Pos
  | .typeAssertExpr x _ => x.Pos
  | .funcLit (.mk p _ _) _ => p
  | .ellipsis p _ => p
  | .funcType (.mk p _ _) => p
  | .structType p _ => p
  | .interfaceType p _ => p
  | .chanType p _ => p

/-- Method `Pos` of `*ast.CallExpr`. -/
def CallExpr.Pos (c : CallExpr) : Pos := c.Fun.Pos

/-- Method `Pos` of the statement nodes.  An assignment stands where its first left-hand
side stands (the parser builds none without one). -/
def Stmt.Pos : Stmt → Pos
  | .exprStmt x => x.Pos
  | .assignStmt lhs _ _ => match lhs with
    | x :: _ => x.Pos
    | [] => NoPos
  | .declStmt d => d.Pos
  | .blockStmt b => b.Lbrace
  | .ifStmt p _ _ _ _ => p
  | .forStmt p _ _ _ _ => p
  | .rangeStmt p _ _ _ _ _ => p
  | .switchStmt p _ _ _ => p
  | .typeSwitchStmt p _ _ _ => p
  | .caseClause p _ _ => p
  | .selectStmt p _ => p
  | .commClause p _ _ => p
  | .labeledStmt l _ => l.NamePos
  | .deferStmt p _ => p
  | .goStmt p _ => p
  | .returnStmt p _ => p
  | .incDecStmt x _ => x.Pos
  | .sendStmt c _ => c.Pos
  | .branchStmt p _ _ => p
  | .emptyStmt p => p

/-- A node handed to `ast.Walk` as a value of interface type `ast.Node`. -/
inductive Node where
  | expr (e : Expr)
  | stmt (s : Stmt)
  | blockStmt (b : BlockStmt)
  | funcType (t : FuncType)
  | fieldList (l : FieldList)
  | decl (d : Decl)
  | file (f : File)
  deriving Repr

/-- How a run of the generator can fail to return a value: a Go panic, or, for the
definitions that count their recursion depth, the depth running out. -/
inductive Failure where
  | panic (msg : String)
  | fuel
  deriving DecidableEq, Repr

/-- The result of a computation that may panic. -/
abbrev Res := Except Failure

deriving instance DecidableEq for Except

/-! ## Identifier synthesis (gen.go 773-828) -/

/-- Go's `strings.TrimLeft(s, cutset)`. -/
def TrimLeft (s cutset : String) : String :=
  String.mk (s.data.dropWhile (fun c => cutset.data.contains c))

/-- Go's `strings.TrimRight(s, cutset)`. -/
def TrimRight (s cutset : String) : String :=
  String.mk (s.data.reverse.dropWhile (fun c => cutset.data.contains c)).reverse

/-- The struct `nameVisitor`; `conflicts` lists the keys of the Go map (all mapped to
`true`). -/
structure nameVisitor where
  base : String
  suffix : Bool
  conflicts : List String
  deriving Repr

/-- The case `*ast.Ident` of `nameVisitor.Visit`: what visiting one identifier does to the
visitor. -/
def nameVisitor.VisitIdent (v : nameVisitor) (i : Ident) : nameVisitor :=
  let name := if v.suffix then TrimRight i.Name "0123456789" else i.Name
  if TrimLeft name "_" = v.base then { v with conflicts := name :: v.conflicts } else v

mutual
/-- The identifiers that `ast.Walk(v, e)` hands to `nameVisitor.Visit`, in order: `ast.Walk`
goes through the children of every node for which `Visit` returns the visitor; `Visit` walks
only `X` of a selector expression and returns nil for struct and interface types. -/
def Expr.scan : Expr → List Ident
  | .ident i => [i]
  | .basicLit _ _ _ => []
  | .callExpr c => c.scan
  | .selectorExpr x _ => x.scan
  | .unaryExpr _ _ x => x.scan
  | .binaryExpr x _ y => x.scan ++ y.scan
  | .parenExpr _ x => x.scan
  | .starExpr _ x => x.scan
  | .indexExpr x i => x.scan ++ i.scan
  | .typeAssertExpr x t => x.scan ++ (match t with | some t => t.scan | none => [])
  | .funcLit t b => t.scan ++ b.scan
  | .ellipsis _ elt => (match elt with | some t => t.scan | none => [])
  | .funcType t => t.scan
  | .structType _ _ => []
  | .interfaceType _ _ => []
  | .chanType _ x => x.scan
/-- The scan of a list of expressions (`walkExprList`). -/
def Expr.scanList : List Expr → List Ident
  | [] => []
  | e :: es => e.scan ++ Expr.scanList es
/-- The scan of a call: `Fun`, then `Args`. -/
def CallExpr.scan : CallExpr → List Ident
  | .mk f args _ => f.scan ++ Expr.scanList args
/-- The scan of a function type: `Params`, then `Results`, each if not nil. -/
def FuncType.scan : FuncType → List Ident
  | .mk _ params results =>
    (match params with | some l => l.scan | none => []) ++
      (match results with | some l => l.scan | none => [])
/-- The scan of a field list. -/
def FieldList.scan : FieldList → List Ident
  | .mk _ l => Field.scanList l
/-- The scan of the fields of a field list. -/
def Field.scanList : List Field → List Ident
  | [] => []
  | f :: fs => f.scan ++ Field.scanList fs
/-- The scan of a field: its names, then its type. -/
def Field.scan : Field → List Ident
  | .mk names t => names ++ t.scan
/-- The scan of a block (`walkStmtList`). -/
def BlockStmt.scan : BlockStmt → List Ident
  | .mk _ l => Stmt.scanList l
/-- The scan of a list of statements. -/
def Stmt.scanList : List Stmt → List Ident
  | [] => []
  | s :: ss => s.scan ++ Stmt.scanList ss
/-- The scan of a statement; `Visit` walks only the statement of a labeled statement,
`ast.Walk` itself visits the label of a `break`, `continue` or `goto`. -/
def Stmt.scan : Stmt → List Ident
  | .exprStmt x => x.scan
  | .assignStmt lhs _ rhs => Expr.scanList lhs ++ Expr.scanList rhs
  | .declStmt d => d.scan
  | .blockStmt b => b.scan
  | .ifStmt _ init cond body els =>
    (match init with | some s => s.scan | none => []) ++ cond.scan ++ body.scan ++
      (match els with | some s => s.scan | none => [])
  | .forStmt _ init cond post body =>
    (match init with | some s => s.scan | none => []) ++
      (match cond with | some e => e.scan | none => []) ++
      (match post with | some s => s.scan | none => []) ++ body.scan
  | .rangeStmt _ key value _ x body =>
    (match key with | some e => e.scan | none => []) ++
      (match value with | some e => e.scan | none => []) ++ x.scan ++ body.scan
  | .switchStmt _ init tag body =>
    (match init with | some s => s.scan | none => []) ++
      (match tag with | some e => e.scan | none => []) ++ body.scan
  | .typeSwitchStmt _ init assign body =>
    (match init with | some s => s.scan | none => []) ++ assign.scan ++ body.scan
  | .caseClause _ list body => Expr.scanList list ++ Stmt.scanList body
  | .selectStmt _ body => body.scan
  | .commClause _ comm body =>
    (match comm with | some s => s.scan | none => []) ++ Stmt.scanList body
  | .labeledStmt _ s => s.scan
  | .deferStmt _ c => c.scan
  | .goStmt _ c => c.scan
  | .returnStmt _ results => Expr.scanList results
  | .incDecStmt x _ => x.scan
  | .sendStmt c v => c.scan ++ v.scan
  | .branchStmt _ _ label => (match label with | some l => [l] | none => [])
  | .emptyStmt _ => []
/-- The scan of a general declaration: its specs in order. -/
def GenDecl.scan : GenDecl → List Ident
  | .values _ _ specs => ValueSpec.scanList specs
  | .types _ specs => TypeSpec.scanList specs
  | .imports _ specs => specs.flatMap (fun s => match s.Name with | some n => [n] | none => [])
/-- The scan of value specs. -/
def ValueSpec.scanList : List ValueSpec → List Ident
  | [] => []
  | s :: ss => s.scan ++ ValueSpec.scanList ss
/-- The scan of a value spec: names, type, values. -/
def ValueSpec.scan : ValueSpec → List Ident
  | .mk names t values =>
    names ++ (match t with | some t => t.scan | none => []) ++ Expr.scanList values
/-- The scan of type specs. -/
def TypeSpec.scanList : List TypeSpec → List Ident
  | [] => []
  | s :: ss => s.scan ++ TypeSpec.scanList ss
/-- The scan of a type spec: name, then type. -/
def TypeSpec.scan : TypeSpec → List Ident
  | .mk name t => name :: t.scan
end

/-- The scan of a function declaration.  For a method, `Visit` walks `Recv`, `Type` and
`Body` itself and leaves the name out; `ast.Walk(v, i.Body)` on a method without body
dereferences the nil `*ast.BlockStmt` and panics.  For a function, `ast.Walk` goes through
name, type and, if there is one, body. -/
def FuncDecl.scan (d : FuncDecl) : Res (List Ident) :=
  match d.Recv with
  | some recv =>
    match d.Body with
    | some body => .ok (recv.scan ++ d.Type_.scan ++ body.scan)
    | none => .error (.panic "invalid memory address or nil pointer dereference")
  | none =>
    .ok (d.Name :: d.Type_.scan ++ (match d.Body with | some b => b.scan | none => []))

/-- The scan of a declaration. -/
def Decl.scan : Decl → Res (List Ident)
  | .genDecl d => .ok d.scan
  | .funcDecl d => d.scan

/-- The scan of a list of declarations (`walkDeclList`). -/
def Decl.scanList : List Decl → Res (List Ident)
  | [] => .ok []
  | d :: ds => do
    let a ← d.scan
    let b ← Decl.scanList ds
    pure (a ++ b)

/-- The scan of a file: the package name, then the declarations. -/
def File.scan (f : File) : Res (List Ident) := do
  let ds ← Decl.scanList f.Decls
  pure (f.Name :: ds)

/-- The identifiers `ast.Walk(v, parent)` hands to `nameVisitor.Visit`, for any node. -/
def Node.scan : Node → Res (List Ident)
  | .expr e => .ok e.scan
  | .stmt s => .ok s.scan
  | .blockStmt b => .ok b.scan
  | .funcType t => .ok t.scan
  | .fieldList l => .ok l.scan
  | .decl d => d.scan
  | .file f => f.scan

/-- The loop of `getName`: `for name = v.base; v.conflicts[name]; name = "_" + name {}`,
with a bound on the number of times the condition is tested. -/
def nameVisitor.getNameLoop (conflicts : List String) : Nat → String → Res String
  | 0, _ => .error .fuel
  | fuel + 1, name =>
    if name ∈ conflicts then nameVisitor.getNameLoop conflicts fuel ("_" ++ name) else .ok name

/-- The method `getName`; the loop may test its condition once more than there are
conflicts. -/
def nameVisitor.getName (v : nameVisitor) : Res String :=
  nameVisitor.getNameLoop v.conflicts (v.conflicts.length + 1) v.base

/-- The function `createConflictFreeName`: walk `parent` with a new `nameVisitor`, then
`getName`. -/
def createConflictFreeName (name : String) (parent : Node) (hasSuffix : Bool) : Res String := do
  let visited ← parent.scan
  let v := visited.foldl nameVisitor.VisitIdent
    { base := name, suffix := hasSuffix, conflicts := [] }
  v.getName

/-! ## Synthesized nodes (gen.go 91-132) -/

/-- Go's `ast.NewIdent(name)`: an identifier without position, unknown to the type
checker's tables. -/
def NewIdent (name : String) : Ident :=
  { NamePos := NoPos, Name := name, isDef := false, isBuiltin := false }

/-- The expression `ast.NewIdent(name)`. -/
def newIdentExpr (name : String) : Expr := .ident (NewIdent name)

/-- The function `newStringLit`. -/
def newStringLit (v : String) : Expr := .basicLit NoPos .STRING v

/-- The function `newInt`; `strconv.Itoa` of a line number. -/
def newInt (n : Nat) : Expr := .basicLit NoPos .INT (toString n)

/-- The function `newSel`. -/
def newSel (selector name : String) : Expr :=
  .selectorExpr (newIdentExpr selector) (NewIdent name)

/-- The function `newCall`. -/
def newCall (selector fnName : String) (args : List Expr) : CallExpr :=
  .mk (newSel selector fnName) args false

/-- The function `newCallStmt`. -/
def newCallStmt (selector fnName : String) (args : List Expr) : Stmt :=
  .exprStmt (.callExpr (newCall selector fnName args))

/-- The function `newReceiveCase`. -/
def newReceiveCase (x : Expr) : Stmt :=
  .commClause NoPos (some (.exprStmt (.unaryExpr NoPos .ARROW x))) []

/-- The function `pos2line`. -/
def pos2line (pos : Pos) : Nat := pos

/-- The function `pos2lineString`. -/
def pos2lineString (pos : Pos) : String := toString (pos2line pos)

/-! ## Rewriting calls of `recover` (gen.go 830-877) -/

/-- The test of `recoverVisitor.Visit` on a call: the callee is an identifier spelled
`recover` that the type checker resolved to the builtin. -/
def isRecoverCall (c : CallExpr) : Bool :=
  match c.Fun with
  | .ident i => i.Name == "recover" && i.isBuiltin
  | _ => false

/-- Modelled from the spec: `astPrintfExpr` is not under src/.  The expression
`<-(<-_godebug_recover_chan_)` that `rewriteRecoverCall` builds, with the position of the
replaced call as its `OpPos`; the other nodes carry no position. -/
def recoverReceive (pos : Pos) : Expr :=
  .unaryExpr pos .ARROW
    (.parenExpr NoPos (.unaryExpr NoPos .ARROW (newIdentExpr "_godebug_recover_chan_")))

/-- What `reflect.Value.Set` raises when `rewriteRecoverCall` finds the call in a field of
type `*ast.CallExpr`. -/
def setPanic : Failure :=
  .panic "reflect.Set: value of type *ast.UnaryExpr is not assignable to type *ast.CallExpr"

mutual
/-- The walk of `rewriteRecoversIn` arriving at an expression that its parent holds in a
field, or slice element, of interface type `ast.Expr`.  The result is the expression the
parent holds afterwards and whether a call was rewritten.  `recoverVisitor.Visit`: a call
of the builtin `recover` is replaced in its parent by `rewriteRecoverCall` and not entered;
a function literal is not entered; every other node is entered with itself as parent. -/
def Expr.rewriteRecovers : Expr → Res (Expr × Bool)
  | .ident i => pure (.ident i, false)
  | .basicLit p k v => pure (.basicLit p k v, false)
  | .callExpr c =>
    if isRecoverCall c then pure (recoverReceive c.Pos, true)
    else do
      let (c', r) ← c.rewriteRecovers
      pure (.callExpr c', r)
  | .selectorExpr x sel => do
    let (x', r) ← x.rewriteRecovers
    pure (.selectorExpr x' sel, r)
  | .unaryExpr p op x => do
    let (x', r) ← x.rewriteRecovers
    pure (.unaryExpr p op x', r)
  | .binaryExpr x op y => do
    let (x', r1) ← x.rewriteRecovers
    let (y', r2) ← y.rewriteRecovers
    pure (.binaryExpr x' op y', r1 || r2)
  | .parenExpr p x => do
    let (x', r) ← x.rewriteRecovers
    pure (.parenExpr p x', r)
  | .starExpr p x => do
    let (x', r) ← x.rewriteRecovers
    pure (.starExpr p x', r)
  | .indexExpr x i => do
    let (x', r1) ← x.rewriteRecovers
    let (i', r2) ← i.rewriteRecovers
    pure (.indexExpr x' i', r1 || r2)
  | .typeAssertExpr x t => do
    let (x', r1) ← x.rewriteRecovers
    let (t', r2) ← (match t with
      | some t => do
        let (t', r) ← t.rewriteRecovers
        pure (some t', r)
      | none => pure (none, false))
    pure (.typeAssertExpr x' t', r1 || r2)
  | .funcLit t b => pure (.funcLit t b, false)
  | .ellipsis p elt => do
    let (elt', r) ← (match elt with
      | some t => do
        let (t', r) ← t.rewriteRecovers
        pure (some t', r)
      | none => pure (none, false))
    pure (.ellipsis p elt', r)
  | .funcType t => do
    let (t', r) ← t.rewriteRecovers
    pure (.funcType t', r)
  | .structType p fields => do
    let (fields', r) ← fields.rewriteRecovers
    pure (.structType p fields', r)
  | .interfaceType p methods => do
    let (methods', r) ← methods.rewriteRecovers
    pure (.interfaceType p methods', r)
  | .chanType p x => do
    let (x', r) ← x.rewriteRecovers
    pure (.chanType p x', r)
/-- The walk over the elements of a `[]ast.Expr`. -/
def Expr.rewriteRecoversList : List Expr → Res (List Expr × Bool)
  | [] => pure ([], false)
  | e :: es => do
    let (e', r1) ← e.rewriteRecovers
    let (es', r2) ← Expr.rewriteRecoversList es
    pure (e' :: es', r1 || r2)
/-- The walk inside a call that is not itself replaced: `Fun`, then `Args`. -/
def CallExpr.rewriteRecovers : CallExpr → Res (CallExpr × Bool)
  | .mk f args ell => do
    let (f', r1) ← f.rewriteRecovers
    let (args', r2) ← Expr.rewriteRecoversList args
    pure (.mk f' args' ell, r1 || r2)
/-- The walk inside a function type. -/
def FuncType.rewriteRecovers : FuncType → Res (FuncType × Bool)
  | .mk p params results => do
    let (params', r1) ← (match params with
      | some l => do
        let (l', r) ← l.rewriteRecovers
        pure (some l', r)
      | none => pure (none, false))
    let (results', r2) ← (match results with
      | some l => do
        let (l', r) ← l.rewriteRecovers
        pure (some l', r)
      | none => pure (none, false))
    pure (.mk p params' results', r1 || r2)
/-- The walk inside a field list. -/
def FieldList.rewriteRecovers : FieldList → Res (FieldList × Bool)
  | .mk p l => do
    let (l', r) ← Field.rewriteRecoversList l
    pure (.mk p l', r)
/-- The walk over the fields of a field list. -/
def Field.rewriteRecoversList : List Field → Res (List Field × Bool)
  | [] => pure ([], false)
  | f :: fs => do
    let (f', r1) ← f.rewriteRecovers
    let (fs', r2) ← Field.rewriteRecoversList fs
    pure (f' :: fs', r1 || r2)
/-- The walk inside a field: the names have no children, the type is an `ast.Expr`. -/
def Field.rewriteRecovers : Field → Res (Field × Bool)
  | .mk names t => do
    let (t', r) ← t.rewriteRecovers
    pure (.mk names t', r)
/-- The walk inside a block. -/
def BlockStmt.rewriteRecovers : BlockStmt → Res (BlockStmt × Bool)
  | .mk p l => do
    let (l', r) ← Stmt.rewriteRecoversList l
    pure (.mk p l', r)
/-- The walk over a `[]ast.Stmt`. -/
def Stmt.rewriteRecoversList : List Stmt → Res (List Stmt × Bool)
  | [] => pure ([], false)
  | s :: ss => do
    let (s', r1) ← s.rewriteRecovers
    let (ss', r2) ← Stmt.rewriteRecoversList ss
    pure (s' :: ss', r1 || r2)
/-- The walk inside a statement.  The field `Call` of a `defer` or `go` statement has type
`*ast.CallExpr`: when the call it holds is a call of the builtin `recover`,
`rewriteRecoverCall` finds it in that field and `f.Set(reflect.ValueOf(rewritten))` panics,
the substitute being an `*ast.UnaryExpr`. -/
def Stmt.rewriteRecovers : Stmt → Res (Stmt × Bool)
  | .exprStmt x => do
    let (x', r) ← x.rewriteRecovers
    pure (.exprStmt x', r)
  | .assignStmt lhs tok rhs => do
    let (lhs', r1) ← Expr.rewriteRecoversList lhs
    let (rhs', r2) ← Expr.rewriteRecoversList rhs
    pure (.assignStmt lhs' tok rhs', r1 || r2)
  | .declStmt d => do
    let (d', r) ← d.rewriteRecovers
    pure (.declStmt d', r)
  | .blockStmt b => do
    let (b', r) ← b.rewriteRecovers
    pure (.blockStmt b', r)
  | .ifStmt p init cond body els => do
    let (init', r1) ← (match init with
      | some s => do
        let (s', r) ← s.rewriteRecovers
        pure (some s', r)
      | none => pure (none, false))
    let (cond', r2) ← cond.rewriteRecovers
    let (body', r3) ← body.rewriteRecovers
    let (els', r4) ← (match els with
      | some s => do
        let (s', r) ← s.rewriteRecovers
        pure (some s', r)
      | none => pure (none, false))
    pure (.ifStmt p init' cond' body' els', r1 || r2 || r3 || r4)
  | .forStmt p init cond post body => do
    let (init', r1) ← (match init with
      | some s => do
        let (s', r) ← s.rewriteRecovers
        pure (some s', r)
      | none => pure (none, false))
    let (cond', r2) ← (match cond with
      | some e => do
        let (e', r) ← e.rewriteRecovers
        pure (some e', r)
      | none => pure (none, false))
    let (post', r3) ← (match post with
      | some s => do
        let (s', r) ← s.rewriteRecovers
        pure (some s', r)
      | none => pure (none, false))
    let (body', r4) ← body.rewriteRecovers
    pure (.forStmt p init' cond' post' body', r1 || r2 || r3 || r4)
  | .rangeStmt p key value tok x body => do
    let (key', r1) ← (match key with
      | some e => do
        let (e', r) ← e.rewriteRecovers
        pure (some e', r)
      | none => pure (none, false))
    let (value', r2) ← (match value with
      | some e => do
        let (e', r) ← e.rewriteRecovers
        pure (some e', r)
      | none => pure (none, false))
    let (x', r3) ← x.rewriteRecovers
    let (body', r4) ← body.rewriteRecovers
    pure (.rangeStmt p key' value' tok x' body', r1 || r2 || r3 || r4)
  | .switchStmt p init tag body => do
    let (init', r1) ← (match init with
      | some s => do
        let (s', r) ← s.rewriteRecovers
        pure (some s', r)
      | none => pure (none, false))
    let (tag', r2) ← (match tag with
      | some e => do
        let (e', r) ← e.rewriteRecovers
        pure (some e', r)
      | none => pure (none, false))
    let (body', r3) ← body.rewriteRecovers
    pure (.switchStmt p init' tag' body', r1 || r2 || r3)
  | .typeSwitchStmt p init assign body => do
    let (init', r1) ← (match init with
      | some s => do
        let (s', r) ← s.rewriteRecovers
        pure (some s', r)
      | none => pure (none, false))
    let (assign', r2) ← assign.rewriteRecovers
    let (body', r3) ← body.rewriteRecovers
    pure (.typeSwitchStmt p init' assign' body', r1 || r2 || r3)
  | .caseClause p list body => do
    let (list', r1) ← Expr.rewriteRecoversList list
    let (body', r2) ← Stmt.rewriteRecoversList body
    pure (.caseClause p list' body', r1 || r2)
  | .selectStmt p body => do
    let (body', r) ← body.rewriteRecovers
    pure (.selectStmt p body', r)
  | .commClause p comm body => do
    let (comm', r1) ← (match comm with
      | some s => do
        let (s', r) ← s.rewriteRecovers
        pure (some s', r)
      | none => pure (none, false))
    let (body', r2) ← Stmt.rewriteRecoversList body
    pure (.commClause p comm' body', r1 || r2)
  | .labeledStmt l s => do
    let (s', r) ← s.rewriteRecovers
    pure (.labeledStmt l s', r)
  | .deferStmt p c =>
    if isRecoverCall c then throw setPanic
    else do
      let (c', r) ← c.rewriteRecovers
      pure (.deferStmt p c', r)
  | .goStmt p c =>
    if isRecoverCall c then throw setPanic
    else do
      let (c', r) ← c.rewriteRecovers
      pure (.goStmt p c', r)
  | .returnStmt p results => do
    let (results', r) ← Expr.rewriteRecoversList results
    pure (.returnStmt p results', r)
  | .incDecStmt x tok => do
    let (x', r) ← x.rewriteRecovers
    pure (.incDecStmt x' tok, r)
  | .sendStmt c v => do
    let (c', r1) ← c.rewriteRecovers
    let (v', r2) ← v.rewriteRecovers
    pure (.sendStmt c' v', r1 || r2)
  | .branchStmt p tok label => pure (.branchStmt p tok label, false)
  | .emptyStmt p => pure (.emptyStmt p, false)
/-- The walk inside a general declaration. -/
def GenDecl.rewriteRecovers : GenDecl → Res (GenDecl × Bool)
  | .values p tok specs => do
    let (specs', r) ← ValueSpec.rewriteRecoversList specs
    pure (.values p tok specs', r)
  | .types p specs => do
    let (specs', r) ← TypeSpec.rewriteRecoversList specs
    pure (.types p specs', r)
  | .imports p specs => pure (.imports p specs, false)
/-- The walk over value specs. -/
def ValueSpec.rewriteRecoversList : List ValueSpec → Res (List ValueSpec × Bool)
  | [] => pure ([], false)
  | s :: ss => do
    let (s', r1) ← s.rewriteRecovers
    let (ss', r2) ← ValueSpec.rewriteRecoversList ss
    pure (s' :: ss', r1 || r2)
/-- The walk inside a value spec: type, then values. -/
def ValueSpec.rewriteRecovers : ValueSpec → Res (ValueSpec × Bool)
  | .mk names t values => do
    let (t', r1) ← (match t with
      | some t => do
        let (t', r) ← t.rewriteRecovers
        pure (some t', r)
      | none => pure (none, false))
    let (values', r2) ← Expr.rewriteRecoversList values
    pure (.mk names t' values', r1 || r2)
/-- The walk over type specs. -/
def TypeSpec.rewriteRecoversList : List TypeSpec → Res (List TypeSpec × Bool)
  | [] => pure ([], false)
  | s :: ss => do
    let (s', r1) ← s.rewriteRecovers
    let (ss', r2) ← TypeSpec.rewriteRecoversList ss
    pure (s' :: ss', r1 || r2)
/-- The walk inside a type spec. -/
def TypeSpec.rewriteRecovers : TypeSpec → Res (TypeSpec × Bool)
  | .mk name t => do
    let (t', r) ← t.rewriteRecovers
    pure (.mk name t', r)
end

/-- The function `rewriteRecoversIn`: the block after the walk, and `result`. -/
def rewriteRecoversIn (block : BlockStmt) : Res (BlockStmt × Bool) :=
  block.rewriteRecovers

/-! ## New identifiers and the trace-start call (gen.go 142-179, 354-372, 678-692) -/

/-- The package-level variable `idents`: the names `generateGodebugIdentifiers` chose. -/
structure Idents where
  ctx : String
  ok : String
  scope : String
  receiver : String
  fileScope : String
  fileContents : String
  godebug : String
  result : String
  input : String
  deriving DecidableEq, Repr

/-- The function `isNewIdent`. -/
def isNewIdent (ident : Ident) : Bool :=
  ident.Name != "_" && ident.isDef

/-- The function `listNewIdentsFromDecl`. -/
def listNewIdentsFromDecl (decl : GenDecl) : List Ident :=
  match decl with
  | .values _ tok specs =>
    if tok ≠ .VAR then []
    else specs.flatMap (fun spec => spec.Names.filter isNewIdent)
  | _ => []

/-- The identifier an expression is, if it is one (`expr.(*ast.Ident)`). -/
def Expr.asIdent : Expr → Option Ident
  | .ident i => some i
  | _ => none

/-- The function `listNewIdentsFromAssign`, on the field `Lhs` of the assignment. -/
def listNewIdentsFromAssign (lhs : List Expr) : List Ident :=
  lhs.flatMap (fun expr => match expr.asIdent with
    | some ident => if isNewIdent ident then [ident] else []
    | none => [])

/-- The function `newIdentsInSimpleStmt`; a nil statement is no assignment. -/
def newIdentsInSimpleStmt (stmt : Option Stmt) : List Ident :=
  match stmt with
  | some (.assignStmt lhs _ _) => listNewIdentsFromAssign lhs
  | _ => []

/-- The function `newIdentsInRange`, on the fields `Key`, `Value` and `Tok` of the range
statement. -/
def newIdentsInRange (key value : Option Expr) (tok : Token) : List Ident :=
  if tok ≠ .DEFINE then []
  else
    (match key.bind Expr.asIdent with
      | some i => if isNewIdent i then [i] else []
      | none => []) ++
    (match value.bind Expr.asIdent with
      | some i => if isNewIdent i then [i] else []
      | none => [])

/-- The function `isSetTraceCall`, on a statement; the type assertions that fail panic in
Go and the deferred `recover` turns the panic into `false`. -/
def isSetTraceCall (ids : Idents) (node : Stmt) : Bool :=
  match node with
  | .exprStmt (.callExpr (.mk (.selectorExpr (.ident x) sel) _ _)) =>
    x.Name == ids.godebug && sel.Name == "SetTrace"
  | _ => false

/-- The function `getIdents`. -/
def getIdents (lists : List (Option FieldList)) : List Ident :=
  lists.flatMap (fun l => match l with
    | none => []
    | some l => l.List_.flatMap (fun fields => fields.Names.filter (fun ident => ident.Name != "_")))

/-- Go's `strconv.Quote` on the name of an identifier: an identifier holds no character
that `Quote` escapes, so the result is the name between double quotes. -/
def Quote (name : String) : String := "\"" ++ name ++ "\""

/-- The function `newDeclareCall`. -/
def newDeclareCall (ids : Idents) (scopeVar : String) (newVars : List Ident) : Stmt :=
  let scopeVar := if scopeVar = "" then ids.scope else scopeVar
  .exprStmt (.callExpr (.mk (newSel scopeVar "Declare")
    (newVars.flatMap (fun _var =>
      [newStringLit (Quote _var.Name), .unaryExpr NoPos .AND (.ident _var)])) false))

/-- The marker `godebug.Line(ctx, scope, line)` as `Visit` builds it with `newCallStmt`. -/
def newLineCall (ids : Idents) (scopeVar : String) (line : Nat) : Stmt :=
  newCallStmt ids.godebug "Line" [newIdentExpr ids.ctx, newIdentExpr scopeVar, newInt line]

/-! ## The visitor (gen.go 181-194, 711-723) -/

/-- What `stopAtBlockIn` asks of the field `context` of a visitor: whether the node the
visitor was made for is a block statement.  (`finalizeNode` switches on `context` too;
here the node is handed to `finalizeNode` as an argument.) -/
inductive Context where
  | blockStmt
  | other
  deriving DecidableEq, Repr

/-- The struct `visitor`.  `stmtBuf` is `none` for the nil slice; `newIdents` is the field of
the embedded `loopState`. -/
structure visitor where
  context : Context
  stmtBuf : Option (List Stmt)
  scopeVar : String
  blockVars : List Ident
  createdExplicitScope : Bool
  hasRecovers : Bool
  parentIsExprSwitch : Bool
  newIdents : List Ident
  deriving Repr

/-- Go's `append(v.stmtBuf, stmts...)` stored back into `v.stmtBuf`. -/
def visitor.append (v : visitor) (stmts : List Stmt) : visitor :=
  { v with stmtBuf := some (v.stmtBuf.getD [] ++ stmts) }

/-- The literal `&visitor{context: node, scopeVar: v.scopeVar, parentIsExprSwitch:
v.parentIsExprSwitch}` at the head of `Visit`. -/
def visitor.newChild (v : visitor) (context : Context) : visitor :=
  { context := context, stmtBuf := none, scopeVar := v.scopeVar, blockVars := [],
    createdExplicitScope := false, hasRecovers := false,
    parentIsExprSwitch := v.parentIsExprSwitch, newIdents := [] }

/-- The assignment `name := scopeVar.EnteringNewChildScope()` of `createScope`. -/
def newScopeAssign (name scopeVar : String) : Stmt :=
  .assignStmt [newIdentExpr name] .DEFINE
    [.callExpr (newCall scopeVar "EnteringNewChildScope" [])]

/-- The method `createScope`. -/
def visitor.createScope (ids : Idents) (v : visitor) : visitor :=
  let name := ids.scope
  let v := if v.scopeVar = "" then { v with scopeVar := name } else v
  let v := v.append [newScopeAssign name v.scopeVar]
  { v with scopeVar := name, createdExplicitScope := true }

/-- The function `stopAtBlockIn`, on the context of a visitor. -/
def stopAtBlockIn (context : Context) : Bool :=
  match context with
  | .blockStmt => false
  | .other => true

/-! ## Statements built from templates (gen.go 196-239, 243-352, 374-398)

`astPrintf` is not under src/.  Each template is given here as the statements it denotes:
the words `godebug`, `ctx`, `ok`, `scope` and `receiver` of a template stand for the names in
`idents`, a `%s` stands for the argument (a node stands for itself), a part between `{{`
and `}}` is left out when its argument is nil or empty, and the nodes built carry no
position. -/

/-- Field `Init` of a statement that has one. -/
def Stmt.Init : Stmt → Option Stmt
  | .ifStmt _ init _ _ _ => init
  | .forStmt _ init _ _ _ => init
  | .switchStmt _ init _ _ => init
  | .typeSwitchStmt _ init _ _ => init
  | _ => none

/-- Modelled from the spec: `astPrintf` is not under src/.  The statement
`godebug.Line(ctx, scope, line)` of a template, `scope` being the template's second
argument, a name. -/
def astLine (ids : Idents) (scope : String) (line : String) : Stmt :=
  .exprStmt (.callExpr (.mk (newSel ids.godebug "Line")
    [newIdentExpr ids.ctx, newIdentExpr scope, .basicLit NoPos .INT line] false))

/-- The method `wrapSwitch`; `_switch` is the switch statement as the block holds it.  The
template's block is `{ godebug.Line(ctx, v.scopeVar, line); _switch.Init; scope :=
v.scopeVar.EnteringNewChildScope(); _; _ }`, whose last two statements are then replaced.
(`_switch.Init` is not nil: the caller found new identifiers in it.) -/
def visitor.wrapSwitch (ids : Idents) (v : visitor) (_switch : Stmt) (idents : List Ident) :
    Stmt :=
  .blockStmt (.mk NoPos
    [astLine ids v.scopeVar (pos2lineString _switch.Pos),
     (match _switch.Init with
      | some init => init
      | none => .emptyStmt NoPos),
     newScopeAssign ids.scope v.scopeVar,
     newDeclareCall ids v.scopeVar idents,
     _switch])

/-- The method `wrapLoop`; `node` is the loop as the block holds it.  The template's block
is `{ scope := v.scopeVar.EnteringNewChildScope(); _; godebug.Line(ctx, scope, line) }`,
whose second statement is then replaced by the loop.  The second result of the Go method
is `node` itself. -/
def visitor.wrapLoop (ids : Idents) (v : visitor) (node : Stmt) : Stmt :=
  .blockStmt (.mk NoPos
    [newScopeAssign ids.scope v.scopeVar,
     node,
     astLine ids ids.scope (pos2lineString node.Pos)])

/-- The method `finalizeLoop`: the loop body afterwards.  (The Go method returns at once for
a nil body; a loop of the tree has a body.) -/
def visitor.finalizeLoop (ids : Idents) (v : visitor) (pos : Pos) (body : BlockStmt) :
    BlockStmt :=
  let line := pos2line pos
  if v.newIdents.length = 0 then
    .mk body.Lbrace (body.List_ ++ [newLineCall ids v.scopeVar line])
  else
    .mk body.Lbrace
      ([astLine ids ids.scope (toString line), newDeclareCall ids ids.scope v.newIdents] ++
        body.List_)

/-- The variable `blank`. -/
def blank : Ident := NewIdent "_"

/-- The function `varDecl`, as a statement: `&ast.DeclStmt{Decl: varDecl(spec)}`. -/
def varDeclStmt (spec : ValueSpec) : Stmt :=
  .declStmt (.values NoPos .VAR [spec])

/-- The inner loop of `inputsOrOutputs`, over the names of one field; the state is `count`,
`spec.Names` and `all`. -/
def inputsOrOutputsNames (pre : String) :
    Nat × List Ident × List Expr → List Ident → Nat × List Ident × List Expr
  | st, [] => st
  | (count, specNames, all), name :: names =>
    if name.Name = "_" then
      let name := NewIdent (pre ++ toString count)
      inputsOrOutputsNames pre (count + 1, specNames ++ [name], all ++ [.ident name]) names
    else
      inputsOrOutputsNames pre (count + 1, specNames, all ++ [.ident name]) names

/-- The outer loop of `inputsOrOutputs`, over the fields; the state is `count`, `decl` and
`all`. -/
def inputsOrOutputsFields (pre : String) :
    Nat × List Stmt × List Expr → List Field → Nat × List Stmt × List Expr
  | st, [] => st
  | (count, decl, all), field :: fields =>
    let names := if field.Names = [] then [blank] else field.Names
    let r := inputsOrOutputsNames pre (count, [], all) names
    let decl := if r.2.1.length > 0 then decl ++ [varDeclStmt (.mk r.2.1 (some field.Type_) [])]
      else decl
    inputsOrOutputsFields pre (r.1, decl, r.2.2) fields

/-- The function `inputsOrOutputs`. -/
def inputsOrOutputs (fieldList : Option FieldList) (pre : String) : List Stmt × List Expr :=
  match fieldList with
  | none => ([], [])
  | some fieldList => (inputsOrOutputsFields pre (1, [], []) fieldList.List_).2

/-- The statement `var receiver T` of a template. -/
def astVarReceiver (ids : Idents) (recvType : Expr) : Stmt :=
  varDeclStmt (.mk [NewIdent ids.receiver] (some recvType) [])

/-- The statement `if !ok { return results }` of a template. -/
def astIfNotOkReturn (ids : Idents) (results : List Expr) : Stmt :=
  .ifStmt NoPos none (.unaryExpr NoPos .NOT (newIdentExpr ids.ok))
    (.mk NoPos [.returnStmt NoPos results]) none

/-- The function `genEnterFunc`.  `fn.Recv.List[0]` panics on a receiver list without
field and `fn.Type.Params.List` on a nil parameter list. -/
def genEnterFunc (ids : Idents) (fn : FuncDecl) (inputs outputs : List Expr) : Res (List Stmt) := do
  let (pseudoIdent, recvType) ← (match fn.Recv with
    | none => pure (Expr.ident fn.Name, none)
    | some recv =>
      match recv.List_ with
      | [] => throw (.panic "index out of range")
      | field :: _ =>
        match field.Names with
        | [] => pure (newSel ids.receiver fn.Name.Name, some field.Type_)
        | name :: _ => pure (newSel name.Name fn.Name.Name, none) : Res (Expr × Option Expr))
  let ellipsis ← (match fn.Type_.Params with
    | none => throw (.panic "invalid memory address or nil pointer dereference")
    | some params =>
      match params.List_.getLast? with
      | some (.mk _ (.ellipsis _ _)) => pure true
      | _ => pure false : Res Bool)
  let receiver := match recvType with
    | some t => [astVarReceiver ids t]
    | none => []
  if inputs.length = 0 ∧ outputs.length = 0 then
    pure (receiver ++
      [.assignStmt [newIdentExpr ids.ctx, newIdentExpr ids.ok] .DEFINE
        [.callExpr (newCall ids.godebug "EnterFunc" [pseudoIdent])],
       astIfNotOkReturn ids []])
  else
    let call : Expr := .callExpr (.mk pseudoIdent inputs ellipsis)
    let inner : Stmt := if outputs.length = 0 then .exprStmt call else .assignStmt outputs .ASSIGN [call]
    pure (receiver ++
      [.assignStmt [newIdentExpr ids.ctx, newIdentExpr ids.ok] .DEFINE
        [.callExpr (newCall ids.godebug "EnterFunc"
          [.funcLit (.mk NoPos (some (.mk NoPos [])) none) (.mk NoPos [inner])])],
       astIfNotOkReturn ids outputs])

/-- The statement `defer godebug.ExitFunc(ctx)` of a template. -/
def astDeferExitFunc (ids : Idents) : Stmt :=
  .deferStmt NoPos (newCall ids.godebug "ExitFunc" [newIdentExpr ids.ctx])

/-- The statement `if ctx, ok := godebug.EnterFuncLit(fn); ok { defer godebug.ExitFunc(ctx);
fn(ctx) }` of the templates of `genEnterFuncLit`. -/
def astEnterFuncLit (ids : Idents) (fn : String) : Stmt :=
  .ifStmt NoPos
    (some (.assignStmt [newIdentExpr ids.ctx, newIdentExpr ids.ok] .DEFINE
      [.callExpr (newCall ids.godebug "EnterFuncLit" [newIdentExpr fn])]))
    (newIdentExpr ids.ok)
    (.mk NoPos
      [astDeferExitFunc ids,
       .exprStmt (.callExpr (.mk (newIdentExpr fn) [newIdentExpr ids.ctx] false))])
    none

/-- The function type `func(ctx *godebug.Context)` of the templates of `genEnterFuncLit`. -/
def astCtxFuncType (ids : Idents) : FuncType :=
  .mk NoPos
    (some (.mk NoPos [.mk [NewIdent ids.ctx] (.starExpr NoPos (newSel ids.godebug "Context"))]))
    none

/-- The function `genEnterFuncLit`. -/
def genEnterFuncLit (ids : Idents) (fnType : FuncType) (body : BlockStmt) (hasRecovers : Bool) :
    Res BlockStmt := do
  let fn ← createConflictFreeName "fn" (.funcType fnType) false
  let (decl, outputs) := inputsOrOutputs fnType.Results ids.result
  let deferCloseQuit : List Stmt :=
    if hasRecovers then
      [.deferStmt NoPos (.mk (newIdentExpr "close") [newIdentExpr "quit"] false)]
    else []
  if outputs.length > 0 then
    pure (.mk NoPos (deferCloseQuit ++ decl ++
      [.assignStmt [newIdentExpr fn] .DEFINE
        [.funcLit (astCtxFuncType ids)
          (.mk NoPos
            [.assignStmt outputs .ASSIGN
              [.callExpr (.mk
                (.funcLit (.mk NoPos (some (.mk NoPos [])) fnType.Results)
                  (.mk NoPos body.List_))
                [] false)]])],
       astEnterFuncLit ids fn,
       .returnStmt NoPos outputs]))
  else
    pure (.mk NoPos (deferCloseQuit ++
      [.assignStmt [newIdentExpr fn] .DEFINE
        [.funcLit (astCtxFuncType ids) (.mk NoPos body.List_)],
       astEnterFuncLit ids fn]))

/-- The expression `make(chan T)` of the template of `rewriteFnWithRecovers`. -/
def astMakeChan (elem : Expr) : Expr :=
  .callExpr (.mk (newIdentExpr "make") [.chanType NoPos elem] false)

/-- The function `rewriteFnWithRecovers`: the body afterwards.  Its statements are those of
the template, with the old statements of the body inside the function literal handed to
`godebug.Go`. -/
def rewriteFnWithRecovers (ids : Idents) (body : BlockStmt) : BlockStmt :=
  .mk body.Lbrace
    [.assignStmt [newIdentExpr "quit"] .DEFINE
      [astMakeChan (.structType NoPos (.mk NoPos []))],
     .assignStmt [newIdentExpr "_godebug_recover_chan_"] .DEFINE
      [astMakeChan (.chanType NoPos (.interfaceType NoPos (.mk NoPos [])))],
     .assignStmt [newIdentExpr "rr"] .DEFINE
      [astMakeChan (.interfaceType NoPos (.mk NoPos []))],
     .exprStmt (.callExpr (newCall ids.godebug "Go"
      [.funcLit (.mk NoPos (some (.mk NoPos [])) none) (.mk NoPos body.List_)])),
     .forStmt NoPos none none none
      (.mk NoPos
        [.selectStmt NoPos
          (.mk NoPos
            [.commClause NoPos
              (some (.exprStmt (.unaryExpr NoPos .ARROW (newIdentExpr "quit"))))
              [.returnStmt NoPos []],
             .commClause NoPos
              (some (.sendStmt (newIdentExpr "_godebug_recover_chan_") (newIdentExpr "rr")))
              [.sendStmt (newIdentExpr "rr")
                (.callExpr (.mk (newIdentExpr "recover") [] false))]])])]

/-! ## `Visit` and `finalizeNode` (gen.go 400-502, 515-676)

The Go visitor rewrites the tree in place while `ast.Walk` drives it: `v.Visit(node)` may
store the pointer `node` in `v.stmtBuf`, the children of `node` are walked afterwards with
the visitor `Visit` returned, and `finalizeNode` (the call `Visit(nil)` that ends the walk
of `node`) rewrites `node` once more.  What the buffer holds in the end is therefore the
node as it stands when its walk is over.  `Visit` takes that final state as the argument
`final` and stores it wherever the Go code stores the pointer; what `Visit` decides it
decides on `node`, the node as it is handed over. -/

/-- Method `Pos` of `*ast.Field`. -/
def Field.Pos : Field → Pos
  | .mk names t => match names with
    | name :: _ => name.NamePos
    | [] => t.Pos

/-- Method `Pos` of `*ast.FieldList`. -/
def FieldList.Pos : FieldList → Pos
  | .mk opening l =>
    if opening ≠ NoPos then opening
    else match l with
      | f :: _ => f.Pos
      | [] => NoPos

/-- Method `Pos` of `*ast.ValueSpec`. -/
def ValueSpec.Pos : ValueSpec → Pos
  | .mk names _ _ => match names with
    | name :: _ => name.NamePos
    | [] => NoPos

/-- Method `Pos` of `*ast.TypeSpec`. -/
def TypeSpec.Pos : TypeSpec → Pos
  | .mk name _ => name.NamePos

/-- The walks of the children of a node, one level down: `expr` and `stmt` are
`ast.Walk(v, node)` on an expression and on a statement, `visit` is `v.Visit(node)` alone on
a statement (the visitor it returns dropped).  Each yields the receiver `v` and the node as
the call leaves them. -/
structure Walkers where
  expr : visitor → Expr → Res (visitor × Expr)
  stmt : visitor → Stmt → Res (visitor × Stmt)
  visit : visitor → Stmt → Res (visitor × Stmt)

/-- What a call `v.Visit(node)` yields: the receiver afterwards, the visitor returned (nil
is `none`), and the node as `Visit` itself leaves it. -/
structure VisitResult where
  v : visitor
  child : Option visitor
  node : Stmt

/-- A loop `for _, x := range list { walk(v, x) }`. -/
def walkList {α : Type} (walk : visitor → α → Res (visitor × α)) :
    visitor → List α → Res (visitor × List α)
  | v, [] => pure (v, [])
  | v, x :: xs => do
    let (v, x') ← walk v x
    let (v, xs') ← walkList walk v xs
    pure (v, x' :: xs')

/-- A step `if x != nil { walk(v, x) }`. -/
def walkOption {α : Type} (walk : visitor → α → Res (visitor × α)) (v : visitor) :
    Option α → Res (visitor × Option α)
  | none => pure (v, none)
  | some x => do
    let (v, x') ← walk v x
    pure (v, some x')

/-- `Visit` on a node that is no statement and that no case of the first switch names: the
receiver afterwards and the visitor returned.  With a statement buffer, the code that
inserts debug calls runs and appends a `Line` marker. -/
def visitor.VisitOther (ids : Idents) (v : visitor) (pos : Pos) : visitor × visitor :=
  let childVisitor := v.newChild .other
  if v.stmtBuf.isNone then (v, childVisitor)
  else (v.append [newLineCall ids v.scopeVar (pos2line pos)], childVisitor)

/-- The case `*ast.BlockStmt` of `Visit`: the receiver afterwards and the visitor
returned.  `final` is the block statement as the buffer holds it. -/
def visitor.VisitBlockStmt (ids : Idents) (v : visitor) (i : BlockStmt) (final : Stmt) :
    visitor × visitor :=
  let childVisitor := v.newChild .blockStmt
  let v' :=
    if v.stmtBuf.isSome then
      (if stopAtBlockIn v.context then
        v.append [newLineCall ids v.scopeVar (pos2line i.Lbrace)]
      else v).append [final]
    else v
  let childVisitor := { childVisitor with stmtBuf := some [] }
  let childVisitor :=
    if v.blockVars.length > 0 then
      let c := childVisitor.createScope ids
      c.append [newDeclareCall ids c.scopeVar v.blockVars]
    else childVisitor
  (v', childVisitor)

/-- The rewrite of `godebug.SetTrace()` into `godebug.SetTraceGen(ctx)` in `Visit`. -/
def rewriteSetTrace (ids : Idents) (stmt : Stmt) : Stmt :=
  match stmt with
  | .exprStmt (.callExpr (.mk (.selectorExpr x sel) _ ell)) =>
    .exprStmt (.callExpr (.mk (.selectorExpr x { sel with Name := "SetTraceGen" })
      [newIdentExpr ids.ctx] ell))
  | _ => stmt

/-- The statement `defer godebug.Defer(ctx, scope, line)` of the template in `Visit`. -/
def astDeferDefer (ids : Idents) (scope : String) (line : String) : Stmt :=
  .deferStmt NoPos (.mk (newSel ids.godebug "Defer")
    [newIdentExpr ids.ctx, newIdentExpr scope, .basicLit NoPos .INT line] false)

/-- The new identifiers of the header of a loop, as `Visit` computes them for a `for` or
`range` statement (gen.go 616-635); no other statement has any. -/
def loopIdents : Stmt → List Ident
  | .forStmt _ init _ _ _ => newIdentsInSimpleStmt init
  | .rangeStmt _ key value tok _ _ => newIdentsInRange key value tok
  | _ => []

/-- The new identifiers of a statement, as `Visit` computes them for a declaration or an
assignment (gen.go 653-659); no other statement has any. -/
def declaredIdents : Stmt → List Ident
  | .declStmt d => listNewIdentsFromDecl d
  | .assignStmt lhs _ _ => listNewIdentsFromAssign lhs
  | _ => []

/-- `Visit`, gen.go 637-639: the `Line` marker, unless the statement is a trace-start
call. -/
def visitor.emitLine (ids : Idents) (v : visitor) (node : Stmt) : visitor :=
  if !isSetTraceCall ids node then v.append [newLineCall ids v.scopeVar (pos2line node.Pos)]
  else v

/-- `Visit`, gen.go 660-665: the `Declare` call for the new identifiers of the statement,
after a scope creation if the visitor has made none yet. -/
def visitor.emitDeclare (ids : Idents) (v : visitor) (newIdents : List Ident) : visitor :=
  if newIdents.length > 0 then
    (if !v.createdExplicitScope then v.createScope ids else v).append
      [newDeclareCall ids "" newIdents]
  else v

/-- `Visit`, gen.go 667-670: the companion `defer godebug.Defer(...)` of a `defer`
statement. -/
def visitor.emitDefer (ids : Idents) (v : visitor) (node : Stmt) : visitor :=
  match node with
  | .deferStmt _ _ => v.append [astDeferDefer ids v.scopeVar (pos2lineString node.Pos)]
  | _ => v

/-- `Visit`, gen.go 672-674: the visitor returned for an `if` statement carries the new
identifiers of the initializer as `blockVars`. -/
def visitor.withBlockVars (childVisitor : visitor) (node : Stmt) : visitor :=
  match node with
  | .ifStmt _ init _ _ _ => { childVisitor with blockVars := newIdentsInSimpleStmt init }
  | _ => childVisitor

/-- `Visit` on a statement from the comment "The code below is about inserting debug
calls" on (gen.go 610-675); `childVisitor` is the visitor built so far. -/
def visitor.VisitStmt (ids : Idents) (v : visitor) (childVisitor : visitor) (node final : Stmt) :
    VisitResult :=
  if v.stmtBuf.isNone then ⟨v, some childVisitor, node⟩
  else if (loopIdents node).length > 0 then
    ⟨v.append [v.wrapLoop ids final], some { childVisitor with newIdents := loopIdents node },
      node⟩
  else
    ⟨(((v.emitLine ids node).append [final]).emitDeclare ids (declaredIdents node)).emitDefer
        ids node,
      some (childVisitor.withBlockVars node),
      if isSetTraceCall ids node then rewriteSetTrace ids node else node⟩

/-- The method `Visit` on a statement.  The clause cases rewrite the clause themselves and
return nil; what they store in the buffer is the clause so rewritten. -/
def visitor.Visit (ids : Idents) (W : Walkers) (v : visitor) (node final : Stmt) :
    Res VisitResult :=
  let childVisitor := v.newChild .other
  match node with
  | .blockStmt i =>
    let r := v.VisitBlockStmt ids i final
    pure ⟨r.1, some r.2, node⟩
  | .switchStmt _ init _ _ =>
    let childVisitor := { childVisitor with parentIsExprSwitch := true }
    let newIdents := newIdentsInSimpleStmt init
    if newIdents.length > 0 then
      pure ⟨v.append [v.wrapSwitch ids final newIdents], some childVisitor, node⟩
    else pure (v.VisitStmt ids childVisitor node final)
  | .caseClause p list body => do
    let childVisitor := { childVisitor with stmtBuf := some [] }
    let (childVisitor, _) ← walkList W.stmt childVisitor body
    let body := childVisitor.stmtBuf.getD []
    let body :=
      if list.length = 0 ∨ !v.parentIsExprSwitch then
        [newLineCall ids v.scopeVar (pos2line p)] ++ body
      else body
    let i : Stmt := .caseClause p list body
    let v :=
      if v.stmtBuf.isSome then
        (if v.parentIsExprSwitch ∧ list.length > 0 then
          v.append [.caseClause NoPos
            [.callExpr (newCall ids.godebug "Case"
              [newIdentExpr ids.ctx, newIdentExpr v.scopeVar, newInt (pos2line p)])] []]
        else v).append [i]
      else v
    pure ⟨v, none, i⟩
  | .selectStmt p _ =>
    pure ⟨v.append
      [newCallStmt ids.godebug "Select"
        [newIdentExpr ids.ctx, newIdentExpr v.scopeVar, newInt (pos2line p)], final],
      some childVisitor, node⟩
  | .commClause p comm body => do
    let v :=
      if comm.isSome then
        v.append [newReceiveCase (.callExpr (newCall ids.godebug "Comm"
          [newIdentExpr ids.ctx, newIdentExpr ids.scope, newInt (pos2line p)]))]
      else v
    let (childVisitor, comm') ← walkOption W.visit childVisitor comm
    let childVisitor := { childVisitor with stmtBuf := some [] }
    let newIdents := newIdentsInSimpleStmt comm
    let childVisitor :=
      if newIdents.length > 0 then
        let c := childVisitor.createScope ids
        c.append [newDeclareCall ids c.scopeVar newIdents]
      else childVisitor
    let (childVisitor, _) ← walkList W.visit childVisitor body
    let i : Stmt := .commClause p comm'
      ([newLineCall ids ids.scope (pos2line p)] ++ childVisitor.stmtBuf.getD [])
    pure ⟨v.append [i], none, i⟩
  | _ => pure (v.VisitStmt ids childVisitor node final)

/-- The method `finalizeNode` of a visitor whose context is the statement `node`: the
statement afterwards. -/
def visitor.finalizeNode (ids : Idents) (v : visitor) (node : Stmt) : Stmt :=
  match node with
  | .blockStmt i => .blockStmt (.mk i.Lbrace (v.stmtBuf.getD []))
  | .ifStmt p init cond body els =>
    match els with
    | some (.blockStmt blk) =>
      .ifStmt p init cond body (some (.blockStmt (.mk blk.Lbrace
        ([newLineCall ids v.scopeVar (pos2line blk.Lbrace)] ++ blk.List_))))
    | some (.ifStmt p' init' cond' body' els') =>
      let list : List Stmt := match init' with
        | some init' =>
          [newCallStmt ids.godebug "ElseIfSimpleStmt"
            [newIdentExpr ids.ctx, newIdentExpr ids.scope, newInt (pos2line init'.Pos)], init']
        | none => []
      let list := list ++
        [newCallStmt ids.godebug "ElseIfExpr"
          [newIdentExpr ids.ctx, newIdentExpr ids.scope, newInt (pos2line cond'.Pos)],
         .ifStmt p' none cond' body' els']
      .ifStmt p init cond body (some (.blockStmt (.mk NoPos list)))
    | _ => node
  | .rangeStmt p key value tok x body =>
    .rangeStmt p key value tok x (v.finalizeLoop ids p body)
  | .forStmt p init cond post body =>
    .forStmt p init cond post (v.finalizeLoop ids p body)
  | .selectStmt p body =>
    .selectStmt p (.mk body.Lbrace (body.List_ ++
      [newReceiveCase (.callExpr (newCall ids.godebug "EndSelect"
        [newIdentExpr ids.ctx, newIdentExpr ids.scope]))]))
  | _ => node

/-! ## The walk (`ast.Walk` driven by the visitor)

`ast.Walk(v, node)` calls `v.Visit(node)`; unless that returns nil it walks the children
of `node`, in the order of the fields, with the visitor returned, and ends with a call
`Visit(nil)` on that visitor, which runs `finalizeNode`.  The functions below follow it for
the visitor of `gen.go`, one level at a time: the walks of the expressions and statements
one level down are taken from a `Walkers`.  Each yields the receiver and the node as the
walk leaves them. -/

/-- Method `Pos` of `*ast.ImportSpec`. -/
def ImportSpec.Pos (s : ImportSpec) : Pos :=
  match s.Name with
  | some name => name.NamePos
  | none => s.PathPos

/-- `ast.Walk` on an identifier: `Visit`, no children, `finalizeNode` (which does nothing
for an identifier). -/
def walkIdent (ids : Idents) (v : visitor) (i : Ident) : visitor :=
  (v.VisitOther ids i.NamePos).1

/-- The function `walkIdentList` of `go/ast`. -/
def walkIdentList (ids : Idents) (v : visitor) (list : List Ident) : visitor :=
  list.foldl (walkIdent ids) v

/-- `ast.Walk` on a call held in a field of type `*ast.CallExpr`, and on a call
expression: `Fun`, then `Args`. -/
def walkCallExpr (ids : Idents) (W : Walkers) (v : visitor) (c : CallExpr) :
    Res (visitor × CallExpr) :=
  match c with
  | .mk f args ell => do
    let (v', w) := v.VisitOther ids f.Pos
    let (w, f') ← W.expr w f
    let (_, args') ← walkList W.expr w args
    pure (v', .mk f' args' ell)

/-- `ast.Walk` on a field: the names, then the type. -/
def walkField (ids : Idents) (W : Walkers) (v : visitor) (f : Field) : Res (visitor × Field) :=
  match f with
  | .mk names t => do
    let (v', w) := v.VisitOther ids f.Pos
    let w := walkIdentList ids w names
    let (_, t') ← W.expr w t
    pure (v', .mk names t')

/-- `ast.Walk` on a field list. -/
def walkFieldList (ids : Idents) (W : Walkers) (v : visitor) (l : FieldList) :
    Res (visitor × FieldList) :=
  match l with
  | .mk opening list => do
    let (v', w) := v.VisitOther ids l.Pos
    let (_, list') ← walkList (walkField ids W) w list
    pure (v', .mk opening list')

/-- `ast.Walk` on a function type: `Params`, then `Results`, each if not nil. -/
def walkFuncType (ids : Idents) (W : Walkers) (v : visitor) (t : FuncType) :
    Res (visitor × FuncType) :=
  match t with
  | .mk p params results => do
    let (v', w) := v.VisitOther ids p
    let (w, params') ← walkOption (walkFieldList ids W) w params
    let (_, results') ← walkOption (walkFieldList ids W) w results
    pure (v', .mk p params' results')

/-- `ast.Walk` on a value spec: names, type, values. -/
def walkValueSpec (ids : Idents) (W : Walkers) (v : visitor) (s : ValueSpec) :
    Res (visitor × ValueSpec) :=
  match s with
  | .mk names t values => do
    let (v', w) := v.VisitOther ids s.Pos
    let w := walkIdentList ids w names
    let (w, t') ← walkOption W.expr w t
    let (_, values') ← walkList W.expr w values
    pure (v', .mk names t' values')

/-- `ast.Walk` on a type spec: name, then type. -/
def walkTypeSpec (ids : Idents) (W : Walkers) (v : visitor) (s : TypeSpec) :
    Res (visitor × TypeSpec) :=
  match s with
  | .mk name t => do
    let (v', w) := v.VisitOther ids s.Pos
    let w := walkIdent ids w name
    let (_, t') ← W.expr w t
    pure (v', .mk name t')

/-- `ast.Walk` on an import spec: the name, if any, and the path literal; neither has
children. -/
def walkImportSpec (ids : Idents) (v : visitor) (s : ImportSpec) : visitor :=
  (v.VisitOther ids s.Pos).1

/-- `ast.Walk` on a general declaration: its specs in order. -/
def walkGenDecl (ids : Idents) (W : Walkers) (v : visitor) (d : GenDecl) :
    Res (visitor × GenDecl) :=
  match d with
  | .values p tok specs => do
    let (v', w) := v.VisitOther ids p
    let (_, specs') ← walkList (walkValueSpec ids W) w specs
    pure (v', .values p tok specs')
  | .types p specs => do
    let (v', w) := v.VisitOther ids p
    let (_, specs') ← walkList (walkTypeSpec ids W) w specs
    pure (v', .types p specs')
  | .imports p specs => pure ((v.VisitOther ids p).1, .imports p specs)

/-- `ast.Walk` on a block held in a field of type `*ast.BlockStmt`: `Visit`, the
statements, `finalizeNode`, which replaces the list of the block by the buffer of the
visitor `Visit` returned. -/
def walkBlockStmt (ids : Idents) (W : Walkers) (v : visitor) (b : BlockStmt) :
    Res (visitor × BlockStmt) := do
  let childVisitor := (v.VisitBlockStmt ids b (.blockStmt b)).2
  let (childVisitor, _) ← walkList W.stmt childVisitor b.List_
  let b' : BlockStmt := .mk b.Lbrace (childVisitor.stmtBuf.getD [])
  pure ((v.VisitBlockStmt ids b (.blockStmt b')).1, b')

/-- The case `*ast.FuncLit` of `Visit`: the visitor returned and the body as
`rewriteRecoversIn` leaves it.  The receiver is not changed. -/
def visitor.VisitFuncLit (v : visitor) (t : FuncType) (body : BlockStmt) :
    Res (visitor × BlockStmt) := do
  let (body', hasRecovers) ← rewriteRecoversIn body
  pure ({ v.newChild .other with
    blockVars := getIdents [t.Params, t.Results], hasRecovers := hasRecovers }, body')

/-- The case `*ast.FuncLit` of `finalizeNode`: the body of the literal afterwards. -/
def visitor.finalizeFuncLit (ids : Idents) (v : visitor) (t : FuncType) (body : BlockStmt) :
    Res BlockStmt := do
  let body ← genEnterFuncLit ids t body v.hasRecovers
  pure (if v.hasRecovers then rewriteFnWithRecovers ids body else body)

/-- The children of an expression other than a function literal, walked with the visitor
`w` that `Visit` returned: the expression afterwards. -/
def walkExprChildren (ids : Idents) (W : Walkers) (w : visitor) (e : Expr) : Res Expr :=
  match e with
  | .ident i => pure (.ident i)
  | .basicLit p k val => pure (.basicLit p k val)
  | .callExpr (.mk f args ell) => do
    let (w, f') ← W.expr w f
    let (_, args') ← walkList W.expr w args
    pure (.callExpr (.mk f' args' ell))
  | .selectorExpr x sel => do
    let (w, x') ← W.expr w x
    let _ := walkIdent ids w sel
    pure (.selectorExpr x' sel)
  | .unaryExpr p op x => do
    let (_, x') ← W.expr w x
    pure (.unaryExpr p op x')
  | .binaryExpr x op y => do
    let (w, x') ← W.expr w x
    let (_, y') ← W.expr w y
    pure (.binaryExpr x' op y')
  | .parenExpr p x => do
    let (_, x') ← W.expr w x
    pure (.parenExpr p x')
  | .starExpr p x => do
    let (_, x') ← W.expr w x
    pure (.starExpr p x')
  | .indexExpr x i => do
    let (w, x') ← W.expr w x
    let (_, i') ← W.expr w i
    pure (.indexExpr x' i')
  | .typeAssertExpr x t => do
    let (w, x') ← W.expr w x
    let (_, t') ← walkOption W.expr w t
    pure (.typeAssertExpr x' t')
  | .funcLit t b => do
    let (w, t') ← walkFuncType ids W w t
    let (_, b') ← walkBlockStmt ids W w b
    pure (.funcLit t' b')
  | .ellipsis p elt => do
    let (_, elt') ← walkOption W.expr w elt
    pure (.ellipsis p elt')
  | .funcType (.mk p params results) => do
    let (w, params') ← walkOption (walkFieldList ids W) w params
    let (_, results') ← walkOption (walkFieldList ids W) w results
    pure (.funcType (.mk p params' results'))
  | .structType p fields => do
    let (_, fields') ← walkFieldList ids W w fields
    pure (.structType p fields')
  | .interfaceType p methods => do
    let (_, methods') ← walkFieldList ids W w methods
    pure (.interfaceType p methods')
  | .chanType p x => do
    let (_, x') ← W.expr w x
    pure (.chanType p x')

/-- `ast.Walk(v, e)` on an expression.  A function literal: `Visit` rewrites the calls of
`recover` in its body, the type and the body are walked, `finalizeNode` wraps the body. -/
def walkExpr (ids : Idents) (W : Walkers) (v : visitor) (e : Expr) : Res (visitor × Expr) :=
  match e with
  | .funcLit t b => do
    let (w, b) ← v.VisitFuncLit t b
    let (w, t') ← walkFuncType ids W w t
    let (w, b') ← walkBlockStmt ids W w b
    let body ← w.finalizeFuncLit ids t' b'
    pure (v, .funcLit t' body)
  | _ => do
    let (v', w) := v.VisitOther ids e.Pos
    let e' ← walkExprChildren ids W w e
    pure (v', e')

/-- The children of a statement, walked with the visitor `w` that `Visit` returned: `w` and
the statement afterwards. -/
def walkStmtChildren (ids : Idents) (W : Walkers) (w : visitor) (s : Stmt) :
    Res (visitor × Stmt) :=
  match s with
  | .exprStmt x => do
    let (w, x') ← W.expr w x
    pure (w, .exprStmt x')
  | .assignStmt lhs tok rhs => do
    let (w, lhs') ← walkList W.expr w lhs
    let (w, rhs') ← walkList W.expr w rhs
    pure (w, .assignStmt lhs' tok rhs')
  | .declStmt d => do
    let (w, d') ← walkGenDecl ids W w d
    pure (w, .declStmt d')
  | .blockStmt (.mk p list) => do
    let (w, list') ← walkList W.stmt w list
    pure (w, .blockStmt (.mk p list'))
  | .ifStmt p init cond body els => do
    let (w, init') ← walkOption W.stmt w init
    let (w, cond') ← W.expr w cond
    let (w, body') ← walkBlockStmt ids W w body
    let (w, els') ← walkOption W.stmt w els
    pure (w, .ifStmt p init' cond' body' els')
  | .forStmt p init cond post body => do
    let (w, init') ← walkOption W.stmt w init
    let (w, cond') ← walkOption W.expr w cond
    let (w, post') ← walkOption W.stmt w post
    let (w, body') ← walkBlockStmt ids W w body
    pure (w, .forStmt p init' cond' post' body')
  | .rangeStmt p key value tok x body => do
    let (w, key') ← walkOption W.expr w key
    let (w, value') ← walkOption W.expr w value
    let (w, x') ← W.expr w x
    let (w, body') ← walkBlockStmt ids W w body
    pure (w, .rangeStmt p key' value' tok x' body')
  | .switchStmt p init tag body => do
    let (w, init') ← walkOption W.stmt w init
    let (w, tag') ← walkOption W.expr w tag
    let (w, body') ← walkBlockStmt ids W w body
    pure (w, .switchStmt p init' tag' body')
  | .typeSwitchStmt p init assign body => do
    let (w, init') ← walkOption W.stmt w init
    let (w, assign') ← W.stmt w assign
    let (w, body') ← walkBlockStmt ids W w body
    pure (w, .typeSwitchStmt p init' assign' body')
  | .caseClause p list body => do
    let (w, list') ← walkList W.expr w list
    let (w, body') ← walkList W.stmt w body
    pure (w, .caseClause p list' body')
  | .selectStmt p body => do
    let (w, body') ← walkBlockStmt ids W w body
    pure (w, .selectStmt p body')
  | .commClause p comm body => do
    let (w, comm') ← walkOption W.stmt w comm
    let (w, body') ← walkList W.stmt w body
    pure (w, .commClause p comm' body')
  | .labeledStmt label stmt => do
    let w := walkIdent ids w label
    let (w, stmt') ← W.stmt w stmt
    pure (w, .labeledStmt label stmt')
  | .deferStmt p call => do
    let (w, call') ← walkCallExpr ids W w call
    pure (w, .deferStmt p call')
  | .goStmt p call => do
    let (w, call') ← walkCallExpr ids W w call
    pure (w, .goStmt p call')
  | .returnStmt p results => do
    let (w, results') ← walkList W.expr w results
    pure (w, .returnStmt p results')
  | .incDecStmt x tok => do
    let (w, x') ← W.expr w x
    pure (w, .incDecStmt x' tok)
  | .sendStmt c val => do
    let (w, c') ← W.expr w c
    let (w, val') ← W.expr w val
    pure (w, .sendStmt c' val')
  | .branchStmt p tok label =>
    pure ((match label with | some l => walkIdent ids w l | none => w), .branchStmt p tok label)
  | .emptyStmt p => pure (w, .emptyStmt p)

/-- `ast.Walk(v, s)` on a statement: `Visit`; unless it returns nil, the children and
`finalizeNode`.  The second call of `Visit` is the first one again, now with the statement
as the walk leaves it, so that the buffer holds that statement. -/
def walkStmt (ids : Idents) (W : Walkers) (v : visitor) (s : Stmt) : Res (visitor × Stmt) := do
  let r ← v.Visit ids W s s
  match r.child with
  | none => pure (r.v, r.node)
  | some w => do
    let (w, s') ← walkStmtChildren ids W w r.node
    let final := w.finalizeNode ids s'
    let r ← v.Visit ids W s final
    pure (r.v, final)

/-- A call `v.Visit(s)` on a statement that is not walked (the statements of a
communication clause): the receiver and the statement afterwards. -/
def visitOnly (ids : Idents) (W : Walkers) (v : visitor) (s : Stmt) : Res (visitor × Stmt) := do
  let r ← v.Visit ids W s s
  match r.child with
  | none => pure (r.v, r.node)
  | some _ => do
    let r' ← v.Visit ids W s r.node
    pure (r'.v, r.node)

/-- The walks to a given depth of nesting of expressions and statements; at depth `0`
nothing is walked. -/
def walkers (ids : Idents) : Nat → Walkers
  | 0 =>
    { expr := fun _ _ => .error .fuel,
      stmt := fun _ _ => .error .fuel,
      visit := fun _ _ => .error .fuel }
  | fuel + 1 =>
    { expr := walkExpr ids (walkers ids fuel),
      stmt := walkStmt ids (walkers ids fuel),
      visit := visitOnly ids (walkers ids fuel) }

/-! ### Function declarations and files -/

/-- The case `*ast.FuncDecl` of `Visit`: the visitor returned (nil is `none`) and the
declaration as `Visit` leaves it.  The receiver is not changed. -/
def visitor.VisitFuncDecl (v : visitor) (i : FuncDecl) : Res (Option visitor × FuncDecl) :=
  match i.Body with
  | none => pure (none, i)
  | some body =>
    if (i.Name.Name = "init" ∧ i.Recv.isNone) ∨ body.List_.length = 0 then pure (none, i)
    else do
      let (body', hasRecovers) ← rewriteRecoversIn body
      pure (some { v.newChild .other with
          blockVars := getIdents [i.Recv, i.Type_.Params, i.Type_.Results],
          hasRecovers := hasRecovers },
        { i with Body := some body' })

/-- The case `*ast.FuncDecl` of `finalizeNode`: the declaration afterwards; `pkgName` is
`pkg.Name()`. -/
def visitor.finalizeFuncDecl (ids : Idents) (pkgName : String) (v : visitor) (i : FuncDecl) :
    Res FuncDecl :=
  match i.Body with
  | none => pure i
  | some body =>
    if v.hasRecovers then do
      let body ← genEnterFuncLit ids i.Type_ body true
      pure { i with Body := some (rewriteFnWithRecovers ids body) }
    else do
      let (declOuts, outputs) := inputsOrOutputs i.Type_.Results ids.result
      let (declIns, inputs) := inputsOrOutputs i.Type_.Params ids.input
      let prepend := declIns ++ declOuts
      let enter ← genEnterFunc ids i inputs outputs
      let prepend := prepend ++ enter
      let prepend :=
        if !(pkgName == "main" && i.Name.Name == "main") then
          prepend ++ [astDeferExitFunc ids]
        else prepend
      pure { i with Body := some (.mk body.Lbrace (prepend ++ body.List_)) }

/-- `ast.Walk(v, d)` on a function declaration: `Visit`; unless it returns nil, receiver,
name, type and body, then `finalizeNode`. -/
def walkFuncDecl (ids : Idents) (pkgName : String) (W : Walkers) (v : visitor) (d : FuncDecl) :
    Res (visitor × FuncDecl) := do
  let (child, d) ← v.VisitFuncDecl d
  match child with
  | none => pure (v, d)
  | some w => do
    let (w, recv') ← walkOption (walkFieldList ids W) w d.Recv
    let w := walkIdent ids w d.Name
    let (w, type') ← walkFuncType ids W w d.Type_
    let (w, body') ← walkOption (walkBlockStmt ids W) w d.Body
    let d' ← w.finalizeFuncDecl ids pkgName
      { Recv := recv', Name := d.Name, Type_ := type', Body := body' }
    pure (v, d')

/-- `ast.Walk(v, d)` on a declaration. -/
def walkDecl (ids : Idents) (pkgName : String) (W : Walkers) (v : visitor) (d : Decl) :
    Res (visitor × Decl) :=
  match d with
  | .genDecl g => do
    let (v, g') ← walkGenDecl ids W v g
    pure (v, .genDecl g')
  | .funcDecl f => do
    let (v, f') ← walkFuncDecl ids pkgName W v f
    pure (v, .funcDecl f')

/-- Whether a declaration is an import declaration. -/
def Decl.isImport : Decl → Bool
  | .genDecl (.imports _ _) => true
  | _ => false

/-- The case `*ast.File` of `finalizeNode`: the declarations afterwards, with the
declaration of the file-level scope variable after the leading import declarations. -/
def finalizeFile (ids : Idents) (decls : List Decl) : List Decl :=
  decls.takeWhile Decl.isImport ++
    [.genDecl (.values NoPos .VAR
      [.mk [NewIdent ids.fileScope] none
        [.callExpr (newCall ids.godebug "EnteringNewScope" [newIdentExpr ids.fileContents])]])] ++
    decls.dropWhile Decl.isImport

/-- The walk of a file in `generate`: `ast.Walk(&visitor{context: f, scopeVar:
idents.fileScope}, f)`, to the given depth of nesting. -/
def walkFile (ids : Idents) (pkgName : String) (fuel : Nat) (f : File) : Res File := do
  let v : visitor :=
    { context := .other, stmtBuf := none, scopeVar := ids.fileScope, blockVars := [],
      createdExplicitScope := false, hasRecovers := false, parentIsExprSwitch := false,
      newIdents := [] }
  let w := walkIdent ids (v.newChild .other) f.Name
  let (_, decls) ← walkList (walkDecl ids pkgName (walkers ids fuel)) w f.Decls
  pure { f with Decls := finalizeFile ids decls }

/-! ## Notions used to state the properties -/

/-- The condition under which the case `*ast.FuncDecl` of `Visit` returns nil, in the words
of the specification: the body is absent or has no statement, or the function is the
receiver-less function `init`. -/
def FuncDecl.exempt (d : FuncDecl) : Prop :=
  d.Body = none ∨ (∃ b, d.Body = some b ∧ b.List_ = []) ∨ (d.Name.Name = "init" ∧ d.Recv = none)

/-- The receiver `r` of a statement of the form `r.Declare(...)`. -/
def declareReceiver : Stmt → Option String
  | .exprStmt (.callExpr (.mk (.selectorExpr (.ident x) sel) _ _)) =>
    if sel.Name = "Declare" then some x.Name else none
  | _ => none

/-- The handle `h` of a statement of the form `h := p.EnteringNewChildScope()`. -/
def scopeCreationHandle : Stmt → Option String
  | .assignStmt [.ident h] .DEFINE [.callExpr (.mk (.selectorExpr (.ident _) sel) [] _)] =>
    if sel.Name = "EnteringNewChildScope" then some h.Name else none
  | _ => none

/-- Whether a statement makes `Visit` emit a `Declare` call after it: a declaration or
short variable declaration that introduces at least one new identifier. -/
def declaresNew (s : Stmt) : Bool := decide ((declaredIdents s).length > 0)

/-- The statements to which `Visit` gives a `Line` marker of their own and which it then
copies: every statement but a nested block, a `select`, a `switch` whose initializer
introduces bindings, a loop whose header introduces bindings, a trace-start call, and the
clauses of a `switch` or `select` (which `go/ast` lists as the statements of the body). -/
def lineMarked (ids : Idents) : Stmt → Bool
  | .blockStmt _ => false
  | .selectStmt _ _ => false
  | .caseClause _ _ _ => false
  | .commClause _ _ _ => false
  | .switchStmt _ init _ _ => decide ((newIdentsInSimpleStmt init).length = 0)
  | .forStmt _ init _ _ _ => decide ((newIdentsInSimpleStmt init).length = 0)
  | .rangeStmt _ key value tok _ _ => decide ((newIdentsInRange key value tok).length = 0)
  | s => !isSetTraceCall ids s

/-- The marker clause `case godebug.Case(ctx, scope, line):` that `Visit` puts before a
clause of a value switch. -/
def newCaseMarker (ids : Idents) (scopeVar : String) (line : Nat) : Stmt :=
  .caseClause NoPos
    [.callExpr (newCall ids.godebug "Case"
      [newIdentExpr ids.ctx, newIdentExpr scopeVar, newInt line])] []

/-- What a call of `Visit` on the statement `s` appends to the buffer of its receiver `v`
before the statement. -/
def emittedBefore (ids : Idents) (v : visitor) (s : Stmt) : List Stmt :=
  match s with
  | .blockStmt b =>
    if stopAtBlockIn v.context then [newLineCall ids v.scopeVar (pos2line b.Lbrace)] else []
  | .caseClause p list _ =>
    if v.parentIsExprSwitch ∧ list.length > 0 then [newCaseMarker ids v.scopeVar (pos2line p)]
    else []
  | .selectStmt p _ =>
    [newCallStmt ids.godebug "Select"
      [newIdentExpr ids.ctx, newIdentExpr v.scopeVar, newInt (pos2line p)]]
  | .commClause p comm _ =>
    if comm.isSome then
      [newReceiveCase (.callExpr (newCall ids.godebug "Comm"
        [newIdentExpr ids.ctx, newIdentExpr ids.scope, newInt (pos2line p)]))]
    else []
  | .switchStmt _ init _ _ =>
    if (newIdentsInSimpleStmt init).length > 0 then []
    else [newLineCall ids v.scopeVar (pos2line s.Pos)]
  | _ =>
    if (loopIdents s).length > 0 then []
    else if isSetTraceCall ids s then []
    else [newLineCall ids v.scopeVar (pos2line s.Pos)]

/-- The entry of the buffer that holds the statement: the statement `s'` itself, or the
block `Visit` wraps it in. -/
def placed (ids : Idents) (v : visitor) (s s' : Stmt) : Stmt :=
  match s with
  | .switchStmt _ init _ _ =>
    if (newIdentsInSimpleStmt init).length > 0 then
      v.wrapSwitch ids s' (newIdentsInSimpleStmt init)
    else s'
  | .forStmt _ _ _ _ _ => if (loopIdents s).length > 0 then v.wrapLoop ids s' else s'
  | .rangeStmt _ _ _ _ _ _ => if (loopIdents s).length > 0 then v.wrapLoop ids s' else s'
  | _ => s'

/-- What a call of `Visit` on the statement `s` appends to the buffer of its receiver `v`
after the statement. -/
def emittedAfter (ids : Idents) (v : visitor) (s : Stmt) : List Stmt :=
  match s with
  | .declStmt _ | .assignStmt _ _ _ =>
    if (declaredIdents s).length > 0 then
      (if v.createdExplicitScope then []
        else [newScopeAssign ids.scope (if v.scopeVar = "" then ids.scope else v.scopeVar)]) ++
        [newDeclareCall ids "" (declaredIdents s)]
    else []
  | .deferStmt p _ => [astDeferDefer ids v.scopeVar (pos2lineString p)]
  | _ => []

/-- The clause statements: on these `Visit` returns nil and rewrites the clause itself. -/
def isClause : Stmt → Bool
  | .caseClause _ _ _ => true
  | .commClause _ _ _ => true
  | _ => false

/-- The fields of a visitor that no call of `Visit` on it changes. -/
def visitor.sameFrame (v v' : visitor) : Prop :=
  v'.context = v.context ∧ v'.blockVars = v.blockVars ∧ v'.hasRecovers = v.hasRecovers ∧
    v'.parentIsExprSwitch = v.parentIsExprSwitch ∧ v'.newIdents = v.newIdents

/-- A statement that is neither a `Declare` call nor a scope-creation assignment. -/
def neutral (s : Stmt) : Prop :=
  declareReceiver s = none ∧ scopeCreationHandle s = none

/-- Every `Declare` call of the list comes after an assignment of the list that creates a
scope and assigns it to the name the call is made on. -/
def scopeOrdered (l : List Stmt) : Prop :=
  ∀ (pre : List Stmt) (d : Stmt) (post : List Stmt) (recv : String),
    l = pre ++ d :: post → declareReceiver d = some recv →
      ∃ a ∈ pre, scopeCreationHandle a = some recv

/-- The number of scope-creation assignments in a list. -/
def scopeCreations (l : List Stmt) : Nat :=
  l.countP (fun s => (scopeCreationHandle s).isSome)

/-- The invariant of the buffer of a visitor that walks the statements of a block. -/
def scopeInvariant (ids : Idents) (created : Bool) (buf : List Stmt) : Prop :=
  scopeOrdered buf ∧ scopeCreations buf = (if created then 1 else 0) ∧
    (created = true → ∃ a ∈ buf, scopeCreationHandle a = some ids.scope)

/-- The simple statements of the Go grammar, as far as the tree has them: the parser puts
no other statement in the `Init` or `Post` field of a `for` statement. -/
def isSimpleStmt : Stmt → Bool
  | .exprStmt _ => true
  | .assignStmt _ _ _ => true
  | .incDecStmt _ _ => true
  | .sendStmt _ _ => true
  | .emptyStmt _ => true
  | _ => false

/-- Names as `generateGodebugIdentifiers` chooses them for a file `f.go` that uses none of
them. -/
def exampleIdents : Idents :=
  { ctx := "ctx", ok := "ok", scope := "scope", receiver := "receiver",
    fileScope := "f_go_scope", fileContents := "f_go_contents", godebug := "godebug",
    result := "result", input := "input" }

/-- The visitor `generate` starts the walk of the file `f.go` with. -/
def rootVisitor : visitor :=
  { context := .other, stmtBuf := none, scopeVar := "f_go_scope", blockVars := [],
    createdExplicitScope := false, hasRecovers := false, parentIsExprSwitch := false,
    newIdents := [] }

/-- A visitor that builds the statement list of a block, with nothing in it yet. -/
def listVisitor : visitor :=
  { context := .blockStmt, stmtBuf := some [], scopeVar := "f_go_scope", blockVars := [],
    createdExplicitScope := false, hasRecovers := false, parentIsExprSwitch := false,
    newIdents := [] }

/-- The statement `f()` on the given line. -/
def callF (line : Pos) : Stmt :=
  .exprStmt (.callExpr (.mk (.ident ⟨line, "f", false, false⟩) [] false))

/-- The statement `name := 0` on the given line, `name` being new. -/
def defineZero (name : String) (line : Pos) : Stmt :=
  .assignStmt [.ident ⟨line, name, true, false⟩] .DEFINE [.basicLit line .INT "0"]

/-- The declaration `func (t T) main() { f() }`, the body on line 2. -/
def methodMain : FuncDecl :=
  { Recv := some (.mk 1 [.mk [⟨1, "t", true, false⟩] (.ident ⟨1, "T", false, false⟩)]),
    Name := ⟨1, "main", true, false⟩,
    Type_ := .mk 1 (some (.mk 1 [])) none,
    Body := some (.mk 1 [callF 2]) }

/-- The declaration `func init() { f() }`. -/
def funcInit : FuncDecl :=
  { Recv := none,
    Name := ⟨1, "init", true, false⟩,
    Type_ := .mk 1 (some (.mk 1 [])) none,
    Body := some (.mk 1 [callF 2]) }

/-- The declaration `func (t T) init() { f() }`. -/
def methodInit : FuncDecl :=
  { Recv := some (.mk 1 [.mk [⟨1, "t", true, false⟩] (.ident ⟨1, "T", false, false⟩)]),
    Name := ⟨1, "init", true, false⟩,
    Type_ := .mk 1 (some (.mk 1 [])) none,
    Body := some (.mk 1 [callF 2]) }

/-- The type switch `switch y.(type) { case int: }` on line 3, its clause on line 4. -/
def typeSwitch : Stmt :=
  .typeSwitchStmt 3 none (.exprStmt (.typeAssertExpr (.ident ⟨3, "y", false, false⟩) none))
    (.mk 3 [.caseClause 4 [.ident ⟨4, "int", false, false⟩] []])

/-- The switch `switch x { case 1: switch y.(type) { case int: } }` on line 1, its clause
on line 2. -/
def switchWithTypeSwitch : Stmt :=
  .switchStmt 1 none (some (.ident ⟨1, "x", false, false⟩))
    (.mk 1 [.caseClause 2 [.basicLit 2 .INT "1"] [typeSwitch]])

/-- The block `{ f(); x := 0; f(); y := 0 }`, a statement a line from line 2 on. -/
def exampleBlock : BlockStmt :=
  .mk 1 [callF 2, defineZero "x" 3, callF 4, defineZero "y" 5]

/-! ## Trees that a walk of a given depth goes through

`x.fits n` says that the tree `x` holds no function literal and that its expressions and
statements are nested at most `n` deep: the walk of depth `n` reaches every node of it.
(The walk of a function literal rewrites the calls of `recover` in its body first, which
can fail.) -/

mutual
/-- An expression without function literal, nested at most `n` deep. -/
def Expr.fits : Expr → Nat → Bool
  | .ident _, n => decide (0 < n)
  | .basicLit _ _ _, n => decide (0 < n)
  | .callExpr c, n => decide (0 < n) && c.fits (n - 1)
  | .selectorExpr x _, n => decide (0 < n) && x.fits (n - 1)
  | .unaryExpr _ _ x, n => decide (0 < n) && x.fits (n - 1)
  | .binaryExpr x _ y, n => decide (0 < n) && (x.fits (n - 1) && y.fits (n - 1))
  | .parenExpr _ x, n => decide (0 < n) && x.fits (n - 1)
  | .starExpr _ x, n => decide (0 < n) && x.fits (n - 1)
  | .indexExpr x i, n => decide (0 < n) && (x.fits (n - 1) && i.fits (n - 1))
  | .typeAssertExpr x t, n =>
    decide (0 < n) && (x.fits (n - 1) && (match t with | some t => t.fits (n - 1) | none => true))
  | .funcLit _ _, _ => false
  | .ellipsis _ elt, n =>
    decide (0 < n) && (match elt with | some t => t.fits (n - 1) | none => true)
  | .funcType t, n => decide (0 < n) && t.fits (n - 1)
  | .structType _ fields, n => decide (0 < n) && fields.fits (n - 1)
  | .interfaceType _ methods, n => decide (0 < n) && methods.fits (n - 1)
  | .chanType _ x, n => decide (0 < n) && x.fits (n - 1)
/-- A list of expressions that fit. -/
def Expr.fitsList : List Expr → Nat → Bool
  | [], _ => true
  | e :: es, n => e.fits n && Expr.fitsList es n
/-- A call whose function and arguments fit. -/
def CallExpr.fits : CallExpr → Nat → Bool
  | .mk f args _, n => f.fits n && Expr.fitsList args n
/-- A function type whose parameters and results fit. -/
def FuncType.fits : FuncType → Nat → Bool
  | .mk _ params results, n =>
    (match params with | some l => l.fits n | none => true) &&
      (match results with | some l => l.fits n | none => true)
/-- A field list whose fields fit. -/
def FieldList.fits : FieldList → Nat → Bool
  | .mk _ l, n => Field.fitsList l n
/-- A list of fields that fit. -/
def Field.fitsList : List Field → Nat → Bool
  | [], _ => true
  | f :: fs, n => f.fits n && Field.fitsList fs n
/-- A field whose type fits. -/
def Field.fits : Field → Nat → Bool
  | .mk _ t, n => t.fits n
/-- A block whose statements fit. -/
def BlockStmt.fits : BlockStmt → Nat → Bool
  | .mk _ l, n => Stmt.fitsList l n
/-- A list of statements that fit. -/
def Stmt.fitsList : List Stmt → Nat → Bool
  | [], _ => true
  | s :: ss, n => s.fits n && Stmt.fitsList ss n
/-- A statement without function literal, nested at most `n` deep. -/
def Stmt.fits : Stmt → Nat → Bool
  | .exprStmt x, n => decide (0 < n) && x.fits (n - 1)
  | .assignStmt lhs _ rhs, n =>
    decide (0 < n) && (Expr.fitsList lhs (n - 1) && Expr.fitsList rhs (n - 1))
  | .declStmt d, n => decide (0 < n) && d.fits (n - 1)
  | .blockStmt b, n => decide (0 < n) && b.fits (n - 1)
  | .ifStmt _ init cond body els, n =>
    decide (0 < n) && ((match init with | some s => s.fits (n - 1) | none => true) &&
      (cond.fits (n - 1) && (body.fits (n - 1) &&
        (match els with | some s => s.fits (n - 1) | none => true))))
  | .forStmt _ init cond post body, n =>
    decide (0 < n) && ((match init with | some s => s.fits (n - 1) | none => true) &&
      ((match cond with | some e => e.fits (n - 1) | none => true) &&
        ((match post with | some s => s.fits (n - 1) | none => true) && body.fits (n - 1))))
  | .rangeStmt _ key value _ x body, n =>
    decide (0 < n) && ((match key with | some e => e.fits (n - 1) | none => true) &&
      ((match value with | some e => e.fits (n - 1) | none => true) &&
        (x.fits (n - 1) && body.fits (n - 1))))
  | .switchStmt _ init tag body, n =>
    decide (0 < n) && ((match init with | some s => s.fits (n - 1) | none => true) &&
      ((match tag with | some e => e.fits (n - 1) | none => true) && body.fits (n - 1)))
  | .typeSwitchStmt _ init assign body, n =>
    decide (0 < n) && ((match init with | some s => s.fits (n - 1) | none => true) &&
      (assign.fits (n - 1) && body.fits (n - 1)))
  | .caseClause _ list body, n =>
    decide (0 < n) && (Expr.fitsList list (n - 1) && Stmt.fitsList body (n - 1))
  | .selectStmt _ body, n => decide (0 < n) && body.fits (n - 1)
  | .commClause _ comm body, n =>
    decide (0 < n) && ((match comm with | some s => s.fits (n - 1) | none => true) &&
      Stmt.fitsList body (n - 1))
  | .labeledStmt _ s, n => decide (0 < n) && s.fits (n - 1)
  | .deferStmt _ c, n => decide (0 < n) && c.fits (n - 1)
  | .goStmt _ c, n => decide (0 < n) && c.fits (n - 1)
  | .returnStmt _ results, n => decide (0 < n) && Expr.fitsList results (n - 1)
  | .incDecStmt x _, n => decide (0 < n) && x.fits (n - 1)
  | .sendStmt c v, n => decide (0 < n) && (c.fits (n - 1) && v.fits (n - 1))
  | .branchStmt _ _ _, n => decide (0 < n)
  | .emptyStmt _, n => decide (0 < n)
/-- A general declaration whose specs fit. -/
def GenDecl.fits : GenDecl → Nat → Bool
  | .values _ _ specs, n => ValueSpec.fitsList specs n
  | .types _ specs, n => TypeSpec.fitsList specs n
  | .imports _ _, _ => true
/-- A list of value specs that fit. -/
def ValueSpec.fitsList : List ValueSpec → Nat → Bool
  | [], _ => true
  | s :: ss, n => s.fits n && ValueSpec.fitsList ss n
/-- A value spec whose type and values fit. -/
def ValueSpec.fits : ValueSpec → Nat → Bool
  | .mk _ t values, n =>
    (match t with | some t => t.fits n | none => true) && Expr.fitsList values n
/-- A list of type specs that fit. -/
def TypeSpec.fitsList : List TypeSpec → Nat → Bool
  | [], _ => true
  | s :: ss, n => s.fits n && TypeSpec.fitsList ss n
/-- A type spec whose type fits. -/
def TypeSpec.fits : TypeSpec → Nat → Bool
  | .mk _ t, n => t.fits n
end

/-- The walks of `W` return on every tree that fits the depth `n`. -/
def Walkers.total (W : Walkers) (n : Nat) : Prop :=
  (∀ (v : visitor) (e : Expr), e.fits n = true → ∃ r, W.expr v e = .ok r) ∧
    (∀ (v : visitor) (s : Stmt), s.fits n = true → ∃ r, W.stmt v s = .ok r) ∧
    (∀ (v : visitor) (s : Stmt), s.fits n = true → ∃ r, W.visit v s = .ok r)

/-! ## Notions used to state the properties of name synthesis and of the helpers -/

/-- The candidate that `getName` tests at its turn `k`: the base with `k` underscores in
front. -/
def underscored : Nat → String → String
  | 0, name => name
  | k + 1, name => underscored k ("_" ++ name)

/-- The slots of a field of a parameter or result list: its names, or one unnamed slot. -/
def fieldSlots (f : Field) : List Ident :=
  if f.Names = [] then [blank] else f.Names

/-- The expression for the slot at position `k` (counted from 1 over the whole list), in the
words of the specification: the name of the slot, or for an unnamed or blank slot the
identifier made of the prefix and the decimal `k`. -/
def slotExpr (pre : String) (k : Nat) (name : Ident) : Expr :=
  if name.Name = "_" then .ident (NewIdent (pre ++ toString k)) else .ident name

/-- The expressions for slots that start at position `start`. -/
def slotExprs (pre : String) (start : Nat) (names : List Ident) : List Expr :=
  (names.enumFrom start).map (fun p => slotExpr pre p.1 p.2)

/-- The names synthesized for the unnamed and blank ones of slots that start at position
`start`. -/
def synthesized (pre : String) (start : Nat) (names : List Ident) : List Ident :=
  (names.enumFrom start).filterMap
    (fun p => if p.2.Name = "_" then some (NewIdent (pre ++ toString p.1)) else none)

/-- The declarations for fields whose slots start at position `start`, in the words of the
specification: one `var` declaration, of the type of the field, for each field that has
synthesized names. -/
def slotDecls (pre : String) : Nat → List Field → List Stmt
  | _, [] => []
  | start, f :: fs =>
    (if (synthesized pre start (fieldSlots f)).length > 0 then
      [varDeclStmt (.mk (synthesized pre start (fieldSlots f)) (some f.Type_) [])]
    else []) ++ slotDecls pre (start + (fieldSlots f).length) fs

/-- The names that a `var` declaration statement declares. -/
def varDeclNames : Stmt → List Ident
  | .declStmt (.values _ _ specs) => specs.flatMap ValueSpec.Names
  | _ => []

/-- The names a statement binds: the names of the specs of a declaration, the identifiers
on the left of an assignment, the key and the value of a `range` statement that are
identifiers, and for an `if`, `for` or `switch` statement the identifiers on the left of its
initializer. -/
def boundNames : Stmt → List Ident
  | .declStmt (.values _ _ specs) => specs.flatMap ValueSpec.Names
  | .assignStmt lhs _ _ => lhs.filterMap Expr.asIdent
  | .rangeStmt _ key value _ _ _ =>
    (key.bind Expr.asIdent).toList ++ (value.bind Expr.asIdent).toList
  | .ifStmt _ (some (.assignStmt lhs _ _)) _ _ _ => lhs.filterMap Expr.asIdent
  | .forStmt _ (some (.assignStmt lhs _ _)) _ _ _ => lhs.filterMap Expr.asIdent
  | .switchStmt _ (some (.assignStmt lhs _ _)) _ _ => lhs.filterMap Expr.asIdent
  | _ => []

/-- The new identifiers `Visit` computes for a statement: with `listNewIdentsFromDecl` for a
declaration, `listNewIdentsFromAssign` for an assignment, `newIdentsInRange` for a `range`
statement and `newIdentsInSimpleStmt` for the initializer of an `if`, `for` or `switch`
statement. -/
def stmtNewIdents : Stmt → List Ident
  | .declStmt d => listNewIdentsFromDecl d
  | .assignStmt lhs _ _ => listNewIdentsFromAssign lhs
  | .rangeStmt _ key value tok _ _ => newIdentsInRange key value tok
  | .ifStmt _ init _ _ _ => newIdentsInSimpleStmt init
  | .forStmt _ init _ _ _ => newIdentsInSimpleStmt init
  | .switchStmt _ init _ _ => newIdentsInSimpleStmt init
  | _ => []

/-! ## `rewriteRecoverCall` as it runs on the fields of the parent (gen.go 859-877)

`rewriteRecoverCall` goes through the fields of the struct behind `parent` with `reflect`
and compares what each holds with the call by identity.  Here a node is the pointer to it,
and the parent is the list of its fields. -/

/-- A node as Go holds it: a pointer. -/
abbrev Ptr := Nat

/-- A field of a node struct as `reflect` shows it: a field of pointer or interface type
with the name of its static type and the node it holds (nil: `none`); a field of slice type
with the name of the type of its elements and the nodes they hold; or a field of another
kind (position, token, string, flag), which equals no node. -/
inductive ReflectField where
  | node (typ : String) (holds : Option Ptr)
  | slice (elem : String) (elems : List (Option Ptr))
  | other
  deriving DecidableEq, Repr

/-- Whether `reflect.Value.Set` stores a `*ast.UnaryExpr` in a field or slice element of the
static type named: of the types of the fields of the `go/ast` nodes only the interface
`ast.Expr` takes it. -/
def assignableUnaryExpr (typ : String) : Bool := typ == "ast.Expr"

/-- What `reflect.Value.Set` raises otherwise. -/
def setFailure (typ : String) : Failure :=
  .panic ("reflect.Set: value of type *ast.UnaryExpr is not assignable to type " ++ typ)

/-- The inner loop of `rewriteRecoverCall`, over the elements of a slice: every element that
is the call is set to `rewritten`. -/
def rewriteRecoverElems (elem : String) (_recover rewritten : Ptr) :
    List (Option Ptr) → Res (List (Option Ptr))
  | [] => pure []
  | e :: es =>
    if e = some _recover then
      if assignableUnaryExpr elem then do
        let es' ← rewriteRecoverElems elem _recover rewritten es
        pure (some rewritten :: es')
      else throw (setFailure elem)
    else do
      let es' ← rewriteRecoverElems elem _recover rewritten es
      pure (e :: es')

/-- The loop of `rewriteRecoverCall` over the fields: a field that is the call is set to
`rewritten` and the function returns; the elements of a slice are gone through; after the
last field the function returns. -/
def rewriteRecoverFields (_recover rewritten : Ptr) :
    List ReflectField → Res (List ReflectField)
  | [] => pure []
  | .node typ holds :: fs =>
    if holds = some _recover then
      if assignableUnaryExpr typ then pure (.node typ (some rewritten) :: fs)
      else throw (setFailure typ)
    else do
      let fs' ← rewriteRecoverFields _recover rewritten fs
      pure (.node typ holds :: fs')
  | .slice elem elems :: fs => do
    let elems' ← rewriteRecoverElems elem _recover rewritten elems
    let fs' ← rewriteRecoverFields _recover rewritten fs
    pure (.slice elem elems' :: fs')
  | .other :: fs => do
    let fs' ← rewriteRecoverFields _recover rewritten fs
    pure (.other :: fs')

/-- The function `rewriteRecoverCall`: the fields of the parent afterwards.  For a nil
parent `reflect.ValueOf(parent).Elem()` panics. -/
def rewriteRecoverCall (parent : Option (List ReflectField)) (_recover rewritten : Ptr) :
    Res (List ReflectField) :=
  match parent with
  | none => throw (.panic "reflect: call of reflect.Value.Elem on zero Value")
  | some fields => rewriteRecoverFields _recover rewritten fields

/-- Whether a field, or an element of it, is the node `p`. -/
def holdsNode (p : Ptr) : ReflectField → Bool
  | .node _ holds => holds == some p
  | .slice _ elems => elems.contains (some p)
  | .other => false

/-! ## Notions used to state the properties of `select` statements -/

/-- A clause of a `select` statement as the parser builds it: a communication clause whose
`Comm` is nil (the default clause) or a simple statement (a send, a receive expression or
an assignment from a receive). -/
def isCommClause : Stmt → Bool
  | .commClause _ comm _ => comm.all isSimpleStmt
  | _ => false

/-- A clause of a `select` statement other than the default clause. -/
def isNonDefault : Stmt → Bool
  | .commClause _ comm _ => comm.isSome
  | _ => false

/-- The synthetic clause `case <-godebug.Comm(ctx, scope, line):` that `Visit` puts before a
clause of a `select` statement that is not the default clause; nothing for the default
clause. -/
def commMarker (ids : Idents) : Stmt → List Stmt
  | .commClause p (some _) _ =>
    [newReceiveCase (.callExpr (newCall ids.godebug "Comm"
      [newIdentExpr ids.ctx, newIdentExpr ids.scope, newInt (pos2line p)]))]
  | _ => []

/-- The synthetic clause `case <-godebug.EndSelect(ctx, scope):` that `finalizeNode` puts
after the clauses of a `select` statement. -/
def endSelectClause (ids : Idents) : Stmt :=
  newReceiveCase (.callExpr (newCall ids.godebug "EndSelect"
    [newIdentExpr ids.ctx, newIdentExpr ids.scope]))

/-- The clauses of a rewritten `select` statement, in the words of the specification: the
rewritten clauses `outs` in the order of the original clauses, each one whose original is
not the default clause with a `Comm` marker clause right before it. -/
def withCommMarkers (ids : Idents) : List Stmt → List Stmt → List Stmt
  | cl :: cls, out :: outs => commMarker ids cl ++ out :: withCommMarkers ids cls outs
  | _, _ => []

/-- What `Visit` puts at the head of the buffer for the body of a clause whose
communication introduces new identifiers: the creation of a child scope of the handle
`scopeVar` and the `Declare` call; nothing otherwise. -/
def commDeclare (ids : Idents) (scopeVar : String) (comm : Option Stmt) : List Stmt :=
  if (newIdentsInSimpleStmt comm).length > 0 then
    [newScopeAssign ids.scope (if scopeVar = "" then ids.scope else scopeVar),
     newDeclareCall ids ids.scope (newIdentsInSimpleStmt comm)]
  else []

/-! ## More example inputs -/

/-- The clauses `case x := <-ch: f()` and `default:` on lines 3 and 5. -/
def exampleClauses : List Stmt :=
  [.commClause 3
     (some (.assignStmt [.ident ⟨3, "x", true, false⟩] .DEFINE
       [.unaryExpr 3 .ARROW (.ident ⟨3, "ch", false, false⟩)]))
     [callF 4],
   .commClause 5 none []]

/-- The statement `select { case x := <-ch: f(); default: }` on line 2. -/
def exampleSelect : Stmt := .selectStmt 2 (.mk 2 exampleClauses)

/-- The statement `L: select { default: }` on line 2. -/
def labeledSelect : Stmt :=
  .labeledStmt ⟨2, "L", false, false⟩ (.selectStmt 2 (.mk 2 [.commClause 3 none []]))

/-- The switch `switch x := 0; x { case 1: }` on line 2, its clause on line 3. -/
def switchWithInit : Stmt :=
  .switchStmt 2 (some (defineZero "x" 2)) (some (.ident ⟨2, "x", false, false⟩))
    (.mk 2 [.caseClause 3 [.basicLit 3 .INT "1"] []])

/-! ## Example writers -/

/-- A writer that accepts every byte handed to it: it keeps them and reports their number
and no error (the contract of `io.Writer` for a write that succeeds). -/
def acceptingWriter : IOWriter (List Byte) :=
  { Write := fun seen bytes => (seen ++ bytes, (bytes.length : Int), none) }

/-- A writer that takes nothing and reports the error `msg`. -/
def failingWriter (msg : String) : IOWriter Unit :=
  { Write := fun _ _ => ((), 0, some msg) }

/-! ## Notions used to state the properties of the writer and of the substitution -/

/-- A writer that does what `io` does and keeps, next to the state of `io`, all the bytes
handed to it so far, in the order of the calls. -/
def IOWriter.recording {ω : Type} (io : IOWriter ω) : IOWriter (ω × List Byte) :=
  { Write := fun s bytes =>
      (((io.Write s.1 bytes).1, s.2 ++ bytes), (io.Write s.1 bytes).2.1, (io.Write s.1 bytes).2.2) }

/-- Whether `reflect.Value.Set` stores the substitute in the field, or in an element of it:
`assignableUnaryExpr` on the static type of the field or of its elements. -/
def ReflectField.takesExpr : ReflectField → Bool
  | .node typ _ => assignableUnaryExpr typ
  | .slice elem _ => assignableUnaryExpr elem
  | .other => true

/-- The fields of the parent after the substitution, in the words of the specification: going
through the fields in order, every slice element that is the call holds the substitute, and
so does the first field that is the call, where the substitution stops; the fields after
that one are as they were. -/
def substituted (_recover rewritten : Ptr) : List ReflectField → List ReflectField
  | [] => []
  | .node typ holds :: fs =>
    if holds = some _recover then .node typ (some rewritten) :: fs
    else .node typ holds :: substituted _recover rewritten fs
  | .slice elem elems :: fs =>
    .slice elem (elems.map (fun e => if e = some _recover then some rewritten else e)) ::
      substituted _recover rewritten fs
  | .other :: fs => .other :: substituted _recover rewritten fs

/-! ## Trees that the walk of a given depth goes through, function literals included

`x.walkable n` says that the walk of depth `n` reaches every node of `x` that it has to walk
and that no function literal on the way stops it: for a function literal the walk first
runs `rewriteRecoversIn` on the body, which has to return (it panics on `defer recover()` and
`go recover()`), and then walks the body so rewritten.  The clauses of a `switch` and of a
`select` are rewritten by `Visit` itself, which walks or visits the statements of their
bodies only. -/

/-- Whether all the field types of a field list satisfy `p`. -/
def FieldList.allTypes (l : FieldList) (p : Expr → Bool) : Bool :=
  l.List_.all (fun f => p f.Type_)

/-- Whether all the parameter and result types of a function type satisfy `p`. -/
def FuncType.allTypes (t : FuncType) (p : Expr → Bool) : Bool :=
  t.Params.all (fun l : FieldList => l.allTypes p) && t.Results.all (fun l : FieldList => l.allTypes p)

/-- Whether the type and the values of a value spec satisfy `p`. -/
def ValueSpec.allExprs (s : ValueSpec) (p : Expr → Bool) : Bool :=
  match s with
  | .mk _ t values => Option.all p t && values.all p

/-- Whether the type of a type spec satisfies `p`. -/
def TypeSpec.allExprs (s : TypeSpec) (p : Expr → Bool) : Bool :=
  match s with
  | .mk _ t => p t

/-- Whether all the types and values of the specs of a general declaration satisfy `p`. -/
def GenDecl.allExprs (d : GenDecl) (p : Expr → Bool) : Bool :=
  match d with
  | .values _ _ specs => specs.all (fun s => s.allExprs p)
  | .types _ specs => specs.all (fun s => s.allExprs p)
  | .imports _ _ => true

mutual
/-- An expression that the walk of depth `n` goes through. -/
def Expr.walkable : Expr → Nat → Bool
  | _, 0 => false
  | .ident _, _ + 1 => true
  | .basicLit _ _ _, _ + 1 => true
  | .callExpr c, n + 1 => c.Fun.walkable n && c.Args.all (fun a : Expr => a.walkable n)
  | .selectorExpr x _, n + 1 => x.walkable n
  | .unaryExpr _ _ x, n + 1 => x.walkable n
  | .binaryExpr x _ y, n + 1 => x.walkable n && y.walkable n
  | .parenExpr _ x, n + 1 => x.walkable n
  | .starExpr _ x, n + 1 => x.walkable n
  | .indexExpr x i, n + 1 => x.walkable n && i.walkable n
  | .typeAssertExpr x t, n + 1 => x.walkable n && t.all (fun e : Expr => e.walkable n)
  | .funcLit t b, n + 1 =>
    t.allTypes (fun e : Expr => e.walkable n) &&
      (match rewriteRecoversIn b with
        | .ok r => r.1.List_.all (fun s : Stmt => s.walkable n)
        | .error _ => false)
  | .ellipsis _ elt, n + 1 => elt.all (fun e : Expr => e.walkable n)
  | .funcType t, n + 1 => t.allTypes (fun e : Expr => e.walkable n)
  | .structType _ fields, n + 1 => fields.allTypes (fun e : Expr => e.walkable n)
  | .interfaceType _ methods, n + 1 => methods.allTypes (fun e : Expr => e.walkable n)
  | .chanType _ x, n + 1 => x.walkable n
/-- A statement that the walk of depth `n` goes through. -/
def Stmt.walkable : Stmt → Nat → Bool
  | _, 0 => false
  | .exprStmt x, n + 1 => x.walkable n
  | .assignStmt lhs _ rhs, n + 1 =>
    lhs.all (fun e : Expr => e.walkable n) && rhs.all (fun e : Expr => e.walkable n)
  | .declStmt d, n + 1 => d.allExprs (fun e : Expr => e.walkable n)
  | .blockStmt b, n + 1 => b.List_.all (fun s : Stmt => s.walkable n)
  | .ifStmt _ init cond body els, n + 1 =>
    init.all (fun s : Stmt => s.walkable n) && (cond.walkable n &&
      (body.List_.all (fun s : Stmt => s.walkable n) && els.all (fun s : Stmt => s.walkable n)))
  | .forStmt _ init cond post body, n + 1 =>
    init.all (fun s : Stmt => s.walkable n) && (cond.all (fun e : Expr => e.walkable n) &&
      (post.all (fun s : Stmt => s.walkable n) && body.List_.all (fun s : Stmt => s.walkable n)))
  | .rangeStmt _ key value _ x body, n + 1 =>
    key.all (fun e : Expr => e.walkable n) && (value.all (fun e : Expr => e.walkable n) &&
      (x.walkable n && body.List_.all (fun s : Stmt => s.walkable n)))
  | .switchStmt _ init tag body, n + 1 =>
    init.all (fun s : Stmt => s.walkable n) && (tag.all (fun e : Expr => e.walkable n) &&
      body.List_.all (fun s : Stmt => s.walkable n))
  | .typeSwitchStmt _ init assign body, n + 1 =>
    init.all (fun s : Stmt => s.walkable n) && (assign.walkable n &&
      body.List_.all (fun s : Stmt => s.walkable n))
  | .caseClause _ _ body, n + 1 => body.all (fun s : Stmt => s.walkable n)
  | .selectStmt _ body, n + 1 => body.List_.all (fun s : Stmt => s.walkable n)
  | .commClause _ comm body, n + 1 =>
    comm.all (fun s : Stmt => s.walkable n) && body.all (fun s : Stmt => s.walkable n)
  | .labeledStmt _ s, n + 1 => s.walkable n
  | .deferStmt _ c, n + 1 => c.Fun.walkable n && c.Args.all (fun a : Expr => a.walkable n)
  | .goStmt _ c, n + 1 => c.Fun.walkable n && c.Args.all (fun a : Expr => a.walkable n)
  | .returnStmt _ results, n + 1 => results.all (fun e : Expr => e.walkable n)
  | .incDecStmt x _, n + 1 => x.walkable n
  | .sendStmt c v, n + 1 => c.walkable n && v.walkable n
  | .branchStmt _ _ _, _ + 1 => true
  | .emptyStmt _, _ + 1 => true
end

/-- The walks of `W` return on every tree that the walk of depth `n` goes through. -/
def Walkers.returnsOn (W : Walkers) (n : Nat) : Prop :=
  (∀ (v : visitor) (e : Expr), e.walkable n = true → ∃ r, W.expr v e = .ok r) ∧
    (∀ (v : visitor) (s : Stmt), s.walkable n = true → ∃ r, W.stmt v s = .ok r) ∧
    (∀ (v : visitor) (s : Stmt), s.walkable n = true → ∃ r, W.visit v s = .ok r)

/-! ## Example inputs: statements under a clause -/

/-- The statement `select { default: }` on line 2, the clause on line 3. -/
def plainSelect : Stmt := .selectStmt 2 (.mk 2 [.commClause 3 none []])

/-- The block `{ go func() { x := 0 }() }` on line 1, the statement on line 2 and the
assignment on line 3. -/
def blockWithLiteral : BlockStmt :=
  .mk 1 [.goStmt 2 (.mk (.funcLit (.mk 2 (some (.mk 2 [])) none) (.mk 2 [defineZero "x" 3]))
    [] false)]

/-- The clause `case y: a := 0; b := 0` on line 3, the statements on lines 4 and 5. -/
def declaringClause : Stmt :=
  .caseClause 3 [.ident ⟨3, "y", false, false⟩] [defineZero "a" 4, defineZero "b" 5]

/-- The clause `case x := <-ch: a := 0` on line 3, the statement on line 4. -/
def declaringCommClause : Stmt :=
  .commClause 3
    (some (.assignStmt [.ident ⟨3, "x", true, false⟩] .DEFINE
      [.unaryExpr 3 .ARROW (.ident ⟨3, "ch", false, false⟩)]))
    [defineZero "a" 4]

/-- One call of the loop of `Write`, read against the specification's fold. -/
theorem foldl_step_spec (p : List Byte) (em acc : List Byte) (l : Bool)
    (h : l = true ↔ (em ++ acc).getLast? = some newline) :
    em ++ (p.foldl blankLineStripper.step (l, acc)).2 =
        p.foldl (fun out b => if b = newline ∧ out.getLast? = some newline then out else out ++ [b])
          (em ++ acc) ∧
      ((p.foldl blankLineStripper.step (l, acc)).1 = true ↔
        (em ++ (p.foldl blankLineStripper.step (l, acc)).2).getLast? = some newline) := by
  induction p generalizing acc l with
  | nil => exact ⟨rfl, h⟩
  | cons b p ih =>
    simp only [List.foldl_cons]
    by_cases hb : b = newline
    · by_cases hl : l = true
      · have hlast : (em ++ acc).getLast? = some newline := h.mp hl
        have hs : blankLineStripper.step (l, acc) b = (true, acc) := by
          simp [blankLineStripper.step, hb, hl]
        rw [hs, if_pos ⟨hb, hlast⟩]
        exact ih acc true (iff_of_true rfl hlast)
      · have hlast : ¬ (em ++ acc).getLast? = some newline := fun hc => hl (h.mpr hc)
        have hs : blankLineStripper.step (l, acc) b = (true, acc ++ [b]) := by
          simp [blankLineStripper.step, hb, hl]
        rw [hs, if_neg (fun hc => hlast hc.2), List.append_assoc]
        refine ih (acc ++ [b]) true (iff_of_true rfl ?_)
        rw [← List.append_assoc, List.getLast?_append, hb]; rfl
    · have hs : blankLineStripper.step (l, acc) b = (false, acc ++ [b]) := by
        simp [blankLineStripper.step, hb]
      rw [hs, if_neg (fun hc => hb hc.1), List.append_assoc]
      refine ih (acc ++ [b]) false (iff_of_false (by simp) ?_)
      rw [← List.append_assoc, List.getLast?_append]
      simpa using fun hc => hb hc

/-- A sequence of `Write` calls against the specification's fold, from any state whose flag
agrees with the bytes emitted so far. -/
theorem WriteAll_spec {ω : Type} (io : IOWriter ω) (ps : List (List Byte))
    (w : blankLineStripper ω) (em : List Byte)
    (h : w.lastWasNewline = true ↔ em.getLast? = some newline) :
    em ++ (blankLineStripper.WriteAll io w ps).2 =
      ps.flatten.foldl
        (fun out b => if b = newline ∧ out.getLast? = some newline then out else out ++ [b]) em := by
  induction ps generalizing w em with
  | nil => simp [blankLineStripper.WriteAll]
  | cons p ps ih =>
    have hp := foldl_step_spec p em [] w.lastWasNewline (by simpa using h)
    simp only [blankLineStripper.WriteAll, blankLineStripper.Write, List.flatten_cons,
      List.foldl_append]
    rw [← List.append_assoc, ih _ _ (by simpa using hp.2), hp.1, List.append_nil]

theorem noAdjacentNewlines_append (out : List Byte) (b : Byte)
    (h : noAdjacentNewlines out) (hb : ¬ (b = newline ∧ out.getLast? = some newline)) :
    noAdjacentNewlines (out ++ [b]) := by
  induction out with
  | nil => simp [noAdjacentNewlines]
  | cons a rest ih =>
    cases rest with
    | nil =>
      simp only [List.getLast?_singleton, Option.some.injEq] at hb
      simp only [List.singleton_append, noAdjacentNewlines, and_true]
      exact fun hc => hb ⟨hc.2, hc.1⟩
    | cons c rest =>
      simp only [noAdjacentNewlines] at h
      simp only [List.cons_append, noAdjacentNewlines]
      refine ⟨h.1, ?_⟩
      have := ih h.2 (by simpa [List.getLast?_cons_cons] using hb)
      simpa using this

theorem collapse_fold_noAdjacent (input out : List Byte) (h : noAdjacentNewlines out) :
    noAdjacentNewlines (input.foldl
      (fun out b => if b = newline ∧ out.getLast? = some newline then out else out ++ [b]) out) := by
  induction input generalizing out with
  | nil => exact h
  | cons b rest ih =>
    simp only [List.foldl_cons]
    split
    · exact ih _ h
    · rename_i hc
      exact ih _ (noAdjacentNewlines_append out b h hc)

theorem collapse_fold_filter (input out : List Byte) :
    (input.foldl
      (fun out b => if b = newline ∧ out.getLast? = some newline then out else out ++ [b]) out).filter
        (fun b => decide (b ≠ newline)) =
      out.filter (fun b => decide (b ≠ newline)) ++ input.filter (fun b => decide (b ≠ newline)) := by
  induction input generalizing out with
  | nil => simp
  | cons b rest ih =>
    simp only [List.foldl_cons]
    split
    · rename_i hc
      rw [ih]; simp [hc.1]
    · rw [ih]; simp [List.filter_cons]; split <;> simp

/-- Every call of `Write` hands its buffer to the embedded writer: the recording writer has
then seen what it had seen before and the buffers of the calls, and the state of the writer
recorded is the state the writer reaches on its own. -/
theorem WriteAll_recording {ω : Type} (io : IOWriter ω) (ps : List (List Byte)) :
    ∀ (w : blankLineStripper ω) (seen : List Byte),
      (blankLineStripper.WriteAll io.recording
          { Writer := (w.Writer, seen), lastWasNewline := w.lastWasNewline, buf := w.buf } ps).1.Writer =
        ((blankLineStripper.WriteAll io w ps).1.Writer,
          seen ++ (blankLineStripper.WriteAll io w ps).2) := by
  induction ps with
  | nil => intro w seen; simp [blankLineStripper.WriteAll]
  | cons p ps ih =>
    intro w seen
    have h := ih (blankLineStripper.Write io w p).1 (seen ++ (blankLineStripper.Write io w p).1.buf)
    simp only [blankLineStripper.WriteAll, List.append_assoc] at h ⊢
    exact h

theorem WriteAll_accepting (ps : List (List Byte)) :
    ∀ w : blankLineStripper (List Byte),
      (blankLineStripper.WriteAll acceptingWriter w ps).1.Writer =
        w.Writer ++ (blankLineStripper.WriteAll acceptingWriter w ps).2 := by
  induction ps with
  | nil => intro w; simp [blankLineStripper.WriteAll]
  | cons p ps ih =>
    intro w
    have h := ih (blankLineStripper.Write acceptingWriter w p).1
    simp only [blankLineStripper.WriteAll] at h ⊢
    rw [h, ← List.append_assoc]
    rfl

/-- C2: for every sequence of `Write` calls on a fresh `blankLineStripper`, whatever the
embedded writer does, the bytes handed to it are, concatenated, the concatenated input with
a byte dropped exactly when it is a newline and the byte emitted just before was a newline;
so the output has no two adjacent newlines and keeps every other byte, in order.  The
embedded writer does receive these bytes: each call of `Write` calls it once, on the buffer
of the call, and returns its error; a writer that records what it is handed has recorded,
after the calls, exactly the collapsed input, and has otherwise done what the writer does on
its own; the writer that keeps what it is handed holds the collapsed input. -/
theorem C2_blankLineStripper_collapses {ω : Type} (io : IOWriter ω) (out : ω)
    (ps : List (List Byte)) :
    (blankLineStripper.WriteAll io (blankLineStripper.fresh out) ps).2 = collapseNewlines ps.flatten ∧
      noAdjacentNewlines (blankLineStripper.WriteAll io (blankLineStripper.fresh out) ps).2 ∧
      (blankLineStripper.WriteAll io (blankLineStripper.fresh out) ps).2.filter
          (fun b => decide (b ≠ newline)) =
        ps.flatten.filter (fun b => decide (b ≠ newline)) ∧
      (∀ (w : blankLineStripper ω) (p : List Byte),
        (blankLineStripper.Write io w p).1.Writer =
            (io.Write w.Writer (blankLineStripper.forwarded io w p)).1 ∧
          (blankLineStripper.Write io w p).2.2 =
            (io.Write w.Writer (blankLineStripper.forwarded io w p)).2.2) ∧
      (blankLineStripper.WriteAll io.recording (blankLineStripper.fresh (out, [])) ps).1.Writer =
        ((blankLineStripper.WriteAll io (blankLineStripper.fresh out) ps).1.Writer,
          collapseNewlines ps.flatten) ∧
      (blankLineStripper.WriteAll acceptingWriter (blankLineStripper.fresh []) ps).1.Writer =
        collapseNewlines ps.flatten := by
  have h := WriteAll_spec io ps (blankLineStripper.fresh out) [] (by simp [blankLineStripper.fresh])
  simp only [List.nil_append] at h
  have h' := WriteAll_spec acceptingWriter ps (blankLineStripper.fresh [])
    [] (by simp [blankLineStripper.fresh])
  simp only [List.nil_append] at h'
  refine ⟨h, ?_, ?_, fun w p => ⟨rfl, rfl⟩, ?_, ?_⟩
  · rw [h]; exact collapse_fold_noAdjacent _ _ (by simp [noAdjacentNewlines])
  · rw [h, collapse_fold_filter]; simp
  · have hr := WriteAll_recording io ps (blankLineStripper.fresh out) []
    rw [h] at hr
    simpa [blankLineStripper.fresh, collapseNewlines] using hr
  · have ha := WriteAll_accepting ps (blankLineStripper.fresh [])
    rw [h'] at ha
    simpa [blankLineStripper.fresh, collapseNewlines] using ha

theorem noAdjacentNewlines_getLast (l : List Byte) (b : Byte) (rest : List Byte)
    (h : noAdjacentNewlines (l ++ b :: rest)) : ¬ (b = newline ∧ l.getLast? = some newline) := by
  induction l with
  | nil => simp
  | cons a l ih =>
    cases l with
    | nil =>
      simp only [List.singleton_append, noAdjacentNewlines] at h
      simp only [List.getLast?_singleton, Option.some.injEq]
      exact fun hc => h.1 ⟨hc.2, hc.1⟩
    | cons c l =>
      simp only [List.cons_append, noAdjacentNewlines] at h
      have := ih (by simpa using h.2)
      simpa [List.getLast?_cons_cons] using this

theorem collapse_fold_of_noAdjacent (input out : List Byte)
    (h : noAdjacentNewlines (out ++ input)) :
    input.foldl
      (fun out b => if b = newline ∧ out.getLast? = some newline then out else out ++ [b]) out =
      out ++ input := by
  induction input generalizing out with
  | nil => simp
  | cons b rest ih =>
    simp only [List.foldl_cons]
    rw [if_neg (noAdjacentNewlines_getLast out b rest h), ih _ (by simpa using h)]
    simp

theorem forwarded_fresh {ω : Type} (io : IOWriter ω) (out : ω) (s : List Byte) :
    blankLineStripper.forwarded io (blankLineStripper.fresh out) s = collapseNewlines s := by
  have h := foldl_step_spec s [] [] false (by simp)
  simpa [blankLineStripper.forwarded, blankLineStripper.Write, blankLineStripper.fresh,
    collapseNewlines] using h.1

/-- C3: blank-line suppression is idempotent: a fresh stripper fed the output of a fresh
stripper on `s` hands on those same bytes. -/
theorem C3_blankLineStripper_idempotent {ω ω' : Type} (io : IOWriter ω) (io' : IOWriter ω')
    (out : ω) (out' : ω') (s : List Byte) :
    blankLineStripper.forwarded io' (blankLineStripper.fresh out')
        (blankLineStripper.forwarded io (blankLineStripper.fresh out) s) =
      blankLineStripper.forwarded io (blankLineStripper.fresh out) s := by
  rw [forwarded_fresh, forwarded_fresh]
  have h : noAdjacentNewlines (collapseNewlines s) :=
    collapse_fold_noAdjacent s [] (by simp [noAdjacentNewlines])
  have := collapse_fold_of_noAdjacent (collapseNewlines s) [] (by simpa using h)
  simpa [collapseNewlines] using this


/-! ## Lemmas: the visitor and the walk -/

/-! ## Lemmas on the visitor -/

theorem Res.bind_eq_ok {α β : Type} (x : Res α) (f : α → Res β) (b : β) :
    (x >>= f) = .ok b ↔ ∃ a, x = .ok a ∧ f a = .ok b := by
  cases x with
  | error e => simp [bind, Except.bind]
  | ok a => simp [bind, Except.bind]

theorem Res.pure_eq_ok {α : Type} (a b : α) : (pure a : Res α) = .ok b ↔ a = b := by
  simp [pure, Except.pure]

theorem visitor.sameFrame_refl (v : visitor) : v.sameFrame v := ⟨rfl, rfl, rfl, rfl, rfl⟩

theorem visitor.sameFrame_trans {a b c : visitor} (h1 : a.sameFrame b) (h2 : b.sameFrame c) :
    a.sameFrame c :=
  ⟨h2.1.trans h1.1, h2.2.1.trans h1.2.1, h2.2.2.1.trans h1.2.2.1, h2.2.2.2.1.trans h1.2.2.2.1,
    h2.2.2.2.2.trans h1.2.2.2.2⟩

@[simp] theorem visitor.append_stmtBuf (v : visitor) (l : List Stmt) :
    (v.append l).stmtBuf = some (v.stmtBuf.getD [] ++ l) := rfl

@[simp] theorem visitor.append_scopeVar (v : visitor) (l : List Stmt) :
    (v.append l).scopeVar = v.scopeVar := rfl

@[simp] theorem visitor.append_created (v : visitor) (l : List Stmt) :
    (v.append l).createdExplicitScope = v.createdExplicitScope := rfl

@[simp] theorem visitor.append_sameFrame (v : visitor) (l : List Stmt) :
    v.sameFrame (v.append l) := ⟨rfl, rfl, rfl, rfl, rfl⟩

@[simp] theorem visitor.createScope_stmtBuf (ids : Idents) (v : visitor) :
    (v.createScope ids).stmtBuf =
      some (v.stmtBuf.getD [] ++
        [newScopeAssign ids.scope (if v.scopeVar = "" then ids.scope else v.scopeVar)]) := by
  unfold visitor.createScope
  split_ifs <;> simp_all [visitor.append]

@[simp] theorem visitor.createScope_scopeVar (ids : Idents) (v : visitor) :
    (v.createScope ids).scopeVar = ids.scope := rfl

@[simp] theorem visitor.createScope_created (ids : Idents) (v : visitor) :
    (v.createScope ids).createdExplicitScope = true := rfl

@[simp] theorem visitor.createScope_sameFrame (ids : Idents) (v : visitor) :
    v.sameFrame (v.createScope ids) := by
  unfold visitor.createScope visitor.sameFrame
  split_ifs <;> simp [visitor.append]

theorem visitor.emitLine_stmtBuf (ids : Idents) (v : visitor) (node : Stmt) :
    (v.emitLine ids node).stmtBuf =
      if isSetTraceCall ids node then v.stmtBuf
      else some (v.stmtBuf.getD [] ++ [newLineCall ids v.scopeVar (pos2line node.Pos)]) := by
  unfold visitor.emitLine
  split_ifs <;> simp_all

@[simp] theorem visitor.emitLine_scopeVar (ids : Idents) (v : visitor) (node : Stmt) :
    (v.emitLine ids node).scopeVar = v.scopeVar := by
  unfold visitor.emitLine
  split_ifs <;> rfl

@[simp] theorem visitor.emitLine_created (ids : Idents) (v : visitor) (node : Stmt) :
    (v.emitLine ids node).createdExplicitScope = v.createdExplicitScope := by
  unfold visitor.emitLine
  split_ifs <;> rfl

@[simp] theorem visitor.emitLine_sameFrame (ids : Idents) (v : visitor) (node : Stmt) :
    v.sameFrame (v.emitLine ids node) := by
  unfold visitor.emitLine
  split_ifs <;> simp [visitor.sameFrame_refl]

theorem visitor.emitDeclare_stmtBuf (ids : Idents) (v : visitor) (l : List Ident) :
    (v.emitDeclare ids l).stmtBuf =
      if l.length > 0 then
        some (v.stmtBuf.getD [] ++
          ((if v.createdExplicitScope then []
            else [newScopeAssign ids.scope (if v.scopeVar = "" then ids.scope else v.scopeVar)]) ++
            [newDeclareCall ids "" l]))
      else v.stmtBuf := by
  unfold visitor.emitDeclare
  split_ifs <;> simp_all

theorem visitor.emitDeclare_scopeVar (ids : Idents) (v : visitor) (l : List Ident) :
    (v.emitDeclare ids l).scopeVar =
      if l.length > 0 ∧ v.createdExplicitScope = false then ids.scope else v.scopeVar := by
  unfold visitor.emitDeclare
  split_ifs <;> simp_all

theorem visitor.emitDeclare_created (ids : Idents) (v : visitor) (l : List Ident) :
    (v.emitDeclare ids l).createdExplicitScope =
      (v.createdExplicitScope || decide (l.length > 0)) := by
  unfold visitor.emitDeclare
  split_ifs <;> simp_all

@[simp] theorem visitor.emitDeclare_sameFrame (ids : Idents) (v : visitor) (l : List Ident) :
    v.sameFrame (v.emitDeclare ids l) := by
  unfold visitor.emitDeclare
  split_ifs
  · exact visitor.sameFrame_trans (visitor.createScope_sameFrame ids v) (visitor.append_sameFrame _ _)
  · exact visitor.append_sameFrame _ _
  · exact visitor.sameFrame_refl v

theorem visitor.emitDefer_stmtBuf (ids : Idents) (v : visitor) (node : Stmt) :
    (v.emitDefer ids node).stmtBuf =
      match node with
      | .deferStmt p _ => some (v.stmtBuf.getD [] ++ [astDeferDefer ids v.scopeVar (pos2lineString p)])
      | _ => v.stmtBuf := by
  unfold visitor.emitDefer
  split <;> simp [Stmt.Pos]

@[simp] theorem visitor.emitDefer_scopeVar (ids : Idents) (v : visitor) (node : Stmt) :
    (v.emitDefer ids node).scopeVar = v.scopeVar := by
  unfold visitor.emitDefer
  split <;> rfl

@[simp] theorem visitor.emitDefer_created (ids : Idents) (v : visitor) (node : Stmt) :
    (v.emitDefer ids node).createdExplicitScope = v.createdExplicitScope := by
  unfold visitor.emitDefer
  split <;> rfl

@[simp] theorem visitor.emitDefer_sameFrame (ids : Idents) (v : visitor) (node : Stmt) :
    v.sameFrame (v.emitDefer ids node) := by
  unfold visitor.emitDefer
  split <;> simp [visitor.sameFrame_refl]

/-- What `Visit` does to its receiver on a statement that reaches the code inserting debug
calls, when the receiver builds a statement list. -/
theorem VisitStmt_spec (ids : Idents) (c child : visitor) (s final : Stmt) (buf : List Stmt)
    (hbuf : c.stmtBuf = some buf)
    (hs : ∀ p init tag body, s = .switchStmt p init tag body →
      (newIdentsInSimpleStmt init).length = 0)
    (hb : ∀ b, s ≠ .blockStmt b) (hc : ∀ p l b, s ≠ .caseClause p l b)
    (hsel : ∀ p b, s ≠ .selectStmt p b) (hcomm : ∀ p l b, s ≠ .commClause p l b) :
    (c.VisitStmt ids child s final).v.stmtBuf =
        some (buf ++ emittedBefore ids c s ++ placed ids c s final :: emittedAfter ids c s) ∧
      (c.VisitStmt ids child s final).v.createdExplicitScope =
        (c.createdExplicitScope || decide ((declaredIdents s).length > 0)) ∧
      (c.VisitStmt ids child s final).v.scopeVar =
        (if (declaredIdents s).length > 0 ∧ c.createdExplicitScope = false then ids.scope
          else c.scopeVar) ∧
      c.sameFrame (c.VisitStmt ids child s final).v ∧
      (c.VisitStmt ids child s final).child.isSome = true := by
  unfold visitor.VisitStmt
  simp only [hbuf, Option.isNone_some, Bool.false_eq_true, if_false]
  by_cases hl : (loopIdents s).length > 0
  · simp only [hl, if_true]
    cases s <;> simp_all [loopIdents, emittedBefore, emittedAfter, placed, declaredIdents]
  · simp only [hl, if_false]
    refine ⟨?_, ?_, ?_, ?_, rfl⟩
    · cases s with
      | blockStmt b => exact absurd rfl (hb b)
      | caseClause p l b => exact absurd rfl (hc p l b)
      | selectStmt p b => exact absurd rfl (hsel p b)
      | commClause p l b => exact absurd rfl (hcomm p l b)
      | switchStmt p init tag body =>
        have := hs p init tag body rfl
        simp [visitor.emitDefer_stmtBuf, visitor.emitDeclare_stmtBuf, visitor.emitLine_stmtBuf,
          hbuf, emittedBefore, emittedAfter, placed, declaredIdents, isSetTraceCall, this]
      | _ =>
        simp only [visitor.emitDefer_stmtBuf, visitor.emitDeclare_stmtBuf,
          visitor.emitLine_stmtBuf, hbuf, emittedBefore, emittedAfter, placed, declaredIdents,
          visitor.append_stmtBuf, visitor.append_created, visitor.append_scopeVar,
          visitor.emitLine_created, visitor.emitLine_scopeVar]
        split_ifs <;> simp_all [loopIdents, isSetTraceCall, visitor.emitDeclare_scopeVar]
    · simp [visitor.emitDeclare_created]
    · simp [visitor.emitDeclare_scopeVar]
    · exact visitor.sameFrame_trans (visitor.sameFrame_trans (visitor.sameFrame_trans
        (visitor.emitLine_sameFrame ids c s) (visitor.append_sameFrame _ _))
        (visitor.emitDeclare_sameFrame ids _ _)) (visitor.emitDefer_sameFrame ids _ _)

/-- What a call of `Visit` does to its receiver, when the receiver builds a statement
list: the buffer grows by the markers before the statement, the statement (or the block
that wraps it) and the calls after it. -/
theorem Visit_spec (ids : Idents) (W : Walkers) (c : visitor) (s final : Stmt) (r : VisitResult)
    (buf : List Stmt) (hbuf : c.stmtBuf = some buf) (h : c.Visit ids W s final = .ok r) :
    r.v.stmtBuf =
        some (buf ++ emittedBefore ids c s ++
          placed ids c s (if isClause s then r.node else final) :: emittedAfter ids c s) ∧
      r.v.createdExplicitScope =
        (c.createdExplicitScope || decide ((declaredIdents s).length > 0)) ∧
      r.v.scopeVar =
        (if (declaredIdents s).length > 0 ∧ c.createdExplicitScope = false then ids.scope
          else c.scopeVar) ∧
      c.sameFrame r.v ∧ r.child.isSome = !isClause s := by
  have general : ∀ child : visitor, (∀ p init tag body, s = .switchStmt p init tag body →
        (newIdentsInSimpleStmt init).length = 0) →
      (∀ b, s ≠ .blockStmt b) → (∀ p l b, s ≠ .caseClause p l b) →
      (∀ p b, s ≠ .selectStmt p b) → (∀ p l b, s ≠ .commClause p l b) →
      isClause s = false →
      c.Visit ids W s final = .ok (c.VisitStmt ids child s final) →
      r.v.stmtBuf =
          some (buf ++ emittedBefore ids c s ++
            placed ids c s (if isClause s then r.node else final) :: emittedAfter ids c s) ∧
        r.v.createdExplicitScope =
          (c.createdExplicitScope || decide ((declaredIdents s).length > 0)) ∧
        r.v.scopeVar =
          (if (declaredIdents s).length > 0 ∧ c.createdExplicitScope = false then ids.scope
            else c.scopeVar) ∧
        c.sameFrame r.v ∧ r.child.isSome = !isClause s := by
    intro child hs hb hc hsel hcomm hcl hv
    rw [hv] at h
    cases h
    have := VisitStmt_spec ids c child s final buf hbuf hs hb hc hsel hcomm
    simpa [hcl] using this
  cases s with
  | blockStmt b =>
    clear general
    simp only [visitor.Visit, visitor.VisitBlockStmt, hbuf, Res.pure_eq_ok] at h
    subst h
    by_cases hstop : stopAtBlockIn c.context = true
    · refine ⟨?_, ?_, ?_, ?_, ?_⟩ <;>
        simp [emittedBefore, emittedAfter, placed, isClause, declaredIdents, hbuf, hstop]
      exact visitor.sameFrame_trans (visitor.append_sameFrame _ _) (visitor.append_sameFrame _ _)
    · refine ⟨?_, ?_, ?_, ?_, ?_⟩ <;>
        simp [emittedBefore, emittedAfter, placed, isClause, declaredIdents, hbuf, hstop]
  | switchStmt p init tag body =>
    by_cases hn : (newIdentsInSimpleStmt init).length > 0
    · clear general
      simp only [visitor.Visit, hn, if_true, Res.pure_eq_ok] at h
      subst h
      refine ⟨?_, ?_, ?_, ?_, ?_⟩ <;>
        simp [emittedBefore, emittedAfter, placed, isClause, declaredIdents, hbuf, hn]
    · refine general { c.newChild .other with parentIsExprSwitch := true }
        (by intro p' init' tag' body' he; cases he; omega) (by simp) (by simp)
        (by simp) (by simp) rfl ?_
      simp [visitor.Visit, hn, pure, Except.pure]
  | caseClause p list body =>
    clear general
    simp only [visitor.Visit, Res.bind_eq_ok, Res.pure_eq_ok] at h
    obtain ⟨⟨cv, fin⟩, _, h⟩ := h
    subst h
    by_cases hm : c.parentIsExprSwitch = true ∧ list.length > 0
    · refine ⟨?_, ?_, ?_, ?_, ?_⟩ <;>
        simp [emittedBefore, emittedAfter, placed, isClause, declaredIdents, hbuf, hm,
          newCaseMarker]
      exact visitor.sameFrame_trans (visitor.append_sameFrame _ _) (visitor.append_sameFrame _ _)
    · refine ⟨?_, ?_, ?_, ?_, ?_⟩ <;>
        simp [emittedBefore, emittedAfter, placed, isClause, declaredIdents, hbuf, hm,
          newCaseMarker]
  | selectStmt p body =>
    clear general
    simp only [visitor.Visit, Res.pure_eq_ok] at h
    subst h
    refine ⟨?_, ?_, ?_, ?_, ?_⟩ <;>
      simp [emittedBefore, emittedAfter, placed, isClause, declaredIdents, hbuf]
  | commClause p comm body =>
    clear general
    simp only [visitor.Visit, Res.bind_eq_ok, Res.pure_eq_ok] at h
    obtain ⟨⟨cv, comm'⟩, _, ⟨cv2, fin⟩, _, h⟩ := h
    subst h
    by_cases hm : comm.isSome = true
    · refine ⟨?_, ?_, ?_, ?_, ?_⟩ <;>
        simp [emittedBefore, emittedAfter, placed, isClause, declaredIdents, hbuf, hm]
      exact visitor.sameFrame_trans (visitor.append_sameFrame _ _) (visitor.append_sameFrame _ _)
    · refine ⟨?_, ?_, ?_, ?_, ?_⟩ <;>
        simp [emittedBefore, emittedAfter, placed, isClause, declaredIdents, hbuf, hm]
  | _ =>
    refine general (c.newChild .other) (by simp) (by simp) (by simp) (by simp) (by simp) rfl ?_
    simp [visitor.Visit, pure, Except.pure]

/-- No call of `Visit` changes the frame fields of its receiver. -/
theorem Visit_sameFrame (ids : Idents) (W : Walkers) (c : visitor) (s final : Stmt)
    (r : VisitResult) (h : c.Visit ids W s final = .ok r) : c.sameFrame r.v := by
  cases hb : c.stmtBuf with
  | some buf => exact (Visit_spec ids W c s final r buf hb h).2.2.2.1
  | none =>
    have general : ∀ child : visitor,
        c.Visit ids W s final = .ok (c.VisitStmt ids child s final) → c.sameFrame r.v := by
      intro child hv
      rw [hv] at h
      cases h
      simp [visitor.VisitStmt, hb, visitor.sameFrame_refl]
    cases s with
    | blockStmt b =>
      simp only [visitor.Visit, visitor.VisitBlockStmt, hb, Res.pure_eq_ok] at h
      subst h
      simp [visitor.sameFrame_refl]
    | switchStmt p init tag body =>
      by_cases hn : (newIdentsInSimpleStmt init).length > 0
      · simp only [visitor.Visit, hn, if_true, Res.pure_eq_ok] at h
        subst h
        exact visitor.append_sameFrame _ _
      · exact general { c.newChild .other with parentIsExprSwitch := true }
          (by simp [visitor.Visit, hn, pure, Except.pure])
    | caseClause p list body =>
      simp only [visitor.Visit, Res.bind_eq_ok, Res.pure_eq_ok] at h
      obtain ⟨⟨cv, fin⟩, _, h⟩ := h
      subst h
      simp [hb, visitor.sameFrame_refl]
    | selectStmt p body =>
      simp only [visitor.Visit, Res.pure_eq_ok] at h
      subst h
      exact visitor.append_sameFrame _ _
    | commClause p comm body =>
      simp only [visitor.Visit, Res.bind_eq_ok, Res.pure_eq_ok] at h
      obtain ⟨⟨cv, comm'⟩, _, ⟨cv2, fin⟩, _, h⟩ := h
      subst h
      by_cases hm : comm.isSome = true
      · simp only [hm, if_true]
        exact visitor.sameFrame_trans (visitor.append_sameFrame _ _) (visitor.append_sameFrame _ _)
      · simp only [hm]
        exact visitor.append_sameFrame _ _
    | _ => exact general (c.newChild .other) (by simp [visitor.Visit, pure, Except.pure])

/-- The code that inserts debug calls always returns a visitor. -/
theorem VisitStmt_child (ids : Idents) (c child : visitor) (s final : Stmt) :
    (c.VisitStmt ids child s final).child.isSome = true := by
  unfold visitor.VisitStmt
  split_ifs <;> rfl

/-- Whether `Visit` returns a visitor depends on the kind of statement only. -/
theorem Visit_child (ids : Idents) (W : Walkers) (c : visitor) (s final : Stmt)
    (r : VisitResult) (h : c.Visit ids W s final = .ok r) : r.child.isSome = !isClause s := by
  cases s with
  | blockStmt b =>
    simp only [visitor.Visit, Res.pure_eq_ok] at h
    subst h; rfl
  | switchStmt p init tag body =>
    by_cases hn : (newIdentsInSimpleStmt init).length > 0
    · simp only [visitor.Visit, hn, if_true, Res.pure_eq_ok] at h
      subst h; rfl
    · simp only [visitor.Visit, hn, if_false, Res.pure_eq_ok] at h
      subst h
      simpa [isClause] using VisitStmt_child ids c _ _ final
  | caseClause p list body =>
    simp only [visitor.Visit, Res.bind_eq_ok, Res.pure_eq_ok] at h
    obtain ⟨⟨cv, fin⟩, _, h⟩ := h
    subst h; rfl
  | selectStmt p body =>
    simp only [visitor.Visit, Res.pure_eq_ok] at h
    subst h; rfl
  | commClause p comm body =>
    simp only [visitor.Visit, Res.bind_eq_ok, Res.pure_eq_ok] at h
    obtain ⟨⟨cv, comm'⟩, _, ⟨cv2, fin⟩, _, h⟩ := h
    subst h; rfl
  | _ =>
    simp only [visitor.Visit, Res.pure_eq_ok] at h
    subst h
    simpa [isClause] using VisitStmt_child ids c _ _ final

/-- The walk of a statement, unfolded: `Visit` returns nil and the statement is the one
`Visit` leaves, or the children are walked, `finalizeNode` runs, and the receiver is the
one `Visit` leaves when it stores the final statement. -/
theorem walkStmt_ok (ids : Idents) (W : Walkers) (c : visitor) (s : Stmt) (c' : visitor)
    (s' : Stmt) (h : walkStmt ids W c s = .ok (c', s')) :
    (isClause s = true ∧ ∃ r, c.Visit ids W s s = .ok r ∧ r.v = c' ∧ r.node = s') ∨
      (isClause s = false ∧ ∃ r0 w w' s1 r,
        c.Visit ids W s s = .ok r0 ∧ r0.child = some w ∧
        walkStmtChildren ids W w r0.node = .ok (w', s1) ∧ s' = w'.finalizeNode ids s1 ∧
        c.Visit ids W s s' = .ok r ∧ r.v = c') := by
  simp only [walkStmt, Res.bind_eq_ok] at h
  obtain ⟨r0, h0, h⟩ := h
  have hch := Visit_child ids W c s s r0 h0
  cases hc : r0.child with
  | none =>
    left
    simp only [hc, Res.pure_eq_ok, Prod.mk.injEq] at h
    simp only [hc, Option.isSome_none] at hch
    exact ⟨by simpa using hch.symm, r0, h0, h.1, h.2⟩
  | some w =>
    right
    simp only [hc, Res.bind_eq_ok, Res.pure_eq_ok, Prod.mk.injEq] at h
    obtain ⟨⟨w', s1⟩, h1, r, h2, h3, h4⟩ := h
    simp only [hc, Option.isSome_some] at hch
    subst h4
    exact ⟨by simpa using hch.symm, r0, w, w', s1, r, h0, hc, h1, rfl, h2, h3⟩

/-- What the walk of a statement does to a receiver that builds a statement list. -/
theorem walkStmt_spec (ids : Idents) (W : Walkers) (c : visitor) (s : Stmt) (c' : visitor)
    (s' : Stmt) (buf : List Stmt) (hbuf : c.stmtBuf = some buf)
    (h : walkStmt ids W c s = .ok (c', s')) :
    c'.stmtBuf =
        some (buf ++ emittedBefore ids c s ++ placed ids c s s' :: emittedAfter ids c s) ∧
      c'.createdExplicitScope =
        (c.createdExplicitScope || decide ((declaredIdents s).length > 0)) ∧
      c'.scopeVar =
        (if (declaredIdents s).length > 0 ∧ c.createdExplicitScope = false then ids.scope
          else c.scopeVar) ∧
      c.sameFrame c' := by
  rcases walkStmt_ok ids W c s c' s' h with ⟨hcl, r, hr, hv, hn⟩ | ⟨hcl, r0, w, w', s1, r, _, _, _, _, hr, hv⟩
  · have := Visit_spec ids W c s s r buf hbuf hr
    subst hv hn
    simp only [hcl, if_true] at this
    exact ⟨this.1, this.2.1, this.2.2.1, this.2.2.2.1⟩
  · have := Visit_spec ids W c s s' r buf hbuf hr
    subst hv
    simp only [hcl, Bool.false_eq_true, if_false] at this
    exact ⟨this.1, this.2.1, this.2.2.1, this.2.2.2.1⟩

/-- The walk of a statement leaves the frame fields of its receiver. -/
theorem walkStmt_sameFrame (ids : Idents) (W : Walkers) (c : visitor) (s : Stmt) (c' : visitor)
    (s' : Stmt) (h : walkStmt ids W c s = .ok (c', s')) : c.sameFrame c' := by
  rcases walkStmt_ok ids W c s c' s' h with ⟨_, r, hr, hv, _⟩ | ⟨_, r0, w, w', s1, r, _, _, _, _, hr, hv⟩
  · subst hv; exact Visit_sameFrame ids W c s s r hr
  · subst hv; exact Visit_sameFrame ids W c s s' r hr

theorem walkList_nil {α : Type} (walk : visitor → α → Res (visitor × α)) (v : visitor) :
    walkList walk v [] = .ok (v, []) := rfl

theorem walkList_cons_ok {α : Type} (walk : visitor → α → Res (visitor × α)) (v : visitor)
    (x : α) (xs : List α) (r : visitor × List α) :
    walkList walk v (x :: xs) = .ok r ↔
      ∃ v1 x' v2 xs', walk v x = .ok (v1, x') ∧ walkList walk v1 xs = .ok (v2, xs') ∧
        r = (v2, x' :: xs') := by
  simp only [walkList, Res.bind_eq_ok, Res.pure_eq_ok]
  constructor
  · rintro ⟨⟨v1, x'⟩, h1, ⟨v2, xs'⟩, h2, h3⟩
    exact ⟨v1, x', v2, xs', h1, h2, h3.symm⟩
  · rintro ⟨v1, x', v2, xs', h1, h2, h3⟩
    exact ⟨(v1, x'), h1, (v2, xs'), h2, h3.symm⟩

/-- A statement with a `Line` marker of its own: the marker is all `Visit` emits before it,
and the statement itself is stored. -/
theorem lineMarked_emitted (ids : Idents) (c : visitor) (s s' : Stmt)
    (h : lineMarked ids s = true) :
    emittedBefore ids c s = [newLineCall ids c.scopeVar (pos2line s.Pos)] ∧
      placed ids c s s' = s' := by
  cases s <;>
    simp_all [lineMarked, emittedBefore, placed, loopIdents, isSetTraceCall]

/-- The walk of a list of statements by a visitor that builds a statement list. -/
theorem walkList_stmt_spec (ids : Idents) (W : Walkers) (l : List Stmt) :
    ∀ (c c' : visitor) (fin buf : List Stmt), c.stmtBuf = some buf →
      walkList (walkStmt ids W) c l = .ok (c', fin) →
      ∃ g, c'.stmtBuf = some (buf ++ g) ∧ fin.length = l.length ∧
        c'.createdExplicitScope = (c.createdExplicitScope || l.any declaresNew) ∧
        c'.scopeVar =
          (if l.any declaresNew = true ∧ c.createdExplicitScope = false then ids.scope
            else c.scopeVar) ∧
        c.sameFrame c' ∧
        ∀ (j : Nat) (hj : j < l.length) (f : Stmt), lineMarked ids (l.get ⟨j, hj⟩) = true →
          fin[j]? = some f → f ∈ g := by
  induction l with
  | nil =>
    intro c c' fin buf hbuf h
    simp only [walkList_nil, Except.ok.injEq, Prod.mk.injEq] at h
    obtain ⟨rfl, rfl⟩ := h
    exact ⟨[], by simp [hbuf], rfl, by simp, by simp, visitor.sameFrame_refl c,
      fun j hj => absurd hj (by simp)⟩
  | cons s l ih =>
    intro c c' fin buf hbuf h
    obtain ⟨c1, s', c2, fin', h1, h2, h3⟩ := (walkList_cons_ok _ c s l _).mp h
    simp only [Prod.mk.injEq] at h3
    obtain ⟨rfl, rfl⟩ := h3
    obtain ⟨hb1, hcr1, hsv1, hfr1⟩ := walkStmt_spec ids W c s c1 s' buf hbuf h1
    obtain ⟨g, hb2, hlen, hcr2, hsv2, hfr2, hmem⟩ := ih c1 c' fin' _ hb1 h2
    refine ⟨emittedBefore ids c s ++ placed ids c s s' :: emittedAfter ids c s ++ g, ?_, ?_,
      ?_, ?_, visitor.sameFrame_trans hfr1 hfr2, ?_⟩
    · simp [hb2]
    · simp [hlen]
    · simp [hcr2, hcr1, declaresNew, Bool.or_assoc]
    · rw [hsv2, hsv1, hcr1]
      simp only [List.any_cons, declaresNew]
      by_cases hd : (declaredIdents s).length > 0 <;>
        by_cases hc : c.createdExplicitScope = true <;> simp [hd, hc]
    · intro j hj f hm hf
      cases j with
      | zero =>
        simp only [List.getElem?_cons_zero, Option.some.injEq] at hf
        subst hf
        have := (lineMarked_emitted ids c s s' (by simpa using hm)).2
        simp [this]
      | succ j =>
        have := hmem j (by simpa using hj) f (by simpa using hm) (by simpa using hf)
        simp [this]

/-- The visitor that the case `*ast.BlockStmt` of `Visit` returns. -/
theorem VisitBlockStmt_child (ids : Idents) (v : visitor) (b : BlockStmt) (final : Stmt) :
    (v.VisitBlockStmt ids b final).2.stmtBuf =
        some (if v.blockVars.length > 0 then
          [newScopeAssign ids.scope (if v.scopeVar = "" then ids.scope else v.scopeVar),
           newDeclareCall ids ids.scope v.blockVars]
          else []) ∧
      (v.VisitBlockStmt ids b final).2.scopeVar =
        (if v.blockVars.length > 0 then ids.scope else v.scopeVar) ∧
      (v.VisitBlockStmt ids b final).2.createdExplicitScope = decide (v.blockVars.length > 0) ∧
      (v.VisitBlockStmt ids b final).2.context = .blockStmt ∧
      (v.VisitBlockStmt ids b final).2.parentIsExprSwitch = v.parentIsExprSwitch := by
  unfold visitor.VisitBlockStmt
  by_cases h : v.blockVars.length > 0
  · have hf := visitor.sameFrame_trans
      (visitor.createScope_sameFrame ids { v.newChild .blockStmt with stmtBuf := some [] })
      (visitor.append_sameFrame _ [newDeclareCall ids ids.scope v.blockVars])
    refine ⟨by simp [h, visitor.newChild], by simp [h, visitor.newChild],
      by simp [h, visitor.newChild], ?_, ?_⟩
    · simpa [h, visitor.newChild] using hf.1
    · simpa [h, visitor.newChild] using hf.2.2.2.1
  · simp [h, visitor.newChild]

/-- The visitor that `Visit` returns for a block does not depend on the statement stored. -/
theorem VisitBlockStmt_child_final (ids : Idents) (v : visitor) (b : BlockStmt)
    (f1 f2 : Stmt) : (v.VisitBlockStmt ids b f1).2 = (v.VisitBlockStmt ids b f2).2 := rfl

/-- The walk of a block, unfolded. -/
theorem walkBlockStmt_ok (ids : Idents) (W : Walkers) (v : visitor) (b : BlockStmt)
    (v' : visitor) (b' : BlockStmt) (h : walkBlockStmt ids W v b = .ok (v', b')) :
    ∃ child fin, walkList W.stmt (v.VisitBlockStmt ids b (.blockStmt b)).2 b.List_ =
        .ok (child, fin) ∧
      b' = .mk b.Lbrace (child.stmtBuf.getD []) ∧
      v' = (v.VisitBlockStmt ids b (.blockStmt b')).1 := by
  simp only [walkBlockStmt, Res.bind_eq_ok, Res.pure_eq_ok, Prod.mk.injEq] at h
  obtain ⟨⟨child, fin⟩, h1, h2, h3⟩ := h
  subst h3
  exact ⟨child, fin, h1, rfl, h2.symm⟩

theorem walkers_stmt (ids : Idents) (n : Nat) :
    (walkers ids (n + 1)).stmt = walkStmt ids (walkers ids n) := rfl

theorem walkers_expr (ids : Idents) (n : Nat) :
    (walkers ids (n + 1)).expr = walkExpr ids (walkers ids n) := rfl

theorem walkers_visit (ids : Idents) (n : Nat) :
    (walkers ids (n + 1)).visit = visitOnly ids (walkers ids n) := rfl

theorem walkList_length {α : Type} (walk : visitor → α → Res (visitor × α)) (l : List α) :
    ∀ (v v' : visitor) (out : List α), walkList walk v l = .ok (v', out) →
      out.length = l.length := by
  induction l with
  | nil =>
    intro v v' out h
    simp only [walkList_nil, Except.ok.injEq, Prod.mk.injEq] at h
    simp [← h.2]
  | cons x xs ih =>
    intro v v' out h
    obtain ⟨v1, x', v2, xs', _, h2, h3⟩ := (walkList_cons_ok _ v x xs _).mp h
    simp only [Prod.mk.injEq] at h3
    simp [h3.2, ih v1 v2 xs' h2]

/-- The walk of an expression that yields an identifier started from that identifier. -/
theorem walkExpr_ident_inv (ids : Idents) (W : Walkers) (v v' : visitor) (e : Expr) (i : Ident)
    (h : walkExpr ids W v e = .ok (v', .ident i)) : e = .ident i := by
  revert h
  rcases e with _ | _ | ⟨⟨_, _, _⟩⟩ | _ | _ | _ | _ | _ | _ | _ | _ | _ | ⟨⟨_, _, _⟩⟩ | _ | _ | _ <;>
    simp only [walkExpr, walkExprChildren, Res.bind_eq_ok, Res.pure_eq_ok, forall_exists_index,
      and_imp, Prod.mk.injEq, Prod.forall, Prod.exists] <;>
    intros <;> simp_all

/-- The walk of an expression that yields a selector expression started from a selector
expression with the same member name, whose operand the walkers one level down walked. -/
theorem walkExpr_selector_inv (ids : Idents) (W : Walkers) (v v' : visitor) (e x' : Expr)
    (sel : Ident) (h : walkExpr ids W v e = .ok (v', .selectorExpr x' sel)) :
    ∃ x w w1, e = .selectorExpr x sel ∧ W.expr w x = .ok (w1, x') := by
  revert h
  rcases e with _ | _ | ⟨⟨_, _, _⟩⟩ | _ | _ | _ | _ | _ | _ | _ | _ | _ | ⟨⟨_, _, _⟩⟩ | _ | _ | _ <;>
    simp only [walkExpr, walkExprChildren, Res.bind_eq_ok, Res.pure_eq_ok, forall_exists_index,
      and_imp, Prod.mk.injEq, Prod.forall, Prod.exists] <;>
    intros <;> simp_all
  exact ⟨_, _, by assumption⟩

/-- The walk of an expression that yields a call started from a call, whose callee the
walkers one level down walked and which has as many arguments. -/
theorem walkExpr_call_inv (ids : Idents) (W : Walkers) (v v' : visitor) (e f' : Expr)
    (args' : List Expr) (ell : Bool)
    (h : walkExpr ids W v e = .ok (v', .callExpr (.mk f' args' ell))) :
    ∃ f args w w1, e = .callExpr (.mk f args ell) ∧ W.expr w f = .ok (w1, f') ∧
      args'.length = args.length := by
  revert h
  rcases e with _ | _ | ⟨⟨_, _, _⟩⟩ | _ | _ | _ | _ | _ | _ | _ | _ | _ | ⟨⟨_, _, _⟩⟩ | _ | _ | _ <;>
    simp only [walkExpr, walkExprChildren, Res.bind_eq_ok, Res.pure_eq_ok, forall_exists_index,
      and_imp, Prod.mk.injEq, Prod.forall, Prod.exists] <;>
    intros <;> simp_all
  rename_i hf ha _ _ _
  exact ⟨_, _, ⟨rfl, rfl⟩, ⟨_, _, hf⟩, walkList_length _ _ _ _ _ ha⟩

/-- The walkers leave an identifier as it is. -/
theorem walkers_expr_ident_inv (ids : Idents) (n : Nat) (v v' : visitor) (e : Expr) (i : Ident)
    (h : (walkers ids n).expr v e = .ok (v', .ident i)) : e = .ident i := by
  cases n with
  | zero => simp [walkers] at h
  | succ n => exact walkExpr_ident_inv ids _ v v' e i h

/-- The walkers leave a selector expression on an identifier as it is. -/
theorem walkers_expr_selector_inv (ids : Idents) (n : Nat) (v v' : visitor) (e : Expr)
    (i sel : Ident) (h : (walkers ids n).expr v e = .ok (v', .selectorExpr (.ident i) sel)) :
    e = .selectorExpr (.ident i) sel := by
  cases n with
  | zero => simp [walkers] at h
  | succ n =>
    obtain ⟨x, w, w1, rfl, hx⟩ := walkExpr_selector_inv ids _ v v' e _ sel h
    rw [walkers_expr_ident_inv ids n w w1 x i hx]

/-- The walkers leave the callee of a call on a selector expression as it is, and the
number of arguments. -/
theorem walkers_expr_call_inv (ids : Idents) (n : Nat) (v v' : visitor) (e : Expr)
    (i sel : Ident) (args' : List Expr) (ell : Bool)
    (h : (walkers ids n).expr v e =
      .ok (v', .callExpr (.mk (.selectorExpr (.ident i) sel) args' ell))) :
    ∃ args, e = .callExpr (.mk (.selectorExpr (.ident i) sel) args ell) ∧
      args'.length = args.length := by
  cases n with
  | zero => simp [walkers] at h
  | succ n =>
    obtain ⟨f, args, w, w1, rfl, hf, hlen⟩ := walkExpr_call_inv ids _ v v' e _ args' ell h
    rw [walkers_expr_selector_inv ids n w w1 f i sel hf]
    exact ⟨args, rfl, hlen⟩

theorem declareReceiver_eq_some (s : Stmt) (r : String) :
    declareReceiver s = some r ↔
      ∃ i sel args ell, s = .exprStmt (.callExpr (.mk (.selectorExpr (.ident i) sel) args ell)) ∧
        sel.Name = "Declare" ∧ i.Name = r := by
  unfold declareReceiver
  split
  · rename_i x sel args ell
    constructor
    · intro h
      split_ifs at h with hs
      exact ⟨x, sel, args, ell, rfl, hs, by simpa using h⟩
    · rintro ⟨i, sel', args', ell', he, hs, hr⟩
      cases he
      simp [hs, hr]
  · rename_i hne
    constructor
    · intro h; cases h
    · rintro ⟨i, sel, args, ell, he, _, _⟩
      exact absurd he (hne i sel args ell)

theorem scopeCreationHandle_eq_some (s : Stmt) (r : String) :
    scopeCreationHandle s = some r ↔
      ∃ h p sel ell, s = .assignStmt [.ident h] .DEFINE
          [.callExpr (.mk (.selectorExpr (.ident p) sel) [] ell)] ∧
        sel.Name = "EnteringNewChildScope" ∧ h.Name = r := by
  unfold scopeCreationHandle
  split
  · rename_i h p sel ell
    constructor
    · intro hh
      split_ifs at hh with hs
      exact ⟨h, p, sel, ell, rfl, hs, by simpa using hh⟩
    · rintro ⟨h', p', sel', ell', he, hs, hr⟩
      cases he
      simp [hs, hr]
  · rename_i hne
    constructor
    · intro h; cases h
    · rintro ⟨h, p, sel, ell, he, _, _⟩
      exact absurd he (hne h p sel ell)

/-- The node `Visit` leaves for a statement that is no clause: the statement, or the
rewritten trace-start call. -/
theorem Visit_node (ids : Idents) (W : Walkers) (c : visitor) (s final : Stmt)
    (r : VisitResult) (h : c.Visit ids W s final = .ok r) (hcl : isClause s = false) :
    r.node = s ∨ (isSetTraceCall ids s = true ∧ r.node = rewriteSetTrace ids s) := by
  have general : ∀ child : visitor, r = c.VisitStmt ids child s final →
      r.node = s ∨ (isSetTraceCall ids s = true ∧ r.node = rewriteSetTrace ids s) := by
    intro child hr
    subst hr
    unfold visitor.VisitStmt
    split_ifs <;> simp_all
  cases s with
  | blockStmt b =>
    simp only [visitor.Visit, Res.pure_eq_ok] at h
    subst h; exact Or.inl rfl
  | switchStmt p init tag body =>
    by_cases hn : (newIdentsInSimpleStmt init).length > 0
    · simp only [visitor.Visit, hn, if_true, Res.pure_eq_ok] at h
      subst h; exact Or.inl rfl
    · simp only [visitor.Visit, hn, if_false, Res.pure_eq_ok] at h
      exact general _ h.symm
  | caseClause p list body => simp [isClause] at hcl
  | selectStmt p body =>
    simp only [visitor.Visit, Res.pure_eq_ok] at h
    subst h; exact Or.inl rfl
  | commClause p comm body => simp [isClause] at hcl
  | _ =>
    simp only [visitor.Visit, Res.pure_eq_ok] at h
    exact general _ h.symm

/-- The node `Visit` leaves for a clause is a clause. -/
theorem Visit_node_clause (ids : Idents) (W : Walkers) (c : visitor) (s final : Stmt)
    (r : VisitResult) (h : c.Visit ids W s final = .ok r) (hcl : isClause s = true) :
    isClause r.node = true := by
  cases s with
  | caseClause p list body =>
    simp only [visitor.Visit, Res.bind_eq_ok, Res.pure_eq_ok] at h
    obtain ⟨⟨cv, fin⟩, _, h⟩ := h
    subst h; rfl
  | commClause p comm body =>
    simp only [visitor.Visit, Res.bind_eq_ok, Res.pure_eq_ok] at h
    obtain ⟨⟨cv, comm'⟩, _, ⟨cv2, fin⟩, _, h⟩ := h
    subst h; rfl
  | _ => simp [isClause] at hcl

/-- The walk of the children of a statement that yields an expression statement. -/
theorem walkStmtChildren_exprStmt_inv (ids : Idents) (W : Walkers) (w w' : visitor) (t : Stmt)
    (x' : Expr) (h : walkStmtChildren ids W w t = .ok (w', .exprStmt x')) :
    ∃ x w1, t = .exprStmt x ∧ W.expr w x = .ok (w1, x') := by
  revert h
  rcases t with _ | _ | _ | ⟨⟨_, _⟩⟩ | _ | _ | _ | _ | _ | _ | _ | _ | _ | _ | _ | _ | _ | _ | _ | _ <;>
    simp only [walkStmtChildren, Res.bind_eq_ok, Res.pure_eq_ok, forall_exists_index,
      and_imp, Prod.mk.injEq, Prod.forall, Prod.exists] <;>
    intros <;> simp_all

/-- The walk of the children of a statement that yields an assignment. -/
theorem walkStmtChildren_assignStmt_inv (ids : Idents) (W : Walkers) (w w' : visitor) (t : Stmt)
    (lhs' : List Expr) (tok : Token) (rhs' : List Expr)
    (h : walkStmtChildren ids W w t = .ok (w', .assignStmt lhs' tok rhs')) :
    ∃ lhs rhs w1 w2, t = .assignStmt lhs tok rhs ∧ walkList W.expr w lhs = .ok (w1, lhs') ∧
      walkList W.expr w1 rhs = .ok (w2, rhs') := by
  rcases t with _ | ⟨lhs, tok0, rhs⟩ | _ | ⟨⟨_, _⟩⟩ | _ | _ | _ | _ | _ | _ | _ | _ | _ | _ | _ | _ | _ | _ | _ | _
  case assignStmt =>
    simp only [walkStmtChildren, Res.bind_eq_ok, Res.pure_eq_ok, Prod.mk.injEq,
      Stmt.assignStmt.injEq] at h
    obtain ⟨⟨w1, l1⟩, h1, ⟨w2, l2⟩, h2, _, rfl, rfl, rfl⟩ := h
    exact ⟨lhs, rhs, w1, w2, rfl, h1, h2⟩
  all_goals
    revert h
    simp only [walkStmtChildren, Res.bind_eq_ok, Res.pure_eq_ok, forall_exists_index,
      and_imp, Prod.mk.injEq, Prod.forall, Prod.exists]
    intros
    simp_all

theorem finalizeNode_exprStmt_inv (ids : Idents) (w : visitor) (s1 : Stmt) (x : Expr)
    (h : w.finalizeNode ids s1 = .exprStmt x) : s1 = .exprStmt x := by
  unfold visitor.finalizeNode at h
  split at h
  · simp at h
  · split at h <;> simp_all
  · simp at h
  · simp at h
  · simp at h
  · exact h

theorem finalizeNode_assignStmt_inv (ids : Idents) (w : visitor) (s1 : Stmt) (lhs : List Expr)
    (tok : Token) (rhs : List Expr) (h : w.finalizeNode ids s1 = .assignStmt lhs tok rhs) :
    s1 = .assignStmt lhs tok rhs := by
  unfold visitor.finalizeNode at h
  split at h
  · simp at h
  · split at h <;> simp_all
  · simp at h
  · simp at h
  · simp at h
  · exact h

theorem isClause_declareReceiver (s : Stmt) (h : isClause s = true) :
    declareReceiver s = none ∧ scopeCreationHandle s = none := by
  cases s <;> simp_all [isClause, declareReceiver, scopeCreationHandle]

theorem rewriteSetTrace_declareReceiver (ids : Idents) (s : Stmt) (h : isSetTraceCall ids s = true) :
    declareReceiver (rewriteSetTrace ids s) = none := by
  unfold isSetTraceCall at h
  split at h
  · simp [rewriteSetTrace, declareReceiver]
  · simp at h

theorem rewriteSetTrace_scopeCreationHandle (ids : Idents) (s : Stmt) :
    scopeCreationHandle (rewriteSetTrace ids s) = scopeCreationHandle s := by
  unfold rewriteSetTrace
  split <;> simp [scopeCreationHandle]

/-- A statement that the walk leaves as a `Declare` call was that `Declare` call. -/
theorem walkStmt_declareReceiver (ids : Idents) (n : Nat) (c c' : visitor) (s s' : Stmt)
    (recv : String) (h : walkStmt ids (walkers ids n) c s = .ok (c', s'))
    (hd : declareReceiver s' = some recv) : declareReceiver s = some recv := by
  rcases walkStmt_ok ids _ c s c' s' h with
    ⟨hcl, r, hr, _, hn⟩ | ⟨hcl, r0, w, w', s1, r, h0, _, hch, hfin, _, _⟩
  · have := (isClause_declareReceiver _ (Visit_node_clause ids _ c s s r hr hcl)).1
    rw [hn, hd] at this
    cases this
  · obtain ⟨i, sel, args', ell, hs', hsel, hi⟩ := (declareReceiver_eq_some s' recv).mp hd
    rw [hs'] at hfin
    have h1 := finalizeNode_exprStmt_inv ids w' s1 _ hfin.symm
    subst h1
    obtain ⟨x, w1, hx, hwx⟩ := walkStmtChildren_exprStmt_inv ids _ w w' _ _ hch
    obtain ⟨args, hxe, _⟩ := walkers_expr_call_inv ids n w w1 x i sel args' ell hwx
    have hnode : declareReceiver r0.node = some recv := by
      rw [hx, hxe]
      exact (declareReceiver_eq_some _ recv).mpr ⟨i, sel, args, ell, rfl, hsel, hi⟩
    rcases Visit_node ids _ c s s r0 h0 hcl with he | ⟨ht, he⟩
    · rwa [he] at hnode
    · rw [he, rewriteSetTrace_declareReceiver ids s ht] at hnode
      cases hnode

/-- A statement that the walk leaves as a scope-creation assignment was that
assignment. -/
theorem walkStmt_scopeCreationHandle (ids : Idents) (n : Nat) (c c' : visitor) (s s' : Stmt)
    (hdl : String) (h : walkStmt ids (walkers ids n) c s = .ok (c', s'))
    (hd : scopeCreationHandle s' = some hdl) : scopeCreationHandle s = some hdl := by
  rcases walkStmt_ok ids _ c s c' s' h with
    ⟨hcl, r, hr, _, hn⟩ | ⟨hcl, r0, w, w', s1, r, h0, _, hch, hfin, _, _⟩
  · have := (isClause_declareReceiver _ (Visit_node_clause ids _ c s s r hr hcl)).2
    rw [hn, hd] at this
    cases this
  · obtain ⟨i, p, sel, ell, hs', hsel, hi⟩ := (scopeCreationHandle_eq_some s' hdl).mp hd
    rw [hs'] at hfin
    have h1 := finalizeNode_assignStmt_inv ids w' s1 _ _ _ hfin.symm
    subst h1
    obtain ⟨lhs, rhs, w1, w2, ht, hl, hrr⟩ := walkStmtChildren_assignStmt_inv ids _ w w' _ _ _ _ hch
    have hlhs : lhs = [.ident i] := by
      cases lhs with
      | nil => simp [walkList_nil] at hl
      | cons a as =>
        obtain ⟨v1, a', v2, as', ha, has, he⟩ := (walkList_cons_ok _ w a as _).mp hl
        simp only [Prod.mk.injEq, List.cons.injEq] at he
        obtain ⟨_, rfl, rfl⟩ := he
        have := walkList_length _ _ _ _ _ has
        simp only [List.length_nil] at this
        rw [walkers_expr_ident_inv ids n w v1 a i ha, List.length_eq_zero.mp this.symm]
    have hrhs : rhs = [.callExpr (.mk (.selectorExpr (.ident p) sel) [] ell)] := by
      cases rhs with
      | nil => simp [walkList_nil] at hrr
      | cons a as =>
        obtain ⟨v1, a', v2, as', ha, has, he⟩ := (walkList_cons_ok _ w1 a as _).mp hrr
        simp only [Prod.mk.injEq, List.cons.injEq] at he
        obtain ⟨_, rfl, rfl⟩ := he
        have := walkList_length _ _ _ _ _ has
        simp only [List.length_nil] at this
        obtain ⟨args, hae, hlen⟩ := walkers_expr_call_inv ids n w1 v1 a p sel [] ell ha
        simp only [List.length_nil] at hlen
        rw [hae, List.length_eq_zero.mp hlen.symm, List.length_eq_zero.mp this.symm]
    have hnode : scopeCreationHandle r0.node = some hdl := by
      rw [ht, hlhs, hrhs]
      exact (scopeCreationHandle_eq_some _ hdl).mpr ⟨i, p, sel, ell, rfl, hsel, hi⟩
    rcases Visit_node ids _ c s s r0 h0 hcl with he | ⟨_, he⟩
    · rwa [he] at hnode
    · rwa [he, rewriteSetTrace_scopeCreationHandle] at hnode

theorem newDeclareCall_receiver (ids : Idents) (sc : String) (l : List Ident)
    (h : sc = "" ∨ sc = ids.scope) :
    declareReceiver (newDeclareCall ids sc l) = some ids.scope ∧
      scopeCreationHandle (newDeclareCall ids sc l) = none := by
  rcases h with rfl | rfl
  · simp [newDeclareCall, declareReceiver, scopeCreationHandle, newSel, newIdentExpr, NewIdent]
  · by_cases hs : ids.scope = "" <;>
      simp [newDeclareCall, declareReceiver, scopeCreationHandle, newSel, newIdentExpr, NewIdent, hs]

theorem newScopeAssign_handle (name scopeVar : String) :
    scopeCreationHandle (newScopeAssign name scopeVar) = some name ∧
      declareReceiver (newScopeAssign name scopeVar) = none := by
  simp [newScopeAssign, scopeCreationHandle, declareReceiver, newCall, newSel, newIdentExpr,
    NewIdent]

theorem neutral_emittedBefore (ids : Idents) (c : visitor) (s : Stmt) :
    ∀ x ∈ emittedBefore ids c s, neutral x := by
  intro x hx
  have key : ∀ sc line, neutral (newLineCall ids sc line) := by
    intro sc line
    simp [neutral, newLineCall, newCallStmt, newCall, newSel, declareReceiver, scopeCreationHandle,
      newIdentExpr, NewIdent]
  cases s <;> simp only [emittedBefore] at hx <;> (try split_ifs at hx) <;>
    simp only [List.mem_singleton, List.not_mem_nil] at hx <;>
    first
      | (subst hx; exact key _ _)
      | (subst hx
         simp [neutral, newCaseMarker, newCallStmt, newCall, newSel, newReceiveCase,
           declareReceiver, scopeCreationHandle, newIdentExpr, NewIdent])

theorem neutral_placed (ids : Idents) (c : visitor) (s s' : Stmt) (h : neutral s') :
    neutral (placed ids c s s') := by
  cases s <;> simp only [placed] <;> (try split_ifs) <;>
    first
      | exact h
      | simp [neutral, visitor.wrapSwitch, visitor.wrapLoop, declareReceiver, scopeCreationHandle]

/-- What `Visit` emits after a statement: nothing that matters, or the `Declare` call,
with the scope creation before it unless the visitor has made one. -/
theorem emittedAfter_cases (ids : Idents) (c : visitor) (s : Stmt) :
    (declaresNew s = false ∧ ∀ x ∈ emittedAfter ids c s, neutral x) ∨
      (declaresNew s = true ∧ ∃ sv,
        emittedAfter ids c s =
          (if c.createdExplicitScope then [] else [newScopeAssign ids.scope sv]) ++
            [newDeclareCall ids "" (declaredIdents s)]) := by
  by_cases hd : (declaredIdents s).length > 0
  · right
    refine ⟨by simp [declaresNew, hd], if c.scopeVar = "" then ids.scope else c.scopeVar, ?_⟩
    cases s <;> simp_all [declaredIdents, emittedAfter]
  · left
    refine ⟨by simp [declaresNew, hd], ?_⟩
    intro x hx
    cases s <;> simp_all [declaredIdents, emittedAfter, neutral, astDeferDefer, declareReceiver,
      scopeCreationHandle]

theorem scopeOrdered_nil : scopeOrdered [] := by
  intro pre d post recv h
  simp at h

/-- A list with one more element at its end, cut at an element: the cut is at the new
element or inside the old list. -/
theorem append_singleton_eq_split {α : Type} (l pre post : List α) (x d : α)
    (h : l ++ [x] = pre ++ d :: post) :
    (pre = l ∧ d = x ∧ post = []) ∨ ∃ post', l = pre ++ d :: post' ∧ post = post' ++ [x] := by
  rcases List.eq_nil_or_concat post with rfl | ⟨post', y, rfl⟩
  · left
    have := List.append_inj' h (by simp)
    simp only [List.cons.injEq, and_true] at this
    exact ⟨this.1.symm, this.2.symm, rfl⟩
  · right
    have h' : l ++ [x] = (pre ++ d :: post') ++ [y] := by simpa using h
    have := List.append_inj' h' (by simp)
    simp only [List.cons.injEq, and_true] at this
    exact ⟨post', this.1, by simp [this.2]⟩

theorem scopeOrdered_append_of_mem (l : List Stmt) (x : Stmt) (hl : scopeOrdered l)
    (hx : ∀ recv, declareReceiver x = some recv → ∃ a ∈ l, scopeCreationHandle a = some recv) :
    scopeOrdered (l ++ [x]) := by
  intro pre d post recv h hd
  rcases append_singleton_eq_split l pre post x d h with ⟨rfl, rfl, _⟩ | ⟨post', hl', _⟩
  · exact hx recv hd
  · exact hl pre d post' recv hl' hd

theorem scopeOrdered_append_neutral (l : List Stmt) (x : Stmt) (hl : scopeOrdered l)
    (hx : declareReceiver x = none) : scopeOrdered (l ++ [x]) :=
  scopeOrdered_append_of_mem l x hl (fun recv hr => by rw [hx] at hr; cases hr)

theorem scopeCreations_append (l m : List Stmt) :
    scopeCreations (l ++ m) = scopeCreations l + scopeCreations m := by
  simp [scopeCreations, List.countP_append]

theorem scopeCreations_neutral (x : Stmt) (hx : scopeCreationHandle x = none) :
    scopeCreations [x] = 0 := by
  simp [scopeCreations, hx]

/-- Appending statements that are neither calls of `Declare` nor scope creations keeps
the invariant. -/
theorem scopeInvariant_append_neutral (ids : Idents) (created : Bool) (buf : List Stmt)
    (m : List Stmt) (h : scopeInvariant ids created buf) (hm : ∀ x ∈ m, neutral x) :
    scopeInvariant ids created (buf ++ m) := by
  induction m using List.reverseRecOn with
  | nil => simpa using h
  | append_singleton m x ih =>
    have ih := ih (fun y hy => hm y (by simp [hy]))
    have hx := hm x (by simp)
    rw [← List.append_assoc]
    refine ⟨scopeOrdered_append_neutral _ x ih.1 hx.1, ?_, ?_⟩
    · rw [scopeCreations_append, ih.2.1, scopeCreations_neutral x hx.2]; simp
    · intro hc
      obtain ⟨a, ha, hs⟩ := ih.2.2 hc
      exact ⟨a, List.mem_append_left _ ha, hs⟩

/-- Appending the `Declare` call, after a scope creation if none was made, establishes
the invariant with the flag set. -/
theorem scopeInvariant_append_declare (ids : Idents) (created : Bool) (buf : List Stmt)
    (sv : String) (l : List Ident) (h : scopeInvariant ids created buf) :
    scopeInvariant ids true
      (buf ++ ((if created then [] else [newScopeAssign ids.scope sv]) ++
        [newDeclareCall ids "" l])) := by
  have hdecl := newDeclareCall_receiver ids "" l (Or.inl rfl)
  have hassign := newScopeAssign_handle ids.scope sv
  cases created with
  | true =>
    obtain ⟨a, ha, hs⟩ := h.2.2 rfl
    simp only [if_true, List.nil_append]
    refine ⟨scopeOrdered_append_of_mem _ _ h.1 ?_, ?_, ?_⟩
    · intro recv hr
      rw [hdecl.1] at hr
      cases hr
      exact ⟨a, ha, hs⟩
    · rw [scopeCreations_append, h.2.1, scopeCreations_neutral _ hdecl.2]; simp
    · intro _
      exact ⟨a, by simp [ha], hs⟩
  | false =>
    simp only [Bool.false_eq_true, if_false, List.singleton_append]
    have h1 : scopeOrdered (buf ++ [newScopeAssign ids.scope sv]) :=
      scopeOrdered_append_neutral _ _ h.1 hassign.2
    have h2 : buf ++ [newScopeAssign ids.scope sv, newDeclareCall ids "" l] =
        (buf ++ [newScopeAssign ids.scope sv]) ++ [newDeclareCall ids "" l] := by simp
    rw [h2]
    refine ⟨scopeOrdered_append_of_mem _ _ h1 ?_, ?_, ?_⟩
    · intro recv hr
      rw [hdecl.1] at hr
      cases hr
      exact ⟨_, by simp, hassign.1⟩
    · rw [scopeCreations_append, scopeCreations_append, h.2.1, scopeCreations_neutral _ hdecl.2]
      simp [scopeCreations, hassign.1]
    · intro _
      exact ⟨newScopeAssign ids.scope sv, by simp, hassign.1⟩

theorem newDeclareCall_scope (ids : Idents) (l : List Ident) :
    newDeclareCall ids ids.scope l = newDeclareCall ids "" l := by
  by_cases h : ids.scope = "" <;> simp [newDeclareCall, h]

/-- A statement that is neither a `Declare` call nor a scope creation is none after the
walk either. -/
theorem walkStmt_neutral (ids : Idents) (n : Nat) (c c' : visitor) (s s' : Stmt)
    (h : walkStmt ids (walkers ids n) c s = .ok (c', s')) (hs : neutral s) : neutral s' := by
  constructor
  · cases hd : declareReceiver s' with
    | none => rfl
    | some recv =>
      have := walkStmt_declareReceiver ids n c c' s s' recv h hd
      rw [hs.1] at this
      cases this
  · cases hd : scopeCreationHandle s' with
    | none => rfl
    | some hdl =>
      have := walkStmt_scopeCreationHandle ids n c c' s s' hdl h hd
      rw [hs.2] at this
      cases this

/-- The walk of the statements of a block keeps the invariant of the buffer. -/
theorem walkList_scopeInvariant (ids : Idents) (n : Nat) (l : List Stmt) :
    ∀ (c c' : visitor) (fin buf : List Stmt), c.stmtBuf = some buf →
      walkList (walkStmt ids (walkers ids n)) c l = .ok (c', fin) →
      (∀ s ∈ l, neutral s) → scopeInvariant ids c.createdExplicitScope buf →
      ∃ buf', c'.stmtBuf = some buf' ∧ scopeInvariant ids c'.createdExplicitScope buf' := by
  induction l with
  | nil =>
    intro c c' fin buf hbuf h _ hinv
    simp only [walkList_nil, Except.ok.injEq, Prod.mk.injEq] at h
    obtain ⟨rfl, _⟩ := h
    exact ⟨buf, hbuf, hinv⟩
  | cons s l ih =>
    intro c c' fin buf hbuf h hl hinv
    obtain ⟨c1, s', c2, fin', h1, h2, h3⟩ := (walkList_cons_ok _ c s l _).mp h
    simp only [Prod.mk.injEq] at h3
    obtain ⟨rfl, _⟩ := h3
    obtain ⟨hb1, hcr1, _, _⟩ := walkStmt_spec ids _ c s c1 s' buf hbuf h1
    have hs' : neutral s' := walkStmt_neutral ids n c c1 s s' h1 (hl s (by simp))
    have hmid : scopeInvariant ids c.createdExplicitScope
        (buf ++ (emittedBefore ids c s ++ [placed ids c s s'])) := by
      refine scopeInvariant_append_neutral ids _ buf _ hinv ?_
      intro x hx
      rcases List.mem_append.mp hx with hx | hx
      · exact neutral_emittedBefore ids c s x hx
      · simp only [List.mem_singleton] at hx
        subst hx
        exact neutral_placed ids c s s' hs'
    have hb1' : c1.stmtBuf =
        some ((buf ++ (emittedBefore ids c s ++ [placed ids c s s'])) ++ emittedAfter ids c s) := by
      rw [hb1]; simp
    refine ih c1 c' fin' _ hb1' h2 (fun x hx => hl x (by simp [hx])) ?_
    rcases emittedAfter_cases ids c s with ⟨hd, hneu⟩ | ⟨hd, sv, hafter⟩
    · have hcr : c1.createdExplicitScope = c.createdExplicitScope := by
        rw [hcr1]
        simp only [declaresNew] at hd
        simp [hd]
      rw [hcr]
      exact scopeInvariant_append_neutral ids _ _ _ hmid hneu
    · have hcr : c1.createdExplicitScope = true := by
        rw [hcr1]
        simp only [declaresNew] at hd
        simp [hd]
      rw [hcr, hafter]
      exact scopeInvariant_append_declare ids _ _ sv _ hmid

/-- In the statement list that the walk builds for a block none of whose statements is
itself a call `x.Declare(...)` or an assignment `x := y.EnteringNewChildScope()`, every
`Declare` call is preceded in the list by a scope-creation assignment whose handle is the
name the call is made on, and the list holds exactly one scope-creation assignment if the
block has pending variables or a declaring statement (however many), and none otherwise. -/
theorem walkBlockStmt_scope_order (ids : Idents) (n : Nat) (v : visitor) (b : BlockStmt)
    (v' : visitor) (b' : BlockStmt)
    (h : walkBlockStmt ids (walkers ids (n + 1)) v b = .ok (v', b'))
    (hclean : ∀ s ∈ b.List_, declareReceiver s = none ∧ scopeCreationHandle s = none) :
    (∀ (pre : List Stmt) (d : Stmt) (post : List Stmt) (recv : String),
        b'.List_ = pre ++ d :: post → declareReceiver d = some recv →
          ∃ a ∈ pre, scopeCreationHandle a = some recv) ∧
      b'.List_.countP (fun s => (scopeCreationHandle s).isSome) =
        (if v.blockVars.length > 0 ∨ b.List_.any declaresNew = true then 1 else 0) := by
  obtain ⟨child, finAll, hw, hb', _⟩ := walkBlockStmt_ok ids _ v b v' b' h
  obtain ⟨hbuf0, _, hcr0, _, _⟩ := VisitBlockStmt_child ids v b (.blockStmt b)
  rw [walkers_stmt] at hw
  have hinv0 : scopeInvariant ids (v.VisitBlockStmt ids b (.blockStmt b)).2.createdExplicitScope
      (if v.blockVars.length > 0 then
        [newScopeAssign ids.scope (if v.scopeVar = "" then ids.scope else v.scopeVar),
         newDeclareCall ids ids.scope v.blockVars]
        else []) := by
    rw [hcr0]
    by_cases hbv : v.blockVars.length > 0
    · simp only [hbv, if_true, decide_True]
      have := scopeInvariant_append_declare ids false []
        (if v.scopeVar = "" then ids.scope else v.scopeVar) v.blockVars
        ⟨scopeOrdered_nil, by simp [scopeCreations], by simp⟩
      simpa [newDeclareCall_scope] using this
    · simp only [hbv, if_false, decide_False]
      exact ⟨scopeOrdered_nil, by simp [scopeCreations], by simp⟩
  obtain ⟨buf', hbuf', hinv⟩ :=
    walkList_scopeInvariant ids n b.List_ _ child finAll _ hbuf0 hw hclean hinv0
  obtain ⟨_, _, _, hcr, _, _, _⟩ := walkList_stmt_spec ids _ b.List_ _ child finAll _ hbuf0 hw
  have hlist : b'.List_ = buf' := by rw [hb', BlockStmt.List_, hbuf']; rfl
  rw [hlist]
  refine ⟨hinv.1, ?_⟩
  have := hinv.2.1
  rw [scopeCreations] at this
  rw [this, hcr, hcr0]
  by_cases hbv : v.blockVars.length > 0 <;>
    by_cases hany : b.List_.any declaresNew = true <;> simp [hbv, hany]

theorem Res.ok_bind {α β : Type} (a : α) (f : α → Res β) : (Except.ok a >>= f) = f a := rfl

theorem fitsList_expr_iff (l : List Expr) (n : Nat) :
    Expr.fitsList l n = true ↔ ∀ x ∈ l, x.fits n = true := by
  induction l with
  | nil => simp [Expr.fitsList]
  | cons a l ih => simp [Expr.fitsList, ih]

theorem fitsList_stmt_iff (l : List Stmt) (n : Nat) :
    Stmt.fitsList l n = true ↔ ∀ x ∈ l, x.fits n = true := by
  induction l with
  | nil => simp [Stmt.fitsList]
  | cons a l ih => simp [Stmt.fitsList, ih]

theorem fitsList_field_iff (l : List Field) (n : Nat) :
    Field.fitsList l n = true ↔ ∀ x ∈ l, x.fits n = true := by
  induction l with
  | nil => simp [Field.fitsList]
  | cons a l ih => simp [Field.fitsList, ih]

theorem fitsList_valueSpec_iff (l : List ValueSpec) (n : Nat) :
    ValueSpec.fitsList l n = true ↔ ∀ x ∈ l, x.fits n = true := by
  induction l with
  | nil => simp [ValueSpec.fitsList]
  | cons a l ih => simp [ValueSpec.fitsList, ih]

theorem fitsList_typeSpec_iff (l : List TypeSpec) (n : Nat) :
    TypeSpec.fitsList l n = true ↔ ∀ x ∈ l, x.fits n = true := by
  induction l with
  | nil => simp [TypeSpec.fitsList]
  | cons a l ih => simp [TypeSpec.fitsList, ih]

theorem fits_funcType_iff (p : Pos) (params results : Option FieldList) (n : Nat) :
    (FuncType.mk p params results).fits n = true ↔
      (∀ l, params = some l → l.fits n = true) ∧ (∀ l, results = some l → l.fits n = true) := by
  cases params <;> cases results <;> simp [FuncType.fits]

theorem fits_valueSpec_iff (names : List Ident) (t : Option Expr) (values : List Expr) (n : Nat) :
    (ValueSpec.mk names t values).fits n = true ↔
      (∀ e, t = some e → e.fits n = true) ∧ Expr.fitsList values n = true := by
  cases t <;> simp [ValueSpec.fits]

/-- A walk of a list returns when the walk of each element does. -/
theorem walkList_total {α : Type} (walk : visitor → α → Res (visitor × α)) (l : List α)
    (h : ∀ x ∈ l, ∀ v, ∃ r, walk v x = .ok r) : ∀ v, ∃ r, walkList walk v l = .ok r := by
  induction l with
  | nil => intro v; exact ⟨_, rfl⟩
  | cons x xs ih =>
    intro v
    obtain ⟨⟨v1, x'⟩, h1⟩ := h x (by simp) v
    obtain ⟨⟨v2, xs'⟩, h2⟩ := ih (fun y hy => h y (by simp [hy])) v1
    simp only [walkList, h1, Res.ok_bind, h2]
    exact ⟨_, rfl⟩

theorem walkOption_total {α : Type} (walk : visitor → α → Res (visitor × α)) (x : Option α)
    (h : ∀ y, x = some y → ∀ v, ∃ r, walk v y = .ok r) : ∀ v, ∃ r, walkOption walk v x = .ok r := by
  intro v
  cases x with
  | none => exact ⟨_, rfl⟩
  | some y =>
    obtain ⟨⟨v1, y'⟩, h1⟩ := h y rfl v
    simp only [walkOption, h1, Res.ok_bind]
    exact ⟨_, rfl⟩

theorem walkList_expr_total (W : Walkers) (n : Nat) (HW : W.total n) (l : List Expr)
    (h : Expr.fitsList l n = true) (v : visitor) : ∃ r, walkList W.expr v l = .ok r :=
  walkList_total W.expr l (fun x hx v => HW.1 v x ((fitsList_expr_iff l n).mp h x hx)) v

theorem walkList_stmt_total (W : Walkers) (n : Nat) (HW : W.total n) (l : List Stmt)
    (h : Stmt.fitsList l n = true) (v : visitor) : ∃ r, walkList W.stmt v l = .ok r :=
  walkList_total W.stmt l (fun x hx v => HW.2.1 v x ((fitsList_stmt_iff l n).mp h x hx)) v

theorem walkList_visit_total (W : Walkers) (n : Nat) (HW : W.total n) (l : List Stmt)
    (h : Stmt.fitsList l n = true) (v : visitor) : ∃ r, walkList W.visit v l = .ok r :=
  walkList_total W.visit l (fun x hx v => HW.2.2 v x ((fitsList_stmt_iff l n).mp h x hx)) v

theorem walkOption_expr_total (W : Walkers) (n : Nat) (HW : W.total n) (x : Option Expr)
    (h : ∀ y, x = some y → y.fits n = true) (v : visitor) :
    ∃ r, walkOption W.expr v x = .ok r :=
  walkOption_total W.expr x (fun y hy v => HW.1 v y (h y hy)) v

theorem walkOption_stmt_total (W : Walkers) (n : Nat) (HW : W.total n) (x : Option Stmt)
    (h : ∀ y, x = some y → y.fits n = true) (v : visitor) :
    ∃ r, walkOption W.stmt v x = .ok r :=
  walkOption_total W.stmt x (fun y hy v => HW.2.1 v y (h y hy)) v

theorem walkOption_visit_total (W : Walkers) (n : Nat) (HW : W.total n) (x : Option Stmt)
    (h : ∀ y, x = some y → y.fits n = true) (v : visitor) :
    ∃ r, walkOption W.visit v x = .ok r :=
  walkOption_total W.visit x (fun y hy v => HW.2.2 v y (h y hy)) v

theorem walkCallExpr_total (ids : Idents) (W : Walkers) (n : Nat) (HW : W.total n)
    (c : CallExpr) (h : c.fits n = true) (v : visitor) : ∃ r, walkCallExpr ids W v c = .ok r := by
  rcases c with ⟨f, args, ell⟩
  simp only [CallExpr.fits, Bool.and_eq_true] at h
  obtain ⟨⟨w1, f'⟩, h1⟩ := HW.1 (v.VisitOther ids f.Pos).2 f h.1
  obtain ⟨⟨w2, args'⟩, h2⟩ := walkList_expr_total W n HW args h.2 w1
  simp only [walkCallExpr, h1, Res.ok_bind, h2]
  exact ⟨_, rfl⟩

theorem walkField_total (ids : Idents) (W : Walkers) (n : Nat) (HW : W.total n)
    (f : Field) (h : f.fits n = true) (v : visitor) : ∃ r, walkField ids W v f = .ok r := by
  rcases f with ⟨names, t⟩
  simp only [Field.fits] at h
  obtain ⟨⟨w1, t'⟩, h1⟩ :=
    HW.1 (walkIdentList ids (v.VisitOther ids (Field.mk names t).Pos).2 names) t h
  simp only [walkField, h1, Res.ok_bind]
  exact ⟨_, rfl⟩

theorem walkFieldList_total (ids : Idents) (W : Walkers) (n : Nat) (HW : W.total n)
    (l : FieldList) (h : l.fits n = true) (v : visitor) :
    ∃ r, walkFieldList ids W v l = .ok r := by
  rcases l with ⟨p, list⟩
  simp only [FieldList.fits] at h
  obtain ⟨⟨w1, l'⟩, h1⟩ := walkList_total (walkField ids W) list
    (fun x hx v => walkField_total ids W n HW x ((fitsList_field_iff list n).mp h x hx) v)
    (v.VisitOther ids (FieldList.mk p list).Pos).2
  simp only [walkFieldList, h1, Res.ok_bind]
  exact ⟨_, rfl⟩

theorem walkOption_fieldList_total (ids : Idents) (W : Walkers) (n : Nat) (HW : W.total n)
    (x : Option FieldList) (h : ∀ y, x = some y → y.fits n = true)
    (v : visitor) : ∃ r, walkOption (walkFieldList ids W) v x = .ok r :=
  walkOption_total _ x
    (fun y hy v => walkFieldList_total ids W n HW y (h y hy) v) v

theorem walkFuncType_total (ids : Idents) (W : Walkers) (n : Nat) (HW : W.total n)
    (t : FuncType) (h : t.fits n = true) (v : visitor) : ∃ r, walkFuncType ids W v t = .ok r := by
  rcases t with ⟨p, params, results⟩
  rw [fits_funcType_iff] at h
  obtain ⟨⟨w1, p'⟩, h1⟩ := walkOption_fieldList_total ids W n HW params h.1 (v.VisitOther ids p).2
  obtain ⟨⟨w2, r'⟩, h2⟩ := walkOption_fieldList_total ids W n HW results h.2 w1
  simp only [walkFuncType, h1, Res.ok_bind, h2]
  exact ⟨_, rfl⟩

theorem walkValueSpec_total (ids : Idents) (W : Walkers) (n : Nat) (HW : W.total n)
    (s : ValueSpec) (h : s.fits n = true) (v : visitor) :
    ∃ r, walkValueSpec ids W v s = .ok r := by
  rcases s with ⟨names, t, values⟩
  rw [fits_valueSpec_iff] at h
  obtain ⟨⟨w1, t'⟩, h1⟩ := walkOption_expr_total W n HW t h.1
    (walkIdentList ids (v.VisitOther ids (ValueSpec.mk names t values).Pos).2 names)
  obtain ⟨⟨w2, vs'⟩, h2⟩ := walkList_expr_total W n HW values h.2 w1
  simp only [walkValueSpec, h1, Res.ok_bind, h2]
  exact ⟨_, rfl⟩

theorem walkTypeSpec_total (ids : Idents) (W : Walkers) (n : Nat) (HW : W.total n)
    (s : TypeSpec) (h : s.fits n = true) (v : visitor) :
    ∃ r, walkTypeSpec ids W v s = .ok r := by
  rcases s with ⟨name, t⟩
  simp only [TypeSpec.fits] at h
  obtain ⟨⟨w1, t'⟩, h1⟩ :=
    HW.1 (walkIdent ids (v.VisitOther ids (TypeSpec.mk name t).Pos).2 name) t h
  simp only [walkTypeSpec, h1, Res.ok_bind]
  exact ⟨_, rfl⟩

theorem walkGenDecl_total (ids : Idents) (W : Walkers) (n : Nat) (HW : W.total n)
    (d : GenDecl) (h : d.fits n = true) (v : visitor) : ∃ r, walkGenDecl ids W v d = .ok r := by
  rcases d with ⟨p, tok, specs⟩ | ⟨p, specs⟩ | ⟨p, specs⟩
  · simp only [GenDecl.fits] at h
    obtain ⟨⟨w1, l'⟩, h1⟩ := walkList_total (walkValueSpec ids W) specs
      (fun x hx v => walkValueSpec_total ids W n HW x ((fitsList_valueSpec_iff specs n).mp h x hx) v)
      (v.VisitOther ids p).2
    simp only [walkGenDecl, h1, Res.ok_bind]
    exact ⟨_, rfl⟩
  · simp only [GenDecl.fits] at h
    obtain ⟨⟨w1, l'⟩, h1⟩ := walkList_total (walkTypeSpec ids W) specs
      (fun x hx v => walkTypeSpec_total ids W n HW x ((fitsList_typeSpec_iff specs n).mp h x hx) v)
      (v.VisitOther ids p).2
    simp only [walkGenDecl, h1, Res.ok_bind]
    exact ⟨_, rfl⟩
  · exact ⟨_, rfl⟩

theorem walkBlockStmt_total (ids : Idents) (W : Walkers) (n : Nat) (HW : W.total n)
    (b : BlockStmt) (h : b.fits n = true) (v : visitor) :
    ∃ r, walkBlockStmt ids W v b = .ok r := by
  rcases b with ⟨p, list⟩
  simp only [BlockStmt.fits] at h
  obtain ⟨⟨w1, l'⟩, h1⟩ := walkList_stmt_total W n HW list h
    (v.VisitBlockStmt ids (.mk p list) (.blockStmt (.mk p list))).2
  simp only [walkBlockStmt, BlockStmt.List_, h1, Res.ok_bind]
  exact ⟨_, rfl⟩

theorem fits_typeAssertExpr_iff (x : Expr) (t : Option Expr) (n : Nat) :
    (Expr.typeAssertExpr x t).fits (n + 1) = true ↔
      x.fits n = true ∧ (∀ e, t = some e → e.fits n = true) := by
  cases t <;> simp [Expr.fits]

theorem fits_ellipsis_iff (p : Pos) (t : Option Expr) (n : Nat) :
    (Expr.ellipsis p t).fits (n + 1) = true ↔ (∀ e, t = some e → e.fits n = true) := by
  cases t <;> simp [Expr.fits]

/-- The walk of the children of an expression returns when the walks one level down do. -/
theorem walkExprChildren_total (ids : Idents) (W : Walkers) (n : Nat) (HW : W.total n)
    (e : Expr) (h : e.fits (n + 1) = true) (w : visitor) :
    ∃ r, walkExprChildren ids W w e = .ok r := by
  rcases e with i | ⟨p, k, val⟩ | ⟨⟨f, args, ell⟩⟩ | ⟨x, sel⟩ | ⟨p, op, x⟩ | ⟨x, op, y⟩ | ⟨p, x⟩ |
    ⟨p, x⟩ | ⟨x, i⟩ | ⟨x, t⟩ | ⟨t, b⟩ | ⟨p, elt⟩ | ⟨⟨p, params, results⟩⟩ | ⟨p, fields⟩ |
    ⟨p, methods⟩ | ⟨p, x⟩
  · exact ⟨_, rfl⟩
  · exact ⟨_, rfl⟩
  · simp only [Expr.fits, CallExpr.fits, Bool.and_eq_true, Nat.add_sub_cancel] at h
    obtain ⟨⟨w1, f'⟩, h1⟩ := HW.1 w f h.2.1
    obtain ⟨⟨w2, args'⟩, h2⟩ := walkList_expr_total W n HW args h.2.2 w1
    simp only [walkExprChildren, h1, Res.ok_bind, h2]
    exact ⟨_, rfl⟩
  · simp only [Expr.fits, Bool.and_eq_true, Nat.add_sub_cancel] at h
    obtain ⟨⟨w1, x'⟩, h1⟩ := HW.1 w x h.2
    simp only [walkExprChildren, h1, Res.ok_bind]
    exact ⟨_, rfl⟩
  · simp only [Expr.fits, Bool.and_eq_true, Nat.add_sub_cancel] at h
    obtain ⟨⟨w1, x'⟩, h1⟩ := HW.1 w x h.2
    simp only [walkExprChildren, h1, Res.ok_bind]
    exact ⟨_, rfl⟩
  · simp only [Expr.fits, Bool.and_eq_true, Nat.add_sub_cancel] at h
    obtain ⟨⟨w1, x'⟩, h1⟩ := HW.1 w x h.2.1
    obtain ⟨⟨w2, y'⟩, h2⟩ := HW.1 w1 y h.2.2
    simp only [walkExprChildren, h1, Res.ok_bind, h2]
    exact ⟨_, rfl⟩
  · simp only [Expr.fits, Bool.and_eq_true, Nat.add_sub_cancel] at h
    obtain ⟨⟨w1, x'⟩, h1⟩ := HW.1 w x h.2
    simp only [walkExprChildren, h1, Res.ok_bind]
    exact ⟨_, rfl⟩
  · simp only [Expr.fits, Bool.and_eq_true, Nat.add_sub_cancel] at h
    obtain ⟨⟨w1, x'⟩, h1⟩ := HW.1 w x h.2
    simp only [walkExprChildren, h1, Res.ok_bind]
    exact ⟨_, rfl⟩
  · simp only [Expr.fits, Bool.and_eq_true, Nat.add_sub_cancel] at h
    obtain ⟨⟨w1, x'⟩, h1⟩ := HW.1 w x h.2.1
    obtain ⟨⟨w2, y'⟩, h2⟩ := HW.1 w1 i h.2.2
    simp only [walkExprChildren, h1, Res.ok_bind, h2]
    exact ⟨_, rfl⟩
  · rw [fits_typeAssertExpr_iff] at h
    obtain ⟨⟨w1, x'⟩, h1⟩ := HW.1 w x h.1
    obtain ⟨⟨w2, t'⟩, h2⟩ := walkOption_expr_total W n HW t h.2 w1
    simp only [walkExprChildren, h1, Res.ok_bind, h2]
    exact ⟨_, rfl⟩
  · simp [Expr.fits] at h
  · rw [fits_ellipsis_iff] at h
    obtain ⟨⟨w2, t'⟩, h2⟩ := walkOption_expr_total W n HW elt h w
    simp only [walkExprChildren, Res.ok_bind, h2]
    exact ⟨_, rfl⟩
  · simp only [Expr.fits, Bool.and_eq_true, Nat.add_sub_cancel] at h
    have h' := (fits_funcType_iff p params results n).mp h.2
    obtain ⟨⟨w1, p'⟩, h1⟩ := walkOption_fieldList_total ids W n HW params h'.1 w
    obtain ⟨⟨w2, r'⟩, h2⟩ := walkOption_fieldList_total ids W n HW results h'.2 w1
    simp only [walkExprChildren, h1, Res.ok_bind, h2]
    exact ⟨_, rfl⟩
  · simp only [Expr.fits, Bool.and_eq_true, Nat.add_sub_cancel] at h
    obtain ⟨⟨w1, x'⟩, h1⟩ := walkFieldList_total ids W n HW fields h.2 w
    simp only [walkExprChildren, h1, Res.ok_bind]
    exact ⟨_, rfl⟩
  · simp only [Expr.fits, Bool.and_eq_true, Nat.add_sub_cancel] at h
    obtain ⟨⟨w1, x'⟩, h1⟩ := walkFieldList_total ids W n HW methods h.2 w
    simp only [walkExprChildren, h1, Res.ok_bind]
    exact ⟨_, rfl⟩
  · simp only [Expr.fits, Bool.and_eq_true, Nat.add_sub_cancel] at h
    obtain ⟨⟨w1, x'⟩, h1⟩ := HW.1 w x h.2
    simp only [walkExprChildren, h1, Res.ok_bind]
    exact ⟨_, rfl⟩

/-- The walk of an expression without function literal returns when the walks one level
down do. -/
theorem walkExpr_total (ids : Idents) (W : Walkers) (n : Nat) (HW : W.total n)
    (e : Expr) (h : e.fits (n + 1) = true) (v : visitor) : ∃ r, walkExpr ids W v e = .ok r := by
  obtain ⟨e', h1⟩ := walkExprChildren_total ids W n HW e h (v.VisitOther ids e.Pos).2
  cases e <;> first
    | (simp [Expr.fits] at h; done)
    | (simp only [walkExpr, h1, Res.ok_bind]; exact ⟨_, rfl⟩)

theorem Res.bind_total {α β : Type} (x : Res α) (f : α → Res β) (hx : ∃ a, x = .ok a)
    (hf : ∀ a, ∃ r, f a = .ok r) : ∃ r, (x >>= f) = .ok r := by
  obtain ⟨a, ha⟩ := hx
  obtain ⟨r, hr⟩ := hf a
  exact ⟨r, by rw [ha]; exact hr⟩

theorem fits_ifStmt_iff (p : Pos) (init : Option Stmt) (cond : Expr) (body : BlockStmt)
    (els : Option Stmt) (n : Nat) :
    (Stmt.ifStmt p init cond body els).fits (n + 1) = true ↔
      (∀ s, init = some s → s.fits n = true) ∧ cond.fits n = true ∧ body.fits n = true ∧
        (∀ s, els = some s → s.fits n = true) := by
  cases init <;> cases els <;> simp [Stmt.fits]

theorem fits_forStmt_iff (p : Pos) (init : Option Stmt) (cond : Option Expr)
    (post : Option Stmt) (body : BlockStmt) (n : Nat) :
    (Stmt.forStmt p init cond post body).fits (n + 1) = true ↔
      (∀ s, init = some s → s.fits n = true) ∧ (∀ e, cond = some e → e.fits n = true) ∧
        (∀ s, post = some s → s.fits n = true) ∧ body.fits n = true := by
  cases init <;> cases cond <;> cases post <;> simp [Stmt.fits]

theorem fits_rangeStmt_iff (p : Pos) (key value : Option Expr) (tok : Token) (x : Expr)
    (body : BlockStmt) (n : Nat) :
    (Stmt.rangeStmt p key value tok x body).fits (n + 1) = true ↔
      (∀ e, key = some e → e.fits n = true) ∧ (∀ e, value = some e → e.fits n = true) ∧
        x.fits n = true ∧ body.fits n = true := by
  cases key <;> cases value <;> simp [Stmt.fits]

theorem fits_switchStmt_iff (p : Pos) (init : Option Stmt) (tag : Option Expr)
    (body : BlockStmt) (n : Nat) :
    (Stmt.switchStmt p init tag body).fits (n + 1) = true ↔
      (∀ s, init = some s → s.fits n = true) ∧ (∀ e, tag = some e → e.fits n = true) ∧
        body.fits n = true := by
  cases init <;> cases tag <;> simp [Stmt.fits]

theorem fits_typeSwitchStmt_iff (p : Pos) (init : Option Stmt) (assign : Stmt)
    (body : BlockStmt) (n : Nat) :
    (Stmt.typeSwitchStmt p init assign body).fits (n + 1) = true ↔
      (∀ s, init = some s → s.fits n = true) ∧ assign.fits n = true ∧ body.fits n = true := by
  cases init <;> simp [Stmt.fits]

theorem fits_commClause_iff (p : Pos) (comm : Option Stmt) (body : List Stmt) (n : Nat) :
    (Stmt.commClause p comm body).fits (n + 1) = true ↔
      (∀ s, comm = some s → s.fits n = true) ∧ Stmt.fitsList body n = true := by
  cases comm <;> simp [Stmt.fits]

/-- The walk of the children of a statement returns when the walks one level down do. -/
theorem walkStmtChildren_total (ids : Idents) (W : Walkers) (n : Nat) (HW : W.total n)
    (s : Stmt) (h : s.fits (n + 1) = true) (w : visitor) :
    ∃ r, walkStmtChildren ids W w s = .ok r := by
  rcases s with x | ⟨lhs, tok, rhs⟩ | d | ⟨⟨p, list⟩⟩ | ⟨p, init, cond, body, els⟩ |
    ⟨p, init, cond, post, body⟩ | ⟨p, key, value, tok, x, body⟩ | ⟨p, init, tag, body⟩ |
    ⟨p, init, assign, body⟩ | ⟨p, list, body⟩ | ⟨p, body⟩ | ⟨p, comm, body⟩ | ⟨label, stmt⟩ |
    ⟨p, call⟩ | ⟨p, call⟩ | ⟨p, results⟩ | ⟨x, tok⟩ | ⟨c, val⟩ | ⟨p, tok, label⟩ | p
  · simp only [Stmt.fits, Bool.and_eq_true, Nat.add_sub_cancel] at h
    obtain ⟨⟨w1, x'⟩, h1⟩ := HW.1 w x h.2
    simp only [walkStmtChildren, h1, Res.ok_bind]
    exact ⟨_, rfl⟩
  · simp only [Stmt.fits, Bool.and_eq_true, Nat.add_sub_cancel] at h
    obtain ⟨⟨w1, l'⟩, h1⟩ := walkList_expr_total W n HW lhs h.2.1 w
    obtain ⟨⟨w2, r'⟩, h2⟩ := walkList_expr_total W n HW rhs h.2.2 w1
    simp only [walkStmtChildren, h1, Res.ok_bind, h2]
    exact ⟨_, rfl⟩
  · simp only [Stmt.fits, Bool.and_eq_true, Nat.add_sub_cancel] at h
    obtain ⟨⟨w1, d'⟩, h1⟩ := walkGenDecl_total ids W n HW d h.2 w
    simp only [walkStmtChildren, h1, Res.ok_bind]
    exact ⟨_, rfl⟩
  · simp only [Stmt.fits, BlockStmt.fits, Bool.and_eq_true, Nat.add_sub_cancel] at h
    obtain ⟨⟨w1, l'⟩, h1⟩ := walkList_stmt_total W n HW list h.2 w
    simp only [walkStmtChildren, h1, Res.ok_bind]
    exact ⟨_, rfl⟩
  · rw [fits_ifStmt_iff] at h
    obtain ⟨⟨w1, i'⟩, h1⟩ := walkOption_stmt_total W n HW init h.1 w
    obtain ⟨⟨w2, c'⟩, h2⟩ := HW.1 w1 cond h.2.1
    obtain ⟨⟨w3, b'⟩, h3⟩ := walkBlockStmt_total ids W n HW body h.2.2.1 w2
    obtain ⟨⟨w4, e'⟩, h4⟩ := walkOption_stmt_total W n HW els h.2.2.2 w3
    simp only [walkStmtChildren, h1, Res.ok_bind, h2, h3, h4]
    exact ⟨_, rfl⟩
  · rw [fits_forStmt_iff] at h
    obtain ⟨⟨w1, i'⟩, h1⟩ := walkOption_stmt_total W n HW init h.1 w
    obtain ⟨⟨w2, c'⟩, h2⟩ := walkOption_expr_total W n HW cond h.2.1 w1
    obtain ⟨⟨w3, p'⟩, h3⟩ := walkOption_stmt_total W n HW post h.2.2.1 w2
    obtain ⟨⟨w4, b'⟩, h4⟩ := walkBlockStmt_total ids W n HW body h.2.2.2 w3
    simp only [walkStmtChildren, h1, Res.ok_bind, h2, h3, h4]
    exact ⟨_, rfl⟩
  · rw [fits_rangeStmt_iff] at h
    obtain ⟨⟨w1, k'⟩, h1⟩ := walkOption_expr_total W n HW key h.1 w
    obtain ⟨⟨w2, v'⟩, h2⟩ := walkOption_expr_total W n HW value h.2.1 w1
    obtain ⟨⟨w3, x'⟩, h3⟩ := HW.1 w2 x h.2.2.1
    obtain ⟨⟨w4, b'⟩, h4⟩ := walkBlockStmt_total ids W n HW body h.2.2.2 w3
    simp only [walkStmtChildren, h1, Res.ok_bind, h2, h3, h4]
    exact ⟨_, rfl⟩
  · rw [fits_switchStmt_iff] at h
    obtain ⟨⟨w1, i'⟩, h1⟩ := walkOption_stmt_total W n HW init h.1 w
    obtain ⟨⟨w2, t'⟩, h2⟩ := walkOption_expr_total W n HW tag h.2.1 w1
    obtain ⟨⟨w3, b'⟩, h3⟩ := walkBlockStmt_total ids W n HW body h.2.2 w2
    simp only [walkStmtChildren, h1, Res.ok_bind, h2, h3]
    exact ⟨_, rfl⟩
  · rw [fits_typeSwitchStmt_iff] at h
    obtain ⟨⟨w1, i'⟩, h1⟩ := walkOption_stmt_total W n HW init h.1 w
    obtain ⟨⟨w2, a'⟩, h2⟩ := HW.2.1 w1 assign h.2.1
    obtain ⟨⟨w3, b'⟩, h3⟩ := walkBlockStmt_total ids W n HW body h.2.2 w2
    simp only [walkStmtChildren, h1, Res.ok_bind, h2, h3]
    exact ⟨_, rfl⟩
  · simp only [Stmt.fits, Bool.and_eq_true, Nat.add_sub_cancel] at h
    obtain ⟨⟨w1, l'⟩, h1⟩ := walkList_expr_total W n HW list h.2.1 w
    obtain ⟨⟨w2, b'⟩, h2⟩ := walkList_stmt_total W n HW body h.2.2 w1
    simp only [walkStmtChildren, h1, Res.ok_bind, h2]
    exact ⟨_, rfl⟩
  · simp only [Stmt.fits, Bool.and_eq_true, Nat.add_sub_cancel] at h
    obtain ⟨⟨w1, b'⟩, h1⟩ := walkBlockStmt_total ids W n HW body h.2 w
    simp only [walkStmtChildren, h1, Res.ok_bind]
    exact ⟨_, rfl⟩
  · rw [fits_commClause_iff] at h
    obtain ⟨⟨w1, c'⟩, h1⟩ := walkOption_stmt_total W n HW comm h.1 w
    obtain ⟨⟨w2, b'⟩, h2⟩ := walkList_stmt_total W n HW body h.2 w1
    simp only [walkStmtChildren, h1, Res.ok_bind, h2]
    exact ⟨_, rfl⟩
  · simp only [Stmt.fits, Bool.and_eq_true, Nat.add_sub_cancel] at h
    obtain ⟨⟨w1, s'⟩, h1⟩ := HW.2.1 (walkIdent ids w label) stmt h.2
    simp only [walkStmtChildren, h1, Res.ok_bind]
    exact ⟨_, rfl⟩
  · simp only [Stmt.fits, Bool.and_eq_true, Nat.add_sub_cancel] at h
    obtain ⟨⟨w1, c'⟩, h1⟩ := walkCallExpr_total ids W n HW call h.2 w
    simp only [walkStmtChildren, h1, Res.ok_bind]
    exact ⟨_, rfl⟩
  · simp only [Stmt.fits, Bool.and_eq_true, Nat.add_sub_cancel] at h
    obtain ⟨⟨w1, c'⟩, h1⟩ := walkCallExpr_total ids W n HW call h.2 w
    simp only [walkStmtChildren, h1, Res.ok_bind]
    exact ⟨_, rfl⟩
  · simp only [Stmt.fits, Bool.and_eq_true, Nat.add_sub_cancel] at h
    obtain ⟨⟨w1, l'⟩, h1⟩ := walkList_expr_total W n HW results h.2 w
    simp only [walkStmtChildren, h1, Res.ok_bind]
    exact ⟨_, rfl⟩
  · simp only [Stmt.fits, Bool.and_eq_true, Nat.add_sub_cancel] at h
    obtain ⟨⟨w1, x'⟩, h1⟩ := HW.1 w x h.2
    simp only [walkStmtChildren, h1, Res.ok_bind]
    exact ⟨_, rfl⟩
  · simp only [Stmt.fits, Bool.and_eq_true, Nat.add_sub_cancel] at h
    obtain ⟨⟨w1, c'⟩, h1⟩ := HW.1 w c h.2.1
    obtain ⟨⟨w2, v'⟩, h2⟩ := HW.1 w1 val h.2.2
    simp only [walkStmtChildren, h1, Res.ok_bind, h2]
    exact ⟨_, rfl⟩
  · exact ⟨_, rfl⟩
  · exact ⟨_, rfl⟩

/-- `Visit` on a statement returns when the walks one level down do. -/
theorem Visit_total (ids : Idents) (W : Walkers) (n : Nat) (HW : W.total n)
    (s : Stmt) (h : s.fits (n + 1) = true) (v : visitor) (final : Stmt) :
    ∃ r, v.Visit ids W s final = .ok r := by
  rcases s with x | ⟨lhs, tok, rhs⟩ | d | b | ⟨p, init, cond, body, els⟩ |
    ⟨p, init, cond, post, body⟩ | ⟨p, key, value, tok, x, body⟩ | ⟨p, init, tag, body⟩ |
    ⟨p, init, assign, body⟩ | ⟨p, list, body⟩ | ⟨p, body⟩ | ⟨p, comm, body⟩ | ⟨label, stmt⟩ |
    ⟨p, call⟩ | ⟨p, call⟩ | ⟨p, results⟩ | ⟨x, tok⟩ | ⟨c, val⟩ | ⟨p, tok, label⟩ | p
  case switchStmt =>
    simp only [visitor.Visit]
    split_ifs <;> exact ⟨_, rfl⟩
  case caseClause =>
    simp only [Stmt.fits, Bool.and_eq_true, Nat.add_sub_cancel] at h
    obtain ⟨⟨w1, b'⟩, h1⟩ := walkList_stmt_total W n HW body h.2.2
      { v.newChild .other with stmtBuf := some [] }
    simp only [visitor.Visit, h1, Res.ok_bind]
    exact ⟨_, rfl⟩
  case commClause =>
    rw [fits_commClause_iff] at h
    obtain ⟨⟨w1, c'⟩, h1⟩ := walkOption_visit_total W n HW comm h.1 (v.newChild .other)
    simp only [visitor.Visit, h1, Res.ok_bind]
    exact Res.bind_total _ _ (walkList_visit_total W n HW body h.2 _) (fun ⟨_, _⟩ => ⟨_, rfl⟩)
  all_goals exact ⟨_, rfl⟩

theorem fits_zero_expr (e : Expr) : e.fits 0 = false := by
  cases e with
  | typeAssertExpr x t => cases t <;> simp [Expr.fits]
  | ellipsis p elt => cases elt <;> simp [Expr.fits]
  | _ => simp [Expr.fits]

theorem fits_zero_stmt (s : Stmt) : s.fits 0 = false := by
  cases s with
  | ifStmt p init c b els => cases init <;> cases els <;> simp [Stmt.fits]
  | forStmt p init c post b => cases init <;> cases c <;> cases post <;> simp [Stmt.fits]
  | rangeStmt p key value tok x b => cases key <;> cases value <;> simp [Stmt.fits]
  | switchStmt p init tag b => cases init <;> cases tag <;> simp [Stmt.fits]
  | typeSwitchStmt p init a b => cases init <;> simp [Stmt.fits]
  | commClause p comm b => cases comm <;> simp [Stmt.fits]
  | _ => simp [Stmt.fits]

/-- The rewrite of a trace-start call keeps the depth. -/
theorem rewriteSetTrace_fits (ids : Idents) (s : Stmt) (n : Nat) (h : s.fits n = true) :
    (rewriteSetTrace ids s).fits n = true := by
  unfold rewriteSetTrace
  split
  · simp only [Stmt.fits, Expr.fits, CallExpr.fits, Bool.and_eq_true, decide_eq_true_eq] at h
    simp only [Stmt.fits, Expr.fits, CallExpr.fits, Expr.fitsList, newIdentExpr, Bool.and_eq_true,
      decide_eq_true_eq, Bool.and_true]
    exact ⟨h.1, h.2.1, ⟨h.2.2.1.1, h.2.2.1.2⟩, h.2.2.1.1⟩
  · exact h

/-- The walk of a statement without function literal returns when the walks one level down
do. -/
theorem walkStmt_total (ids : Idents) (W : Walkers) (n : Nat) (HW : W.total n)
    (s : Stmt) (h : s.fits (n + 1) = true) (v : visitor) : ∃ r, walkStmt ids W v s = .ok r := by
  obtain ⟨r0, h0⟩ := Visit_total ids W n HW s h v s
  have hch := Visit_child ids W v s s r0 h0
  simp only [walkStmt, h0, Res.ok_bind]
  cases hc : r0.child with
  | none => exact ⟨_, rfl⟩
  | some w =>
    have hcl : isClause s = false := by
      rw [hc] at hch
      cases hi : isClause s
      · rfl
      · rw [hi] at hch; simp at hch
    have hfit : r0.node.fits (n + 1) = true := by
      rcases Visit_node ids W v s s r0 h0 hcl with e | ⟨_, e⟩
      · rw [e]; exact h
      · rw [e]; exact rewriteSetTrace_fits ids s (n + 1) h
    obtain ⟨⟨w', s1⟩, h1⟩ := walkStmtChildren_total ids W n HW r0.node hfit w
    obtain ⟨r, h2⟩ := Visit_total ids W n HW s h v (w'.finalizeNode ids s1)
    simp only [h1, Res.ok_bind, h2]
    exact ⟨_, rfl⟩

theorem visitOnly_total (ids : Idents) (W : Walkers) (n : Nat) (HW : W.total n)
    (s : Stmt) (h : s.fits (n + 1) = true) (v : visitor) : ∃ r, visitOnly ids W v s = .ok r := by
  obtain ⟨r0, h0⟩ := Visit_total ids W n HW s h v s
  simp only [visitOnly, h0, Res.ok_bind]
  cases hc : r0.child with
  | none => exact ⟨_, rfl⟩
  | some w =>
    obtain ⟨r, h2⟩ := Visit_total ids W n HW s h v r0.node
    simp only [h2, Res.ok_bind]
    exact ⟨_, rfl⟩

/-- Enough fuel: the walks of depth `n` return on every tree without function literal that
is nested at most `n` deep. -/
theorem walkers_total (ids : Idents) : ∀ n : Nat, (walkers ids n).total n := by
  intro n
  induction n with
  | zero =>
    refine ⟨fun v e h => ?_, fun v s h => ?_, fun v s h => ?_⟩
    · rw [fits_zero_expr] at h; cases h
    · rw [fits_zero_stmt] at h; cases h
    · rw [fits_zero_stmt] at h; cases h
  | succ n ih =>
    refine ⟨fun v e h => ?_, fun v s h => ?_, fun v s h => ?_⟩
    · rw [walkers_expr]; exact walkExpr_total ids _ n ih e h v
    · rw [walkers_stmt]; exact walkStmt_total ids _ n ih s h v
    · rw [walkers_visit]; exact visitOnly_total ids _ n ih s h v

/-- The walk of a block without function literal returns, given fuel for its depth. -/
theorem walkBlockStmt_returns (ids : Idents) (n : Nat) (v : visitor) (b : BlockStmt)
    (h : b.fits n = true) : ∃ r, walkBlockStmt ids (walkers ids n) v b = .ok r :=
  walkBlockStmt_total ids _ n (walkers_total ids n) b h v

/-! ## Theorems: name synthesis, recover, functions, switches, loops -/

/-- C1 (defect of the code): the file `_x.go` gives `createConflictFreeName` the base name
`_x_go_scope`; when the file declares a variable of that name, the scan visits the
identifier and `createConflictFreeName` still returns `_x_go_scope`.  With the suffix flag,
a base name that ends in a digit collides in the same way. -/
theorem C1_conflict_free_name_collides :
    createConflictFreeName "_x_go_scope"
        (.file { Name := ⟨1, "p", false, false⟩,
                 Decls := [.genDecl (.values 2 .VAR
                   [.mk [⟨2, "_x_go_scope", true, false⟩] (some (.ident ⟨2, "int", false, false⟩))
                     []])] }) false = .ok "_x_go_scope" ∧
      Node.scan
        (.file { Name := ⟨1, "p", false, false⟩,
                 Decls := [.genDecl (.values 2 .VAR
                   [.mk [⟨2, "_x_go_scope", true, false⟩] (some (.ident ⟨2, "int", false, false⟩))
                     []])] }) =
        .ok [⟨1, "p", false, false⟩, ⟨2, "_x_go_scope", true, false⟩, ⟨2, "int", false, false⟩] ∧
      createConflictFreeName "x1" (.expr (.ident ⟨1, "x1", false, false⟩)) true = .ok "x1" := by
  decide

/-- C5 (defect of the code): on the body `{ defer recover() }`, and on `{ go recover() }`,
`rewriteRecoversIn` does not return: `rewriteRecoverCall` finds the call in the field `Call`
of type `*ast.CallExpr` and `reflect.Value.Set` panics. -/
theorem C5_rewriteRecoversIn_panics_on_defer :
    rewriteRecoversIn (.mk 1 [.deferStmt 2 (.mk (.ident ⟨2, "recover", false, true⟩) [] false)]) =
        .error setPanic ∧
      rewriteRecoversIn (.mk 1 [.goStmt 2 (.mk (.ident ⟨2, "recover", false, true⟩) [] false)]) =
        .error setPanic := by
  constructor <;> rfl

/-- C7: for a function without a body, with a body without statements, or named `init`
without a receiver, `Visit` returns no visitor and the walk leaves the declaration as it
was; for a method with a body that has statements, whatever its name (`init` too), `Visit`
rewrites the calls of `recover` in the body and, when that returns, returns a visitor. -/
theorem C7_exempt_function_untouched (ids : Idents) (pkgName : String) (W : Walkers)
    (v : visitor) (d : FuncDecl) :
    (d.exempt → v.VisitFuncDecl d = .ok (none, d) ∧ walkFuncDecl ids pkgName W v d = .ok (v, d)) ∧
      (∀ b : BlockStmt, d.Body = some b → b.List_ ≠ [] → d.Recv ≠ none →
        v.VisitFuncDecl d = (rewriteRecoversIn b).bind (fun r =>
          .ok (some { v.newChild .other with
              blockVars := getIdents [d.Recv, d.Type_.Params, d.Type_.Results],
              hasRecovers := r.2 },
            { d with Body := some r.1 }))) := by
  constructor
  · intro hex
    have hv : v.VisitFuncDecl d = .ok (none, d) := by
      rcases hex with h | ⟨b, h, hb⟩ | ⟨hn, hr⟩
      · simp only [visitor.VisitFuncDecl, h]; rfl
      · simp only [visitor.VisitFuncDecl, h, hb, List.length_nil, or_true, if_true]; rfl
      · cases hbody : d.Body with
        | none => simp only [visitor.VisitFuncDecl, hbody]; rfl
        | some b =>
          simp only [visitor.VisitFuncDecl, hbody, hn, hr, Option.isNone_none, and_self,
            true_or, if_true]
          rfl
    refine ⟨hv, ?_⟩
    simp only [walkFuncDecl, hv]
    rfl
  · intro b hb hne hrecv
    have h1 : ¬ b.List_.length = 0 := by
      intro h0
      exact hne (List.length_eq_zero.mp h0)
    have h2 : d.Recv.isNone = false := by
      cases hr : d.Recv with
      | none => exact absurd hr hrecv
      | some _ => rfl
    simp only [visitor.VisitFuncDecl, hb, h1, h2, Bool.false_eq_true, and_false, or_self,
      if_false]
    rfl

theorem C7_exempt_function_untouched_witness :
    (funcInit.exempt ∧ rootVisitor.VisitFuncDecl funcInit = .ok (none, funcInit) ∧
        walkFuncDecl exampleIdents "p" (walkers exampleIdents 5) rootVisitor funcInit =
          .ok (rootVisitor, funcInit)) ∧
      (methodInit.Body = some (.mk 1 [callF 2]) ∧ BlockStmt.List_ (.mk 1 [callF 2]) ≠ [] ∧
        methodInit.Recv ≠ none ∧
        rootVisitor.VisitFuncDecl methodInit = (rewriteRecoversIn (.mk 1 [callF 2])).bind (fun r =>
          .ok (some { rootVisitor.newChild .other with
              blockVars := getIdents [methodInit.Recv, methodInit.Type_.Params,
                methodInit.Type_.Results],
              hasRecovers := r.2 },
            { methodInit with Body := some r.1 }))) :=
  ⟨⟨Or.inr (Or.inr ⟨rfl, rfl⟩),
      (C7_exempt_function_untouched exampleIdents "p" (walkers exampleIdents 5) rootVisitor
        funcInit).1 (Or.inr (Or.inr ⟨rfl, rfl⟩))⟩,
    rfl, by simp [BlockStmt.List_], by simp [methodInit],
    (C7_exempt_function_untouched exampleIdents "p" (walkers exampleIdents 5) rootVisitor
      methodInit).2 (.mk 1 [callF 2]) rfl (by simp [BlockStmt.List_]) (by simp [methodInit])⟩

/-- C8 (defect of the code): in package `main`, the method `func (t T) main() { f() }` is
instrumented without a deferred `ExitFunc` call: the test of `finalizeNode` looks at the
names of the package and of the function only, not at the receiver.  In a package of
another name the same declaration gets the call, after the `EnterFunc` check. -/
theorem C8_method_main_without_exit :
    walkFuncDecl exampleIdents "main" (walkers exampleIdents 5) rootVisitor methodMain =
        .ok (rootVisitor, { methodMain with Body := some (.mk 1
          [.assignStmt [newIdentExpr "ctx", newIdentExpr "ok"] .DEFINE
              [.callExpr (newCall "godebug" "EnterFunc" [newSel "t" "main"])],
           astIfNotOkReturn exampleIdents [],
           newScopeAssign "scope" "f_go_scope",
           newDeclareCall exampleIdents "scope" [⟨1, "t", true, false⟩],
           newLineCall exampleIdents "scope" 2,
           callF 2]) }) ∧
      walkFuncDecl exampleIdents "p" (walkers exampleIdents 5) rootVisitor methodMain =
        .ok (rootVisitor, { methodMain with Body := some (.mk 1
          [.assignStmt [newIdentExpr "ctx", newIdentExpr "ok"] .DEFINE
              [.callExpr (newCall "godebug" "EnterFunc" [newSel "t" "main"])],
           astIfNotOkReturn exampleIdents [],
           astDeferExitFunc exampleIdents,
           newScopeAssign "scope" "f_go_scope",
           newDeclareCall exampleIdents "scope" [⟨1, "t", true, false⟩],
           newLineCall exampleIdents "scope" 2,
           callF 2]) }) := by
  constructor <;> rfl

/-- C9 (defect of the code): a type switch in the clause of a value switch has a `Case`
marker clause put before its clause `case int:`, and the body of that clause gets no `Line`
marker: `parentIsExprSwitch` is handed down from the value switch and never reset.  The
same type switch directly in the block of a function gets the `Line` marker and no `Case`
marker clause. -/
theorem C9_type_switch_in_value_switch :
    (walkers exampleIdents 8).stmt rootVisitor (.blockStmt (.mk 1 [switchWithTypeSwitch])) =
        .ok (rootVisitor, .blockStmt (.mk 1
          [newLineCall exampleIdents "f_go_scope" 1,
           .switchStmt 1 none (some (.ident ⟨1, "x", false, false⟩)) (.mk 1
            [newCaseMarker exampleIdents "f_go_scope" 2,
             .caseClause 2 [.basicLit 2 .INT "1"]
              [newLineCall exampleIdents "f_go_scope" 3,
               .typeSwitchStmt 3 none
                (.exprStmt (.typeAssertExpr (.ident ⟨3, "y", false, false⟩) none))
                (.mk 3 [newCaseMarker exampleIdents "f_go_scope" 4,
                        .caseClause 4 [.ident ⟨4, "int", false, false⟩] []])]])])) ∧
      (walkers exampleIdents 8).stmt rootVisitor (.blockStmt (.mk 1 [typeSwitch])) =
        .ok (rootVisitor, .blockStmt (.mk 1
          [newLineCall exampleIdents "f_go_scope" 3,
           .typeSwitchStmt 3 none
            (.exprStmt (.typeAssertExpr (.ident ⟨3, "y", false, false⟩) none))
            (.mk 3 [.caseClause 4 [.ident ⟨4, "int", false, false⟩]
              [newLineCall exampleIdents "f_go_scope" 4]])])) := by
  constructor <;> rfl

/-- X1: what `finalizeNode` prepends to the body of a function declaration without call of
`recover`: the declarations of the unnamed parameters and results, the `EnterFunc` check,
and then `defer godebug.ExitFunc(ctx)`, unless the function is named `main` in package
`main` (with or without receiver); the statements of the body follow. -/
theorem finalizeFuncDecl_defers_exit (ids : Idents) (pkgName : String) (v : visitor)
    (i : FuncDecl) (body : BlockStmt) (i' : FuncDecl) (hb : i.Body = some body)
    (hr : v.hasRecovers = false) (h : v.finalizeFuncDecl ids pkgName i = .ok i') :
    ∃ enter : List Stmt,
      genEnterFunc ids i (inputsOrOutputs i.Type_.Params ids.input).2
          (inputsOrOutputs i.Type_.Results ids.result).2 = .ok enter ∧
        i'.Body = some (.mk body.Lbrace
          ((inputsOrOutputs i.Type_.Params ids.input).1 ++
            (inputsOrOutputs i.Type_.Results ids.result).1 ++ enter ++
            (if pkgName = "main" ∧ i.Name.Name = "main" then [] else [astDeferExitFunc ids]) ++
            body.List_)) := by
  simp only [visitor.finalizeFuncDecl, hb, hr, Bool.false_eq_true, if_false, Res.bind_eq_ok,
    Res.pure_eq_ok] at h
  obtain ⟨enter, h1, h2⟩ := h
  refine ⟨enter, h1, ?_⟩
  rw [← h2]
  by_cases hm : pkgName = "main" ∧ i.Name.Name = "main"
  · simp [hm]
  · have : (pkgName == "main" && i.Name.Name == "main") = false := by
      simpa using hm
    simp [hm, this]

theorem finalizeFuncDecl_defers_exit_witness :
    ∃ i' : FuncDecl,
      methodMain.Body = some (.mk 1 [callF 2]) ∧ rootVisitor.hasRecovers = false ∧
      rootVisitor.finalizeFuncDecl exampleIdents "p" methodMain = .ok i' ∧
      ∃ enter : List Stmt,
        genEnterFunc exampleIdents methodMain
            (inputsOrOutputs methodMain.Type_.Params exampleIdents.input).2
            (inputsOrOutputs methodMain.Type_.Results exampleIdents.result).2 = .ok enter ∧
          i'.Body = some (.mk (BlockStmt.mk 1 [callF 2]).Lbrace
            ((inputsOrOutputs methodMain.Type_.Params exampleIdents.input).1 ++
              (inputsOrOutputs methodMain.Type_.Results exampleIdents.result).1 ++ enter ++
              (if "p" = "main" ∧ methodMain.Name.Name = "main" then []
                else [astDeferExitFunc exampleIdents]) ++
              (BlockStmt.mk 1 [callF 2]).List_)) :=
  ⟨_, rfl, rfl, rfl,
    finalizeFuncDecl_defers_exit exampleIdents "p" rootVisitor methodMain (.mk 1 [callF 2]) _
      rfl rfl rfl⟩

/-! ## Theorems: conditionals, select statements, the trace-start call, the helpers -/

theorem emittedBefore_commClause (ids : Idents) (v : visitor) (p : Pos) (comm : Option Stmt)
    (body : List Stmt) :
    emittedBefore ids v (.commClause p comm body) = commMarker ids (.commClause p comm body) := by
  cases comm <;> rfl

theorem commMarker_length (ids : Idents) (cl : Stmt) :
    (commMarker ids cl).length = if isNonDefault cl = true then 1 else 0 := by
  cases cl with
  | commClause p comm body => cases comm <;> rfl
  | _ => rfl

theorem withCommMarkers_length (ids : Idents) (cls : List Stmt) :
    ∀ outs : List Stmt, outs.length = cls.length →
      (withCommMarkers ids cls outs).length = cls.length + cls.countP isNonDefault := by
  induction cls with
  | nil => intro outs h; cases outs <;> simp [withCommMarkers]
  | cons cl cls ih =>
    intro outs h
    cases outs with
    | nil => simp at h
    | cons out outs =>
      have hl : outs.length = cls.length := by simpa using h
      simp only [withCommMarkers, List.length_append, List.length_cons, ih outs hl,
        commMarker_length, List.countP_cons]
      split_ifs <;> omega

/-- `Visit` without walk on a simple statement leaves a receiver without a buffer as it
is. -/
theorem visitOnly_simple_receiver (ids : Idents) (W : Walkers) (v v' : visitor) (s s' : Stmt)
    (hs : isSimpleStmt s = true) (hv : v.stmtBuf = none)
    (h : visitOnly ids W v s = .ok (v', s')) : v' = v := by
  have hvis : ∀ final r, v.Visit ids W s final = .ok r → r.v = v := by
    intro final r hr
    cases s <;> simp only [isSimpleStmt, Bool.false_eq_true] at hs <;>
      simp only [visitor.Visit, visitor.VisitStmt, hv, Option.isNone_none, if_true,
        Res.pure_eq_ok] at hr <;> rw [← hr]
  simp only [visitOnly, Res.bind_eq_ok] at h
  obtain ⟨r, hr, h⟩ := h
  cases hc : r.child with
  | none =>
    simp only [hc, Res.pure_eq_ok, Prod.mk.injEq] at h
    rw [← h.1]; exact hvis _ r hr
  | some w =>
    simp only [hc, Res.bind_eq_ok, Res.pure_eq_ok, Prod.mk.injEq] at h
    obtain ⟨r', hr', h1, _⟩ := h
    rw [← h1]; exact hvis _ r' hr'

theorem walkers_visit_simple_receiver (ids : Idents) (k : Nat) (v v' : visitor)
    (s s' : Option Stmt) (hs : s.all isSimpleStmt = true) (hv : v.stmtBuf = none)
    (h : walkOption (walkers ids k).visit v s = .ok (v', s')) : v' = v := by
  cases s with
  | none => simp only [walkOption, Res.pure_eq_ok, Prod.mk.injEq] at h; exact h.1.symm
  | some x =>
    simp only [walkOption, Res.bind_eq_ok, Res.pure_eq_ok, Prod.mk.injEq, Prod.exists] at h
    obtain ⟨a, b, h1, h2, _⟩ := h
    rw [← h2]
    cases k with
    | zero => simp [walkers] at h1
    | succ k =>
      rw [walkers_visit] at h1
      exact visitOnly_simple_receiver ids _ v a x b (by simpa using hs) hv h1

/-- `Visit` without walk only adds to the buffer of its receiver. -/
theorem visitOnly_buffer (ids : Idents) (W : Walkers) (v v' : visitor) (s s' : Stmt)
    (buf : List Stmt) (hbuf : v.stmtBuf = some buf) (h : visitOnly ids W v s = .ok (v', s')) :
    ∃ g, v'.stmtBuf = some (buf ++ g) := by
  simp only [visitOnly, Res.bind_eq_ok] at h
  obtain ⟨r, hr, h⟩ := h
  cases hc : r.child with
  | none =>
    simp only [hc, Res.pure_eq_ok, Prod.mk.injEq] at h
    rw [← h.1]
    exact ⟨_, by rw [(Visit_spec ids W v s s r buf hbuf hr).1, List.append_assoc]⟩
  | some w =>
    simp only [hc, Res.bind_eq_ok, Res.pure_eq_ok, Prod.mk.injEq] at h
    obtain ⟨r', hr', h1, _⟩ := h
    rw [← h1]
    exact ⟨_, by rw [(Visit_spec ids W v s r.node r' buf hbuf hr').1, List.append_assoc]⟩

theorem walkList_visit_buffer (ids : Idents) (k : Nat) (l : List Stmt) :
    ∀ (v v' : visitor) (fin buf : List Stmt), v.stmtBuf = some buf →
      walkList (walkers ids k).visit v l = .ok (v', fin) → ∃ g, v'.stmtBuf = some (buf ++ g) := by
  induction l with
  | nil =>
    intro v v' fin buf hbuf h
    simp only [walkList_nil, Except.ok.injEq, Prod.mk.injEq] at h
    rw [← h.1]
    exact ⟨[], by simpa using hbuf⟩
  | cons s l ih =>
    intro v v' fin buf hbuf h
    obtain ⟨v1, s', v2, fin', h1, h2, h3⟩ := (walkList_cons_ok _ v s l _).mp h
    simp only [Prod.mk.injEq] at h3
    obtain ⟨rfl, _⟩ := h3
    cases k with
    | zero => simp [walkers] at h1
    | succ k =>
      rw [walkers_visit] at h1
      obtain ⟨g1, hg1⟩ := visitOnly_buffer ids _ v v1 s s' buf hbuf h1
      obtain ⟨g2, hg2⟩ := ih v1 v' fin' _ hg1 h2
      exact ⟨g1 ++ g2, by rw [hg2, List.append_assoc]⟩

/-- The buffer with which `Visit` starts the body of a communication clause. -/
theorem commClause_child_buffer (ids : Idents) (v : visitor) (comm : Option Stmt) :
    (if (newIdentsInSimpleStmt comm).length > 0 then
        (({ v.newChild .other with stmtBuf := some [] } : visitor).createScope ids).append
          [newDeclareCall ids
            (({ v.newChild .other with stmtBuf := some [] } : visitor).createScope ids).scopeVar
            (newIdentsInSimpleStmt comm)]
      else ({ v.newChild .other with stmtBuf := some [] } : visitor)).stmtBuf =
      some (commDeclare ids v.scopeVar comm) := by
  by_cases h : (newIdentsInSimpleStmt comm).length > 0
  · simp only [h, if_true, commDeclare, visitor.append_stmtBuf, visitor.createScope_stmtBuf,
      visitor.createScope_scopeVar]
    simp [visitor.newChild]
  · simp only [h, if_false, commDeclare]

/-- The clause that `Visit` leaves for a communication clause: its body is a `Line` marker,
the scope creation and the `Declare` call if the communication introduces new identifiers,
and then what the visits of the statements of the body put in the buffer. -/
theorem Visit_commClause_node (ids : Idents) (k : Nat) (v : visitor) (q : Pos)
    (comm : Option Stmt) (body : List Stmt) (final : Stmt) (r : VisitResult)
    (hs : comm.all isSimpleStmt = true)
    (h : v.Visit ids (walkers ids k) (.commClause q comm body) final = .ok r) :
    ∃ comm' rest, r.node = .commClause q comm'
      (newLineCall ids ids.scope (pos2line q) :: (commDeclare ids v.scopeVar comm ++ rest)) := by
  simp only [visitor.Visit, Res.bind_eq_ok, Res.pure_eq_ok, Prod.exists] at h
  obtain ⟨ch1, comm', h1, ch2, fin, h2, h3⟩ := h
  have e1 : ch1 = v.newChild .other :=
    walkers_visit_simple_receiver ids k (v.newChild .other) ch1 comm comm' hs rfl h1
  subst e1
  obtain ⟨g, hg⟩ := walkList_visit_buffer ids k body _ ch2 fin _
    (commClause_child_buffer ids v comm) h2
  refine ⟨comm', g, ?_⟩
  rw [← h3]
  simp [hg]

/-- The walk of the clauses of a `select` statement by the visitor of its body: the buffer
gets the clauses as rewritten, each one that is not the default clause with a `Comm` marker
clause before it. -/
theorem walkList_commClauses (ids : Idents) (n : Nat) (clauses : List Stmt) :
    ∀ (v v' : visitor) (fin buf : List Stmt),
      (∀ cl ∈ clauses, isCommClause cl = true) → v.stmtBuf = some buf →
      walkList (walkers ids n).stmt v clauses = .ok (v', fin) →
      v'.stmtBuf = some (buf ++ withCommMarkers ids clauses fin) ∧
        fin.length = clauses.length ∧ v'.scopeVar = v.scopeVar ∧
        ∀ (i : Nat) (h : i < clauses.length) (q : Pos) (comm : Option Stmt) (body : List Stmt),
          clauses.get ⟨i, h⟩ = .commClause q comm body →
          ∃ comm' rest, fin[i]? = some (.commClause q comm'
            (newLineCall ids ids.scope (pos2line q) ::
              (commDeclare ids v.scopeVar comm ++ rest))) := by
  induction clauses with
  | nil =>
    intro v v' fin buf _ hbuf h
    simp only [walkList_nil, Except.ok.injEq, Prod.mk.injEq] at h
    obtain ⟨rfl, rfl⟩ := h
    exact ⟨by simpa [withCommMarkers] using hbuf, rfl, rfl,
      fun i h => absurd h (Nat.not_lt_zero i)⟩
  | cons cl cls ih =>
    intro v v' fin buf hall hbuf h
    obtain ⟨v1, out, v2, fin', h1, h2, h3⟩ := (walkList_cons_ok _ v cl cls _).mp h
    simp only [Prod.mk.injEq] at h3
    obtain ⟨e3, rfl⟩ := h3
    subst e3
    have hcl := hall cl (by simp)
    cases n with
    | zero => simp [walkers] at h1
    | succ n =>
      rw [walkers_stmt] at h1
      cases cl with
      | commClause q comm body =>
        simp only [isCommClause] at hcl
        obtain ⟨hb1, _, hsc1, _⟩ := walkStmt_spec ids _ v _ v1 out buf hbuf h1
        have hb1' : v1.stmtBuf =
            some ((buf ++ (commMarker ids (.commClause q comm body) ++ [out]))) := by
          rw [hb1, emittedBefore_commClause]
          simp [placed, emittedAfter]
        have hsc1' : v1.scopeVar = v.scopeVar := by
          rw [hsc1]; simp [declaredIdents]
        obtain ⟨hb2, hl2, hsc2, hsh2⟩ :=
          ih v1 v' fin' _ (fun x hx => hall x (by simp [hx])) hb1' h2
        have hout : ∃ comm' rest, out = .commClause q comm'
            (newLineCall ids ids.scope (pos2line q) ::
              (commDeclare ids v.scopeVar comm ++ rest)) := by
          rcases walkStmt_ok ids _ v _ v1 out h1 with ⟨_, r, hr, _, hn⟩ | ⟨hc, _⟩
          · obtain ⟨comm', rest, e⟩ := Visit_commClause_node ids n v q comm body _ r hcl hr
            exact ⟨comm', rest, by rw [← hn, e]⟩
          · simp [isClause] at hc
        refine ⟨?_, by simp [hl2], by rw [hsc2, hsc1'], ?_⟩
        · rw [hb2]
          simp [withCommMarkers, List.append_assoc]
        · intro i hi q' comm0 body0 hget
          cases i with
          | zero =>
            simp only [List.get_eq_getElem, List.getElem_cons_zero, Stmt.commClause.injEq] at hget
            obtain ⟨rfl, rfl, rfl⟩ := hget
            obtain ⟨comm', rest, e⟩ := hout
            exact ⟨comm', rest, by simp [e]⟩
          | succ i =>
            have hi' : i < cls.length := by simpa using hi
            have hget' : cls.get ⟨i, hi'⟩ = .commClause q' comm0 body0 := by
              simpa using hget
            obtain ⟨comm', rest, e⟩ := hsh2 i hi' q' comm0 body0 hget'
            rw [hsc1'] at e
            exact ⟨comm', rest, by simpa using e⟩
      | _ => simp [isCommClause] at hcl

/-- The walk of a `select` statement: the body is walked by the visitor `Visit` returns, and
`finalizeNode` puts the `EndSelect` clause after its clauses. -/
theorem walkStmt_select (ids : Idents) (W : Walkers) (c c' : visitor) (p : Pos)
    (body : BlockStmt) (s' : Stmt)
    (h : walkStmt ids W c (.selectStmt p body) = .ok (c', s')) :
    ∃ w2 body', walkBlockStmt ids W (c.newChild .other) body = .ok (w2, body') ∧
      s' = .selectStmt p (.mk body'.Lbrace (body'.List_ ++ [endSelectClause ids])) := by
  rcases walkStmt_ok ids W c _ c' s' h with ⟨hcl, _⟩ | ⟨_, r0, w, w', s1, r, h0, hc, hch, hs', hr, hv⟩
  · simp [isClause] at hcl
  simp only [visitor.Visit, Res.pure_eq_ok] at h0
  rw [← h0] at hc hch
  simp only [Option.some.injEq] at hc
  subst hc
  simp only [walkStmtChildren, Res.bind_eq_ok, Res.pure_eq_ok, Prod.mk.injEq, Prod.exists] at hch
  obtain ⟨w2, body', h1, _, e1⟩ := hch
  subst e1
  exact ⟨w2, body', h1, hs'⟩

/-- X2: a `select` statement walked by a visitor that builds a statement list.
The walk returns, given fuel for the depth of the statement (shown for statements without
function literal); the visitor puts a `Select` marker and then the statement in its list;
the rewritten statement has the clauses of the original in their order, as rewritten, each
one that is not the default clause with a `Comm` marker clause right before it, and an
`EndSelect` clause at the end, so `n + m + 1` clauses for `n` clauses of which `m` are not
the default; and the body of each rewritten clause begins with a `Line` marker, followed,
when the communication introduces new identifiers, by the creation of a child scope and the
`Declare` call for them, before what the statements of the body give. -/
theorem select_clauses_in_statement_list (ids : Idents) (n : Nat) (c : visitor) (p lb : Pos)
    (clauses : List Stmt) :
    ((Stmt.selectStmt p (.mk lb clauses)).fits (n + 1) = true →
        ∃ r, (walkers ids (n + 1)).stmt c (.selectStmt p (.mk lb clauses)) = .ok r) ∧
      ∀ (c' : visitor) (s' : Stmt) (buf : List Stmt), c.stmtBuf = some buf →
        (∀ cl ∈ clauses, isCommClause cl = true) →
        (walkers ids (n + 1)).stmt c (.selectStmt p (.mk lb clauses)) = .ok (c', s') →
        ∃ outs : List Stmt, outs.length = clauses.length ∧
          c'.stmtBuf = some (buf ++
            [newCallStmt ids.godebug "Select"
               [newIdentExpr ids.ctx, newIdentExpr c.scopeVar, newInt (pos2line p)], s']) ∧
          s' = .selectStmt p (.mk lb (withCommMarkers ids clauses outs ++ [endSelectClause ids])) ∧
          (withCommMarkers ids clauses outs ++ [endSelectClause ids]).length =
            clauses.length + clauses.countP isNonDefault + 1 ∧
          ∀ (i : Nat) (h : i < clauses.length) (q : Pos) (comm : Option Stmt) (body : List Stmt),
            clauses.get ⟨i, h⟩ = .commClause q comm body →
            ∃ comm' rest, outs[i]? = some (.commClause q comm'
              (newLineCall ids ids.scope (pos2line q) ::
                (commDeclare ids c.scopeVar comm ++ rest))) := by
  refine ⟨fun h => (walkers_total ids (n + 1)).2.1 c _ h, ?_⟩
  intro c' s' buf hbuf hall h
  rw [walkers_stmt] at h
  obtain ⟨hb, _, _, _⟩ := walkStmt_spec ids _ c _ c' s' buf hbuf h
  obtain ⟨w2, body', hblock, hs'⟩ := walkStmt_select ids _ c c' p _ s' h
  obtain ⟨child, fin, hlist, hbody', _⟩ := walkBlockStmt_ok ids _ _ _ w2 body' hblock
  obtain ⟨hb0, hsc0, _, _, _⟩ :=
    VisitBlockStmt_child ids (c.newChild .other) (.mk lb clauses) (.blockStmt (.mk lb clauses))
  have hb0' : ((c.newChild .other).VisitBlockStmt ids (.mk lb clauses)
      (.blockStmt (.mk lb clauses))).2.stmtBuf = some [] := by
    rw [hb0]; simp [visitor.newChild]
  have hsc0' : ((c.newChild .other).VisitBlockStmt ids (.mk lb clauses)
      (.blockStmt (.mk lb clauses))).2.scopeVar = c.scopeVar := by
    rw [hsc0]; simp [visitor.newChild]
  obtain ⟨hbuf', hlen, _, hshape⟩ :=
    walkList_commClauses ids n clauses _ child fin [] hall hb0' hlist
  have hbody'' : body' = .mk lb (withCommMarkers ids clauses fin) := by
    rw [hbody', hbuf']; rfl
  subst hbody''
  refine ⟨fin, hlen, ?_, hs', ?_, ?_⟩
  · rw [hb]
    simp [emittedBefore, placed, emittedAfter]
  · rw [List.length_append, withCommMarkers_length ids clauses fin hlen]
    rfl
  · intro i hi q comm body hget
    have := hshape i hi q comm body hget
    rw [hsc0'] at this
    exact this

theorem select_clauses_in_statement_list_witness :
    ∃ (c' : visitor) (s' : Stmt),
      (Stmt.selectStmt 2 (.mk 2 exampleClauses)).fits 8 = true ∧
      listVisitor.stmtBuf = some [] ∧ (∀ cl ∈ exampleClauses, isCommClause cl = true) ∧
      (walkers exampleIdents 8).stmt listVisitor (.selectStmt 2 (.mk 2 exampleClauses)) =
        .ok (c', s') ∧
      ∃ outs : List Stmt, outs.length = exampleClauses.length ∧
        c'.stmtBuf = some ([] ++
          [newCallStmt exampleIdents.godebug "Select"
             [newIdentExpr exampleIdents.ctx, newIdentExpr listVisitor.scopeVar,
              newInt (pos2line 2)], s']) ∧
        s' = .selectStmt 2 (.mk 2
          (withCommMarkers exampleIdents exampleClauses outs ++ [endSelectClause exampleIdents])) ∧
        (withCommMarkers exampleIdents exampleClauses outs ++
            [endSelectClause exampleIdents]).length =
          exampleClauses.length + exampleClauses.countP isNonDefault + 1 ∧
        ∀ (i : Nat) (h : i < exampleClauses.length) (q : Pos) (comm : Option Stmt)
          (body : List Stmt), exampleClauses.get ⟨i, h⟩ = .commClause q comm body →
          ∃ comm' rest, outs[i]? = some (.commClause q comm'
            (newLineCall exampleIdents exampleIdents.scope (pos2line q) ::
              (commDeclare exampleIdents listVisitor.scopeVar comm ++ rest))) :=
  ⟨_, _, rfl, rfl, by decide, rfl,
    (select_clauses_in_statement_list exampleIdents 7 listVisitor 2 2 exampleClauses).2 _ _ [] rfl
      (by decide) rfl⟩

/-- C12 (defect of the code): for `L: select { default: }` in a block the list of the block
gets a `Line` marker and the labeled statement, and no `Select` marker, while the clauses of
the statement are rewritten and the `EndSelect` clause is added: the case `*ast.SelectStmt`
of `Visit` appends the marker and the statement to the buffer of its receiver without
testing it, the receiver is the visitor of the labeled statement, which has no buffer, and
what is appended goes into a buffer that no block takes.  For the same statement standing
in the block itself the list gets the `Select` marker and then the statement. -/
theorem C12_labeled_select_no_marker :
    (walkers exampleIdents 8).stmt rootVisitor (.blockStmt (.mk 1 [labeledSelect])) =
        .ok (rootVisitor, .blockStmt (.mk 1
          [newLineCall exampleIdents "f_go_scope" 2,
           .labeledStmt ⟨2, "L", false, false⟩ (.selectStmt 2 (.mk 2
             [.commClause 3 none [newLineCall exampleIdents "scope" 3],
              endSelectClause exampleIdents]))])) ∧
      (walkers exampleIdents 8).stmt rootVisitor (.blockStmt (.mk 1 [plainSelect])) =
        .ok (rootVisitor, .blockStmt (.mk 1
          [newCallStmt "godebug" "Select"
             [newIdentExpr "ctx", newIdentExpr "f_go_scope", newInt 2],
           .selectStmt 2 (.mk 2
             [.commClause 3 none [newLineCall exampleIdents "scope" 3],
              endSelectClause exampleIdents])])) := by
  exact ⟨rfl, rfl⟩

theorem isSetTraceCall_iff (ids : Idents) (s : Stmt) :
    isSetTraceCall ids s = true ↔
      ∃ x sel args ell, s = .exprStmt (.callExpr (.mk (.selectorExpr (.ident x) sel) args ell)) ∧
        x.Name = ids.godebug ∧ sel.Name = "SetTrace" := by
  constructor
  · intro h
    unfold isSetTraceCall at h
    split at h
    · rename_i x sel args ell
      simp only [Bool.and_eq_true, beq_iff_eq] at h
      exact ⟨x, sel, args, ell, rfl, h.1, h.2⟩
    · cases h
  · rintro ⟨x, sel, args, ell, rfl, hx, hs⟩
    simp [isSetTraceCall, hx, hs]

theorem VisitOther_none (ids : Idents) (w : visitor) (pos : Pos) (hw : w.stmtBuf = none) :
    w.VisitOther ids pos = (w, w.newChild .other) := by
  simp [visitor.VisitOther, hw]

theorem walkers_expr_ident (ids : Idents) (k : Nat) (w : visitor) (i : Ident)
    (hw : w.stmtBuf = none) : (walkers ids (k + 1)).expr w (.ident i) = .ok (w, .ident i) := by
  rw [walkers_expr]
  simp only [walkExpr, VisitOther_none ids w _ hw, walkExprChildren, Res.ok_bind]
  rfl

theorem walkers_expr_selector (ids : Idents) (k : Nat) (w : visitor) (x sel : Ident)
    (hw : w.stmtBuf = none) :
    (walkers ids (k + 2)).expr w (.selectorExpr (.ident x) sel) =
      .ok (w, .selectorExpr (.ident x) sel) := by
  rw [walkers_expr]
  simp only [walkExpr, VisitOther_none ids w _ hw, walkExprChildren,
    walkers_expr_ident ids k (w.newChild .other) x rfl, Res.ok_bind]
  rfl

theorem walkers_expr_call (ids : Idents) (k : Nat) (w : visitor) (x sel j : Ident) (ell : Bool)
    (hw : w.stmtBuf = none) :
    (walkers ids (k + 3)).expr w (.callExpr (.mk (.selectorExpr (.ident x) sel) [.ident j] ell)) =
      .ok (w, .callExpr (.mk (.selectorExpr (.ident x) sel) [.ident j] ell)) := by
  rw [walkers_expr]
  simp only [walkExpr, VisitOther_none ids w _ hw, walkExprChildren,
    walkers_expr_selector ids k (w.newChild .other) x sel rfl, Res.ok_bind, walkList,
    walkers_expr_ident ids (k + 1) (w.newChild .other) j rfl]
  rfl

/-- `Visit` on a trace-start call by a visitor that builds a list: no `Line` marker, the
statement is put in the buffer, and the node is the rewritten call. -/
theorem Visit_setTrace (ids : Idents) (W : Walkers) (c : visitor) (buf : List Stmt)
    (x sel : Ident) (args : List Expr) (ell : Bool) (final : Stmt)
    (hbuf : c.stmtBuf = some buf) (hx : x.Name = ids.godebug) (hs : sel.Name = "SetTrace") :
    c.Visit ids W (.exprStmt (.callExpr (.mk (.selectorExpr (.ident x) sel) args ell))) final =
      .ok ⟨c.append [final], some (c.newChild .other),
        .exprStmt (.callExpr (.mk (.selectorExpr (.ident x) { sel with Name := "SetTraceGen" })
          [newIdentExpr ids.ctx] ell))⟩ := by
  have hst : isSetTraceCall ids
      (.exprStmt (.callExpr (.mk (.selectorExpr (.ident x) sel) args ell))) = true := by
    simp [isSetTraceCall, hx, hs]
  simp only [visitor.Visit, visitor.VisitStmt, hbuf, Option.isNone_some, Bool.false_eq_true,
    if_false, loopIdents, List.length_nil, gt_iff_lt, Nat.lt_irrefl, hst, if_true,
    visitor.emitLine, Bool.not_true, declaredIdents, visitor.emitDeclare, visitor.emitDefer,
    visitor.withBlockVars, rewriteSetTrace]
  rfl

/-- C13: `isSetTraceCall` is true exactly for an expression statement whose expression is a
call of `godebug.SetTrace` (`godebug` being the name chosen for the library) and false, with
no failure, for every other statement.  The walk of such a statement by a visitor that
builds a list returns, given fuel 4 or more, and puts in the buffer no `Line` marker but the
statement alone, rewritten in place into `godebug.SetTraceGen(ctx)` with the
execution-context handle as its only argument. -/
theorem C13_trace_start_rewritten (ids : Idents) :
    (∀ s : Stmt, isSetTraceCall ids s = true ↔
        ∃ x sel args ell,
          s = .exprStmt (.callExpr (.mk (.selectorExpr (.ident x) sel) args ell)) ∧
            x.Name = ids.godebug ∧ sel.Name = "SetTrace") ∧
      (∀ (n : Nat) (c : visitor) (buf : List Stmt) (x sel : Ident) (args : List Expr)
        (ell : Bool), c.stmtBuf = some buf → x.Name = ids.godebug → sel.Name = "SetTrace" →
        ∃ c' : visitor,
          (walkers ids (n + 4)).stmt c
              (.exprStmt (.callExpr (.mk (.selectorExpr (.ident x) sel) args ell))) =
            .ok (c', .exprStmt (.callExpr (.mk
              (.selectorExpr (.ident x) { sel with Name := "SetTraceGen" })
              [newIdentExpr ids.ctx] ell))) ∧
          c'.stmtBuf = some (buf ++ [.exprStmt (.callExpr (.mk
              (.selectorExpr (.ident x) { sel with Name := "SetTraceGen" })
              [newIdentExpr ids.ctx] ell))]) ∧
          c'.scopeVar = c.scopeVar ∧ c'.createdExplicitScope = c.createdExplicitScope) := by
  refine ⟨isSetTraceCall_iff ids, ?_⟩
  intro n c buf x sel args ell hbuf hx hs
  refine ⟨c.append [.exprStmt (.callExpr (.mk
      (.selectorExpr (.ident x) { sel with Name := "SetTraceGen" })
      [newIdentExpr ids.ctx] ell))], ?_, ?_, rfl, rfl⟩
  · rw [walkers_stmt]
    simp only [walkStmt, Visit_setTrace ids _ c buf x sel args ell _ hbuf hx hs, Res.ok_bind,
      walkStmtChildren, newIdentExpr,
      walkers_expr_call ids n (c.newChild .other) x _ (NewIdent ids.ctx) ell rfl,
      visitor.finalizeNode]
    rfl
  · simp [visitor.append, hbuf]

theorem slotExprs_cons (pre : String) (start : Nat) (name : Ident) (names : List Ident) :
    slotExprs pre start (name :: names) =
      slotExpr pre start name :: slotExprs pre (start + 1) names := by
  simp [slotExprs, List.enumFrom_cons]

theorem slotExprs_append (pre : String) (start : Nat) (a b : List Ident) :
    slotExprs pre start (a ++ b) = slotExprs pre start a ++ slotExprs pre (start + a.length) b := by
  simp [slotExprs, List.enumFrom_append]

theorem synthesized_cons (pre : String) (start : Nat) (name : Ident) (names : List Ident) :
    synthesized pre start (name :: names) =
      (if name.Name = "_" then [NewIdent (pre ++ toString start)] else []) ++
        synthesized pre (start + 1) names := by
  by_cases h : name.Name = "_" <;> simp [synthesized, List.enumFrom_cons, h]

theorem synthesized_append (pre : String) (start : Nat) (a b : List Ident) :
    synthesized pre start (a ++ b) =
      synthesized pre start a ++ synthesized pre (start + a.length) b := by
  simp [synthesized, List.enumFrom_append]

/-- The inner loop of `inputsOrOutputs` in one step. -/
theorem inputsOrOutputsNames_spec (pre : String) (names : List Ident) :
    ∀ (count : Nat) (specNames : List Ident) (all : List Expr),
      inputsOrOutputsNames pre (count, specNames, all) names =
        (count + names.length, specNames ++ synthesized pre count names,
          all ++ slotExprs pre count names) := by
  induction names with
  | nil => intro count specNames all; simp [inputsOrOutputsNames, synthesized, slotExprs]
  | cons name names ih =>
    intro count specNames all
    by_cases h : name.Name = "_"
    · simp only [inputsOrOutputsNames, h, if_true, ih, slotExprs_cons, synthesized_cons, slotExpr,
        List.length_cons, List.append_assoc, List.singleton_append, Prod.mk.injEq]
      exact ⟨by omega, trivial⟩
    · simp only [inputsOrOutputsNames, h, if_false, ih, slotExprs_cons, synthesized_cons, slotExpr,
        List.length_cons, List.append_assoc, List.singleton_append, List.nil_append,
        Prod.mk.injEq]
      exact ⟨by omega, trivial⟩

/-- The outer loop of `inputsOrOutputs` in one step. -/
theorem inputsOrOutputsFields_spec (pre : String) (fields : List Field) :
    ∀ (count : Nat) (decl : List Stmt) (all : List Expr),
      inputsOrOutputsFields pre (count, decl, all) fields =
        (count + (fields.flatMap fieldSlots).length, decl ++ slotDecls pre count fields,
          all ++ slotExprs pre count (fields.flatMap fieldSlots)) := by
  induction fields with
  | nil => intro count decl all; simp [inputsOrOutputsFields, slotDecls, slotExprs]
  | cons f fs ih =>
    intro count decl all
    have hs : (if f.Names = [] then [blank] else f.Names) = fieldSlots f := rfl
    simp only [inputsOrOutputsFields, hs, inputsOrOutputsNames_spec, List.nil_append, ih,
      List.flatMap_cons, List.length_append, slotExprs_append, slotDecls, List.append_assoc,
      Prod.mk.injEq]
    refine ⟨by omega, ?_, trivial⟩
    split_ifs <;> simp

/-- The names declared by the declarations are the synthesized names, one entry each. -/
theorem slotDecls_names (pre : String) (fields : List Field) :
    ∀ start : Nat, (slotDecls pre start fields).flatMap varDeclNames =
      synthesized pre start (fields.flatMap fieldSlots) := by
  induction fields with
  | nil => intro start; simp [slotDecls, synthesized]
  | cons f fs ih =>
    intro start
    simp only [slotDecls, List.flatMap_append, ih, List.flatMap_cons, synthesized_append]
    congr 1
    split_ifs with h
    · simp [varDeclNames, varDeclStmt, ValueSpec.Names]
    · have : synthesized pre start (fieldSlots f) = [] := by
        cases hq : synthesized pre start (fieldSlots f) with
        | nil => rfl
        | cons a l => simp [hq] at h
      simp [this]

theorem slotExprs_getElem (pre : String) (names : List Ident) :
    ∀ (start k : Nat) (h : k < names.length),
      (slotExprs pre start names)[k]? = some (slotExpr pre (start + k) (names.get ⟨k, h⟩)) := by
  induction names with
  | nil => intro start k h; exact absurd h (Nat.not_lt_zero k)
  | cons n ns ih =>
    intro start k h
    rw [slotExprs_cons]
    cases k with
    | zero => simp
    | succ k =>
      have hk : k < ns.length := by simpa using h
      have := ih (start + 1) k hk
      simp only [List.getElem?_cons_succ, List.get_eq_getElem, List.getElem_cons_succ] at this ⊢
      rw [this]
      congr 2
      omega

/-- C14: `inputsOrOutputs` returns nothing for a nil list; for a list it returns one
expression per slot in source order (a field without names is one slot): the identifier of a
slot with a name other than `_`, and for an unnamed or blank slot at position `k`, counted
from 1 over all slots, the identifier `prefix` followed by the decimal `k`.  The declarations
returned are, field by field, one `var` declaration of the synthesized names of the field
with the type of the field, none for a field without synthesized names; so the names they
declare are the synthesized names, one entry each. -/
theorem C14_inputsOrOutputs_slots (pre : String) :
    inputsOrOutputs none pre = ([], []) ∧
      ∀ fl : FieldList,
        (inputsOrOutputs (some fl) pre).2 = slotExprs pre 1 (fl.List_.flatMap fieldSlots) ∧
          (inputsOrOutputs (some fl) pre).2.length = (fl.List_.flatMap fieldSlots).length ∧
          (∀ (k : Nat) (h : k < (fl.List_.flatMap fieldSlots).length),
            (inputsOrOutputs (some fl) pre).2[k]? =
              some (if ((fl.List_.flatMap fieldSlots).get ⟨k, h⟩).Name = "_"
                then .ident (NewIdent (pre ++ toString (k + 1)))
                else .ident ((fl.List_.flatMap fieldSlots).get ⟨k, h⟩))) ∧
          (inputsOrOutputs (some fl) pre).1 = slotDecls pre 1 fl.List_ ∧
          (inputsOrOutputs (some fl) pre).1.flatMap varDeclNames =
            synthesized pre 1 (fl.List_.flatMap fieldSlots) := by
  refine ⟨rfl, fun fl => ?_⟩
  have h2 : (inputsOrOutputs (some fl) pre).2 = slotExprs pre 1 (fl.List_.flatMap fieldSlots) := by
    simp [inputsOrOutputs, inputsOrOutputsFields_spec]
  have h1 : (inputsOrOutputs (some fl) pre).1 = slotDecls pre 1 fl.List_ := by
    simp [inputsOrOutputs, inputsOrOutputsFields_spec]
  refine ⟨h2, ?_, ?_, h1, ?_⟩
  · rw [h2]; simp [slotExprs]
  · intro k h
    rw [h2, slotExprs_getElem pre _ 1 k h, Nat.add_comm 1 k]
    rfl
  · rw [h1]; exact slotDecls_names pre fl.List_ 1

theorem isNewIdent_ne_blank (i : Ident) (h : isNewIdent i = true) : i.Name ≠ "_" := by
  simp only [isNewIdent, Bool.and_eq_true, bne_iff_ne, ne_eq] at h
  exact h.1

theorem sublist_flatMap {α β : Type} (f g : α → List β) (l : List α)
    (h : ∀ x, (f x).Sublist (g x)) : (l.flatMap f).Sublist (l.flatMap g) := by
  induction l with
  | nil => simp
  | cons x xs ih =>
    simp only [List.flatMap_cons]
    exact (h x).append ih

theorem listNewIdentsFromDecl_sublist (d : GenDecl) :
    (listNewIdentsFromDecl d).Sublist (boundNames (.declStmt d)) := by
  cases d with
  | values p tok specs =>
    simp only [listNewIdentsFromDecl, boundNames]
    split_ifs
    · exact List.nil_sublist _
    · exact sublist_flatMap _ _ specs (fun s => List.filter_sublist _)
  | types p specs => exact List.nil_sublist _
  | imports p specs => exact List.nil_sublist _

theorem listNewIdentsFromDecl_ne_blank (d : GenDecl) :
    ∀ i ∈ listNewIdentsFromDecl d, i.Name ≠ "_" := by
  intro i hi
  cases d with
  | values p tok specs =>
    simp only [listNewIdentsFromDecl] at hi
    split_ifs at hi
    · simp at hi
    · simp only [List.mem_flatMap, List.mem_filter] at hi
      obtain ⟨_, _, _, h⟩ := hi
      exact isNewIdent_ne_blank i h
  | types p specs => simp [listNewIdentsFromDecl] at hi
  | imports p specs => simp [listNewIdentsFromDecl] at hi

theorem listNewIdentsFromAssign_sublist (lhs : List Expr) :
    (listNewIdentsFromAssign lhs).Sublist (lhs.filterMap Expr.asIdent) := by
  induction lhs with
  | nil => simp [listNewIdentsFromAssign]
  | cons e es ih =>
    simp only [listNewIdentsFromAssign, List.flatMap_cons] at ih ⊢
    cases he : e.asIdent with
    | none =>
      simp only [List.filterMap_cons, he, List.nil_append]
      exact ih
    | some i =>
      simp only [List.filterMap_cons, he]
      split_ifs
      · exact ih.cons₂ i
      · exact ih.cons i

theorem listNewIdentsFromAssign_ne_blank (lhs : List Expr) :
    ∀ i ∈ listNewIdentsFromAssign lhs, i.Name ≠ "_" := by
  intro i hi
  simp only [listNewIdentsFromAssign, List.mem_flatMap] at hi
  obtain ⟨e, _, h⟩ := hi
  cases he : e.asIdent with
  | none => simp [he] at h
  | some j =>
    simp only [he] at h
    split_ifs at h with hn
    · simp only [List.mem_singleton] at h
      subst h
      exact isNewIdent_ne_blank i hn
    · simp at h

theorem newIdentsInRange_sublist (key value : Option Expr) (tok : Token) :
    (newIdentsInRange key value tok).Sublist
      ((key.bind Expr.asIdent).toList ++ (value.bind Expr.asIdent).toList) := by
  simp only [newIdentsInRange]
  split_ifs
  · exact List.nil_sublist _
  · refine List.Sublist.append ?_ ?_
    · cases key.bind Expr.asIdent with
      | none => exact List.nil_sublist _
      | some i => simp only [Option.toList]; split_ifs <;> simp
    · cases value.bind Expr.asIdent with
      | none => exact List.nil_sublist _
      | some i => simp only [Option.toList]; split_ifs <;> simp

theorem newIdentsInRange_ne_blank (key value : Option Expr) (tok : Token) :
    ∀ i ∈ newIdentsInRange key value tok, i.Name ≠ "_" := by
  intro i hi
  simp only [newIdentsInRange] at hi
  split_ifs at hi
  · simp at hi
  · rcases List.mem_append.mp hi with h | h
    · cases hk : key.bind Expr.asIdent with
      | none => simp [hk] at h
      | some j =>
        simp only [hk] at h
        split_ifs at h with hn
        · simp only [List.mem_singleton] at h; subst h; exact isNewIdent_ne_blank i hn
        · simp at h
    · cases hk : value.bind Expr.asIdent with
      | none => simp [hk] at h
      | some j =>
        simp only [hk] at h
        split_ifs at h with hn
        · simp only [List.mem_singleton] at h; subst h; exact isNewIdent_ne_blank i hn
        · simp at h

theorem newIdentsInSimpleStmt_ne_blank (init : Option Stmt) :
    ∀ i ∈ newIdentsInSimpleStmt init, i.Name ≠ "_" := by
  intro i hi
  rcases init with _ | s
  · simp [newIdentsInSimpleStmt] at hi
  · cases s <;> first
      | (simp [newIdentsInSimpleStmt] at hi; done)
      | exact listNewIdentsFromAssign_ne_blank _ i hi

theorem stmtNewIdents_ne_blank (s : Stmt) : ∀ i ∈ stmtNewIdents s, i.Name ≠ "_" := by
  intro i hi
  cases s <;> first
    | (simp [stmtNewIdents] at hi; done)
    | exact listNewIdentsFromDecl_ne_blank _ i hi
    | exact listNewIdentsFromAssign_ne_blank _ i hi
    | exact newIdentsInRange_ne_blank _ _ _ i hi
    | exact newIdentsInSimpleStmt_ne_blank _ i hi

theorem newIdentsInSimpleStmt_sublist (init : Option Stmt) :
    (newIdentsInSimpleStmt init).Sublist
      (match init with
        | some (.assignStmt lhs _ _) => lhs.filterMap Expr.asIdent
        | _ => []) := by
  rcases init with _ | s
  · exact List.nil_sublist _
  · cases s <;> first
      | exact listNewIdentsFromAssign_sublist _
      | exact List.nil_sublist _

theorem stmtNewIdents_sublist (s : Stmt) : (stmtNewIdents s).Sublist (boundNames s) := by
  cases s with
  | declStmt d => exact listNewIdentsFromDecl_sublist d
  | assignStmt lhs tok rhs => exact listNewIdentsFromAssign_sublist lhs
  | rangeStmt p key value tok x body => exact newIdentsInRange_sublist key value tok
  | ifStmt p init c b e =>
    rcases init with _ | s
    · exact List.nil_sublist _
    · cases s <;> first
        | exact listNewIdentsFromAssign_sublist _
        | exact List.nil_sublist _
  | forStmt p init c post b =>
    rcases init with _ | s
    · exact List.nil_sublist _
    · cases s <;> first
        | exact listNewIdentsFromAssign_sublist _
        | exact List.nil_sublist _
  | switchStmt p init tag b =>
    rcases init with _ | s
    · exact List.nil_sublist _
    · cases s <;> first
        | exact listNewIdentsFromAssign_sublist _
        | exact List.nil_sublist _
  | _ => exact List.nil_sublist _

/-- A statement all of whose bound names are blank has no new identifiers. -/
theorem stmtNewIdents_of_blank (s : Stmt) (h : ∀ i ∈ boundNames s, i.Name = "_") :
    stmtNewIdents s = [] := by
  rw [List.eq_nil_iff_forall_not_mem]
  intro i hi
  exact stmtNewIdents_ne_blank s i hi (h i ((stmtNewIdents_sublist s).subset hi))

theorem declaredIdents_of_blank (s : Stmt) (h : ∀ i ∈ boundNames s, i.Name = "_") :
    declaredIdents s = [] := by
  have := stmtNewIdents_of_blank s h
  cases s <;> first | exact this | rfl

theorem loopIdents_of_blank (s : Stmt) (h : ∀ i ∈ boundNames s, i.Name = "_") :
    loopIdents s = [] := by
  have := stmtNewIdents_of_blank s h
  cases s <;> first | exact this | rfl

theorem placed_of_blank (ids : Idents) (c : visitor) (s s' : Stmt)
    (h : ∀ i ∈ boundNames s, i.Name = "_") : placed ids c s s' = s' := by
  have h1 := stmtNewIdents_of_blank s h
  have h2 := loopIdents_of_blank s h
  cases s with
  | switchStmt p init tag body =>
    simp only [stmtNewIdents] at h1
    simp [placed, h1]
  | forStmt p init cond post body =>
    show (if (loopIdents (Stmt.forStmt p init cond post body)).length > 0 then _ else _) = _
    rw [h2]; rfl
  | rangeStmt p key value tok x body =>
    show (if (loopIdents (Stmt.rangeStmt p key value tok x body)).length > 0 then _ else _) = _
    rw [h2]; rfl
  | _ => rfl

theorem emitted_of_blank (ids : Idents) (c : visitor) (s : Stmt)
    (h : ∀ i ∈ boundNames s, i.Name = "_") :
    ∀ x ∈ emittedBefore ids c s ++ emittedAfter ids c s, neutral x := by
  intro x hx
  rcases List.mem_append.mp hx with hx | hx
  · exact neutral_emittedBefore ids c s x hx
  · rcases emittedAfter_cases ids c s with ⟨_, hn⟩ | ⟨hd, _⟩
    · exact hn x hx
    · simp [declaresNew, declaredIdents_of_blank s h] at hd

theorem VisitStmt_child_of_blank (ids : Idents) (c child0 : visitor) (s final : Stmt)
    (h : ∀ i ∈ boundNames s, i.Name = "_") (hb : child0.blockVars = [])
    (hn : child0.newIdents = []) (w : visitor)
    (hw : (c.VisitStmt ids child0 s final).child = some w) :
    w.blockVars = [] ∧ w.newIdents = [] := by
  have h1 := stmtNewIdents_of_blank s h
  have h2 := loopIdents_of_blank s h
  unfold visitor.VisitStmt at hw
  split_ifs at hw with ha hl
  all_goals first
    | (simp only [Option.some.injEq] at hw; subst hw; exact ⟨hb, hn⟩)
    | (simp [h2] at hl; done)
    | (simp only [Option.some.injEq] at hw
       subst hw
       cases s <;> first
         | exact ⟨hb, hn⟩
         | (simp only [stmtNewIdents] at h1; exact ⟨h1, hn⟩))

theorem Visit_child_of_blank (ids : Idents) (W : Walkers) (c : visitor) (s final : Stmt)
    (r : VisitResult) (w : visitor) (h : ∀ i ∈ boundNames s, i.Name = "_")
    (hr : c.Visit ids W s final = .ok r) (hw : r.child = some w) :
    w.blockVars = [] ∧ w.newIdents = [] := by
  have general : ∀ child0 : visitor, child0.blockVars = [] → child0.newIdents = [] →
      r = c.VisitStmt ids child0 s final → w.blockVars = [] ∧ w.newIdents = [] := by
    intro child0 hb hn e
    rw [e] at hw
    exact VisitStmt_child_of_blank ids c child0 s final h hb hn w hw
  cases s with
  | blockStmt b =>
    simp only [visitor.Visit, Res.pure_eq_ok] at hr
    rw [← hr] at hw
    simp only [Option.some.injEq] at hw
    rw [← hw]
    simp only [visitor.VisitBlockStmt]
    split_ifs
    · simp only [visitor.newChild, visitor.append, visitor.createScope]
      split_ifs <;> exact ⟨rfl, rfl⟩
    · exact ⟨rfl, rfl⟩
  | switchStmt p init tag body =>
    simp only [visitor.Visit] at hr
    split_ifs at hr
    · simp only [Res.pure_eq_ok] at hr
      rw [← hr] at hw
      simp only [Option.some.injEq] at hw
      rw [← hw]
      simp [visitor.newChild]
    · simp only [Res.pure_eq_ok] at hr
      exact general _ rfl rfl hr.symm
  | caseClause p l b =>
    simp only [visitor.Visit, Res.bind_eq_ok, Res.pure_eq_ok] at hr
    obtain ⟨_, _, hr⟩ := hr
    rw [← hr] at hw
    cases hw
  | selectStmt p b =>
    simp only [visitor.Visit, Res.pure_eq_ok] at hr
    rw [← hr] at hw
    simp only [Option.some.injEq] at hw
    rw [← hw]
    simp [visitor.newChild]
  | commClause p comm b =>
    simp only [visitor.Visit, Res.bind_eq_ok, Res.pure_eq_ok] at hr
    obtain ⟨_, _, _, _, hr⟩ := hr
    rw [← hr] at hw
    cases hw
  | _ =>
    simp only [visitor.Visit, Res.pure_eq_ok] at hr
    exact general _ rfl rfl hr.symm

/-- On a statement that is no clause `Visit` returns. -/
theorem Visit_returns (ids : Idents) (W : Walkers) (c : visitor) (s final : Stmt)
    (h : isClause s = false) : ∃ r, c.Visit ids W s final = .ok r := by
  cases s with
  | caseClause p l b => simp [isClause] at h
  | commClause p comm b => simp [isClause] at h
  | switchStmt p init tag body =>
    simp only [visitor.Visit]
    split_ifs <;> exact ⟨_, rfl⟩
  | _ => exact ⟨_, rfl⟩

/-- C15: the lists of new identifiers (`listNewIdentsFromDecl`, `listNewIdentsFromAssign`,
`newIdentsInRange`) hold no identifier named `_` and are sublists, in source order, of the
names the statement binds.  So for a statement that is no clause and all of whose bound
names are blank, `Visit` returns, what it puts in the buffer besides the statement is no
`Declare` call and no scope-creation assignment, the scope handle and the explicit-scope
flag stay, and the visitor it returns carries no pending variables; and a `Declare` call
that `Visit` emits after a statement is the one for the new identifiers of the statement,
none of which is blank. -/
theorem C15_blank_not_declared (ids : Idents) :
    (∀ d : GenDecl, (listNewIdentsFromDecl d).Sublist (boundNames (.declStmt d)) ∧
        ∀ i ∈ listNewIdentsFromDecl d, i.Name ≠ "_") ∧
      (∀ lhs : List Expr, (listNewIdentsFromAssign lhs).Sublist (lhs.filterMap Expr.asIdent) ∧
        ∀ i ∈ listNewIdentsFromAssign lhs, i.Name ≠ "_") ∧
      (∀ (key value : Option Expr) (tok : Token),
        (newIdentsInRange key value tok).Sublist
            ((key.bind Expr.asIdent).toList ++ (value.bind Expr.asIdent).toList) ∧
          ∀ i ∈ newIdentsInRange key value tok, i.Name ≠ "_") ∧
      (∀ (W : Walkers) (c : visitor) (s final : Stmt) (buf : List Stmt),
        c.stmtBuf = some buf → isClause s = false → (∀ i ∈ boundNames s, i.Name = "_") →
        ∃ r, c.Visit ids W s final = .ok r ∧
          r.v.stmtBuf = some (buf ++ emittedBefore ids c s ++ final :: emittedAfter ids c s) ∧
          (∀ x ∈ emittedBefore ids c s ++ emittedAfter ids c s,
            declareReceiver x = none ∧ scopeCreationHandle x = none) ∧
          r.v.createdExplicitScope = c.createdExplicitScope ∧ r.v.scopeVar = c.scopeVar ∧
          ∀ w, r.child = some w → w.blockVars = [] ∧ w.newIdents = []) ∧
      (∀ (c : visitor) (s x : Stmt) (recv : String), x ∈ emittedAfter ids c s →
        declareReceiver x = some recv →
          x = newDeclareCall ids "" (declaredIdents s) ∧
            ∀ i ∈ declaredIdents s, i.Name ≠ "_" ∧ i ∈ boundNames s) := by
  refine ⟨fun d => ⟨listNewIdentsFromDecl_sublist d, listNewIdentsFromDecl_ne_blank d⟩,
    fun lhs => ⟨listNewIdentsFromAssign_sublist lhs, listNewIdentsFromAssign_ne_blank lhs⟩,
    fun key value tok =>
      ⟨newIdentsInRange_sublist key value tok, newIdentsInRange_ne_blank key value tok⟩,
    ?_, ?_⟩
  · intro W c s final buf hbuf hcl hblank
    obtain ⟨r, hr⟩ := Visit_returns ids W c s final hcl
    obtain ⟨h1, h2, h3, _, _⟩ := Visit_spec ids W c s final r buf hbuf hr
    have hd := declaredIdents_of_blank s hblank
    refine ⟨r, hr, ?_, emitted_of_blank ids c s hblank, ?_, ?_,
      fun w hw => Visit_child_of_blank ids W c s final r w hblank hr hw⟩
    · rw [h1, hcl]
      simp only [Bool.false_eq_true, if_false, placed_of_blank ids c s final hblank]
    · rw [h2, hd]; simp
    · rw [h3, hd]; simp
  · intro c s x recv hx hrecv
    have hdecl : ∀ i ∈ declaredIdents s, i.Name ≠ "_" ∧ i ∈ boundNames s := by
      intro i hi
      cases s with
      | declStmt d =>
        exact ⟨listNewIdentsFromDecl_ne_blank d i hi, (listNewIdentsFromDecl_sublist d).subset hi⟩
      | assignStmt lhs tok rhs =>
        exact ⟨listNewIdentsFromAssign_ne_blank lhs i hi,
          (listNewIdentsFromAssign_sublist lhs).subset hi⟩
      | _ => simp [declaredIdents] at hi
    refine ⟨?_, hdecl⟩
    rcases emittedAfter_cases ids c s with ⟨_, hn⟩ | ⟨_, sv, he⟩
    · have := (hn x hx).1
      rw [hrecv] at this
      cases this
    · rw [he] at hx
      rcases List.mem_append.mp hx with hx | hx
      · split_ifs at hx
        · simp at hx
        · simp only [List.mem_singleton] at hx
          subst hx
          simp [newScopeAssign, declareReceiver] at hrecv
      · simpa using hx

theorem underscored_succ (k : Nat) (name : String) :
    underscored (k + 1) name = "_" ++ underscored k name := by
  induction k generalizing name with
  | zero => rfl
  | succ k ih =>
    show underscored (k + 1) ("_" ++ name) = "_" ++ underscored (k + 1) name
    rw [ih ("_" ++ name)]
    rfl

theorem underscored_length (k : Nat) (name : String) :
    (underscored k name).length = name.length + k := by
  induction k generalizing name with
  | zero => rfl
  | succ k ih =>
    show (underscored k ("_" ++ name)).length = _
    rw [ih, String.length_append]
    have : "_".length = 1 := rfl
    omega

/-- The loop of `getName`, started at `name` with the conflicts that are at least as long
as `name` fewer than the fuel: it stops at a candidate that is no conflict, after passing
only conflicts. -/
theorem getNameLoop_stops (conflicts : List String) :
    ∀ (fuel : Nat) (name : String),
      (conflicts.dedup.filter (fun c => decide (name.length ≤ c.length))).length < fuel →
      ∃ k, k ≤ (conflicts.dedup.filter (fun c => decide (name.length ≤ c.length))).length ∧
        nameVisitor.getNameLoop conflicts fuel name = .ok (underscored k name) ∧
        underscored k name ∉ conflicts ∧ ∀ j, j < k → underscored j name ∈ conflicts := by
  intro fuel
  induction fuel with
  | zero => intro name h; omega
  | succ fuel ih =>
    intro name h
    by_cases hm : name ∈ conflicts
    · have hlt : (conflicts.dedup.filter (fun c => decide (("_" ++ name).length ≤ c.length))).length <
          (conflicts.dedup.filter (fun c => decide (name.length ≤ c.length))).length := by
        have hlen : ("_" ++ name).length = name.length + 1 := by
          rw [String.length_append]
          have : "_".length = 1 := rfl
          omega
        have hsub : (conflicts.dedup.filter (fun c => decide (("_" ++ name).length ≤ c.length))).Sublist
            ((conflicts.dedup.filter (fun c => decide (name.length ≤ c.length))).erase name) := by
          have hnod : (conflicts.dedup.filter (fun c => decide (name.length ≤ c.length))).Nodup :=
            (List.nodup_dedup conflicts).filter _
          rw [hnod.erase_eq_filter, List.filter_filter]
          refine List.monotone_filter_right _ ?_
          intro c hc
          simp only [hlen, decide_eq_true_eq] at hc
          simp only [Bool.and_eq_true, decide_eq_true_eq, bne_iff_ne, ne_eq]
          refine ⟨?_, by omega⟩
          intro he
          subst he
          omega
        have hmem : name ∈ conflicts.dedup.filter (fun c => decide (name.length ≤ c.length)) := by
          simp [hm]
        have := hsub.length_le
        rw [List.length_erase_of_mem hmem] at this
        have hpos : 0 < (conflicts.dedup.filter (fun c => decide (name.length ≤ c.length))).length :=
          List.length_pos_of_mem hmem
        omega
      obtain ⟨k, hk, hres, hnot, hall⟩ := ih ("_" ++ name) (by omega)
      refine ⟨k + 1, by omega, ?_, hnot, ?_⟩
      · simp only [nameVisitor.getNameLoop, hm, if_true]
        exact hres
      · intro j hj
        cases j with
        | zero => exact hm
        | succ j => exact hall j (by omega)
    · exact ⟨0, Nat.zero_le _, by simp [nameVisitor.getNameLoop, hm, underscored], hm,
        fun j hj => absurd hj (Nat.not_lt_zero j)⟩

/-- The loop of `getName` stops at the first candidate that is no conflict, whatever the
fuel beyond the number of candidates passed. -/
theorem getNameLoop_first (conflicts : List String) :
    ∀ (k fuel : Nat) (name : String), k < fuel →
      (∀ j, j < k → underscored j name ∈ conflicts) → underscored k name ∉ conflicts →
      nameVisitor.getNameLoop conflicts fuel name = .ok (underscored k name) := by
  intro k
  induction k with
  | zero =>
    intro fuel name hf _ hnot
    cases fuel with
    | zero => omega
    | succ fuel =>
      have : name ∉ conflicts := hnot
      simp [nameVisitor.getNameLoop, this, underscored]
  | succ k ih =>
    intro fuel name hf hall hnot
    cases fuel with
    | zero => omega
    | succ fuel =>
      have h0 : name ∈ conflicts := hall 0 (by omega)
      simp only [nameVisitor.getNameLoop, h0, if_true]
      exact ih fuel ("_" ++ name) (by omega) (fun j hj => hall (j + 1) (by omega)) hnot

/-- C16: name synthesis terminates.  For every base name and every set of recorded
conflicts, the loop of `getName` returns after passing `k` candidates, `k` at most the number
of recorded conflicts (so after at most one test more than there are conflicts): the result
is the base with `k` underscores in front, it is no conflict, every candidate before it is
one, and any fuel above `k` gives the same result.  `createConflictFreeName` returns
whenever the scan of the subtree does. -/
theorem C16_getName_terminates (v : nameVisitor) :
    ∃ k, k ≤ v.conflicts.dedup.length ∧
      v.getName = .ok (underscored k v.base) ∧
      underscored k v.base ∉ v.conflicts ∧
      (∀ j, j < k → underscored j v.base ∈ v.conflicts) ∧
      (∀ fuel, k < fuel →
        nameVisitor.getNameLoop v.conflicts fuel v.base = .ok (underscored k v.base)) ∧
      (∀ (parent : Node) (hasSuffix : Bool) (visited : List Ident),
        parent.scan = .ok visited →
          ∃ r, createConflictFreeName v.base parent hasSuffix = .ok r) := by
  have hlen : (v.conflicts.dedup.filter (fun c => decide (v.base.length ≤ c.length))).length ≤
      v.conflicts.dedup.length := List.length_filter_le _ _
  have hdl : v.conflicts.dedup.length ≤ v.conflicts.length := (List.dedup_sublist _).length_le
  obtain ⟨k, hk, hres, hnot, hall⟩ :=
    getNameLoop_stops v.conflicts (v.conflicts.length + 1) v.base (by omega)
  refine ⟨k, by omega, hres, hnot, hall, ?_, ?_⟩
  · intro fuel hf
    exact getNameLoop_first v.conflicts k fuel v.base hf hall hnot
  · intro parent hasSuffix visited hscan
    have hlen2 : ∀ w : nameVisitor,
        (w.conflicts.dedup.filter (fun c => decide (w.base.length ≤ c.length))).length <
          w.conflicts.length + 1 := by
      intro w
      have h1 : (w.conflicts.dedup.filter (fun c => decide (w.base.length ≤ c.length))).length ≤
          w.conflicts.dedup.length := List.length_filter_le _ _
      have h2 : w.conflicts.dedup.length ≤ w.conflicts.length := (List.dedup_sublist _).length_le
      omega
    obtain ⟨k', _, hres', _, _⟩ := getNameLoop_stops
      (visited.foldl nameVisitor.VisitIdent
        { base := v.base, suffix := hasSuffix, conflicts := [] }).conflicts _
      (visited.foldl nameVisitor.VisitIdent
        { base := v.base, suffix := hasSuffix, conflicts := [] }).base (hlen2 _)
    refine ⟨underscored k' (visited.foldl nameVisitor.VisitIdent
        { base := v.base, suffix := hasSuffix, conflicts := [] }).base, ?_⟩
    simp only [createConflictFreeName, hscan, Res.ok_bind]
    exact hres'

theorem rewriteRecoverElems_absent (elem : String) (p rw : Ptr) (es : List (Option Ptr))
    (h : es.contains (some p) = false) : rewriteRecoverElems elem p rw es = .ok es := by
  induction es with
  | nil => rfl
  | cons e es ih =>
    simp only [List.contains_cons, Bool.or_eq_false_iff, beq_eq_false_iff_ne, ne_eq] at h
    have he : ¬ e = some p := fun he => h.1 he.symm
    simp only [rewriteRecoverElems, he, if_false, ih h.2, Res.ok_bind]
    rfl

theorem rewriteRecoverFields_absent (p rw : Ptr) (fs : List ReflectField)
    (h : ∀ f ∈ fs, holdsNode p f = false) : rewriteRecoverFields p rw fs = .ok fs := by
  induction fs with
  | nil => rfl
  | cons f fs ih =>
    have hf := h f (by simp)
    have ih' := ih (fun g hg => h g (by simp [hg]))
    cases f with
    | node typ holds =>
      simp only [holdsNode, beq_eq_false_iff_ne, ne_eq] at hf
      simp only [rewriteRecoverFields, hf, if_false, ih', Res.ok_bind]
      rfl
    | slice elem elems =>
      simp only [holdsNode] at hf
      simp only [rewriteRecoverFields, rewriteRecoverElems_absent elem p rw elems hf, ih',
        Res.ok_bind]
      rfl
    | other =>
      simp only [rewriteRecoverFields, ih', Res.ok_bind]
      rfl

theorem rewriteRecoverElems_found (elem : String) (p rw : Ptr) (es : List (Option Ptr))
    (h : es.contains (some p) = true → assignableUnaryExpr elem = true) :
    rewriteRecoverElems elem p rw es =
      .ok (es.map (fun e => if e = some p then some rw else e)) := by
  induction es with
  | nil => rfl
  | cons e es ih =>
    by_cases he : e = some p
    · have ha : assignableUnaryExpr elem = true := h (by simp [he])
      simp only [rewriteRecoverElems, he, if_true, ha, ih (fun _ => ha), Res.ok_bind, List.map_cons]
      rfl
    · have ih' := ih (fun hc => h (by
        simp only [List.contains_cons, Bool.or_eq_true]
        exact Or.inr hc))
      simp only [rewriteRecoverElems, he, if_false, ih', Res.ok_bind, List.map_cons]
      rfl

theorem rewriteRecoverFields_found (p rw : Ptr) (fs : List ReflectField)
    (h : ∀ f ∈ fs, holdsNode p f = true → f.takesExpr = true) :
    rewriteRecoverFields p rw fs = .ok (substituted p rw fs) := by
  induction fs with
  | nil => rfl
  | cons f fs ih =>
    have hf := h f (by simp)
    have ih' := ih (fun g hg => h g (by simp [hg]))
    cases f with
    | node typ holds =>
      by_cases hh : holds = some p
      · have ha : assignableUnaryExpr typ = true := hf (by simp [holdsNode, hh])
        simp only [rewriteRecoverFields, substituted, hh, if_true, ha]
        rfl
      · simp only [rewriteRecoverFields, substituted, hh, if_false, ih', Res.ok_bind]
        rfl
    | slice elem elems =>
      have he := rewriteRecoverElems_found elem p rw elems (fun hc => hf (by simpa [holdsNode] using hc))
      simp only [rewriteRecoverFields, substituted, he, ih', Res.ok_bind]
      rfl
    | other =>
      simp only [rewriteRecoverFields, substituted, ih', Res.ok_bind]
      rfl

theorem substituted_holds (p rw : Ptr) (fs : List ReflectField)
    (h : ∃ f ∈ fs, holdsNode p f = true) : ∃ f ∈ substituted p rw fs, holdsNode rw f = true := by
  induction fs with
  | nil => simp at h
  | cons f fs ih =>
    cases f with
    | node typ holds =>
      by_cases hh : holds = some p
      · exact ⟨.node typ (some rw), by simp [substituted, hh], by simp [holdsNode]⟩
      · have : ∃ g ∈ fs, holdsNode p g = true := by
          obtain ⟨g, hg, hp⟩ := h
          rcases List.mem_cons.mp hg with rfl | hg
          · simp only [holdsNode, beq_iff_eq] at hp; exact absurd hp hh
          · exact ⟨g, hg, hp⟩
        obtain ⟨g, hg, hp⟩ := ih this
        exact ⟨g, by simp [substituted, hh, hg], hp⟩
    | slice elem elems =>
      by_cases hc : elems.contains (some p) = true
      · refine ⟨.slice elem (elems.map (fun e => if e = some p then some rw else e)),
          by simp [substituted], ?_⟩
        simp only [holdsNode, List.contains_iff_exists_mem_beq, List.mem_map] at hc ⊢
        obtain ⟨a, ha, hb⟩ := hc
        have : a = some p := (by simpa using hb : some p = a).symm
        exact ⟨some rw, ⟨a, ha, by simp [this]⟩, by simp⟩
      · have : ∃ g ∈ fs, holdsNode p g = true := by
          obtain ⟨g, hg, hp⟩ := h
          rcases List.mem_cons.mp hg with rfl | hg
          · simp only [holdsNode] at hp; exact absurd hp hc
          · exact ⟨g, hg, hp⟩
        obtain ⟨g, hg, hp⟩ := ih this
        exact ⟨g, by simp [substituted, hg], hp⟩
    | other =>
      have : ∃ g ∈ fs, holdsNode p g = true := by
        obtain ⟨g, hg, hp⟩ := h
        rcases List.mem_cons.mp hg with rfl | hg
        · simp [holdsNode] at hp
        · exact ⟨g, hg, hp⟩
      obtain ⟨g, hg, hp⟩ := ih this
      exact ⟨g, by simp [substituted, hg], hp⟩

/-- C18 (as amended): when the call is found in no field and in no slice element of the
parent, `rewriteRecoverCall` returns normally and leaves the parent as it was: no check
follows the loop over the fields.  When every field and slice in which the call is found can
hold an expression, `rewriteRecoverCall` returns normally as well, with the substitute in the
place of the call in every slice element that is the call and in the first field that is the
call, where it stops; so the parent then holds the substitute exactly when it held the
call. -/
theorem C18_rewriteRecoverCall_not_found (p rw : Ptr) :
    (∀ fields : List ReflectField, (∀ f ∈ fields, holdsNode p f = false) →
        rewriteRecoverCall (some fields) p rw = .ok fields) ∧
      (∀ fields : List ReflectField, (∀ f ∈ fields, holdsNode p f = true → f.takesExpr = true) →
        rewriteRecoverCall (some fields) p rw = .ok (substituted p rw fields) ∧
          ((∃ f ∈ fields, holdsNode p f = true) →
            ∃ f ∈ substituted p rw fields, holdsNode rw f = true) ∧
          ((∀ f ∈ fields, holdsNode p f = false) → substituted p rw fields = fields)) := by
  refine ⟨fun fields h => rewriteRecoverFields_absent p rw fields h, fun fields h => ?_⟩
  have hok := rewriteRecoverFields_found p rw fields h
  refine ⟨hok, substituted_holds p rw fields, fun habs => ?_⟩
  have := rewriteRecoverFields_absent p rw fields habs
  rw [hok] at this
  exact Except.ok.inj this

theorem C18_rewriteRecoverCall_not_found_witness :
    (∀ f ∈ [ReflectField.other, .node "ast.Expr" (some 1), .slice "ast.Expr" [some 4, none]],
        holdsNode 2 f = false) ∧
      rewriteRecoverCall
          (some [.other, .node "ast.Expr" (some 1), .slice "ast.Expr" [some 4, none]]) 2 3 =
        .ok [.other, .node "ast.Expr" (some 1), .slice "ast.Expr" [some 4, none]] ∧
      (∀ f ∈ [ReflectField.slice "ast.Expr" [some 2, some 4, some 2], .node "ast.Expr" (some 2),
          .node "ast.Expr" (some 2)], holdsNode 2 f = true → f.takesExpr = true) ∧
      rewriteRecoverCall
          (some [.slice "ast.Expr" [some 2, some 4, some 2], .node "ast.Expr" (some 2),
            .node "ast.Expr" (some 2)]) 2 3 =
        .ok [.slice "ast.Expr" [some 3, some 4, some 3], .node "ast.Expr" (some 3),
          .node "ast.Expr" (some 2)] :=
  ⟨by decide, (C18_rewriteRecoverCall_not_found 2 3).1 _ (by decide), by decide,
    ((C18_rewriteRecoverCall_not_found 2 3).2 [.slice "ast.Expr" [some 2, some 4, some 2], .node "ast.Expr" (some 2),
      .node "ast.Expr" (some 2)] (by decide)).1⟩

/-- C18 (the claim as it stands fails): for the parent `&ast.ExprStmt{X: e}` and a call that
is not `e`, `rewriteRecoverCall` returns normally, with the parent unchanged and without the
substitute. -/
theorem C18_not_found_returns :
    rewriteRecoverCall (some [.node "ast.Expr" (some 1)]) 2 3 =
      .ok [.node "ast.Expr" (some 1)] := by
  decide

theorem declareReceiver_newDeclareCall (ids : Idents) (scopeVar : String) (l : List Ident) :
    declareReceiver (newDeclareCall ids scopeVar l) =
      some (if scopeVar = "" then ids.scope else scopeVar) := by
  by_cases hs : scopeVar = "" <;>
    simp [declareReceiver, newDeclareCall, newSel, newIdentExpr, NewIdent, hs]

/-- C19 (defect of the code): the block that `wrapSwitch` builds holds the initializer as
its second statement, and the switch it holds as its last statement still carries the same
initializer: `wrapSwitch` does not clear `_switch.Init`, so the initializer occurs twice.
For `switch x := 0; x { case 1: }` in a block the walk gives
`{ godebug.Line(ctx, f_go_scope, 2); x := 0; scope := f_go_scope.EnteringNewChildScope();
f_go_scope.Declare("x", &x); switch x := 0; x { ... } }`. -/
theorem C19_switch_keeps_initializer :
    (∀ (ids : Idents) (v : visitor) (p : Pos) (init : Stmt) (tag : Option Expr)
        (body : BlockStmt) (idents : List Ident),
        v.wrapSwitch ids (.switchStmt p (some init) tag body) idents =
          .blockStmt (.mk NoPos
            [astLine ids v.scopeVar (pos2lineString p), init,
             newScopeAssign ids.scope v.scopeVar, newDeclareCall ids v.scopeVar idents,
             .switchStmt p (some init) tag body])) ∧
      (walkers exampleIdents 8).stmt rootVisitor (.blockStmt (.mk 1 [switchWithInit])) =
        .ok (rootVisitor, .blockStmt (.mk 1 [.blockStmt (.mk NoPos
          [astLine exampleIdents "f_go_scope" "2",
           defineZero "x" 2,
           newScopeAssign "scope" "f_go_scope",
           newDeclareCall exampleIdents "f_go_scope" [⟨2, "x", true, false⟩],
           .switchStmt 2 (some (defineZero "x" 2)) (some (.ident ⟨2, "x", false, false⟩))
             (.mk 2 [newCaseMarker exampleIdents "f_go_scope" 3,
                     .caseClause 3 [.basicLit 3 .INT "1"] []])])])) :=
  ⟨fun _ _ _ _ _ _ _ => rfl, rfl⟩

/-- C20 (defect of the code): the block that `wrapSwitch` builds is, in order, the `Line`
marker, the initializer, the child-scope creation, the `Declare` call and the switch, but
the `Declare` call is made on the scope handle of the visitor (on the synthesized scope name
only when that handle is empty), not on the handle the child-scope creation assigns; the two
differ for every handle other than the synthesized scope name, as for the file-level scope
`f_go_scope`. -/
theorem C20_wrapSwitch_declares_on_parent :
    (∀ (ids : Idents) (v : visitor) (_switch : Stmt) (idents : List Ident),
        ∃ line init create declare,
          v.wrapSwitch ids _switch idents =
              .blockStmt (.mk NoPos [line, init, create, declare, _switch]) ∧
            line = astLine ids v.scopeVar (pos2lineString _switch.Pos) ∧
            create = newScopeAssign ids.scope v.scopeVar ∧
            declare = newDeclareCall ids v.scopeVar idents ∧
            scopeCreationHandle create = some ids.scope ∧
            declareReceiver declare = some (if v.scopeVar = "" then ids.scope else v.scopeVar)) ∧
      scopeCreationHandle (newScopeAssign exampleIdents.scope listVisitor.scopeVar) =
        some "scope" ∧
      declareReceiver (newDeclareCall exampleIdents listVisitor.scopeVar [⟨2, "x", true, false⟩]) =
        some "f_go_scope" :=
  ⟨fun ids v _switch idents => ⟨_, _, _, _, rfl, rfl, rfl, rfl,
      (newScopeAssign_handle _ _).1, declareReceiver_newDeclareCall _ _ _⟩,
    by decide, by decide⟩

/-! ## Theorems: the count and the chunks of `Write` -/

/-- The loop of `Write` started on a buffer `acc` appends to `acc` what it appends to the
empty buffer, and leaves the same flag. -/
theorem foldl_step_acc (p : List Byte) (l : Bool) (acc : List Byte) :
    p.foldl blankLineStripper.step (l, acc) =
      ((p.foldl blankLineStripper.step (l, [])).1,
        acc ++ (p.foldl blankLineStripper.step (l, [])).2) := by
  induction p generalizing l acc with
  | nil => simp
  | cons b p ih =>
    simp only [List.foldl_cons, blankLineStripper.step]
    rw [ih (b == newline) (if !(l && b == newline) then acc ++ [b] else acc),
      ih (b == newline) (if !(l && b == newline) then [] ++ [b] else [])]
    split <;> simp

/-- The loop of `Write` over `p ++ q` is the loop over `p`, then the loop over `q` from the
flag `p` left. -/
theorem foldl_step_append (p q : List Byte) (l : Bool) :
    (p ++ q).foldl blankLineStripper.step (l, []) =
      ((q.foldl blankLineStripper.step ((p.foldl blankLineStripper.step (l, [])).1, [])).1,
        (p.foldl blankLineStripper.step (l, [])).2 ++
          (q.foldl blankLineStripper.step ((p.foldl blankLineStripper.step (l, [])).1, [])).2) := by
  rw [List.foldl_append, foldl_step_acc p l [], foldl_step_acc q _ ([] ++ _)]

/-- The buffer of `Write` never holds more bytes than `p`. -/
theorem foldl_step_length (p : List Byte) (l : Bool) :
    (p.foldl blankLineStripper.step (l, [])).2.length ≤ p.length := by
  induction p generalizing l with
  | nil => simp
  | cons b p ih =>
    simp only [List.foldl_cons, blankLineStripper.step]
    rw [foldl_step_acc]
    have := ih (b == newline)
    simp only [List.length_append, List.length_cons]
    split <;> simp <;> omega

/-- A sequence of `Write` calls forwards what one call on the concatenation forwards, and
leaves the same flag. -/
theorem WriteAll_flatten {ω : Type} (io : IOWriter ω) (ps : List (List Byte))
    (w : blankLineStripper ω) :
    (blankLineStripper.WriteAll io w ps).2 =
        (ps.flatten.foldl blankLineStripper.step (w.lastWasNewline, [])).2 ∧
      (blankLineStripper.WriteAll io w ps).1.lastWasNewline =
        (ps.flatten.foldl blankLineStripper.step (w.lastWasNewline, [])).1 := by
  induction ps generalizing w with
  | nil => simp [blankLineStripper.WriteAll]
  | cons p ps ih =>
    have h := ih (blankLineStripper.Write io w p).1
    simp only [blankLineStripper.WriteAll, List.flatten_cons]
    rw [foldl_step_append]
    exact ⟨by rw [h.1]; rfl, by rw [h.2]; rfl⟩

/-- C24: blank-line suppression does not depend on the split into `Write` calls.  From any
state of the stripper and with any embedded writer, writing `p` and then `q` hands on, in
total, the bytes that one call on `p ++ q` hands on, and leaves the same flag; the same holds
for any split of the input into calls.  On `"a\n"` then `"\nb"` the run of newlines across
the boundary is collapsed: `"a\nb"` is handed on. -/
theorem C24_write_split_independent {ω : Type} (io : IOWriter ω) (w : blankLineStripper ω)
    (p q : List Byte) :
    (blankLineStripper.WriteAll io w [p, q]).2 = (blankLineStripper.WriteAll io w [p ++ q]).2 ∧
      blankLineStripper.forwarded io w p ++
          blankLineStripper.forwarded io (blankLineStripper.Write io w p).1 q =
        blankLineStripper.forwarded io w (p ++ q) ∧
      (blankLineStripper.WriteAll io w [p, q]).1.lastWasNewline =
        (blankLineStripper.WriteAll io w [p ++ q]).1.lastWasNewline ∧
      (∀ ps : List (List Byte),
        (blankLineStripper.WriteAll io w ps).2 = blankLineStripper.forwarded io w ps.flatten ∧
          (blankLineStripper.WriteAll io w ps).1.lastWasNewline =
            (blankLineStripper.Write io w ps.flatten).1.lastWasNewline) ∧
      (blankLineStripper.WriteAll acceptingWriter (blankLineStripper.fresh [])
          [[97, newline], [newline, 98]]).2 = [97, newline, 98] := by
  have h1 := WriteAll_flatten io [p, q] w
  have h2 := WriteAll_flatten io [p ++ q] w
  refine ⟨?_, ?_, ?_, ?_, by decide⟩
  · rw [h1.1, h2.1]; simp
  · simp only [blankLineStripper.forwarded, blankLineStripper.Write]
    rw [foldl_step_append]
  · rw [h1.2, h2.2]; simp
  · intro ps
    exact WriteAll_flatten io ps w

/-- The count `Write` reports when the embedded writer reports the length of the buffer. -/
theorem Write_count {ω : Type} (io : IOWriter ω) (w : blankLineStripper ω) (p : List Byte)
    (hp : (p.length : Int) < 2 ^ 63)
    (hn : (io.Write w.Writer (blankLineStripper.forwarded io w p)).2.1 =
      ((blankLineStripper.forwarded io w p).length : Int)) :
    (blankLineStripper.Write io w p).2.1 = (p.length : Int) := by
  have hlen := foldl_step_length p w.lastWasNewline
  simp only [blankLineStripper.forwarded, blankLineStripper.Write] at hn ⊢
  rw [hn]
  simp only [wrapInt]
  omega

/-- C23: for every state of a `blankLineStripper`, every embedded writer and every byte
slice `p` (of a length that fits Go's `int`): when the embedded writer reports that it took
all the bytes handed to it and no error, `Write` reports `len(p)` and no error, though the
writer was handed no more, and possibly fewer, than `len(p)` bytes; when the embedded writer
reports an error, `Write` reports that error. -/
theorem C23_write_reports_length {ω : Type} (io : IOWriter ω) (w : blankLineStripper ω)
    (p : List Byte) (hp : (p.length : Int) < 2 ^ 63) :
    ((io.Write w.Writer (blankLineStripper.forwarded io w p)).2 =
          (((blankLineStripper.forwarded io w p).length : Int), none) →
        (blankLineStripper.Write io w p).2 = ((p.length : Int), none)) ∧
      (blankLineStripper.forwarded io w p).length ≤ p.length ∧
      (∀ e, (io.Write w.Writer (blankLineStripper.forwarded io w p)).2.2 = some e →
        (blankLineStripper.Write io w p).2.2 = some e) := by
  refine ⟨?_, foldl_step_length p w.lastWasNewline, ?_⟩
  · intro h
    have hn := Write_count io w p hp (by rw [h])
    have he : (blankLineStripper.Write io w p).2.2 = none := by
      have : (io.Write w.Writer (blankLineStripper.forwarded io w p)).2.2 = none := by rw [h]
      exact this
    exact Prod.ext hn he
  · intro e h
    exact h

theorem C23_write_reports_length_witness :
    (blankLineStripper.Write acceptingWriter
        { Writer := [], lastWasNewline := true, buf := [7] } [newline, newline, 97, newline]).2 =
        (4, none) ∧
      blankLineStripper.forwarded acceptingWriter
        { Writer := [], lastWasNewline := true, buf := [7] } [newline, newline, 97, newline] =
        [97, newline] ∧
      (blankLineStripper.Write (failingWriter "short write")
        { Writer := (), lastWasNewline := false, buf := [] } [97, newline]).2.2 =
        some "short write" :=
  ⟨(C23_write_reports_length acceptingWriter
      { Writer := [], lastWasNewline := true, buf := [7] } [newline, newline, 97, newline]
      (by decide)).1 (by decide), by decide,
    (C23_write_reports_length (failingWriter "short write")
      { Writer := (), lastWasNewline := false, buf := [] } [97, newline] (by decide)).2.2 _ rfl⟩

/-! ## Theorems: the name returned by `createConflictFreeName` -/

theorem dropWhile_append_of_all {α : Type} (p : α → Bool) (a b : List α)
    (h : ∀ x ∈ a, p x = true) : (a ++ b).dropWhile p = b.dropWhile p := by
  induction a with
  | nil => rfl
  | cons x a ih =>
    have hx : p x = true := h x (by simp)
    simp only [List.cons_append, List.dropWhile_cons, hx, if_true]
    exact ih (fun y hy => h y (by simp [hy]))

theorem dropWhile_of_head {α : Type} (p : α → Bool) (l : List α)
    (h : ∀ c, l.head? = some c → p c = false) : l.dropWhile p = l := by
  cases l with
  | nil => rfl
  | cons x l =>
    have hx : p x = false := h x rfl
    simp [List.dropWhile_cons, hx]

/-- Trimming the digits off the right of `r ++ ds` gives `r`, when `ds` is made of digits and
`r` does not end in one. -/
theorem TrimRight_append_digits (r ds : String)
    (hr : ∀ c, r.data.getLast? = some c → c ∉ "0123456789".data)
    (hds : ∀ c ∈ ds.data, c ∈ "0123456789".data) :
    TrimRight (r ++ ds) "0123456789" = r := by
  unfold TrimRight
  rw [String.data_append, List.reverse_append,
    dropWhile_append_of_all _ _ _ (by
      intro x hx
      simpa using hds x (by simpa using hx)),
    dropWhile_of_head _ _ (by
      intro c hc
      rw [List.head?_reverse] at hc
      simpa using hr c hc),
    List.reverse_reverse]

/-- Trimming the underscores off the left of `"_" ++ s` is trimming them off `s`. -/
theorem TrimLeft_underscore_cons (s : String) : TrimLeft ("_" ++ s) "_" = TrimLeft s "_" := by
  unfold TrimLeft
  rw [String.data_append]
  rfl

/-- Trimming the underscores off the base with `k` underscores in front gives the base, when
the base does not begin with one. -/
theorem TrimLeft_underscored (k : Nat) (name : String)
    (h : ∀ c, name.data.head? = some c → c ≠ '_') :
    TrimLeft (underscored k name) "_" = name := by
  induction k with
  | zero =>
    show TrimLeft name "_" = name
    unfold TrimLeft
    rw [dropWhile_of_head _ _ (by
      intro c hc
      have := h c hc
      simpa using this)]
  | succ k ih => rw [underscored_succ, TrimLeft_underscore_cons, ih]

/-- The base with underscores in front ends in no digit, when the base ends in none. -/
theorem underscored_getLast (k : Nat) (name : String)
    (h : ∀ c, name.data.getLast? = some c → c ∉ "0123456789".data) :
    ∀ c, (underscored k name).data.getLast? = some c → c ∉ "0123456789".data := by
  induction k with
  | zero => exact h
  | succ k ih =>
    intro c hc
    rw [underscored_succ, String.data_append] at hc
    cases hd : (underscored k name).data with
    | nil =>
      rw [hd] at hc
      have : c = '_' := by
        have h1 : ("_" : String).data = ['_'] := rfl
        rw [h1] at hc
        simpa using hc.symm
      subst this
      decide
    | cons x l =>
      rw [hd] at hc ih
      have h1 : ("_" : String).data = ['_'] := rfl
      rw [h1] at hc
      exact ih c (by simpa [List.getLast?_cons_cons] using hc)

/-- The decimal digits of a number, as `strconv.Itoa` and `toString` write them, are
characters of `"0123456789"`. -/
theorem toDigitsCore_digits (fuel : Nat) :
    ∀ (n : Nat) (ds : List Char), (∀ c ∈ ds, c ∈ "0123456789".data) →
      ∀ c ∈ Nat.toDigitsCore 10 fuel n ds, c ∈ "0123456789".data := by
  induction fuel with
  | zero => intro n ds h; simpa [Nat.toDigitsCore] using h
  | succ fuel ih =>
    intro n ds h
    have hd : ∀ m, m < 10 → Nat.digitChar m ∈ "0123456789".data := by decide
    have hcons : ∀ c ∈ Nat.digitChar (n % 10) :: ds, c ∈ "0123456789".data := by
      intro c hc
      rcases List.mem_cons.mp hc with rfl | hc
      · exact hd _ (Nat.mod_lt _ (by decide))
      · exact h c hc
    simp only [Nat.toDigitsCore]
    split
    · exact hcons
    · exact ih _ _ hcons

theorem toString_digits (n : Nat) : ∀ c ∈ (toString n).data, c ∈ "0123456789".data := by
  show ∀ c ∈ (Nat.repr n).data, c ∈ "0123456789".data
  unfold Nat.repr Nat.toDigits
  exact toDigitsCore_digits _ _ _ (by simp)

/-- What the walk of `nameVisitor` leaves in the visitor: base and flag as they were, and as
conflicts those already there and, for every identifier visited, its name (without the digits
at its end when the flag is set) if that name without the underscores in front is the base. -/
theorem foldl_VisitIdent_spec (visited : List Ident) :
    ∀ v : nameVisitor,
      (visited.foldl nameVisitor.VisitIdent v).base = v.base ∧
      (visited.foldl nameVisitor.VisitIdent v).suffix = v.suffix ∧
      ∀ s, s ∈ (visited.foldl nameVisitor.VisitIdent v).conflicts ↔
        s ∈ v.conflicts ∨ ∃ i ∈ visited,
          (if v.suffix then TrimRight i.Name "0123456789" else i.Name) = s ∧
            TrimLeft s "_" = v.base := by
  induction visited with
  | nil => intro v; simp
  | cons i rest ih =>
    intro v
    obtain ⟨hb, hs, hc⟩ := ih (v.VisitIdent i)
    have hvb : (v.VisitIdent i).base = v.base := by
      unfold nameVisitor.VisitIdent; dsimp only; split_ifs <;> rfl
    have hvs : (v.VisitIdent i).suffix = v.suffix := by
      unfold nameVisitor.VisitIdent; dsimp only; split_ifs <;> rfl
    simp only [List.foldl_cons]
    refine ⟨hb.trans hvb, hs.trans hvs, ?_⟩
    intro s
    rw [hc s, hvb, hvs]
    by_cases hcond : TrimLeft (if v.suffix then TrimRight i.Name "0123456789" else i.Name) "_" = v.base
    · have hv : (v.VisitIdent i).conflicts =
          (if v.suffix then TrimRight i.Name "0123456789" else i.Name) :: v.conflicts := by
        unfold nameVisitor.VisitIdent; dsimp only; rw [if_pos hcond]
      rw [hv]
      constructor
      · rintro (h | ⟨j, hj, h1, h2⟩)
        · rcases List.mem_cons.mp h with rfl | h
          · exact Or.inr ⟨i, by simp, rfl, hcond⟩
          · exact Or.inl h
        · exact Or.inr ⟨j, by simp [hj], h1, h2⟩
      · rintro (h | ⟨j, hj, h1, h2⟩)
        · exact Or.inl (List.mem_cons_of_mem _ h)
        · rcases List.mem_cons.mp hj with rfl | hj
          · exact Or.inl (by rw [← h1]; exact List.mem_cons_self _ _)
          · exact Or.inr ⟨j, hj, h1, h2⟩
    · have hv : (v.VisitIdent i).conflicts = v.conflicts := by
        unfold nameVisitor.VisitIdent; dsimp only; rw [if_neg hcond]
      rw [hv]
      constructor
      · rintro (h | ⟨j, hj, h1, h2⟩)
        · exact Or.inl h
        · exact Or.inr ⟨j, by simp [hj], h1, h2⟩
      · rintro (h | ⟨j, hj, h1, h2⟩)
        · exact Or.inl h
        · rcases List.mem_cons.mp hj with rfl | hj
          · exact absurd (by rw [h1]; exact h2) hcond
          · exact Or.inr ⟨j, hj, h1, h2⟩

/-- When the scan of the subtree returns, `createConflictFreeName` returns the first
candidate, in the order base, `_` base, `__` base, ..., that the walk did not record. -/
theorem createConflictFreeName_first (name : String) (parent : Node) (hasSuffix : Bool)
    (visited : List Ident) (h : parent.scan = .ok visited) :
    ∃ k, createConflictFreeName name parent hasSuffix = .ok (underscored k name) ∧
      underscored k name ∉ (visited.foldl nameVisitor.VisitIdent
        { base := name, suffix := hasSuffix, conflicts := [] }).conflicts ∧
      ∀ j, j < k → underscored j name ∈ (visited.foldl nameVisitor.VisitIdent
        { base := name, suffix := hasSuffix, conflicts := [] }).conflicts := by
  have hb : (visited.foldl nameVisitor.VisitIdent
      { base := name, suffix := hasSuffix, conflicts := [] }).base = name :=
    (foldl_VisitIdent_spec visited { base := name, suffix := hasSuffix, conflicts := [] }).1
  have hlen : ∀ w : nameVisitor,
      (w.conflicts.dedup.filter (fun c => decide (w.base.length ≤ c.length))).length <
        w.conflicts.length + 1 := by
    intro w
    have h1 : (w.conflicts.dedup.filter (fun c => decide (w.base.length ≤ c.length))).length ≤
        w.conflicts.dedup.length := List.length_filter_le _ _
    have h2 : w.conflicts.dedup.length ≤ w.conflicts.length := (List.dedup_sublist _).length_le
    omega
  obtain ⟨k, _, hres, hnot, hall⟩ := getNameLoop_stops
    (visited.foldl nameVisitor.VisitIdent
      { base := name, suffix := hasSuffix, conflicts := [] }).conflicts _
    (visited.foldl nameVisitor.VisitIdent
      { base := name, suffix := hasSuffix, conflicts := [] }).base (hlen _)
  rw [hb] at hres hnot hall
  refine ⟨k, ?_, hnot, hall⟩
  simp only [createConflictFreeName, h, Res.ok_bind, nameVisitor.getName]
  rw [hb]
  exact hres

/-- C21: when the scan of the subtree returns, `createConflictFreeName` returns the base
name with `k` underscores in front, `k` the least number whose candidate the walk did not
record as a conflict; a name is recorded exactly when it is the name of a visited identifier
(without the digits at its end when the suffix flag is set) that, without the underscores in
front, is the base; and when no visited identifier, so stripped, is the base, the base
itself is returned. -/
theorem C21_createConflictFreeName_least (name : String) (parent : Node) (hasSuffix : Bool)
    (visited : List Ident) (h : parent.scan = .ok visited) :
    (∃ k, createConflictFreeName name parent hasSuffix = .ok (underscored k name) ∧
      underscored k name ∉ (visited.foldl nameVisitor.VisitIdent
        { base := name, suffix := hasSuffix, conflicts := [] }).conflicts ∧
      ∀ j, j < k → underscored j name ∈ (visited.foldl nameVisitor.VisitIdent
        { base := name, suffix := hasSuffix, conflicts := [] }).conflicts) ∧
      (∀ s, s ∈ (visited.foldl nameVisitor.VisitIdent
          { base := name, suffix := hasSuffix, conflicts := [] }).conflicts ↔
        ∃ i ∈ visited, (if hasSuffix then TrimRight i.Name "0123456789" else i.Name) = s ∧
          TrimLeft s "_" = name) ∧
      ((∀ i ∈ visited,
          TrimLeft (if hasSuffix then TrimRight i.Name "0123456789" else i.Name) "_" ≠ name) →
        createConflictFreeName name parent hasSuffix = .ok name) := by
  have hspec : ∀ s, s ∈ (visited.foldl nameVisitor.VisitIdent
      { base := name, suffix := hasSuffix, conflicts := [] }).conflicts ↔
      ∃ i ∈ visited, (if hasSuffix then TrimRight i.Name "0123456789" else i.Name) = s ∧
        TrimLeft s "_" = name := by
    intro s
    have := (foldl_VisitIdent_spec visited
      { base := name, suffix := hasSuffix, conflicts := [] }).2.2 s
    simpa using this
  obtain ⟨k, hres, hnot, hall⟩ := createConflictFreeName_first name parent hasSuffix visited h
  refine ⟨⟨k, hres, hnot, hall⟩, hspec, ?_⟩
  intro hno
  cases k with
  | zero => exact hres
  | succ k =>
    have h0 := hall 0 (by omega)
    obtain ⟨i, hi, h1, h2⟩ := (hspec _).mp h0
    exact absurd (by rw [h1]; exact h2) (hno i hi)

theorem C21_createConflictFreeName_least_witness :
    Node.scan (.expr (.binaryExpr (.ident ⟨1, "ctx", false, false⟩) (.other "+")
        (.ident ⟨1, "_ctx", false, false⟩))) =
        .ok [⟨1, "ctx", false, false⟩, ⟨1, "_ctx", false, false⟩] ∧
      createConflictFreeName "ctx" (.expr (.binaryExpr (.ident ⟨1, "ctx", false, false⟩) (.other "+")
        (.ident ⟨1, "_ctx", false, false⟩))) false = .ok "__ctx" ∧
      createConflictFreeName "ok" (.expr (.binaryExpr (.ident ⟨1, "ctx", false, false⟩) (.other "+")
        (.ident ⟨1, "_ctx", false, false⟩))) false = .ok "ok" :=
  ⟨rfl, by decide,
    (C21_createConflictFreeName_least "ok"
      (.expr (.binaryExpr (.ident ⟨1, "ctx", false, false⟩) (.other "+")
        (.ident ⟨1, "_ctx", false, false⟩))) false
      [⟨1, "ctx", false, false⟩, ⟨1, "_ctx", false, false⟩] rfl).2.2 (by decide)⟩

/-- C22: with the suffix flag set and a base name that neither begins with an underscore nor
ends in a decimal digit (the empty base included), when the scan of the subtree returns,
`createConflictFreeName` returns a name such that no visited identifier is spelled as that
name followed by decimal digits, none or more; so no visited identifier is spelled as the
name followed by the decimal numeral of a number, as in `result1`, `result2`. -/
theorem C22_suffixed_family_free (name : String) (parent : Node) (visited : List Ident)
    (hfirst : ∀ c, name.data.head? = some c → c ≠ '_')
    (hlast : ∀ c, name.data.getLast? = some c → c ∉ "0123456789".data)
    (h : parent.scan = .ok visited) :
    ∃ r, createConflictFreeName name parent true = .ok r ∧
      (∀ i ∈ visited, ∀ ds : String, (∀ c ∈ ds.data, c ∈ "0123456789".data) →
        i.Name ≠ r ++ ds) ∧
      (∀ i ∈ visited, i.Name ≠ r) ∧
      (∀ i ∈ visited, ∀ n : Nat, i.Name ≠ r ++ toString n) := by
  obtain ⟨k, hres, hnot, _⟩ := createConflictFreeName_first name parent true visited h
  have hmain : ∀ i ∈ visited, ∀ ds : String, (∀ c ∈ ds.data, c ∈ "0123456789".data) →
      i.Name ≠ underscored k name ++ ds := by
    intro i hi ds hds heq
    apply hnot
    rw [(foldl_VisitIdent_spec visited { base := name, suffix := true, conflicts := [] }).2.2]
    refine Or.inr ⟨i, hi, ?_, TrimLeft_underscored k name hfirst⟩
    simp only [if_true]
    rw [heq]
    exact TrimRight_append_digits _ _ (underscored_getLast k name hlast) hds
  refine ⟨_, hres, hmain, ?_, ?_⟩
  · intro i hi heq
    exact hmain i hi "" (by simp) (by rw [heq]; simp)
  · intro i hi n
    exact hmain i hi (toString n) (toString_digits n)

theorem C22_suffixed_family_free_witness :
    Node.scan (.expr (.binaryExpr (.ident ⟨1, "result1", false, false⟩) (.other "+")
        (.ident ⟨1, "_result", false, false⟩))) =
        .ok [⟨1, "result1", false, false⟩, ⟨1, "_result", false, false⟩] ∧
      createConflictFreeName "result" (.expr (.binaryExpr (.ident ⟨1, "result1", false, false⟩)
        (.other "+") (.ident ⟨1, "_result", false, false⟩))) true = .ok "__result" ∧
      ∃ r, createConflictFreeName "result" (.expr (.binaryExpr
          (.ident ⟨1, "result1", false, false⟩) (.other "+") (.ident ⟨1, "_result", false, false⟩)))
          true = .ok r ∧
        (∀ i ∈ [(⟨1, "result1", false, false⟩ : Ident), ⟨1, "_result", false, false⟩],
          ∀ ds : String, (∀ c ∈ ds.data, c ∈ "0123456789".data) → i.Name ≠ r ++ ds) ∧
        (∀ i ∈ [(⟨1, "result1", false, false⟩ : Ident), ⟨1, "_result", false, false⟩],
          i.Name ≠ r) ∧
        (∀ i ∈ [(⟨1, "result1", false, false⟩ : Ident), ⟨1, "_result", false, false⟩],
          ∀ n : Nat, i.Name ≠ r ++ toString n) :=
  ⟨rfl, by decide,
    C22_suffixed_family_free "result"
      (.expr (.binaryExpr (.ident ⟨1, "result1", false, false⟩) (.other "+")
        (.ident ⟨1, "_result", false, false⟩)))
      [⟨1, "result1", false, false⟩, ⟨1, "_result", false, false⟩]
      (by decide) (by decide) rfl⟩

/-! ## Lemmas: enough fuel, function literals included -/

/-- A walk of a list returns when the walk of each element that satisfies `p` does and all
the elements satisfy `p`. -/
theorem walkList_all_total {α : Type} (walk : visitor → α → Res (visitor × α)) (p : α → Bool)
    (hp : ∀ v x, p x = true → ∃ r, walk v x = .ok r) (l : List α) (h : l.all p = true)
    (v : visitor) : ∃ r, walkList walk v l = .ok r :=
  walkList_total walk l (fun x hx v => hp v x (List.all_eq_true.mp h x hx)) v

theorem walkOption_all_total {α : Type} (walk : visitor → α → Res (visitor × α)) (p : α → Bool)
    (hp : ∀ v x, p x = true → ∃ r, walk v x = .ok r) (x : Option α) (h : x.all p = true)
    (v : visitor) : ∃ r, walkOption walk v x = .ok r :=
  walkOption_total walk x (fun y hy v => hp v y (by subst hy; simpa using h)) v

theorem walkField_walkable (ids : Idents) (W : Walkers) (n : Nat) (HW : W.returnsOn n)
    (v : visitor) (f : Field) (h : f.Type_.walkable n = true) :
    ∃ r, walkField ids W v f = .ok r := by
  rcases f with ⟨names, t⟩
  exact Res.bind_total _ _ (HW.1 _ t h) (fun ⟨_, _⟩ => ⟨_, rfl⟩)

theorem walkFieldList_walkable (ids : Idents) (W : Walkers) (n : Nat) (HW : W.returnsOn n)
    (v : visitor) (l : FieldList) (h : l.allTypes (fun e : Expr => e.walkable n) = true) :
    ∃ r, walkFieldList ids W v l = .ok r := by
  rcases l with ⟨p, list⟩
  exact Res.bind_total _ _
    (walkList_all_total (walkField ids W) (fun f : Field => f.Type_.walkable n)
      (fun v f hf => walkField_walkable ids W n HW v f hf) list h _)
    (fun ⟨_, _⟩ => ⟨_, rfl⟩)

theorem walkOption_fieldList_walkable (ids : Idents) (W : Walkers) (n : Nat)
    (HW : W.returnsOn n) (v : visitor) (x : Option FieldList)
    (h : x.all (fun l : FieldList => l.allTypes (fun e : Expr => e.walkable n)) = true) :
    ∃ r, walkOption (walkFieldList ids W) v x = .ok r :=
  walkOption_all_total _ _ (fun v l hl => walkFieldList_walkable ids W n HW v l hl) x h v

theorem walkFuncType_walkable (ids : Idents) (W : Walkers) (n : Nat) (HW : W.returnsOn n)
    (v : visitor) (t : FuncType) (h : t.allTypes (fun e : Expr => e.walkable n) = true) :
    ∃ r, walkFuncType ids W v t = .ok r := by
  rcases t with ⟨p, params, results⟩
  simp only [FuncType.allTypes, FuncType.Params, FuncType.Results, Bool.and_eq_true] at h
  exact Res.bind_total _ _ (walkOption_fieldList_walkable ids W n HW _ params h.1)
    (fun ⟨_, _⟩ => Res.bind_total _ _ (walkOption_fieldList_walkable ids W n HW _ results h.2)
      (fun ⟨_, _⟩ => ⟨_, rfl⟩))

theorem walkValueSpec_walkable (ids : Idents) (W : Walkers) (n : Nat) (HW : W.returnsOn n)
    (v : visitor) (s : ValueSpec) (h : s.allExprs (fun e : Expr => e.walkable n) = true) :
    ∃ r, walkValueSpec ids W v s = .ok r := by
  rcases s with ⟨names, t, values⟩
  simp only [ValueSpec.allExprs, Bool.and_eq_true] at h
  exact Res.bind_total _ _ (walkOption_all_total W.expr _ (fun v e => HW.1 v e) t h.1 _)
    (fun ⟨_, _⟩ => Res.bind_total _ _
      (walkList_all_total W.expr _ (fun v e => HW.1 v e) values h.2 _) (fun ⟨_, _⟩ => ⟨_, rfl⟩))

theorem walkTypeSpec_walkable (ids : Idents) (W : Walkers) (n : Nat) (HW : W.returnsOn n)
    (v : visitor) (s : TypeSpec) (h : s.allExprs (fun e : Expr => e.walkable n) = true) :
    ∃ r, walkTypeSpec ids W v s = .ok r := by
  rcases s with ⟨name, t⟩
  exact Res.bind_total _ _ (HW.1 _ t h) (fun ⟨_, _⟩ => ⟨_, rfl⟩)

theorem walkGenDecl_walkable (ids : Idents) (W : Walkers) (n : Nat) (HW : W.returnsOn n)
    (v : visitor) (d : GenDecl) (h : d.allExprs (fun e : Expr => e.walkable n) = true) :
    ∃ r, walkGenDecl ids W v d = .ok r := by
  rcases d with ⟨p, tok, specs⟩ | ⟨p, specs⟩ | ⟨p, specs⟩
  · exact Res.bind_total _ _
      (walkList_all_total (walkValueSpec ids W) _
        (fun v s hs => walkValueSpec_walkable ids W n HW v s hs) specs h _)
      (fun ⟨_, _⟩ => ⟨_, rfl⟩)
  · exact Res.bind_total _ _
      (walkList_all_total (walkTypeSpec ids W) _
        (fun v s hs => walkTypeSpec_walkable ids W n HW v s hs) specs h _)
      (fun ⟨_, _⟩ => ⟨_, rfl⟩)
  · exact ⟨_, rfl⟩

theorem walkCallExpr_walkable (ids : Idents) (W : Walkers) (n : Nat) (HW : W.returnsOn n)
    (v : visitor) (c : CallExpr)
    (h : (c.Fun.walkable n && c.Args.all (fun a : Expr => a.walkable n)) = true) :
    ∃ r, walkCallExpr ids W v c = .ok r := by
  rcases c with ⟨f, args, ell⟩
  simp only [CallExpr.Fun, CallExpr.Args, Bool.and_eq_true] at h
  exact Res.bind_total _ _ (HW.1 _ f h.1)
    (fun ⟨_, _⟩ => Res.bind_total _ _
      (walkList_all_total W.expr _ (fun v e => HW.1 v e) args h.2 _) (fun ⟨_, _⟩ => ⟨_, rfl⟩))

theorem walkBlockStmt_walkable (ids : Idents) (W : Walkers) (n : Nat) (HW : W.returnsOn n)
    (v : visitor) (b : BlockStmt) (h : b.List_.all (fun s : Stmt => s.walkable n) = true) :
    ∃ r, walkBlockStmt ids W v b = .ok r :=
  Res.bind_total _ _ (walkList_all_total W.stmt _ (fun v s => HW.2.1 v s) b.List_ h _)
    (fun ⟨_, _⟩ => ⟨_, rfl⟩)

/-- The function `genEnterFuncLit` returns. -/
theorem genEnterFuncLit_returns (ids : Idents) (t : FuncType) (body : BlockStmt)
    (hasRecovers : Bool) : ∃ r, genEnterFuncLit ids t body hasRecovers = .ok r := by
  obtain ⟨k, hfn, _, _⟩ := createConflictFreeName_first "fn" (.funcType t) false t.scan rfl
  simp only [genEnterFuncLit, hfn, Res.ok_bind]
  split <;> exact ⟨_, rfl⟩

/-- The walk of the children of an expression that is no function literal returns when the
walks one level down do. -/
theorem walkExprChildren_walkable (ids : Idents) (W : Walkers) (n : Nat) (HW : W.returnsOn n)
    (w : visitor) (e : Expr) (h : e.walkable (n + 1) = true) (hlit : ∀ t b, e ≠ .funcLit t b) :
    ∃ r, walkExprChildren ids W w e = .ok r := by
  rcases e with i | ⟨p, k, val⟩ | ⟨⟨f, args, ell⟩⟩ | ⟨x, sel⟩ | ⟨p, op, x⟩ | ⟨x, op, y⟩ | ⟨p, x⟩ |
    ⟨p, x⟩ | ⟨x, i⟩ | ⟨x, t⟩ | ⟨t, b⟩ | ⟨p, elt⟩ | ⟨⟨p, params, results⟩⟩ | ⟨p, fields⟩ |
    ⟨p, methods⟩ | ⟨p, x⟩
  · exact ⟨_, rfl⟩
  · exact ⟨_, rfl⟩
  · simp only [Expr.walkable, CallExpr.Fun, CallExpr.Args, Bool.and_eq_true] at h
    exact Res.bind_total _ _ (HW.1 _ f h.1)
      (fun ⟨_, _⟩ => Res.bind_total _ _
        (walkList_all_total W.expr _ (fun v e => HW.1 v e) args h.2 _) (fun ⟨_, _⟩ => ⟨_, rfl⟩))
  · simp only [Expr.walkable] at h
    exact Res.bind_total _ _ (HW.1 _ x h) (fun ⟨_, _⟩ => ⟨_, rfl⟩)
  · simp only [Expr.walkable] at h
    exact Res.bind_total _ _ (HW.1 _ x h) (fun ⟨_, _⟩ => ⟨_, rfl⟩)
  · simp only [Expr.walkable, Bool.and_eq_true] at h
    exact Res.bind_total _ _ (HW.1 _ x h.1)
      (fun ⟨_, _⟩ => Res.bind_total _ _ (HW.1 _ y h.2) (fun ⟨_, _⟩ => ⟨_, rfl⟩))
  · simp only [Expr.walkable] at h
    exact Res.bind_total _ _ (HW.1 _ x h) (fun ⟨_, _⟩ => ⟨_, rfl⟩)
  · simp only [Expr.walkable] at h
    exact Res.bind_total _ _ (HW.1 _ x h) (fun ⟨_, _⟩ => ⟨_, rfl⟩)
  · simp only [Expr.walkable, Bool.and_eq_true] at h
    exact Res.bind_total _ _ (HW.1 _ x h.1)
      (fun ⟨_, _⟩ => Res.bind_total _ _ (HW.1 _ i h.2) (fun ⟨_, _⟩ => ⟨_, rfl⟩))
  · simp only [Expr.walkable, Bool.and_eq_true] at h
    exact Res.bind_total _ _ (HW.1 _ x h.1)
      (fun ⟨_, _⟩ => Res.bind_total _ _
        (walkOption_all_total W.expr _ (fun v e => HW.1 v e) t h.2 _) (fun ⟨_, _⟩ => ⟨_, rfl⟩))
  · exact absurd rfl (hlit t b)
  · simp only [Expr.walkable] at h
    exact Res.bind_total _ _ (walkOption_all_total W.expr _ (fun v e => HW.1 v e) elt h _)
      (fun ⟨_, _⟩ => ⟨_, rfl⟩)
  · simp only [Expr.walkable, FuncType.allTypes, FuncType.Params, FuncType.Results,
      Bool.and_eq_true] at h
    exact Res.bind_total _ _ (walkOption_fieldList_walkable ids W n HW _ params h.1)
      (fun ⟨_, _⟩ => Res.bind_total _ _ (walkOption_fieldList_walkable ids W n HW _ results h.2)
        (fun ⟨_, _⟩ => ⟨_, rfl⟩))
  · simp only [Expr.walkable] at h
    exact Res.bind_total _ _ (walkFieldList_walkable ids W n HW _ fields h)
      (fun ⟨_, _⟩ => ⟨_, rfl⟩)
  · simp only [Expr.walkable] at h
    exact Res.bind_total _ _ (walkFieldList_walkable ids W n HW _ methods h)
      (fun ⟨_, _⟩ => ⟨_, rfl⟩)
  · simp only [Expr.walkable] at h
    exact Res.bind_total _ _ (HW.1 _ x h) (fun ⟨_, _⟩ => ⟨_, rfl⟩)

/-- The walk of a function literal returns when `rewriteRecoversIn` returns on its body and
the walks one level down return on its type and on the body so rewritten. -/
theorem walkExpr_funcLit_walkable (ids : Idents) (W : Walkers) (n : Nat) (HW : W.returnsOn n)
    (v : visitor) (t : FuncType) (b : BlockStmt)
    (h : (Expr.funcLit t b).walkable (n + 1) = true) :
    ∃ r, walkExpr ids W v (.funcLit t b) = .ok r := by
  simp only [Expr.walkable, Bool.and_eq_true] at h
  obtain ⟨ht, hb⟩ := h
  cases hr : rewriteRecoversIn b with
  | error e => rw [hr] at hb; cases hb
  | ok r =>
    rw [hr] at hb
    simp only [walkExpr, visitor.VisitFuncLit, hr, Res.ok_bind, pure_bind]
    refine Res.bind_total _ _ (walkFuncType_walkable ids W n HW _ t ht) (fun ⟨w1, t'⟩ => ?_)
    refine Res.bind_total _ _ (walkBlockStmt_walkable ids W n HW _ r.1 hb) (fun ⟨w2, b'⟩ => ?_)
    obtain ⟨body, hbody⟩ := genEnterFuncLit_returns ids t' b' w2.hasRecovers
    simp only [visitor.finalizeFuncLit, hbody, Res.ok_bind]
    exact ⟨_, rfl⟩

/-- The walk of an expression returns when the walks one level down do. -/
theorem walkExpr_walkable (ids : Idents) (W : Walkers) (n : Nat) (HW : W.returnsOn n)
    (v : visitor) (e : Expr) (h : e.walkable (n + 1) = true) :
    ∃ r, walkExpr ids W v e = .ok r := by
  by_cases hl : ∃ t b, e = .funcLit t b
  · obtain ⟨t, b, rfl⟩ := hl
    exact walkExpr_funcLit_walkable ids W n HW v t b h
  · have hlit : ∀ t b, e ≠ .funcLit t b := fun t b he => hl ⟨t, b, he⟩
    obtain ⟨e', h1⟩ :=
      walkExprChildren_walkable ids W n HW (v.VisitOther ids e.Pos).2 e h hlit
    cases e <;> first
      | exact absurd rfl (hlit _ _)
      | (simp only [walkExpr, h1, Res.ok_bind]; exact ⟨_, rfl⟩)

/-- `Visit` on a statement returns when the walks one level down do. -/
theorem Visit_walkable (ids : Idents) (W : Walkers) (n : Nat) (HW : W.returnsOn n)
    (v : visitor) (s final : Stmt) (h : s.walkable (n + 1) = true) :
    ∃ r, v.Visit ids W s final = .ok r := by
  rcases s with x | ⟨lhs, tok, rhs⟩ | d | b | ⟨p, init, cond, body, els⟩ |
    ⟨p, init, cond, post, body⟩ | ⟨p, key, value, tok, x, body⟩ | ⟨p, init, tag, body⟩ |
    ⟨p, init, assign, body⟩ | ⟨p, list, body⟩ | ⟨p, body⟩ | ⟨p, comm, body⟩ | ⟨label, stmt⟩ |
    ⟨p, call⟩ | ⟨p, call⟩ | ⟨p, results⟩ | ⟨x, tok⟩ | ⟨c, val⟩ | ⟨p, tok, label⟩ | p
  case switchStmt =>
    simp only [visitor.Visit]
    split_ifs <;> exact ⟨_, rfl⟩
  case caseClause =>
    simp only [Stmt.walkable] at h
    exact Res.bind_total _ _ (walkList_all_total W.stmt _ (fun v s => HW.2.1 v s) body h _)
      (fun ⟨_, _⟩ => ⟨_, rfl⟩)
  case commClause =>
    simp only [Stmt.walkable, Bool.and_eq_true] at h
    exact Res.bind_total _ _ (walkOption_all_total W.visit _ (fun v s => HW.2.2 v s) comm h.1 _)
      (fun ⟨_, _⟩ => Res.bind_total _ _
        (walkList_all_total W.visit _ (fun v s => HW.2.2 v s) body h.2 _)
        (fun ⟨_, _⟩ => ⟨_, rfl⟩))
  all_goals exact ⟨_, rfl⟩

/-- The walk of the children of a statement that is no clause returns when the walks one
level down do. -/
theorem walkStmtChildren_walkable (ids : Idents) (W : Walkers) (n : Nat) (HW : W.returnsOn n)
    (w : visitor) (s : Stmt) (h : s.walkable (n + 1) = true) (hcl : isClause s = false) :
    ∃ r, walkStmtChildren ids W w s = .ok r := by
  rcases s with x | ⟨lhs, tok, rhs⟩ | d | ⟨⟨p, list⟩⟩ | ⟨p, init, cond, body, els⟩ |
    ⟨p, init, cond, post, body⟩ | ⟨p, key, value, tok, x, body⟩ | ⟨p, init, tag, body⟩ |
    ⟨p, init, assign, body⟩ | ⟨p, list, body⟩ | ⟨p, body⟩ | ⟨p, comm, body⟩ | ⟨label, stmt⟩ |
    ⟨p, call⟩ | ⟨p, call⟩ | ⟨p, results⟩ | ⟨x, tok⟩ | ⟨c, val⟩ | ⟨p, tok, label⟩ | p
  · simp only [Stmt.walkable] at h
    exact Res.bind_total _ _ (HW.1 _ x h) (fun ⟨_, _⟩ => ⟨_, rfl⟩)
  · simp only [Stmt.walkable, Bool.and_eq_true] at h
    exact Res.bind_total _ _ (walkList_all_total W.expr _ (fun v e => HW.1 v e) lhs h.1 _)
      (fun ⟨_, _⟩ => Res.bind_total _ _
        (walkList_all_total W.expr _ (fun v e => HW.1 v e) rhs h.2 _) (fun ⟨_, _⟩ => ⟨_, rfl⟩))
  · simp only [Stmt.walkable] at h
    exact Res.bind_total _ _ (walkGenDecl_walkable ids W n HW _ d h) (fun ⟨_, _⟩ => ⟨_, rfl⟩)
  · simp only [Stmt.walkable, BlockStmt.List_] at h
    exact Res.bind_total _ _ (walkList_all_total W.stmt _ (fun v s => HW.2.1 v s) list h _)
      (fun ⟨_, _⟩ => ⟨_, rfl⟩)
  · simp only [Stmt.walkable, Bool.and_eq_true] at h
    exact Res.bind_total _ _ (walkOption_all_total W.stmt _ (fun v s => HW.2.1 v s) init h.1 _)
      (fun ⟨_, _⟩ => Res.bind_total _ _ (HW.1 _ cond h.2.1)
        (fun ⟨_, _⟩ => Res.bind_total _ _ (walkBlockStmt_walkable ids W n HW _ body h.2.2.1)
          (fun ⟨_, _⟩ => Res.bind_total _ _
            (walkOption_all_total W.stmt _ (fun v s => HW.2.1 v s) els h.2.2.2 _)
            (fun ⟨_, _⟩ => ⟨_, rfl⟩))))
  · simp only [Stmt.walkable, Bool.and_eq_true] at h
    exact Res.bind_total _ _ (walkOption_all_total W.stmt _ (fun v s => HW.2.1 v s) init h.1 _)
      (fun ⟨_, _⟩ => Res.bind_total _ _
        (walkOption_all_total W.expr _ (fun v e => HW.1 v e) cond h.2.1 _)
        (fun ⟨_, _⟩ => Res.bind_total _ _
          (walkOption_all_total W.stmt _ (fun v s => HW.2.1 v s) post h.2.2.1 _)
          (fun ⟨_, _⟩ => Res.bind_total _ _ (walkBlockStmt_walkable ids W n HW _ body h.2.2.2)
            (fun ⟨_, _⟩ => ⟨_, rfl⟩))))
  · simp only [Stmt.walkable, Bool.and_eq_true] at h
    exact Res.bind_total _ _ (walkOption_all_total W.expr _ (fun v e => HW.1 v e) key h.1 _)
      (fun ⟨_, _⟩ => Res.bind_total _ _
        (walkOption_all_total W.expr _ (fun v e => HW.1 v e) value h.2.1 _)
        (fun ⟨_, _⟩ => Res.bind_total _ _ (HW.1 _ x h.2.2.1)
          (fun ⟨_, _⟩ => Res.bind_total _ _ (walkBlockStmt_walkable ids W n HW _ body h.2.2.2)
            (fun ⟨_, _⟩ => ⟨_, rfl⟩))))
  · simp only [Stmt.walkable, Bool.and_eq_true] at h
    exact Res.bind_total _ _ (walkOption_all_total W.stmt _ (fun v s => HW.2.1 v s) init h.1 _)
      (fun ⟨_, _⟩ => Res.bind_total _ _
        (walkOption_all_total W.expr _ (fun v e => HW.1 v e) tag h.2.1 _)
        (fun ⟨_, _⟩ => Res.bind_total _ _ (walkBlockStmt_walkable ids W n HW _ body h.2.2)
          (fun ⟨_, _⟩ => ⟨_, rfl⟩)))
  · simp only [Stmt.walkable, Bool.and_eq_true] at h
    exact Res.bind_total _ _ (walkOption_all_total W.stmt _ (fun v s => HW.2.1 v s) init h.1 _)
      (fun ⟨_, _⟩ => Res.bind_total _ _ (HW.2.1 _ assign h.2.1)
        (fun ⟨_, _⟩ => Res.bind_total _ _ (walkBlockStmt_walkable ids W n HW _ body h.2.2)
          (fun ⟨_, _⟩ => ⟨_, rfl⟩)))
  · simp [isClause] at hcl
  · simp only [Stmt.walkable] at h
    exact Res.bind_total _ _ (walkBlockStmt_walkable ids W n HW _ body h)
      (fun ⟨_, _⟩ => ⟨_, rfl⟩)
  · simp [isClause] at hcl
  · simp only [Stmt.walkable] at h
    exact Res.bind_total _ _ (HW.2.1 _ stmt h) (fun ⟨_, _⟩ => ⟨_, rfl⟩)
  · simp only [Stmt.walkable] at h
    exact Res.bind_total _ _ (walkCallExpr_walkable ids W n HW _ call h)
      (fun ⟨_, _⟩ => ⟨_, rfl⟩)
  · simp only [Stmt.walkable] at h
    exact Res.bind_total _ _ (walkCallExpr_walkable ids W n HW _ call h)
      (fun ⟨_, _⟩ => ⟨_, rfl⟩)
  · simp only [Stmt.walkable] at h
    exact Res.bind_total _ _ (walkList_all_total W.expr _ (fun v e => HW.1 v e) results h _)
      (fun ⟨_, _⟩ => ⟨_, rfl⟩)
  · simp only [Stmt.walkable] at h
    exact Res.bind_total _ _ (HW.1 _ x h) (fun ⟨_, _⟩ => ⟨_, rfl⟩)
  · simp only [Stmt.walkable, Bool.and_eq_true] at h
    exact Res.bind_total _ _ (HW.1 _ c h.1)
      (fun ⟨_, _⟩ => Res.bind_total _ _ (HW.1 _ val h.2) (fun ⟨_, _⟩ => ⟨_, rfl⟩))
  · exact ⟨_, rfl⟩
  · exact ⟨_, rfl⟩

/-- The rewrite of a trace-start call keeps the depth. -/
theorem rewriteSetTrace_walkable (ids : Idents) (s : Stmt) (n : Nat)
    (h : s.walkable n = true) : (rewriteSetTrace ids s).walkable n = true := by
  unfold rewriteSetTrace
  split
  · rcases n with _ | _ | _ | n
    · simp [Stmt.walkable] at h
    · simp [Stmt.walkable, Expr.walkable] at h
    · simp [Stmt.walkable, Expr.walkable, CallExpr.Fun] at h
    · simp only [Stmt.walkable, Expr.walkable, CallExpr.Fun, CallExpr.Args,
        Bool.and_eq_true] at h
      simp [Stmt.walkable, Expr.walkable, CallExpr.Fun, CallExpr.Args, newIdentExpr, h.1]
  · exact h

theorem isClause_rewriteSetTrace (ids : Idents) (s : Stmt) :
    isClause (rewriteSetTrace ids s) = isClause s := by
  unfold rewriteSetTrace
  split <;> rfl

/-- The walk of a statement returns when the walks one level down do. -/
theorem walkStmt_walkable (ids : Idents) (W : Walkers) (n : Nat) (HW : W.returnsOn n)
    (v : visitor) (s : Stmt) (h : s.walkable (n + 1) = true) :
    ∃ r, walkStmt ids W v s = .ok r := by
  obtain ⟨r0, h0⟩ := Visit_walkable ids W n HW v s s h
  have hch := Visit_child ids W v s s r0 h0
  simp only [walkStmt, h0, Res.ok_bind]
  cases hc : r0.child with
  | none => exact ⟨_, rfl⟩
  | some w =>
    have hcl : isClause s = false := by
      rw [hc] at hch
      cases hi : isClause s
      · rfl
      · rw [hi] at hch; simp at hch
    have hfit : r0.node.walkable (n + 1) = true ∧ isClause r0.node = false := by
      rcases Visit_node ids W v s s r0 h0 hcl with e | ⟨_, e⟩
      · rw [e]; exact ⟨h, hcl⟩
      · rw [e]
        exact ⟨rewriteSetTrace_walkable ids s (n + 1) h,
          (isClause_rewriteSetTrace ids s).trans hcl⟩
    obtain ⟨⟨w', s1⟩, h1⟩ := walkStmtChildren_walkable ids W n HW w r0.node hfit.1 hfit.2
    obtain ⟨r, h2⟩ := Visit_walkable ids W n HW v s (w'.finalizeNode ids s1) h
    simp only [h1, Res.ok_bind, h2]
    exact ⟨_, rfl⟩

theorem visitOnly_walkable (ids : Idents) (W : Walkers) (n : Nat) (HW : W.returnsOn n)
    (v : visitor) (s : Stmt) (h : s.walkable (n + 1) = true) :
    ∃ r, visitOnly ids W v s = .ok r := by
  obtain ⟨r0, h0⟩ := Visit_walkable ids W n HW v s s h
  simp only [visitOnly, h0, Res.ok_bind]
  cases hc : r0.child with
  | none => exact ⟨_, rfl⟩
  | some w =>
    obtain ⟨r, h2⟩ := Visit_walkable ids W n HW v s r0.node h
    simp only [h2, Res.ok_bind]
    exact ⟨_, rfl⟩

/-- Enough fuel: the walks of depth `n` return on every tree that a walk of depth `n` goes
through; a function literal is among them when `rewriteRecoversIn` returns on its body. -/
theorem walkers_returnsOn (ids : Idents) : ∀ n : Nat, (walkers ids n).returnsOn n := by
  intro n
  induction n with
  | zero =>
    refine ⟨fun v e h => ?_, fun v s h => ?_, fun v s h => ?_⟩
    · cases e <;> simp [Expr.walkable] at h
    · cases s <;> simp [Stmt.walkable] at h
    · cases s <;> simp [Stmt.walkable] at h
  | succ n ih =>
    refine ⟨fun v e h => ?_, fun v s h => ?_, fun v s h => ?_⟩
    · rw [walkers_expr]; exact walkExpr_walkable ids _ n ih v e h
    · rw [walkers_stmt]; exact walkStmt_walkable ids _ n ih v s h
    · rw [walkers_visit]; exact visitOnly_walkable ids _ n ih v s h

/-- The walk of a block returns, given fuel for its depth. -/
theorem walkBlockStmt_reaches (ids : Idents) (n : Nat) (v : visitor) (b : BlockStmt)
    (h : b.List_.all (fun s : Stmt => s.walkable n) = true) :
    ∃ r, walkBlockStmt ids (walkers ids n) v b = .ok r :=
  walkBlockStmt_walkable ids _ n (walkers_returnsOn ids n) v b h

/-- The trees without function literal that are nested at most `n` deep are among those that
the walk of depth `n` goes through. -/
theorem fits_walkable (n : Nat) :
    (∀ e : Expr, e.fits n = true → e.walkable n = true) ∧
      (∀ s : Stmt, s.fits n = true → s.walkable n = true) := by
  induction n with
  | zero =>
    refine ⟨fun e h => ?_, fun s h => ?_⟩
    · rw [fits_zero_expr] at h; cases h
    · rw [fits_zero_stmt] at h; cases h
  | succ n ih =>
    obtain ⟨he, hs⟩ := ih
    have hlist : ∀ l : List Expr, Expr.fitsList l n = true →
        l.all (fun e : Expr => e.walkable n) = true := fun l h =>
      List.all_eq_true.mpr (fun x hx => he x ((fitsList_expr_iff l n).mp h x hx))
    have hslist : ∀ l : List Stmt, Stmt.fitsList l n = true →
        l.all (fun s : Stmt => s.walkable n) = true := fun l h =>
      List.all_eq_true.mpr (fun x hx => hs x ((fitsList_stmt_iff l n).mp h x hx))
    have hopt : ∀ t : Option Expr, (∀ e, t = some e → e.fits n = true) →
        t.all (fun e : Expr => e.walkable n) = true := by
      intro t h
      cases t with
      | none => rfl
      | some e => exact he e (h e rfl)
    have hsopt : ∀ t : Option Stmt, (∀ s, t = some s → s.fits n = true) →
        t.all (fun s : Stmt => s.walkable n) = true := by
      intro t h
      cases t with
      | none => rfl
      | some s => exact hs s (h s rfl)
    have hfl : ∀ l : FieldList, l.fits n = true →
        l.allTypes (fun e : Expr => e.walkable n) = true := by
      rintro ⟨p, list⟩ h
      simp only [FieldList.fits] at h
      refine List.all_eq_true.mpr (fun f hf => ?_)
      have := (fitsList_field_iff list n).mp h f hf
      rcases f with ⟨names, t⟩
      exact he t this
    have hofl : ∀ l : Option FieldList, (∀ x, l = some x → x.fits n = true) →
        l.all (fun l : FieldList => l.allTypes (fun e : Expr => e.walkable n)) = true := by
      intro l h
      cases l with
      | none => rfl
      | some x => exact hfl x (h x rfl)
    have hft : ∀ t : FuncType, t.fits n = true →
        t.allTypes (fun e : Expr => e.walkable n) = true := by
      rintro ⟨p, params, results⟩ h
      rw [fits_funcType_iff] at h
      simp only [FuncType.allTypes, FuncType.Params, FuncType.Results, Bool.and_eq_true]
      exact ⟨hofl params h.1, hofl results h.2⟩
    have hgd : ∀ d : GenDecl, d.fits n = true →
        d.allExprs (fun e : Expr => e.walkable n) = true := by
      rintro (⟨p, tok, specs⟩ | ⟨p, specs⟩ | ⟨p, specs⟩) h
      · simp only [GenDecl.fits] at h
        refine List.all_eq_true.mpr (fun s hsm => ?_)
        have := (fitsList_valueSpec_iff specs n).mp h s hsm
        rcases s with ⟨names, t, values⟩
        rw [fits_valueSpec_iff] at this
        simp only [ValueSpec.allExprs, Bool.and_eq_true]
        exact ⟨hopt t this.1, hlist values this.2⟩
      · simp only [GenDecl.fits] at h
        refine List.all_eq_true.mpr (fun s hsm => ?_)
        have := (fitsList_typeSpec_iff specs n).mp h s hsm
        rcases s with ⟨name, t⟩
        exact he t this
      · rfl
    have hblock : ∀ b : BlockStmt, b.fits n = true →
        b.List_.all (fun s : Stmt => s.walkable n) = true := by
      rintro ⟨p, list⟩ h
      exact hslist list h
    have hcall : ∀ c : CallExpr, c.fits n = true →
        (c.Fun.walkable n && c.Args.all (fun a : Expr => a.walkable n)) = true := by
      rintro ⟨f, args, ell⟩ h
      simp only [CallExpr.fits, Bool.and_eq_true] at h
      simp only [CallExpr.Fun, CallExpr.Args, Bool.and_eq_true]
      exact ⟨he f h.1, hlist args h.2⟩
    constructor
    · intro e h
      rcases e with i | ⟨p, k, val⟩ | c | ⟨x, sel⟩ | ⟨p, op, x⟩ | ⟨x, op, y⟩ | ⟨p, x⟩ |
        ⟨p, x⟩ | ⟨x, i⟩ | ⟨x, t⟩ | ⟨t, b⟩ | ⟨p, elt⟩ | t | ⟨p, fields⟩ | ⟨p, methods⟩ | ⟨p, x⟩
      · rfl
      · rfl
      · simp only [Expr.fits, Bool.and_eq_true, Nat.add_sub_cancel] at h
        simp only [Expr.walkable]
        exact hcall c h.2
      · simp only [Expr.fits, Bool.and_eq_true, Nat.add_sub_cancel] at h
        simp only [Expr.walkable]; exact he x h.2
      · simp only [Expr.fits, Bool.and_eq_true, Nat.add_sub_cancel] at h
        simp only [Expr.walkable]; exact he x h.2
      · simp only [Expr.fits, Bool.and_eq_true, Nat.add_sub_cancel] at h
        simp only [Expr.walkable, Bool.and_eq_true]; exact ⟨he x h.2.1, he y h.2.2⟩
      · simp only [Expr.fits, Bool.and_eq_true, Nat.add_sub_cancel] at h
        simp only [Expr.walkable]; exact he x h.2
      · simp only [Expr.fits, Bool.and_eq_true, Nat.add_sub_cancel] at h
        simp only [Expr.walkable]; exact he x h.2
      · simp only [Expr.fits, Bool.and_eq_true, Nat.add_sub_cancel] at h
        simp only [Expr.walkable, Bool.and_eq_true]; exact ⟨he x h.2.1, he i h.2.2⟩
      · rw [fits_typeAssertExpr_iff] at h
        simp only [Expr.walkable, Bool.and_eq_true]; exact ⟨he x h.1, hopt t h.2⟩
      · simp [Expr.fits] at h
      · rw [fits_ellipsis_iff] at h
        simp only [Expr.walkable]; exact hopt elt h
      · simp only [Expr.fits, Bool.and_eq_true, Nat.add_sub_cancel] at h
        simp only [Expr.walkable]; exact hft t h.2
      · simp only [Expr.fits, Bool.and_eq_true, Nat.add_sub_cancel] at h
        simp only [Expr.walkable]; exact hfl fields h.2
      · simp only [Expr.fits, Bool.and_eq_true, Nat.add_sub_cancel] at h
        simp only [Expr.walkable]; exact hfl methods h.2
      · simp only [Expr.fits, Bool.and_eq_true, Nat.add_sub_cancel] at h
        simp only [Expr.walkable]; exact he x h.2
    · intro s h
      rcases s with x | ⟨lhs, tok, rhs⟩ | d | b | ⟨p, init, cond, body, els⟩ |
        ⟨p, init, cond, post, body⟩ | ⟨p, key, value, tok, x, body⟩ | ⟨p, init, tag, body⟩ |
        ⟨p, init, assign, body⟩ | ⟨p, list, body⟩ | ⟨p, body⟩ | ⟨p, comm, body⟩ | ⟨label, stmt⟩ |
        ⟨p, call⟩ | ⟨p, call⟩ | ⟨p, results⟩ | ⟨x, tok⟩ | ⟨c, val⟩ | ⟨p, tok, label⟩ | p
      · simp only [Stmt.fits, Bool.and_eq_true, Nat.add_sub_cancel] at h
        simp only [Stmt.walkable]; exact he x h.2
      · simp only [Stmt.fits, Bool.and_eq_true, Nat.add_sub_cancel] at h
        simp only [Stmt.walkable, Bool.and_eq_true]; exact ⟨hlist lhs h.2.1, hlist rhs h.2.2⟩
      · simp only [Stmt.fits, Bool.and_eq_true, Nat.add_sub_cancel] at h
        simp only [Stmt.walkable]; exact hgd d h.2
      · simp only [Stmt.fits, Bool.and_eq_true, Nat.add_sub_cancel] at h
        simp only [Stmt.walkable]; exact hblock b h.2
      · rw [fits_ifStmt_iff] at h
        simp only [Stmt.walkable, Bool.and_eq_true]
        exact ⟨hsopt init h.1, he cond h.2.1, hblock body h.2.2.1, hsopt els h.2.2.2⟩
      · rw [fits_forStmt_iff] at h
        simp only [Stmt.walkable, Bool.and_eq_true]
        exact ⟨hsopt init h.1, hopt cond h.2.1, hsopt post h.2.2.1, hblock body h.2.2.2⟩
      · rw [fits_rangeStmt_iff] at h
        simp only [Stmt.walkable, Bool.and_eq_true]
        exact ⟨hopt key h.1, hopt value h.2.1, he x h.2.2.1, hblock body h.2.2.2⟩
      · rw [fits_switchStmt_iff] at h
        simp only [Stmt.walkable, Bool.and_eq_true]
        exact ⟨hsopt init h.1, hopt tag h.2.1, hblock body h.2.2⟩
      · rw [fits_typeSwitchStmt_iff] at h
        simp only [Stmt.walkable, Bool.and_eq_true]
        exact ⟨hsopt init h.1, hs assign h.2.1, hblock body h.2.2⟩
      · simp only [Stmt.fits, Bool.and_eq_true, Nat.add_sub_cancel] at h
        simp only [Stmt.walkable]; exact hslist body h.2.2
      · simp only [Stmt.fits, Bool.and_eq_true, Nat.add_sub_cancel] at h
        simp only [Stmt.walkable]; exact hblock body h.2
      · rw [fits_commClause_iff] at h
        simp only [Stmt.walkable, Bool.and_eq_true]
        exact ⟨hsopt comm h.1, hslist body h.2⟩
      · simp only [Stmt.fits, Bool.and_eq_true, Nat.add_sub_cancel] at h
        simp only [Stmt.walkable]; exact hs stmt h.2
      · simp only [Stmt.fits, Bool.and_eq_true, Nat.add_sub_cancel] at h
        simp only [Stmt.walkable]; exact hcall call h.2
      · simp only [Stmt.fits, Bool.and_eq_true, Nat.add_sub_cancel] at h
        simp only [Stmt.walkable]; exact hcall call h.2
      · simp only [Stmt.fits, Bool.and_eq_true, Nat.add_sub_cancel] at h
        simp only [Stmt.walkable]; exact hlist results h.2
      · simp only [Stmt.fits, Bool.and_eq_true, Nat.add_sub_cancel] at h
        simp only [Stmt.walkable]; exact he x h.2
      · simp only [Stmt.fits, Bool.and_eq_true, Nat.add_sub_cancel] at h
        simp only [Stmt.walkable, Bool.and_eq_true]; exact ⟨he c h.2.1, he val h.2.2⟩
      · rfl
      · rfl

/-! ## Lemmas: the statement lists of clauses -/

theorem scopeOrdered_cons_neutral (x : Stmt) (l : List Stmt) (hl : scopeOrdered l)
    (hx : declareReceiver x = none) : scopeOrdered (x :: l) := by
  intro pre d post recv h hd
  cases pre with
  | nil =>
    simp only [List.nil_append, List.cons.injEq] at h
    rw [← h.1, hx] at hd
    cases hd
  | cons y pre' =>
    simp only [List.cons_append, List.cons.injEq] at h
    obtain ⟨a, ha, hs⟩ := hl pre' d post recv h.2 hd
    exact ⟨a, List.mem_cons_of_mem _ ha, hs⟩

theorem scopeCreations_cons_neutral (x : Stmt) (l : List Stmt)
    (hx : scopeCreationHandle x = none) : scopeCreations (x :: l) = scopeCreations l := by
  simp [scopeCreations, List.countP_cons, hx]

theorem neutral_newLineCall (ids : Idents) (sc : String) (line : Nat) :
    neutral (newLineCall ids sc line) := by
  simp [neutral, newLineCall, newCallStmt, newCall, newSel, declareReceiver, scopeCreationHandle,
    newIdentExpr, NewIdent]

/-- What a call of `Visit` alone does to a receiver that builds a statement list: the same
as the walk, with the statement as `Visit` leaves it. -/
theorem visitOnly_spec (ids : Idents) (W : Walkers) (c : visitor) (s : Stmt) (c' : visitor)
    (s' : Stmt) (buf : List Stmt) (hbuf : c.stmtBuf = some buf)
    (h : visitOnly ids W c s = .ok (c', s')) :
    c'.stmtBuf =
        some (buf ++ emittedBefore ids c s ++ placed ids c s s' :: emittedAfter ids c s) ∧
      c'.createdExplicitScope =
        (c.createdExplicitScope || decide ((declaredIdents s).length > 0)) ∧
      c'.scopeVar =
        (if (declaredIdents s).length > 0 ∧ c.createdExplicitScope = false then ids.scope
          else c.scopeVar) ∧
      c.sameFrame c' := by
  simp only [visitOnly, Res.bind_eq_ok] at h
  obtain ⟨r0, h0, h⟩ := h
  have hch := Visit_child ids W c s s r0 h0
  cases hc : r0.child with
  | none =>
    simp only [hc, Res.pure_eq_ok, Prod.mk.injEq] at h
    simp only [hc, Option.isSome_none] at hch
    have hcl : isClause s = true := by simpa using hch.symm
    have := Visit_spec ids W c s s r0 buf hbuf h0
    obtain ⟨rfl, rfl⟩ := h
    simp only [hcl, if_true] at this
    exact ⟨this.1, this.2.1, this.2.2.1, this.2.2.2.1⟩
  | some w =>
    simp only [hc, Res.bind_eq_ok, Res.pure_eq_ok, Prod.mk.injEq] at h
    obtain ⟨r, h2, h3, h4⟩ := h
    simp only [hc, Option.isSome_some] at hch
    have hcl : isClause s = false := by simpa using hch.symm
    have := Visit_spec ids W c s r0.node r buf hbuf h2
    subst h3 h4
    simp only [hcl, Bool.false_eq_true, if_false] at this
    exact ⟨this.1, this.2.1, this.2.2.1, this.2.2.2.1⟩

/-- A statement that is neither a `Declare` call nor a scope creation is none as `Visit`
leaves it either. -/
theorem visitOnly_neutral (ids : Idents) (W : Walkers) (c c' : visitor) (s s' : Stmt)
    (h : visitOnly ids W c s = .ok (c', s')) (hs : neutral s) : neutral s' := by
  simp only [visitOnly, Res.bind_eq_ok] at h
  obtain ⟨r0, h0, h⟩ := h
  have hnode : neutral r0.node := by
    cases hcl : isClause s with
    | true => exact isClause_declareReceiver _ (Visit_node_clause ids W c s s r0 h0 hcl)
    | false =>
      rcases Visit_node ids W c s s r0 h0 hcl with he | ⟨ht, he⟩
      · rw [he]; exact hs
      · rw [he]
        exact ⟨rewriteSetTrace_declareReceiver ids s ht,
          by rw [rewriteSetTrace_scopeCreationHandle]; exact hs.2⟩
  cases hc : r0.child with
  | none =>
    simp only [hc, Res.pure_eq_ok, Prod.mk.injEq] at h
    rw [← h.2]; exact hnode
  | some w =>
    simp only [hc, Res.bind_eq_ok, Res.pure_eq_ok, Prod.mk.injEq] at h
    obtain ⟨r, _, _, h4⟩ := h
    rw [← h4]; exact hnode

/-- A loop over statements, each handed to a walk that does to its receiver what `Visit`
does, keeps the invariant of the buffer. -/
theorem walkList_invariant (ids : Idents) (walk : visitor → Stmt → Res (visitor × Stmt))
    (hspec : ∀ (c : visitor) (s : Stmt) (c' : visitor) (s' : Stmt) (buf : List Stmt),
      c.stmtBuf = some buf → walk c s = .ok (c', s') →
        c'.stmtBuf =
            some (buf ++ emittedBefore ids c s ++ placed ids c s s' :: emittedAfter ids c s) ∧
          c'.createdExplicitScope =
            (c.createdExplicitScope || decide ((declaredIdents s).length > 0)))
    (hneu : ∀ (c c' : visitor) (s s' : Stmt), walk c s = .ok (c', s') → neutral s → neutral s')
    (l : List Stmt) :
    ∀ (c c' : visitor) (fin buf : List Stmt), c.stmtBuf = some buf →
      walkList walk c l = .ok (c', fin) →
      (∀ s ∈ l, neutral s) → scopeInvariant ids c.createdExplicitScope buf →
      ∃ buf', c'.stmtBuf = some buf' ∧ scopeInvariant ids c'.createdExplicitScope buf' ∧
        c'.createdExplicitScope = (c.createdExplicitScope || l.any declaresNew) := by
  induction l with
  | nil =>
    intro c c' fin buf hbuf h _ hinv
    simp only [walkList_nil, Except.ok.injEq, Prod.mk.injEq] at h
    obtain ⟨rfl, _⟩ := h
    exact ⟨buf, hbuf, hinv, by simp⟩
  | cons s l ih =>
    intro c c' fin buf hbuf h hl hinv
    obtain ⟨c1, s', c2, fin', h1, h2, h3⟩ := (walkList_cons_ok _ c s l _).mp h
    simp only [Prod.mk.injEq] at h3
    obtain ⟨rfl, _⟩ := h3
    obtain ⟨hb1, hcr1⟩ := hspec c s c1 s' buf hbuf h1
    have hs' : neutral s' := hneu c c1 s s' h1 (hl s (by simp))
    have hmid : scopeInvariant ids c.createdExplicitScope
        (buf ++ (emittedBefore ids c s ++ [placed ids c s s'])) := by
      refine scopeInvariant_append_neutral ids _ buf _ hinv ?_
      intro x hx
      rcases List.mem_append.mp hx with hx | hx
      · exact neutral_emittedBefore ids c s x hx
      · simp only [List.mem_singleton] at hx
        subst hx
        exact neutral_placed ids c s s' hs'
    have hb1' : c1.stmtBuf =
        some ((buf ++ (emittedBefore ids c s ++ [placed ids c s s'])) ++ emittedAfter ids c s) := by
      rw [hb1]; simp
    have hinv1 : scopeInvariant ids c1.createdExplicitScope
        ((buf ++ (emittedBefore ids c s ++ [placed ids c s s'])) ++ emittedAfter ids c s) := by
      rcases emittedAfter_cases ids c s with ⟨hd, hneu'⟩ | ⟨hd, sv, hafter⟩
      · have hcr : c1.createdExplicitScope = c.createdExplicitScope := by
          rw [hcr1]
          simp only [declaresNew] at hd
          simp [hd]
        rw [hcr]
        exact scopeInvariant_append_neutral ids _ _ _ hmid hneu'
      · have hcr : c1.createdExplicitScope = true := by
          rw [hcr1]
          simp only [declaresNew] at hd
          simp [hd]
        rw [hcr, hafter]
        exact scopeInvariant_append_declare ids _ _ sv _ hmid
    obtain ⟨buf', hb', hinv', hcr'⟩ :=
      ih c1 c' fin' _ hb1' h2 (fun x hx => hl x (by simp [hx])) hinv1
    refine ⟨buf', hb', hinv', ?_⟩
    rw [hcr', hcr1]
    simp [declaresNew, Bool.or_assoc]

/-- A call of `Visit` on a receiver without buffer leaves `createdExplicitScope`. -/
theorem Visit_created_noBuf (ids : Idents) (W : Walkers) (c : visitor) (s final : Stmt)
    (r : VisitResult) (hb : c.stmtBuf = none) (h : c.Visit ids W s final = .ok r) :
    r.v.createdExplicitScope = c.createdExplicitScope := by
  have general : ∀ child : visitor,
      c.Visit ids W s final = .ok (c.VisitStmt ids child s final) →
        r.v.createdExplicitScope = c.createdExplicitScope := by
    intro child hv
    rw [hv] at h
    cases h
    simp [visitor.VisitStmt, hb]
  cases s with
  | blockStmt b =>
    simp only [visitor.Visit, visitor.VisitBlockStmt, hb, Res.pure_eq_ok] at h
    subst h
    simp
  | switchStmt p init tag body =>
    by_cases hn : (newIdentsInSimpleStmt init).length > 0
    · simp only [visitor.Visit, hn, if_true, Res.pure_eq_ok] at h
      subst h
      rfl
    · exact general { c.newChild .other with parentIsExprSwitch := true }
        (by simp [visitor.Visit, hn, pure, Except.pure])
  | caseClause p list body =>
    simp only [visitor.Visit, Res.bind_eq_ok, Res.pure_eq_ok] at h
    obtain ⟨⟨cv, fin⟩, _, h⟩ := h
    subst h
    simp [hb]
  | selectStmt p body =>
    simp only [visitor.Visit, Res.pure_eq_ok] at h
    subst h
    rfl
  | commClause p comm body =>
    simp only [visitor.Visit, Res.bind_eq_ok, Res.pure_eq_ok] at h
    obtain ⟨⟨cv, comm'⟩, _, ⟨cv2, fin⟩, _, h⟩ := h
    subst h
    by_cases hm : comm.isSome = true
    · simp [hm]
    · simp [hm]
  | _ => exact general (c.newChild .other) (by simp [visitor.Visit, pure, Except.pure])

theorem visitOnly_created_noBuf (ids : Idents) (W : Walkers) (c c' : visitor) (s s' : Stmt)
    (hb : c.stmtBuf = none) (h : visitOnly ids W c s = .ok (c', s')) :
    c'.createdExplicitScope = c.createdExplicitScope := by
  simp only [visitOnly, Res.bind_eq_ok] at h
  obtain ⟨r0, h0, h⟩ := h
  cases hc : r0.child with
  | none =>
    simp only [hc, Res.pure_eq_ok, Prod.mk.injEq] at h
    rw [← h.1]
    exact Visit_created_noBuf ids W c s s r0 hb h0
  | some w =>
    simp only [hc, Res.bind_eq_ok, Res.pure_eq_ok, Prod.mk.injEq] at h
    obtain ⟨r, h2, h3, _⟩ := h
    rw [← h3]
    exact Visit_created_noBuf ids W c s r0.node r hb h2

/-- The statement list that the visitor builds for the body of a clause of a `switch`
statement. -/
theorem caseClause_scope_order (ids : Idents) (n : Nat) (v : visitor) (p : Pos)
    (list : List Expr) (body : List Stmt) (v' : visitor) (s' : Stmt)
    (h : walkStmt ids (walkers ids (n + 1)) v (.caseClause p list body) = .ok (v', s'))
    (hclean : ∀ s ∈ body, neutral s) :
    ∃ body', s' = .caseClause p list body' ∧ scopeOrdered body' ∧
      scopeCreations body' = (if body.any declaresNew = true then 1 else 0) := by
  rcases walkStmt_ok ids _ v _ v' s' h with ⟨_, r, hr, _, hn⟩ | ⟨hcl, _⟩
  · simp only [visitor.Visit, Res.bind_eq_ok, Res.pure_eq_ok] at hr
    obtain ⟨⟨cv, fin⟩, hw, hr⟩ := hr
    subst hr
    rw [walkers_stmt] at hw
    obtain ⟨buf', hb', hinv, hcr⟩ :=
      walkList_invariant ids (walkStmt ids (walkers ids n))
        (fun c s c' s' buf hbuf hh =>
          ⟨(walkStmt_spec ids _ c s c' s' buf hbuf hh).1,
            (walkStmt_spec ids _ c s c' s' buf hbuf hh).2.1⟩)
        (fun c c' s s' hh hs => walkStmt_neutral ids n c c' s s' hh hs)
        body { v.newChild .other with stmtBuf := some [] } cv fin [] rfl hw hclean
        ⟨scopeOrdered_nil, by simp [scopeCreations, visitor.newChild],
          by simp [visitor.newChild]⟩
    have hcount : scopeCreations buf' = (if body.any declaresNew = true then 1 else 0) := by
      rw [hinv.2.1, hcr]
      simp [visitor.newChild]
    subst hn
    by_cases hline : list.length = 0 ∨ (!v.parentIsExprSwitch) = true
    · refine ⟨[newLineCall ids v.scopeVar (pos2line p)] ++ buf',
        by simp only [if_pos hline, hb', Option.getD_some], ?_, ?_⟩
      · exact scopeOrdered_cons_neutral _ _ hinv.1 (neutral_newLineCall ids _ _).1
      · rw [List.singleton_append,
          scopeCreations_cons_neutral _ _ (neutral_newLineCall ids _ _).2, hcount]
    · exact ⟨buf', by simp only [if_neg hline, hb', Option.getD_some], hinv.1, hcount⟩
  · simp [isClause] at hcl

theorem walkOption_visit_created (ids : Idents) (W : Walkers) (c c' : visitor)
    (x x' : Option Stmt) (hb : c.stmtBuf = none)
    (h : walkOption (visitOnly ids W) c x = .ok (c', x')) :
    c'.createdExplicitScope = c.createdExplicitScope := by
  cases x with
  | none =>
    simp only [walkOption, Res.pure_eq_ok, Prod.mk.injEq] at h
    rw [← h.1]
  | some s =>
    simp only [walkOption, Res.bind_eq_ok, Res.pure_eq_ok, Prod.mk.injEq] at h
    obtain ⟨⟨c1, s1⟩, h1, h2, _⟩ := h
    rw [← h2]
    exact visitOnly_created_noBuf ids W c c1 s s1 hb h1

/-- The statement list that the visitor builds for the body of a clause of a `select`
statement. -/
theorem commClause_scope_order (ids : Idents) (n : Nat) (v : visitor) (p : Pos)
    (comm : Option Stmt) (body : List Stmt) (v' : visitor) (s' : Stmt)
    (h : walkStmt ids (walkers ids (n + 1)) v (.commClause p comm body) = .ok (v', s'))
    (hclean : ∀ s ∈ body, neutral s) :
    ∃ comm' body', s' = .commClause p comm' body' ∧ scopeOrdered body' ∧
      scopeCreations body' =
        (if (newIdentsInSimpleStmt comm).length > 0 ∨ body.any declaresNew = true
          then 1 else 0) := by
  rcases walkStmt_ok ids _ v _ v' s' h with ⟨_, r, hr, _, hn⟩ | ⟨hcl, _⟩
  · simp only [visitor.Visit, Res.bind_eq_ok, Res.pure_eq_ok] at hr
    obtain ⟨⟨cv, comm'⟩, hc, ⟨cv2, fin⟩, hw, hr⟩ := hr
    subst hr
    rw [walkers_visit] at hc hw
    have hcv : cv.createdExplicitScope = false :=
      walkOption_visit_created ids _ _ cv comm comm' rfl hc
    have hstart : ∃ buf0,
        (if (newIdentsInSimpleStmt comm).length > 0 then
          ((({ cv with stmtBuf := some [] } : visitor).createScope ids).append
            [newDeclareCall ids (({ cv with stmtBuf := some [] } : visitor).createScope ids).scopeVar
              (newIdentsInSimpleStmt comm)])
          else ({ cv with stmtBuf := some [] } : visitor)).stmtBuf = some buf0 ∧
        scopeInvariant ids
          (if (newIdentsInSimpleStmt comm).length > 0 then
            ((({ cv with stmtBuf := some [] } : visitor).createScope ids).append
              [newDeclareCall ids (({ cv with stmtBuf := some [] } : visitor).createScope ids).scopeVar
                (newIdentsInSimpleStmt comm)])
            else ({ cv with stmtBuf := some [] } : visitor)).createdExplicitScope buf0 ∧
        (if (newIdentsInSimpleStmt comm).length > 0 then
            ((({ cv with stmtBuf := some [] } : visitor).createScope ids).append
              [newDeclareCall ids (({ cv with stmtBuf := some [] } : visitor).createScope ids).scopeVar
                (newIdentsInSimpleStmt comm)])
            else ({ cv with stmtBuf := some [] } : visitor)).createdExplicitScope =
          decide ((newIdentsInSimpleStmt comm).length > 0) := by
      by_cases hni : (newIdentsInSimpleStmt comm).length > 0
      · simp only [hni, if_true, decide_True]
        have := scopeInvariant_append_declare ids false []
          (if cv.scopeVar = "" then ids.scope else cv.scopeVar) (newIdentsInSimpleStmt comm)
          ⟨scopeOrdered_nil, by simp [scopeCreations], by simp⟩
        refine ⟨[newScopeAssign ids.scope (if cv.scopeVar = "" then ids.scope else cv.scopeVar),
          newDeclareCall ids ids.scope (newIdentsInSimpleStmt comm)], by simp, ?_, by simp⟩
        simpa [newDeclareCall_scope] using this
      · simp only [hni, if_false, decide_False]
        exact ⟨[], rfl, ⟨scopeOrdered_nil, by simp [scopeCreations, hcv], by simp [hcv]⟩, hcv⟩
    obtain ⟨buf0, hb0, hinv0, hcr0⟩ := hstart
    obtain ⟨buf', hb', hinv, hcr⟩ :=
      walkList_invariant ids (visitOnly ids (walkers ids n))
        (fun c s c' s' buf hbuf hh =>
          ⟨(visitOnly_spec ids _ c s c' s' buf hbuf hh).1,
            (visitOnly_spec ids _ c s c' s' buf hbuf hh).2.1⟩)
        (fun c c' s s' hh hs => visitOnly_neutral ids _ c c' s s' hh hs)
        body _ cv2 fin buf0 hb0 hw hclean hinv0
    subst hn
    refine ⟨comm', [newLineCall ids ids.scope (pos2line p)] ++ buf', by simp [hb'], ?_, ?_⟩
    · exact scopeOrdered_cons_neutral _ _ hinv.1 (neutral_newLineCall ids _ _).1
    · rw [List.singleton_append,
        scopeCreations_cons_neutral _ _ (neutral_newLineCall ids _ _).2, hinv.2.1, hcr, hcr0]
      by_cases hni : (newIdentsInSimpleStmt comm).length > 0 <;>
        by_cases hany : body.any declaresNew = true <;> simp [hni, hany]
  · simp [isClause] at hcl

/-! ## Theorems: the statement lists of blocks, clauses and loops -/

/-- The walk of a block that stands as a statement is the walk of the block: `Visit`, the
statements, and `finalizeNode`, which puts the buffer of the visitor in the block. -/
theorem walkStmt_blockStmt (ids : Idents) (W : Walkers) (v : visitor) (b : BlockStmt) :
    walkStmt ids W v (.blockStmt b) =
      (walkBlockStmt ids W v b >>= fun r => pure (r.1, Stmt.blockStmt r.2)) := by
  rcases b with ⟨p, list⟩
  simp only [walkStmt, visitor.Visit, walkStmtChildren, walkBlockStmt, BlockStmt.List_,
    BlockStmt.Lbrace, pure_bind, bind_assoc]
  cases walkList W.stmt (v.VisitBlockStmt ids (.mk p list) (.blockStmt (.mk p list))).2 list with
  | error e => rfl
  | ok r => rfl

/-- The walk of a block that stands as a statement, unfolded. -/
theorem walkStmt_blockStmt_ok (ids : Idents) (W : Walkers) (v v' : visitor) (b : BlockStmt)
    (s' : Stmt) (h : walkStmt ids W v (.blockStmt b) = .ok (v', s')) :
    ∃ b', s' = .blockStmt b' ∧ walkBlockStmt ids W v b = .ok (v', b') := by
  rw [walkStmt_blockStmt] at h
  simp only [Res.bind_eq_ok, Res.pure_eq_ok, Prod.mk.injEq] at h
  obtain ⟨⟨v1, b1⟩, h1, h2, h3⟩ := h
  subst h2
  exact ⟨b1, h3.symm, h1⟩

/-- C4: the statement lists that the visitor builds, in the three places where `Visit` makes
a buffer: for a block (gen.go 548), whether the block is held in a field of type
`*ast.BlockStmt` (a function body, a branch or body of an `if`, `for`, `range`, `switch` or
`select` statement) or stands as a statement (a nested block, an else branch, a block under
a label), where `finalizeNode` puts the buffer of the visitor in the block; for the body of
a clause of a `switch` statement (gen.go 571); and for the body of a clause of a `select`
statement (gen.go 594).  The walk returns, given fuel for the depth of the tree, function
literals included when `rewriteRecoversIn` returns on their bodies.  When none of the
statements is itself a call `x.Declare(...)` or an assignment
`x := y.EnteringNewChildScope()`, every `Declare` call of the list is preceded in the list
by a scope-creation assignment whose handle is the name the call is made on, and the list
holds exactly one scope-creation assignment if there are pending variables (of the block,
or of the communication of the clause) or a declaring statement (however many), and none
otherwise. -/
theorem C4_declare_after_scope_creation (ids : Idents) (n : Nat) (v : visitor) (b : BlockStmt) :
    (b.List_.all (fun s : Stmt => s.walkable (n + 1)) = true →
        (∃ r, walkBlockStmt ids (walkers ids (n + 1)) v b = .ok r) ∧
          ∃ r, (walkers ids (n + 2)).stmt v (.blockStmt b) = .ok r) ∧
      (∀ (v' : visitor) (s' : Stmt),
        (walkers ids (n + 2)).stmt v (.blockStmt b) = .ok (v', s') → ∃ b', s' = .blockStmt b') ∧
      (∀ (v' : visitor) (b' : BlockStmt),
        (walkBlockStmt ids (walkers ids (n + 1)) v b = .ok (v', b') ∨
          (walkers ids (n + 2)).stmt v (.blockStmt b) = .ok (v', .blockStmt b')) →
        (∀ s ∈ b.List_, declareReceiver s = none ∧ scopeCreationHandle s = none) →
        (∀ (pre : List Stmt) (d : Stmt) (post : List Stmt) (recv : String),
            b'.List_ = pre ++ d :: post → declareReceiver d = some recv →
              ∃ a ∈ pre, scopeCreationHandle a = some recv) ∧
          b'.List_.countP (fun s => (scopeCreationHandle s).isSome) =
            (if v.blockVars.length > 0 ∨ b.List_.any declaresNew = true then 1 else 0)) ∧
      (∀ (p : Pos) (list : List Expr) (body : List Stmt),
        ((Stmt.caseClause p list body).walkable (n + 2) = true →
          ∃ r, (walkers ids (n + 2)).stmt v (.caseClause p list body) = .ok r) ∧
        ∀ (v' : visitor) (s' : Stmt),
          (walkers ids (n + 2)).stmt v (.caseClause p list body) = .ok (v', s') →
          (∀ s ∈ body, declareReceiver s = none ∧ scopeCreationHandle s = none) →
          ∃ body', s' = .caseClause p list body' ∧
            (∀ (pre : List Stmt) (d : Stmt) (post : List Stmt) (recv : String),
              body' = pre ++ d :: post → declareReceiver d = some recv →
                ∃ a ∈ pre, scopeCreationHandle a = some recv) ∧
            body'.countP (fun s => (scopeCreationHandle s).isSome) =
              (if body.any declaresNew = true then 1 else 0)) ∧
      ∀ (p : Pos) (comm : Option Stmt) (body : List Stmt),
        ((Stmt.commClause p comm body).walkable (n + 2) = true →
          ∃ r, (walkers ids (n + 2)).stmt v (.commClause p comm body) = .ok r) ∧
        ∀ (v' : visitor) (s' : Stmt),
          (walkers ids (n + 2)).stmt v (.commClause p comm body) = .ok (v', s') →
          (∀ s ∈ body, declareReceiver s = none ∧ scopeCreationHandle s = none) →
          ∃ comm' body', s' = .commClause p comm' body' ∧
            (∀ (pre : List Stmt) (d : Stmt) (post : List Stmt) (recv : String),
              body' = pre ++ d :: post → declareReceiver d = some recv →
                ∃ a ∈ pre, scopeCreationHandle a = some recv) ∧
            body'.countP (fun s => (scopeCreationHandle s).isSome) =
              (if (newIdentsInSimpleStmt comm).length > 0 ∨ body.any declaresNew = true
                then 1 else 0) := by
  refine ⟨fun h => ⟨walkBlockStmt_reaches ids (n + 1) v b h,
    (walkers_returnsOn ids (n + 2)).2.1 v (.blockStmt b) (by simpa [Stmt.walkable] using h)⟩,
    fun v' s' h => ?_, fun v' b' h hclean => ?_,
    fun p list body => ⟨(walkers_returnsOn ids (n + 2)).2.1 v _, fun v' s' h hclean => ?_⟩,
    fun p comm body => ⟨(walkers_returnsOn ids (n + 2)).2.1 v _, fun v' s' h hclean => ?_⟩⟩
  · rw [walkers_stmt] at h
    obtain ⟨b', e, _⟩ := walkStmt_blockStmt_ok ids _ v v' b s' h
    exact ⟨b', e⟩
  · have hw : walkBlockStmt ids (walkers ids (n + 1)) v b = .ok (v', b') := by
      rcases h with h | h
      · exact h
      · rw [walkers_stmt] at h
        obtain ⟨b1, e, h1⟩ := walkStmt_blockStmt_ok ids _ v v' b _ h
        cases e
        exact h1
    exact walkBlockStmt_scope_order ids n v b v' b' hw hclean
  · rw [walkers_stmt] at h
    exact caseClause_scope_order ids n v p list body v' s' h hclean
  · rw [walkers_stmt] at h
    exact commClause_scope_order ids n v p comm body v' s' h hclean

theorem C4_declare_after_scope_creation_witness :
    exampleBlock.List_.all (fun s : Stmt => s.walkable 8) = true ∧
    (∃ r, (walkers exampleIdents 9).stmt listVisitor (.blockStmt exampleBlock) = .ok r) ∧
    blockWithLiteral.List_.all (fun s : Stmt => s.walkable 8) = true ∧
    (∃ r, walkBlockStmt exampleIdents (walkers exampleIdents 8) rootVisitor blockWithLiteral =
      .ok r) ∧
    (∃ (v' : visitor) (b' : BlockStmt),
      (walkers exampleIdents 9).stmt listVisitor (.blockStmt exampleBlock) =
        .ok (v', .blockStmt b') ∧
      (∀ s ∈ exampleBlock.List_, declareReceiver s = none ∧ scopeCreationHandle s = none) ∧
      (∀ (pre : List Stmt) (d : Stmt) (post : List Stmt) (recv : String),
        b'.List_ = pre ++ d :: post → declareReceiver d = some recv →
          ∃ a ∈ pre, scopeCreationHandle a = some recv) ∧
      b'.List_.countP (fun s => (scopeCreationHandle s).isSome) =
        (if listVisitor.blockVars.length > 0 ∨ exampleBlock.List_.any declaresNew = true
          then 1 else 0)) ∧
    (∃ (v' : visitor) (s' : Stmt),
      (walkers exampleIdents 9).stmt listVisitor declaringClause = .ok (v', s') ∧
      ∃ body', s' = .caseClause 3 [.ident ⟨3, "y", false, false⟩] body' ∧
        (∀ (pre : List Stmt) (d : Stmt) (post : List Stmt) (recv : String),
          body' = pre ++ d :: post → declareReceiver d = some recv →
            ∃ a ∈ pre, scopeCreationHandle a = some recv) ∧
        body'.countP (fun s => (scopeCreationHandle s).isSome) =
          (if [defineZero "a" 4, defineZero "b" 5].any declaresNew = true then 1 else 0)) ∧
    ∃ (v' : visitor) (s' : Stmt),
      (walkers exampleIdents 9).stmt listVisitor declaringCommClause = .ok (v', s') ∧
      ∃ comm' body', s' = .commClause 3 comm' body' ∧
        (∀ (pre : List Stmt) (d : Stmt) (post : List Stmt) (recv : String),
          body' = pre ++ d :: post → declareReceiver d = some recv →
            ∃ a ∈ pre, scopeCreationHandle a = some recv) ∧
        body'.countP (fun s => (scopeCreationHandle s).isSome) =
          (if (newIdentsInSimpleStmt (some (.assignStmt [.ident ⟨3, "x", true, false⟩] .DEFINE
              [.unaryExpr 3 .ARROW (.ident ⟨3, "ch", false, false⟩)]))).length > 0 ∨
            [defineZero "a" 4].any declaresNew = true then 1 else 0) :=
  ⟨rfl, ((C4_declare_after_scope_creation exampleIdents 7 listVisitor exampleBlock).1 rfl).2, rfl,
    ((C4_declare_after_scope_creation exampleIdents 7 rootVisitor blockWithLiteral).1 rfl).1,
    ⟨_, _, rfl,
      (by
        intro s hs
        simp only [exampleBlock, BlockStmt.List_, List.mem_cons, List.mem_singleton,
          List.not_mem_nil, or_false] at hs
        rcases hs with rfl | rfl | rfl | rfl <;> exact ⟨rfl, rfl⟩),
      (C4_declare_after_scope_creation exampleIdents 7 listVisitor exampleBlock).2.2.1 _ _ (Or.inr rfl)
        (by
          intro s hs
          simp only [exampleBlock, BlockStmt.List_, List.mem_cons, List.mem_singleton,
            List.not_mem_nil, or_false] at hs
          rcases hs with rfl | rfl | rfl | rfl <;> exact ⟨rfl, rfl⟩)⟩,
    ⟨_, _, rfl,
      ((C4_declare_after_scope_creation exampleIdents 7 listVisitor exampleBlock).2.2.2.1 3 [.ident ⟨3, "y", false, false⟩]
        [defineZero "a" 4, defineZero "b" 5]).2 _ _ rfl
        (by
          intro s hs
          simp only [List.mem_cons, List.mem_singleton, List.not_mem_nil, or_false] at hs
          rcases hs with rfl | rfl <;> exact ⟨rfl, rfl⟩)⟩,
    ⟨_, _, rfl,
      ((C4_declare_after_scope_creation exampleIdents 7 listVisitor exampleBlock).2.2.2.2 3
        (some (.assignStmt [.ident ⟨3, "x", true, false⟩] .DEFINE
          [.unaryExpr 3 .ARROW (.ident ⟨3, "ch", false, false⟩)]))
        [defineZero "a" 4]).2 _ _ rfl
        (by
          intro s hs
          simp only [List.mem_singleton] at hs
          subst hs
          exact ⟨rfl, rfl⟩)⟩⟩

end Godebug
